import Mathlib

/-!
ESPResSo++ : fixed tuple lists, the topology manager and the domain decomposition

A shallow embedding of `src/FixedQuadrupleList.cpp`, of `FixedPairListAdress::add`
(`src/FixedPairListAdress.cpp`), of `src/integrator/TopologyManager.cpp`, of the scan of the
reactions in `ChemicalReaction::React` (`src/integrator/ChemicalReaction.cpp`), of
`Particle::copyAsGhost` (`src/Particle.hpp`) and of the resort pass and the cells of the ghost
communication of `src/storage/DomainDecomposition.cpp`.

Conventions of the embedding.

* `longint` and `int` are `Int`; the counts that travel in a buffer are small
  enough that no wrap-around is involved. The counter `max_mol_id_`, which `deleteEdge`
  increments, is the exception: its increment is the increment of a 32-bit `int`
  (`wrapInt32`).
* `std::set<T>` is a strictly increasing list (the iteration order of the
  container); `std::map`/`boost::unordered_map` are association lists with at
  most one entry per key; `boost::unordered_multimap` is the list of its
  entries in iteration order.
* a `throw` (and `esutil::Error::checkException`) is `Except.error`; the errors of the
  tuple lists carry the list as the throw leaves it.
* a `Particle *` is an `Option Particle`, `none` being the null pointer.
* what a collective call returns on a rank is an argument of the function that makes the
  call.
* loops driven by a queue receive an explicit amount of fuel; the sufficiency
  of the fuel is proved separately.
* the numbers of type `real` are elements of a type that is a parameter; no property of the
  floating-point arithmetic is assumed.
-/

namespace Espressopp

/-! ## Part I. Definitions -/

/-! ### Particles and storage -/

/-- The members of `Particle` (Particle.hpp) that the tuple lists and the topology manager read. -/
structure Particle where
  id : Int
  type : Int
  state : Int
  res_id : Int
  ghost : Bool
deriving DecidableEq, Repr

/-- The lookups of `storage::Storage` used by the tuple lists. `Storage.hpp` is not among the
sources, so the two lookups are taken as they are: two partial maps from ids to particles. -/
structure Storage where
  lookupLocalParticle : Int → Option Particle
  lookupRealParticle : Int → Option Particle

/-- A `ParticleList`: the particles handed to the migration hooks, in iteration order. -/
abbrev ParticleList := List Particle

/-! ### FixedQuadrupleList -/

/-- The value type `Triple<longint, longint, longint>` of `GlobalQuadruples`. -/
structure Triple where
  first : Int
  second : Int
  third : Int
deriving DecidableEq, Repr

/-- `GlobalQuadruples` is a `boost::unordered_multimap<longint, Triple>`: the quadruple
`(pid1, pid2, pid3, pid4)` is stored under the key `pid2` with value `(pid1, pid3, pid4)`. -/
abbrev GlobalQuadruples := List (Int × Triple)

/-- The entries of `equal_range(pid)`, in iteration order. -/
def GlobalQuadruples.equal_range (g : GlobalQuadruples) (pid : Int) : List (Int × Triple) :=
  g.filter (fun e => e.1 = pid)

/-- The number of entries stored under the key: `count(pid)`. -/
def GlobalQuadruples.count (g : GlobalQuadruples) (pid : Int) : Nat :=
  (g.equal_range pid).length

/-- The range erase `erase(equalRange.first, equalRange.second)` of a whole key. -/
def GlobalQuadruples.eraseKey (g : GlobalQuadruples) (pid : Int) : GlobalQuadruples :=
  g.filter (fun e => ¬ e.1 = pid)

/-- The (hinted) `insert` of one entry; the position of the new entry in the iteration order
of an unordered multimap is not specified, the embedding puts it first. -/
def GlobalQuadruples.insert (g : GlobalQuadruples) (pid2 : Int) (t : Triple) : GlobalQuadruples :=
  (pid2, t) :: g

/-- A quadruple of particle ids, as carried by the signals. -/
abbrev Quad := Int × Int × Int × Int

/-- A `Particle *` as the lookups of the storage return it: `none` is the null pointer. -/
abbrev ParticlePtr := Option Particle

/-- The state of a `FixedQuadrupleList`: the multimap `globalQuadruples`, the inherited
`QuadrupleList` of particle pointers (the list used by the force loops), and the record of
the signals fired so far. -/
structure FixedQuadrupleList where
  globalQuadruples : GlobalQuadruples
  quadruples : List (ParticlePtr × ParticlePtr × ParticlePtr × ParticlePtr)
  onTupleAdded : List Quad
  onTupleRemoved : List Quad
deriving DecidableEq, Repr

/-- The duplicate scan shared by `add` and `iadd` (lines 112-128 and 188-205): the forward entry
under `pid2`, then the reversed entry under `pid3`. -/
def FixedQuadrupleList.found (l : FixedQuadrupleList) (pid1 pid2 pid3 pid4 : Int) : Bool :=
  let fwd := (l.globalQuadruples.equal_range pid2).any (fun e => e.2 = ⟨pid1, pid3, pid4⟩)
  if fwd then true
  else (l.globalQuadruples.equal_range pid3).any (fun e => e.2 = ⟨pid4, pid2, pid1⟩)

/-- The insertion branch shared by `add` and `iadd`: local list, multimap, signal. -/
def FixedQuadrupleList.store (l : FixedQuadrupleList) (p1 p2 p3 p4 : ParticlePtr)
    (pid1 pid2 pid3 pid4 : Int) : FixedQuadrupleList :=
  { l with
    quadruples := l.quadruples ++ [(p1, p2, p3, p4)]
    globalQuadruples := l.globalQuadruples.insert pid2 ⟨pid1, pid3, pid4⟩
    onTupleAdded := l.onTupleAdded ++ [(pid1, pid2, pid3, pid4)] }

/-- Modelled from the spec: `esutil::Error::checkException` (esutil/Error.hpp is not among the
sources). The spec describes an aggregated, communicator-wide check: "each rank may flag an
error; all ranks agree collectively before any one raises". `here` holds the messages this
rank has handed to `setException`, `elsewhere` is the number of exceptions set on the other
ranks of the communicator; when the total is positive the call raises on every rank. -/
def checkException (here : List String) (elsewhere : Nat) : Except String Unit :=
  if 0 < here.length + elsewhere then .error (String.join here) else .ok ()

/-- The messages that `add` hands to `err.setException` (lines 160-181): none when `p2` is
null, else one for each null pointer among `p1`, `p3`, `p4`. -/
def addExceptions (p1 p2 p3 p4 : ParticlePtr) : List String :=
  if p2.isNone then []
  else
    (if p1.isNone then ["quadruple particle p1 does not exists here and cannot be added"] else [])
    ++ (if p3.isNone then ["quadruple particle p3 does not exists here and cannot be added"]
        else [])
    ++ (if p4.isNone then ["quadruple particle p4 does not exists here and cannot be added"]
        else [])

/-- `FixedQuadrupleList::add` (lines 149-221). `elsewhere` is the number of exceptions that
the other ranks bring to the collective `err.checkException()` of line 182. An error carries
the list as the throw leaves it: line 182 precedes every write to the list. -/
def FixedQuadrupleList.add (st : Storage) (l : FixedQuadrupleList) (pid1 pid2 pid3 pid4 : Int)
    (elsewhere : Nat) : Except (String × FixedQuadrupleList) (Bool × FixedQuadrupleList) :=
  let p1 := st.lookupLocalParticle pid1
  let p2 := st.lookupRealParticle pid2
  let p3 := st.lookupLocalParticle pid3
  let p4 := st.lookupLocalParticle pid4
  let returnVal := p2.isSome
  match checkException (addExceptions p1 p2 p3 p4) elsewhere with
  | .error e => .error (e, l)
  | .ok _ =>
    if returnVal then
      if l.found pid1 pid2 pid3 pid4 then .ok (false, l)
      else .ok (true, l.store p1 p2 p3 p4 pid1 pid2 pid3 pid4)
    else .ok (false, l)

/-- `FixedQuadrupleList::iadd` (lines 81-146): as `add`, but the first missing member throws
at once and no other rank is involved. An error carries the list as the throw leaves it: the
throws of lines 97-106 precede every write to the list. -/
def FixedQuadrupleList.iadd (st : Storage) (l : FixedQuadrupleList) (pid1 pid2 pid3 pid4 : Int) :
    Except (String × FixedQuadrupleList) (Bool × FixedQuadrupleList) :=
  let p1 := st.lookupLocalParticle pid1
  let p2 := st.lookupRealParticle pid2
  let p3 := st.lookupLocalParticle pid3
  let p4 := st.lookupLocalParticle pid4
  if p2.isNone then .ok (false, l)
  else if p1.isNone then
    .error ("quadruple particle p1 does not exists here and cannot be added", l)
  else if p3.isNone then
    .error ("quadruple particle p3 does not exists here and cannot be added", l)
  else if p4.isNone then
    .error ("quadruple particle p4 does not exists here and cannot be added", l)
  else if l.found pid1 pid2 pid3 pid4 then .ok (false, l)
  else .ok (true, l.store p1 p2 p3 p4 pid1 pid2 pid3 pid4)

/-- The three partner ids of every entry, flattened: the inner loop of `beforeSendParticles`. -/
def packPartners : List (Int × Triple) → List Int
  | [] => []
  | e :: es => e.2.first :: e.2.second :: e.2.third :: packPartners es

/-- The loop of `beforeSendParticles` over the particle list (lines 337-367): the multimap
that is left and the vector `toSend`. -/
def beforeSendLoop : ParticleList → GlobalQuadruples → List Int → GlobalQuadruples × List Int
  | [], g, toSend => (g, toSend)
  | p :: pl, g, toSend =>
    let pid := p.id
    let n := g.count pid
    if 0 < n then
      beforeSendLoop pl (g.eraseKey pid)
        (toSend ++ pid :: (n : Int) :: packPartners (g.equal_range pid))
    else beforeSendLoop pl g toSend

/-- Modelled from the spec: `OutBuffer`/`InBuffer` (Buffer.hpp is not among the sources). The
migration message is a flat sequence of integer vectors; `write` appends one vector and `read`
takes the next one, unchanged. -/
abbrev Buffer := List (List Int)

/-- `FixedQuadrupleList::beforeSendParticles` (lines 332-371). -/
def FixedQuadrupleList.beforeSendParticles (l : FixedQuadrupleList) (pl : ParticleList)
    (buf : Buffer) : FixedQuadrupleList × Buffer :=
  let r := beforeSendLoop pl l.globalQuadruples []
  ({ l with globalQuadruples := r.1 }, buf ++ [r.2])

/-- The inner loop `for (; n > 0; --n)` of `afterRecvParticles`: reads `n` partner triples.
Reading past the end of `received` is undefined in the source; the embedding stops there. -/
def recvInner : Nat → Int → List Int → GlobalQuadruples → GlobalQuadruples × List Int
  | 0, _, rest, g => (g, rest)
  | n + 1, pid2, pid1 :: pid3 :: pid4 :: rest, g =>
    recvInner n pid2 rest (g.insert pid2 ⟨pid1, pid3, pid4⟩)
  | _ + 1, _, _, g => (g, [])

/-- The loop `while (i < size)` of `afterRecvParticles` over the unread part of `received`.
Every round reads at least two integers, so `received.length` rounds are enough. -/
def recvLoop : Nat → List Int → GlobalQuadruples → GlobalQuadruples
  | 0, _, g => g
  | _ + 1, [], g => g
  | _ + 1, [_], g => g
  | fuel + 1, pid2 :: n :: rest, g =>
    let r := recvInner n.toNat pid2 rest g
    recvLoop fuel r.2 r.1

/-- `FixedQuadrupleList::afterRecvParticles` (lines 373-403). -/
def FixedQuadrupleList.afterRecvParticles (l : FixedQuadrupleList) (_pl : ParticleList)
    (buf : Buffer) : FixedQuadrupleList × Buffer :=
  let received := buf.headD []
  ({ l with globalQuadruples := recvLoop received.length received l.globalQuadruples }, buf.tail)

/-- `size()`: the number of entries of the multimap. -/
def FixedQuadrupleList.size (l : FixedQuadrupleList) : Nat := l.globalQuadruples.length

/-- The test of lines 263-265: the bond `pid1`-`pid2` joins two consecutive members of the
stored quadruple. -/
def bondInQuadruple (e : Int × Triple) (pid1 pid2 : Int) : Bool :=
  let q2 := e.1
  let q1 := e.2.first
  let q3 := e.2.second
  let q4 := e.2.third
  decide ((q1 = pid1 ∧ q2 = pid2) ∨ (q1 = pid2 ∧ q2 = pid1) ∨
          (q2 = pid1 ∧ q3 = pid2) ∨ (q2 = pid2 ∧ q3 = pid1) ∨
          (q3 = pid1 ∧ q4 = pid2) ∨ (q3 = pid2 ∧ q4 = pid1))

/-- `FixedQuadrupleList::removeByBond` (lines 255-275). -/
def FixedQuadrupleList.removeByBond (l : FixedQuadrupleList) (pid1 pid2 : Int) :
    Bool × FixedQuadrupleList :=
  let hit := l.globalQuadruples.filter (fun e => bondInQuadruple e pid1 pid2)
  (!hit.isEmpty,
   { l with
     globalQuadruples := l.globalQuadruples.filter (fun e => !bondInQuadruple e pid1 pid2)
     onTupleRemoved := l.onTupleRemoved ++
       hit.map (fun e => (e.2.first, e.1, e.2.second, e.2.third)) })

/-- The loop of `updateParticlesStorage` (lines 471-500) over the entries of the multimap, with
the variables `lastpid2` and `p2`. The pointer `p2` has no value before the first lookup; an
entry whose key equals the initial `lastpid2 = -1` would use it, which is an error here. -/
def rebuildQuadruples (st : Storage) :
    List (Int × Triple) → Int → ParticlePtr →
    List (ParticlePtr × ParticlePtr × ParticlePtr × ParticlePtr) →
    Except String (List (ParticlePtr × ParticlePtr × ParticlePtr × ParticlePtr))
  | [], _, _, acc => .ok acc
  | e :: es, lastpid2, p2, acc =>
    let p2new : Except String ParticlePtr :=
      if e.1 ≠ lastpid2 then
        match st.lookupRealParticle e.1 with
        | none => .error "quadruple particle p2 does not exists here (updateParticleStorage)"
        | some q => .ok (some q)
      else .ok p2
    match p2new with
    | .error err => .error err
    | .ok p2' =>
      match st.lookupLocalParticle e.2.first with
      | none => .error "quadruple particle p1 does not exists here (updaeParticleStorage)"
      | some p1 =>
        match st.lookupLocalParticle e.2.second with
        | none => .error "quadruple particle p3 does not exists here (updateParticleStorage)"
        | some p3 =>
          match st.lookupLocalParticle e.2.third with
          | none => .error "quadruple particle p4 does not exists here (updateParticleStorage)"
          | some p4 =>
            match p2' with
            | none => .error "p2 is not initialised"
            | some _ => rebuildQuadruples st es e.1 p2' (acc ++ [(some p1, p2', some p3, some p4)])

/-- `FixedQuadrupleList::updateParticlesStorage` (lines 461-502). -/
def FixedQuadrupleList.updateParticlesStorage (st : Storage) (l : FixedQuadrupleList) :
    Except String FixedQuadrupleList :=
  match rebuildQuadruples st l.globalQuadruples (-1) none [] with
  | .error e => .error e
  | .ok qs => .ok { l with quadruples := qs }

/-- The entries of `l` that record the quadruple in forward or in reversed order. -/
def FixedQuadrupleList.entriesOf (l : FixedQuadrupleList) (pid1 pid2 pid3 pid4 : Int) :
    List (Int × Triple) :=
  l.globalQuadruples.filter
    (fun e => e = (pid2, ⟨pid1, pid3, pid4⟩) ∨ e = (pid3, ⟨pid4, pid2, pid1⟩))

/-! ### Containers of the topology manager -/

/-- A `std::set<longint>`: its elements in increasing order. -/
abbrev PidSet := List Int

/-- The `insert` of one element: nothing happens when the element is present. -/
def PidSet.insert (s : PidSet) (x : Int) : PidSet :=
  if x ∈ s then s else s.orderedInsert (fun a b => a ≤ b) x

/-- The `count` of a key in a set: 0 or 1. -/
def PidSet.count (s : PidSet) (x : Int) : Nat := if x ∈ s then 1 else 0

/-- The `erase` of a key. -/
def PidSet.erase (s : PidSet) (x : Int) : PidSet :=
  s.filter (fun y => ¬ y = x)

/-- The range insert `insert(first, last)` of all elements of another set. -/
def PidSet.insertAll (s : PidSet) (xs : List Int) : PidSet :=
  xs.foldl PidSet.insert s

/-- A map keyed by `longint` (`std::map`, `boost::unordered_map`): an association list with at
most one entry per key. -/
abbrev AMap (β : Type) := List (Int × β)

/-- The lookup `find(k)`: the mapped value, or `none` for `end()`. -/
def AMap.get {β : Type} : AMap β → Int → Option β
  | [], _ => none
  | (k, v) :: m, x => if k = x then some v else AMap.get m x

/-- The count of a key: `count(k)`, 0 or 1. -/
def AMap.count {β : Type} (m : AMap β) (k : Int) : Nat :=
  if (m.get k).isSome then 1 else 0

/-- The call `insert(std::make_pair(k, v))`: no effect when the key is present. -/
def AMap.insert {β : Type} (m : AMap β) (k : Int) (v : β) : AMap β :=
  if (m.get k).isSome then m else m ++ [(k, v)]

/-- The update of the value mapped at a key, when there is one (writes through `at(k)`). -/
def AMap.modify {β : Type} (m : AMap β) (k : Int) (f : β → β) : AMap β :=
  m.map (fun e => if e.1 = k then (e.1, f e.2) else e)

/-- The assignment `m[k] = v`. -/
def AMap.set {β : Type} (m : AMap β) (k : Int) (v : β) : AMap β :=
  if (m.get k).isSome then m.modify k (fun _ => v) else m ++ [(k, v)]

/-- The `erase` of a key. -/
def AMap.erase {β : Type} (m : AMap β) (k : Int) : AMap β :=
  m.filter (fun e => ¬ e.1 = k)

/-- The keys in iteration order. -/
def AMap.keys {β : Type} (m : AMap β) : List Int := m.map Prod.fst

/-- `GraphMap`: node id to the set of its neighbours. -/
abbrev GraphMap := AMap PidSet

/-- The neighbour set stored for a node, empty when the node is not a key. -/
def GraphMap.adj (g : GraphMap) (x : Int) : PidSet := (g.get x).getD []

/-- `SetPairs`: a `std::set<std::pair<longint, longint>>`, in increasing (lexicographic)
order. -/
abbrev SetPairs := List (Int × Int)

/-- The order `operator<=` of `std::pair<longint, longint>`. -/
def pairLe (a b : Int × Int) : Prop := a.1 < b.1 ∨ (a.1 = b.1 ∧ a.2 ≤ b.2)

instance pairLeDecidable : DecidableRel pairLe := fun a b => by
  unfold pairLe; exact inferInstance

/-- The `insert` of a pair into a `SetPairs`. -/
def SetPairs.insert (s : SetPairs) (x : Int × Int) : SetPairs :=
  if x ∈ s then s else s.orderedInsert pairLe x

/-! ### TopologyManager : state -/

/-- The members of `TopologyManager` that hold the replicated topology and the edits queued
between two synchronisations. -/
structure TopologyManager where
  graph_ : GraphMap
  res_graph_ : GraphMap
  residues_ : GraphMap
  molecules_ : GraphMap
  pid_rid : AMap Int
  pid_mid : AMap Int
  max_mol_id_ : Int
  newEdges_ : List (Int × Int)
  removedEdges_ : List (Int × Int)
  nb_distance_particles_ : List Int
  nb_edges_root_to_remove_ : List Int
  new_local_particle_properties_ : List Int
  is_dirty_ : Bool
deriving DecidableEq, Repr

/-- The state built by the constructor (lines 104-125). -/
def TopologyManager.new : TopologyManager :=
  { graph_ := [], res_graph_ := [], residues_ := [], molecules_ := [], pid_rid := [],
    pid_mid := [], max_mol_id_ := 0, newEdges_ := [], removedEdges_ := [],
    nb_distance_particles_ := [], nb_edges_root_to_remove_ := [],
    new_local_particle_properties_ := [], is_dirty_ := true }

/-! ### TopologyManager : newEdge -/

/-- Lines 352-357 and 411-416: both end points become keys and each enters the other's
neighbour set. -/
def GraphMap.addEdge (g : GraphMap) (a b : Int) : GraphMap :=
  let g1 := if g.count a = 0 then g.insert a [] else g
  let g2 := if g1.count b = 0 then g1.insert b [] else g1
  let g3 := g2.modify a (fun s => PidSet.insert s b)
  g3.modify b (fun s => PidSet.insert s a)

/-- `TopologyManager::newResEdge` (lines 408-417). -/
def TopologyManager.newResEdge (s : TopologyManager) (rpid1 rpid2 : Int) : TopologyManager :=
  { s with res_graph_ := s.res_graph_.addEdge rpid1 rpid2 }

/-- The loop of lines 400-402: every particle of the absorbed set is mapped to `mid1`. -/
def reassign (pid_mid : AMap Int) (pset : PidSet) (mid : Int) : AMap Int :=
  pset.foldl (fun m p => m.set p mid) pid_mid

/-- `TopologyManager::newEdge` (lines 350-406). -/
def TopologyManager.newEdge (s : TopologyManager) (pid1 pid2 : Int) :
    Except String TopologyManager :=
  let s1 := { s with graph_ := s.graph_.addEdge pid1 pid2 }
  match s1.pid_rid.get pid1 with
  | none => .error "ResID not found"
  | some rpid1 =>
    match s1.pid_rid.get pid2 with
    | none => .error "ResID not found"
    | some rpid2 =>
      let s2 := s1.newResEdge rpid1 rpid2
      match s2.pid_mid.get pid1 with
      | none => .error "MolID not found"
      | some mid1 =>
        match s2.pid_mid.get pid2 with
        | none => .error "MolID not found"
        | some mid2 =>
          if mid1 ≠ mid2 then
            match s2.molecules_.get mid2 with
            | none => .error "MolID2 not found of pid2"
            | some pset =>
              match s2.molecules_.get mid1 with
              | none => .error "MolID1 not found of pid1"
              | some _ =>
                .ok { s2 with
                  molecules_ := (s2.molecules_.modify mid1 (fun m => PidSet.insertAll m pset)).erase mid2
                  pid_mid := reassign s2.pid_mid pset mid1 }
          else .ok s2

/-! ### TopologyManager : plainBFS -/

/-- The loop variables of `plainBFS`: the `visited` set, the queue and the sub-graph built so
far. -/
structure BFSState where
  visited : List Int
  Q : List Int
  ret : GraphMap
deriving DecidableEq, Repr

/-- The body of the loop over the neighbours of `current` (lines 1048-1055). -/
def bfsVisit (current : Int) (st : BFSState) (a : Int) : BFSState :=
  let fresh := decide (a ∉ st.visited)
  let visited := if fresh then st.visited ++ [a] else st.visited
  let Q := if fresh then st.Q ++ [a] else st.Q
  let r1 := st.ret.modify current (fun s => PidSet.insert s a)
  let r2 := if r1.count a = 0 then r1.insert a [] else r1
  let r3 := r2.modify a (fun s => PidSet.insert s current)
  { visited := visited, Q := Q, ret := r3 }

/-- One round of `while (!Q.empty())` (lines 1042-1059). -/
def bfsRound (g : GraphMap) (st : BFSState) : BFSState :=
  match st.Q with
  | [] => st
  | current :: _ =>
    let st1 : BFSState := { st with ret := st.ret.insert current [] }
    let st2 :=
      if g.count current = 1 then (g.adj current).foldl (bfsVisit current) st1 else st1
    { st2 with Q := st2.Q.tail }

/-- The loop `while (!Q.empty())` with a bound on the number of rounds. -/
def bfsLoop (g : GraphMap) : Nat → BFSState → BFSState
  | 0, st => st
  | fuel + 1, st =>
    match st.Q with
    | [] => st
    | _ :: _ => bfsLoop g fuel (bfsRound g st)

/-- A bound on the number of rounds of `plainBFS`: every node enters the queue at most once,
and a node in the queue is the root or an element of a neighbour set. -/
def bfsFuel (g : GraphMap) : Nat := 1 + (g.map (fun e => e.2.length)).sum

/-- The final loop state of `plainBFS`. -/
def plainBFSState (g : GraphMap) (root : Int) : BFSState :=
  bfsLoop g (bfsFuel g) { visited := [root], Q := [root], ret := [] }

/-- `TopologyManager::plainBFS` (lines 1034-1061). -/
def plainBFS (g : GraphMap) (root : Int) : GraphMap := (plainBFSState g root).ret

/-! ### TopologyManager : deleteEdge -/

/-- The scan of lines 493-501: is some particle of `Pset1` bonded to some particle of
`Pset2`. -/
def hasBond (graph : GraphMap) (Pset1 Pset2 : PidSet) : Bool :=
  Pset1.any (fun ppid1 => Pset2.any (fun ppid2 =>
    decide (graph.count ppid1 = 1) && decide (PidSet.count (graph.adj ppid1) ppid2 = 1)))

/-- Lines 517-522: the keys of `graph_r1` that are not keys of `graph_r2`, as a set. -/
def uniqueResIds (graph_r1 graph_r2 : GraphMap) : PidSet :=
  (graph_r1.keys.filter (fun k => (graph_r2.get k).isNone)).foldl PidSet.insert []

/-- The loop variables of the split (lines 531-541): the set of `mid1`, `pid_mid`, and the new
set `s`. -/
structure SplitState where
  PsetMid1 : PidSet
  pid_mid : AMap Int
  s : PidSet
deriving DecidableEq, Repr

/-- The inner loop of the split over the particles of one residue (lines 536-540). -/
def splitResidue (max_mol_id : Int) (st : SplitState) (Pset3 : PidSet) : SplitState :=
  Pset3.foldl (fun st pid =>
    { PsetMid1 := PidSet.erase st.PsetMid1 pid,
      pid_mid := st.pid_mid.set pid max_mol_id,
      s := PidSet.insert st.s pid }) st

/-- The outer loop of the split over `unique_res_ids` (lines 531-541). -/
def splitLoop (residues : GraphMap) (max_mol_id : Int) :
    List Int → SplitState → Except String SplitState
  | [], st => .ok st
  | resid :: rest, st =>
    match residues.get resid with
    | none => .error "RedID in res_graph not found"
    | some Pset3 => splitLoop residues max_mol_id rest (splitResidue max_mol_id st Pset3)

/-- Lines 434-444: the two erasures in the particle graph. -/
def GraphMap.removeEdge (g : GraphMap) (pid1 pid2 : Int) : GraphMap :=
  let g1 := if g.count pid1 > 0 then g.modify pid1 (fun s => PidSet.erase s pid2) else g
  if g1.count pid2 > 0 then g1.modify pid2 (fun s => PidSet.erase s pid1) else g1

/-- The value of a 32-bit `int` after an arithmetic step whose exact result is `x`: the
result itself when it lies between `INT_MIN` and `INT_MAX`, and its two's complement wrap
otherwise (the source's behaviour is undefined at a signed overflow; the embedding takes what
the machine does). `longint` names `int` (types.hpp, which is not among the sources); the
residue ids that the counter `max_mol_id_` starts from (line 293) are the `int res_id` of
Particle.hpp. -/
def wrapInt32 (x : Int) : Int := (x + 2147483648) % 4294967296 - 2147483648

/-- Lines 503-545 of `deleteEdge`: the residue edge is dropped, and the molecule is split when
some residue reachable from `rid1` is no longer reachable from `rid2`. The id of the new
molecule is the counter after `max_mol_id_++` (line 525), a 32-bit `int`. -/
def TopologyManager.splitMolecule (s : TopologyManager) (rid1 rid2 mid1 : Int) :
    Except String TopologyManager :=
  match s.res_graph_.get rid1 with
  | none => .error "RedID in res_graph not found"
  | some _ =>
    let rg1 := s.res_graph_.modify rid1 (fun a => PidSet.erase a rid2)
    match rg1.get rid2 with
    | none => .error "RedID in res_graph not found"
    | some _ =>
      let rg2 := rg1.modify rid2 (fun a => PidSet.erase a rid1)
      let graph_r1 := plainBFS rg2 rid1
      let graph_r2 := plainBFS rg2 rid2
      let unique_res_ids := uniqueResIds graph_r1 graph_r2
      let s1 := { s with res_graph_ := rg2 }
      if unique_res_ids.length > 0 then
        let max_mol_id := wrapInt32 (s1.max_mol_id_ + 1)
        let fresh := decide (s1.molecules_.count max_mol_id = 0)
        let mols := s1.molecules_.insert max_mol_id []
        match mols.get mid1 with
        | none => .error "out_of_range"
        | some PsetMid1 =>
          match splitLoop s1.residues_ max_mol_id unique_res_ids
              { PsetMid1 := PsetMid1, pid_mid := s1.pid_mid, s := [] } with
          | .error e => .error e
          | .ok st =>
            let mols1 := if fresh then mols.modify max_mol_id (fun _ => st.s) else mols
            .ok { s1 with
              max_mol_id_ := max_mol_id
              molecules_ := mols1.modify mid1 (fun _ => st.PsetMid1)
              pid_mid := st.pid_mid }
      else .ok s1

/-- Lines 429-546 of `TopologyManager::deleteEdge`: everything after the call of
`removeBond`. -/
def TopologyManager.deleteEdgeGraph (s : TopologyManager) (pid1 pid2 : Int) :
    Except String TopologyManager :=
  if s.graph_.count pid1 = 0 ∧ s.graph_.count pid2 = 0 then
    .error "Try to remove edge which does not exists"
  else
    let s1 := { s with graph_ := s.graph_.removeEdge pid1 pid2 }
    match s1.pid_rid.get pid1 with
    | none => .error "ResID not found"
    | some rid1 =>
      match s1.pid_rid.get pid2 with
      | none => .error "ResID not found"
      | some rid2 =>
        match s1.pid_mid.get pid1 with
        | none => .error "MolID not found"
        | some mid1 =>
          match s1.pid_mid.get pid2 with
          | none => .error "MolID nto found"
          | some mid2 =>
            if mid1 ≠ mid2 then
              .error "Something wrong, edge between bonds of two different molecules."
            else if rid1 ≠ rid2 then
              match s1.residues_.get rid1 with
              | none => .error "Pset1 residue id not found"
              | some Pset1 =>
                match s1.residues_.get rid2 with
                | none => .error "Pset2 residue id not found"
                | some Pset2 =>
                  if ¬ hasBond s1.graph_ Pset1 Pset2 then s1.splitMolecule rid1 rid2 mid1
                  else .ok s1
            else .ok s1

/-! ### TopologyManager : initializeTopology -/

/-- `TopologyManager::reset` followed by the re-creation of the four maps and
`max_mol_id_ = 0` (lines 223-229). -/
def TopologyManager.reset (s : TopologyManager) : TopologyManager :=
  { s with graph_ := [], res_graph_ := [], residues_ := [], molecules_ := [],
           pid_mid := [], pid_rid := [], max_mol_id_ := 0 }

/-- The body of the loop of lines 275-298 for one received pair `(pid, rid)`. -/
def TopologyManager.addResidueEntry (s : TopologyManager) (pid rid : Int) :
    Except String TopologyManager :=
  if rid = 0 then .error "ResID is 0"
  else if (s.pid_rid.get pid).isSome then .error "ResID already set"
  else
    let pid_rid := if (s.pid_rid.get pid).isNone then s.pid_rid.set pid rid else s.pid_rid
    let pid_mid := if (s.pid_mid.get pid).isNone then s.pid_mid.set pid rid else s.pid_mid
    let residues := if s.residues_.count rid = 0 then s.residues_.insert rid [] else s.residues_
    let fresh := decide (s.molecules_.count rid = 0)
    let molecules := if fresh then s.molecules_.insert rid [] else s.molecules_
    let max_mol_id := if fresh then max s.max_mol_id_ rid else s.max_mol_id_
    .ok { s with
      pid_rid := pid_rid
      pid_mid := pid_mid
      residues_ := residues.modify rid (fun r => PidSet.insert r pid)
      molecules_ := molecules.modify rid (fun m => PidSet.insert m pid)
      max_mol_id_ := max_mol_id }

/-- The loop of lines 275-298 over the residue entries of one rank. -/
def TopologyManager.addResidueEntries :
    List (Int × Int) → TopologyManager → Except String TopologyManager
  | [], s => .ok s
  | (pid, rid) :: rest, s =>
    match s.addResidueEntry pid rid with
    | .error e => .error e
    | .ok s1 => TopologyManager.addResidueEntries rest s1

/-- The loop of lines 320-322: `newEdge` for every received edge. -/
def TopologyManager.newEdges : List (Int × Int) → TopologyManager → Except String TopologyManager
  | [], s => .ok s
  | (a, b) :: rest, s =>
    match s.newEdge a b with
    | .error e => .error e
    | .ok s1 => TopologyManager.newEdges rest s1

/-- An `EdgesVector`: a `std::vector<std::pair<longint, longint>>`. -/
abbrev EdgesVector := List (Int × Int)

/-- Lines 251-254: the vector a rank contributes to the `all_gather`, built from its list of
`(particle id, residue id)` pairs and its list of bonds. -/
def packTopology (local_resid edges : EdgesVector) : EdgesVector :=
  ((local_resid.length : Int), (edges.length : Int)) ::
    ((local_resid.length : Int), 0) :: (local_resid ++ edges)

/-- The header of a gathered vector (lines 268-273, 308-313): `local_resid_size`, `edges_size`,
the particle count, and the rest of the vector. A vector too short to hold the header, or a
negative size, has no defined reading in the source and is an error here. -/
def readTopologyHeader (v : EdgesVector) : Except String (Nat × Nat × Int × EdgesVector) :=
  match v with
  | (local_resid_size, edges_size) :: (num_particles, _) :: rest =>
    if 0 ≤ local_resid_size ∧ 0 ≤ edges_size ∧
        local_resid_size.toNat + edges_size.toNat ≤ rest.length then
      .ok (local_resid_size.toNat, edges_size.toNat, num_particles, rest)
    else .error "out of range"
  | _ => .error "out of range"

/-- The first loop over the gathered vectors (lines 267-299): the residue maps, with the sum
of the announced particle counts and the number of entries read. -/
def initResidues : List EdgesVector → TopologyManager × Int × Int →
    Except String (TopologyManager × Int × Int)
  | [], acc => .ok acc
  | v :: vs, (s, total_num_particles, receive_num_particles) =>
    match readTopologyHeader v with
    | .error e => .error e
    | .ok (local_resid_size, _, num_particles, rest) =>
      match s.addResidueEntries (rest.take local_resid_size) with
      | .error e => .error e
      | .ok s1 =>
        initResidues vs
          (s1, total_num_particles + num_particles, receive_num_particles + local_resid_size)

/-- The second loop over the gathered vectors (lines 307-323): the graphs. -/
def initEdges : List EdgesVector → TopologyManager → Except String TopologyManager
  | [], s => .ok s
  | v :: vs, s =>
    match readTopologyHeader v with
    | .error e => .error e
    | .ok (local_resid_size, edges_size, _, rest) =>
      match s.newEdges ((rest.drop local_resid_size).take edges_size) with
      | .error e => .error e
      | .ok s1 => initEdges vs s1

/-- `TopologyManager::initializeTopology` (lines 220-325). `ranks` holds, for every rank of the
communicator, the `(particle id, residue id)` pairs of its real particles and the bonds of its
observed pair lists; the `all_gather` hands every rank the list of the packed vectors. -/
def TopologyManager.initializeTopology (s : TopologyManager)
    (ranks : List (EdgesVector × EdgesVector)) : Except String TopologyManager :=
  let global_output := ranks.map (fun r => packTopology r.1 r.2)
  match initResidues global_output (s.reset, 0, 0) with
  | .error e => .error e
  | .ok (s1, total_num_particles, receive_num_particles) =>
    if total_num_particles ≠ receive_num_particles then .error "wrong initialization"
    else
      match initEdges global_output s1 with
      | .error e => .error e
      | .ok s2 => .ok { s2 with is_dirty_ := true }


/-! ### TopologyManager : observer hooks and removeBond -/

/-- `TopologyManager::isParticleConnected` (lines 1283-1288). -/
def TopologyManager.isParticleConnected (s : TopologyManager) (pid1 pid2 : Int) : Bool :=
  decide (s.graph_.count pid1 = 1) && decide (PidSet.count (s.graph_.adj pid1) pid2 = 1)

/-- `TopologyManager::onTupleAdded` (lines 342-348). -/
def TopologyManager.onTupleAdded (s : TopologyManager) (pid1 pid2 : Int) : TopologyManager :=
  if ¬ s.isParticleConnected pid1 pid2 then
    { s with newEdges_ := s.newEdges_ ++ [(pid1, pid2)], is_dirty_ := true }
  else s

/-- `TopologyManager::onTupleRemoved` (lines 419-424). -/
def TopologyManager.onTupleRemoved (s : TopologyManager) (pid1 pid2 : Int) : TopologyManager :=
  if s.isParticleConnected pid1 pid2 then
    { s with removedEdges_ := s.removedEdges_ ++ [(pid1, pid2)], is_dirty_ := true }
  else s

/-- The integer members of `TopologyParticleProperties`; `mass_`, `q_`, `lambda_`, `v_` and
`f_` are floating-point numbers and are not part of the embedding. The header that declares
the class is not among the sources; the values of the change flags are those of
`ParticleProperties::ChangeFlags` in Particle.hpp. -/
structure TopologyParticleProperties where
  type_id_ : Int
  state_ : Int
  res_id_ : Int
  incr_state_ : Int
  change_flag_ : Nat
  condition_ : Bool
  min_state_ : Int
  max_state_ : Int
deriving DecidableEq, Repr

/-- `TopologyParticleProperties::isValid` (lines 96-101) for a particle that is present. -/
def TopologyParticleProperties.isValid (pp : TopologyParticleProperties) (p : Particle) : Bool :=
  !pp.condition_ || (decide (p.state ≥ pp.min_state_) && decide (p.state < pp.max_state_))

/-- `TopologyParticleProperties::updateParticleProperties` (lines 64-94), on the integer
members of the particle: `CHANGE_TYPE` = 1, `CHANGE_STATE` = 8, `INCR_STATE` = 64,
`CHANGE_RESID` = 16. -/
def TopologyParticleProperties.updateParticleProperties (pp : TopologyParticleProperties)
    (p : Particle) : Bool × Particle :=
  if pp.change_flag_ ≠ 0 ∧ pp.isValid p then
    let p1 := if pp.change_flag_ &&& 1 ≠ 0 then { p with type := pp.type_id_ } else p
    let p2 := if pp.change_flag_ &&& 8 ≠ 0 then { p1 with state := pp.state_ } else p1
    let p3 := if pp.change_flag_ &&& 64 ≠ 0 then { p2 with state := p2.state + pp.incr_state_ }
      else p2
    let p4 := if pp.change_flag_ &&& 16 ≠ 0 then { p3 with res_id := pp.res_id_ } else p3
    (true, p4)
  else (false, p)

/-- A write through a particle pointer obtained from a lookup of `pid`: both lookups see the
changed particle. -/
def Storage.update (st : Storage) (pid : Int) (p : Particle) : Storage where
  lookupLocalParticle := fun i =>
    if i = pid then (st.lookupLocalParticle i).map (fun _ => p) else st.lookupLocalParticle i
  lookupRealParticle := fun i =>
    if i = pid then (st.lookupRealParticle i).map (fun _ => p) else st.lookupRealParticle i

/-- The methods of the pair and triple lists that the topology manager calls.
`FixedPairList.cpp` and `FixedTripleList.cpp` are not among the sources: the state of such a
list (`P`, `T`) and these methods are parameters. `pairRemove` also returns the
`onTupleRemoved` signals that the call delivered to this manager (none when the list is not
observed). -/
structure ListOps (P T : Type) where
  pairRemove : P → Int → Int → Bool × P × List (Int × Int)
  pairUpdateParticlesStorage : Storage → P → Except String P
  tripleIadd : Storage → T → Int → Int → Int → Except String (Bool × T)
  tripleRemoveByBond : T → Int → Int → Bool × T
  tripleUpdateParticlesStorage : Storage → T → Except String T

/-- The rank-local collaborators of a `TopologyManager`: the particle storage and the
registered tuple lists. A `shared_ptr` to a list is the index of the list in the vector that
holds it; the nested registration maps are functions to such an index (`none` for a null
pointer). `edges_type_distance_pair_types_` maps a root type and a distance to a set of
pairs of types, `distance_type_pp_` maps a distance to the multimap from a type to its rules,
`new_type_pp_` maps a type to its rule. -/
structure Local (P T : Type) where
  storage : Storage
  tuples_ : List P
  tupleMap_ : Int → Int → Option Nat
  triples_ : List T
  tripleMap_ : Int → Int → Int → Option Nat
  quadruples_ : List FixedQuadrupleList
  quadrupleMap_ : Int → Int → Int → Int → Option Nat
  update_angles_ : Bool
  update_dihedrals_ : Bool
  max_bond_nb_distance_ : Int
  edges_type_distance_pair_types_ : AMap (AMap (List (Int × Int)))
  distance_type_pp_ : AMap (List (Int × TopologyParticleProperties))
  new_type_pp_ : AMap TopologyParticleProperties

/-- The delivery of the `onTupleRemoved` signals of one call of `remove`. -/
def TopologyManager.deliverRemoved (s : TopologyManager) (signals : List (Int × Int)) :
    TopologyManager :=
  signals.foldl (fun t e => t.onTupleRemoved e.1 e.2) s

/-- `TopologyManager::removeBond` (lines 550-579). -/
def TopologyManager.removeBond {P T : Type} (ops : ListOps P T) (loc : Local P T)
    (s : TopologyManager) (pid1 pid2 : Int) :
    Except String (Bool × Local P T × TopologyManager) :=
  match loc.storage.lookupLocalParticle pid1, loc.storage.lookupLocalParticle pid2 with
  | some p1, some p2 =>
    if p1.ghost ∧ p2.ghost then .ok (false, loc, s)
    else
      let swap := p1.ghost && !p2.ghost
      let a := if swap then pid2 else pid1
      let b := if swap then pid1 else pid2
      match loc.tupleMap_ p1.type p2.type with
      | none => .error "Tuple for pair not found"
      | some i =>
        match loc.tuples_.get? i with
        | none => .error "Tuple for pair not found"
        | some fpl =>
          let r := ops.pairRemove fpl a b
          .ok (r.1, { loc with tuples_ := loc.tuples_.set i r.2.1 }, s.deliverRemoved r.2.2)
  | _, _ => .ok (false, loc, s)

/-- `TopologyManager::deleteEdge` (lines 426-548). -/
def TopologyManager.deleteEdge {P T : Type} (ops : ListOps P T) (loc : Local P T)
    (s : TopologyManager) (pid1 pid2 : Int) :
    Except String (Bool × Local P T × TopologyManager) :=
  match s.removeBond ops loc pid1 pid2 with
  | .error e => .error e
  | .ok (removed, loc1, s1) =>
    match s1.deleteEdgeGraph pid1 pid2 with
    | .error e => .error e
    | .ok s2 => .ok (removed, loc1, s2)

/-! ### TopologyManager : generateAnglesDihedrals -/

/-- `Triplets`: `std::pair<longint, std::pair<longint, longint>>`. -/
abbrev Triplets := Int × Int × Int

/-- `Quadruplets`: `std::pair<longint, std::pair<longint, std::pair<longint, longint>>>`. -/
abbrev Quadruplets := Int × Int × Int × Int

/-- The order of `Triplets` (lexicographic, as for nested `std::pair`). -/
def tripLe (a b : Triplets) : Prop := a.1 < b.1 ∨ (a.1 = b.1 ∧ pairLe a.2 b.2)

instance tripLeDecidable : DecidableRel tripLe := fun a b => by
  unfold tripLe; exact inferInstance

/-- The order of `Quadruplets` (lexicographic, as for nested `std::pair`). -/
def quadLe (a b : Quadruplets) : Prop := a.1 < b.1 ∨ (a.1 = b.1 ∧ tripLe a.2 b.2)

instance quadLeDecidable : DecidableRel quadLe := fun a b => by
  unfold quadLe; exact inferInstance

/-- The `insert` into a `std::set<Triplets>`. -/
def insertTriplet (s : List Triplets) (x : Triplets) : List Triplets :=
  if x ∈ s then s else s.orderedInsert tripLe x

/-- The `insert` into a `std::set<Quadruplets>`. -/
def insertQuadruplet (s : List Quadruplets) (x : Quadruplets) : List Quadruplets :=
  if x ∈ s then s else s.orderedInsert quadLe x

/-- The loop of lines 908-916 (with `first = pid1`, `second = pid2`) and of lines 930-938
(with `first = pid2`, `second = pid1`) over the neighbours `itt` of a neighbour `it`. -/
def dihedralsBehind (first second it : Int) (nbb : PidSet) (quadruplets : List Quadruplets) :
    List Quadruplets :=
  nbb.foldl (fun q itt =>
    if itt = it ∨ itt = first ∨ itt = second then q
    else if (itt, it, first, second) ∉ q then insertQuadruplet q (second, first, it, itt)
    else q) quadruplets

/-- The loop of lines 900-918, "Case pid2 pid1 <> <>", over the neighbours of `pid1`. -/
def anglesCase1 (graph : GraphMap) (pid1 pid2 : Int) :
    List Int → List Quadruplets × List Triplets →
    Except String (List Quadruplets × List Triplets)
  | [], acc => .ok acc
  | it :: rest, (quadruplets, triplets) =>
    if it = pid1 ∨ it = pid2 then anglesCase1 graph pid1 pid2 rest (quadruplets, triplets)
    else
      let triplets1 :=
        if (it, pid2, pid1) ∉ triplets then insertTriplet triplets (pid2, pid1, it)
        else triplets
      match graph.get it with
      | none => .error "out_of_range"
      | some nbb1 =>
        anglesCase1 graph pid1 pid2 rest (dihedralsBehind pid1 pid2 it nbb1 quadruplets, triplets1)

/-- The loop of lines 922-940, "Case pid1 pid2 <> <>", over the neighbours of `pid2`. -/
def anglesCase2 (graph : GraphMap) (pid1 pid2 : Int) :
    List Int → List Quadruplets × List Triplets →
    Except String (List Quadruplets × List Triplets)
  | [], acc => .ok acc
  | it :: rest, (quadruplets, triplets) =>
    if it = pid1 ∨ it = pid2 then anglesCase2 graph pid1 pid2 rest (quadruplets, triplets)
    else
      let triplets1 :=
        if (it, pid2, pid1) ∉ triplets then insertTriplet triplets (pid1, pid2, it)
        else triplets
      match graph.get it with
      | none => .error "out_of_range"
      | some nbb2 =>
        anglesCase2 graph pid1 pid2 rest (dihedralsBehind pid2 pid1 it nbb2 quadruplets, triplets1)

/-- The loops of lines 944-956, "Case <> pid1 pid2 <>". -/
def dihedralsCase3 (pid1 pid2 : Int) (nb1 nb2 : PidSet) (quadruplets : List Quadruplets) :
    List Quadruplets :=
  nb1.foldl (fun q it1 =>
    if it1 = pid1 ∨ it1 = pid2 then q
    else nb2.foldl (fun q it2 =>
      if it2 = pid1 ∨ it2 = pid2 ∨ it1 = it2 then q
      else if (it2, pid2, pid1, it1) ∉ q then insertQuadruplet q (it1, pid1, pid2, it2)
      else q) q) quadruplets

/-- `TopologyManager::generateAnglesDihedrals` (lines 884-958). -/
def generateAnglesDihedrals (graph : GraphMap) (pid1 pid2 : Int)
    (acc : List Quadruplets × List Triplets) :
    Except String (List Quadruplets × List Triplets) :=
  match graph.get pid1 with
  | none => .error "Node pid1 not found"
  | some nb1 =>
    match graph.get pid2 with
    | none => .error "Node pid2 not found"
    | some nb2 =>
      match anglesCase1 graph pid1 pid2 nb1 acc with
      | .error e => .error e
      | .ok acc1 =>
        match anglesCase2 graph pid1 pid2 nb2 acc1 with
        | .error e => .error e
        | .ok acc2 => .ok (dihedralsCase3 pid1 pid2 nb1 nb2 acc2.1, acc2.2)

/-- The loop of lines 962-967 of `generateNewAnglesDihedrals`: the sets `new_quadruplets_` and
`new_triplets_` built from the new edges. -/
def newAnglesDihedrals (graph : GraphMap) :
    SetPairs → List Quadruplets × List Triplets →
    Except String (List Quadruplets × List Triplets)
  | [], acc => .ok acc
  | e :: rest, acc =>
    match generateAnglesDihedrals graph e.1 e.2 acc with
    | .error err => .error err
    | .ok acc1 => newAnglesDihedrals graph rest acc1


/-! ### TopologyManager : exchangeData, packing and merging -/

/-- `MapPairsDist`: a `std::map<std::pair<longint, longint>, longint>` from `(root, particle)`
to a distance, in increasing order of the key. -/
abbrev MapPairsDist := List ((Int × Int) × Int)

/-- The lookup of a key in a `MapPairsDist`. -/
def MapPairsDist.get : MapPairsDist → Int × Int → Option Int
  | [], _ => none
  | (k, d) :: m, key => if k = key then some d else MapPairsDist.get m key

/-- The `insert` of a new key into a `MapPairsDist`. -/
def MapPairsDist.insert (m : MapPairsDist) (key : Int × Int) (d : Int) : MapPairsDist :=
  if (m.get key).isSome then m else m.orderedInsert (fun a b => pairLe a.1 b.1) (key, d)

/-- Lines 638-656: the block a rank contributes to the second `all_gather`. -/
def TopologyManager.packBlock (s : TopologyManager) : List Int :=
  [((s.nb_distance_particles_.length / 3 : Nat) : Int), (s.newEdges_.length : Int),
    (s.removedEdges_.length : Int), (s.new_local_particle_properties_.length : Int)]
  ++ s.nb_distance_particles_
  ++ (s.newEdges_.flatMap (fun e => [e.1, e.2]))
  ++ (s.removedEdges_.flatMap (fun e => [e.1, e.2]))
  ++ s.new_local_particle_properties_

/-- The four merged containers of lines 667-670. -/
structure Merged where
  global_nb_distance_particles : MapPairsDist
  global_new_edge : SetPairs
  global_new_local_particle_properties : PidSet
  global_remove_edge : SetPairs
deriving DecidableEq, Repr

/-- The loop of lines 681-694 over the distance updates of a block. Reading past the end of a
gathered vector has no defined result in the source and is an error here. -/
def readDistances : Nat → List Int → MapPairsDist → Except String (MapPairsDist × List Int)
  | 0, rest, m => .ok (m, rest)
  | n + 1, root_id :: distance :: particle_id :: rest, m =>
    match m.get (root_id, particle_id) with
    | none => readDistances n rest (m.insert (root_id, particle_id) distance)
    | some d =>
      if d ≠ distance then .error "Problem with merging incoming data"
      else readDistances n rest m
  | _ + 1, _, _ => .error "out of range"

/-- The loops of lines 696-702 and 703-709: every edge is ordered before it is inserted. -/
def readEdges : Nat → List Int → SetPairs → Except String (SetPairs × List Int)
  | 0, rest, s => .ok (s, rest)
  | n + 1, f1 :: f2 :: rest, s =>
    readEdges n rest (s.insert (if f1 > f2 then (f2, f1) else (f1, f2)))
  | _ + 1, _, _ => .error "out of range"

/-- The loop of lines 711-714 over the property-change ids of a block. -/
def readPids : Nat → List Int → PidSet → Except String (PidSet × List Int)
  | 0, rest, s => .ok (s, rest)
  | n + 1, particle_id :: rest, s => readPids n rest (PidSet.insert s particle_id)
  | _ + 1, _, _ => .error "out of range"

/-- One round of the loop `for (itm = gms->begin(); itm != gms->end();)` (lines 676-714): the
four sizes, then the four groups of entries; the unread rest of the vector is returned. -/
def mergeBlock (v : List Int) (m : Merged) : Except String (Merged × List Int) :=
  match v with
  | nb_distance_particles_size :: new_edge_size :: remove_edge_size ::
      new_local_particle_properties_size :: rest =>
    match readDistances nb_distance_particles_size.toNat rest m.global_nb_distance_particles with
    | .error e => .error e
    | .ok (dist, rest1) =>
      match readEdges new_edge_size.toNat rest1 m.global_new_edge with
      | .error e => .error e
      | .ok (newE, rest2) =>
        match readEdges remove_edge_size.toNat rest2 m.global_remove_edge with
        | .error e => .error e
        | .ok (remE, rest3) =>
          match readPids new_local_particle_properties_size.toNat rest3
              m.global_new_local_particle_properties with
          | .error e => .error e
          | .ok (props, rest4) =>
            .ok ({ global_nb_distance_particles := dist, global_new_edge := newE,
                   global_new_local_particle_properties := props,
                   global_remove_edge := remE }, rest4)
  | _ => .error "out of range"

/-- The loop over one gathered vector (line 675); every round reads at least four integers,
so `v.length` rounds are enough. -/
def mergeVector : Nat → List Int → Merged → Except String Merged
  | 0, _, m => .ok m
  | _ + 1, [], m => .ok m
  | fuel + 1, x :: v, m =>
    match mergeBlock (x :: v) m with
    | .error e => .error e
    | .ok (m1, rest) => mergeVector fuel rest m1

/-- The loop over the gathered vectors of all ranks (lines 674-716). -/
def mergeAll : List (List Int) → Merged → Except String Merged
  | [], m => .ok m
  | v :: vs, m =>
    match mergeVector v.length v m with
    | .error e => .error e
    | .ok m1 => mergeAll vs m1

/-- The empty containers before the merge. -/
def Merged.empty : Merged :=
  { global_nb_distance_particles := [], global_new_edge := [],
    global_new_local_particle_properties := [], global_remove_edge := [] }

/-- A storage in which every id resolves to a real particle of type 0 and residue 1. -/
def allRealStorage : Storage where
  lookupLocalParticle := fun i => some ⟨i, 0, 0, 1, false⟩
  lookupRealParticle := fun i => some ⟨i, 0, 0, 1, false⟩

/-! ### Paths -/

/-- A path from `a` to `b` in a graph: the reflexive and transitive closure of "is in the
neighbour set of". -/
def Reach (g : GraphMap) (a b : Int) : Prop :=
  Relation.ReflTransGen (fun x y => y ∈ g.adj x) a b

/-- The invariant of the loop of `plainBFS`: visited nodes are joined to the root by a path,
the queue holds visited nodes only, and a visited node that has left the queue has all its
neighbours visited and is a key of the sub-graph. -/
structure BFSInv (g : GraphMap) (root : Int) (st : BFSState) : Prop where
  reach : ∀ v ∈ st.visited, Reach g root v
  queued : ∀ q ∈ st.Q, q ∈ st.visited
  closed : ∀ v ∈ st.visited, v ∉ st.Q → ∀ w ∈ g.adj v, w ∈ st.visited
  keys_visited : ∀ k, (st.ret.get k).isSome → k ∈ st.visited
  done_keys : ∀ v ∈ st.visited, v ∉ st.Q → (st.ret.get v).isSome
  root_visited : root ∈ st.visited

/-! ### Replicated part of the state -/

/-- Two states hold the same replicated topology: the four graph maps, the two id maps and
the molecule-id counter. -/
def sameTopology (s t : TopologyManager) : Prop :=
  s.graph_ = t.graph_ ∧ s.res_graph_ = t.res_graph_ ∧ s.residues_ = t.residues_ ∧
  s.molecules_ = t.molecules_ ∧ s.pid_rid = t.pid_rid ∧ s.pid_mid = t.pid_mid ∧
  s.max_mol_id_ = t.max_mol_id_

/-- The state `s` with the queued edits and the dirty flag of `p`. -/
def TopologyManager.setPending (s p : TopologyManager) : TopologyManager :=
  { s with newEdges_ := p.newEdges_, removedEdges_ := p.removedEdges_,
           nb_distance_particles_ := p.nb_distance_particles_,
           nb_edges_root_to_remove_ := p.nb_edges_root_to_remove_,
           new_local_particle_properties_ := p.new_local_particle_properties_,
           is_dirty_ := p.is_dirty_ }

/-! ### Scenarios -/

/-- Pair and triple lists without content: `remove` finds nothing, nothing throws. -/
def noListOps : ListOps Unit Unit where
  pairRemove := fun p _ _ => (false, p, [])
  pairUpdateParticlesStorage := fun _ p => .ok p
  tripleIadd := fun _ t _ _ _ => .ok (false, t)
  tripleRemoveByBond := fun t _ _ => (false, t)
  tripleUpdateParticlesStorage := fun _ t => .ok t

/-- A rank on which every particle is real and one (empty) pair list is registered for every
pair of types. -/
def plainLocal : Local Unit Unit where
  storage := allRealStorage
  tuples_ := [()]
  tupleMap_ := fun _ _ => some 0
  triples_ := []
  tripleMap_ := fun _ _ _ => none
  quadruples_ := []
  quadrupleMap_ := fun _ _ _ _ => none
  update_angles_ := false
  update_dihedrals_ := false
  max_bond_nb_distance_ := 0
  edges_type_distance_pair_types_ := []
  distance_type_pp_ := []
  new_type_pp_ := []

/-- The molecule-split scenario: residues R1 = {10} (id 1), R2 = {11, 20} (id 2) and
R3 = {21} (id 3), gathered from one rank, with the bonds 10-11, 20-21 and 11-20. -/
def splitScenario : List (EdgesVector × EdgesVector) :=
  [([(10, 1), (11, 2), (20, 2), (21, 3)], [(10, 11), (20, 21), (11, 20)])]

/-- The state the scenario is initialised to. -/
def splitScenarioState : TopologyManager :=
  { TopologyManager.new with
    graph_ := [(10, [11]), (11, [10, 20]), (20, [11, 21]), (21, [20])]
    res_graph_ := [(1, [2]), (2, [1, 2, 3]), (3, [2])]
    residues_ := [(1, [10]), (2, [11, 20]), (3, [21])]
    molecules_ := [(1, [10, 11, 20, 21])]
    pid_rid := [(10, 1), (11, 2), (20, 2), (21, 3)]
    pid_mid := [(10, 1), (11, 1), (20, 1), (21, 1)]
    max_mol_id_ := 3 }

/-- The overflow scenario: the residues {10} with the id `INT_MAX` = 2147483647, {11} with
the id 7 and {12} with the id `INT_MIN` = -2147483648, gathered from one rank, with the bond
10-11. -/
def overflowScenario : List (EdgesVector × EdgesVector) :=
  [([(10, 2147483647), (11, 7), (12, -2147483648)], [(10, 11)])]

/-- The state the overflow scenario is initialised to: the molecule `INT_MAX` holds 10 and
11, the molecule `INT_MIN` holds 12, and the counter is `INT_MAX`. -/
def overflowState : TopologyManager :=
  { TopologyManager.new with
    graph_ := [(10, [11]), (11, [10])]
    res_graph_ := [(2147483647, [7]), (7, [2147483647])]
    residues_ := [(2147483647, [10]), (7, [11]), (-2147483648, [12])]
    molecules_ := [(2147483647, [10, 11]), (-2147483648, [12])]
    pid_rid := [(10, 2147483647), (11, 7), (12, -2147483648)]
    pid_mid := [(10, 2147483647), (11, 2147483647), (12, -2147483648)]
    max_mol_id_ := 2147483647 }

/-- The state of the overflow scenario after `deleteEdge(10,11)`. -/
def overflowAfter : TopologyManager :=
  { overflowState with
    graph_ := [(10, []), (11, [])]
    res_graph_ := [(2147483647, []), (7, [])]
    molecules_ := [(2147483647, [11]), (-2147483648, [12])]
    pid_mid := [(10, -2147483648), (11, 2147483647), (12, -2147483648)]
    max_mol_id_ := -2147483648 }

/-- The angle scenario: four particles of one residue in the chain 1-2, 2-3, 3-4. -/
def chainScenario : List (EdgesVector × EdgesVector) :=
  [([(1, 1), (2, 1), (3, 1), (4, 1)], [(1, 2), (2, 3), (3, 4)])]

/-- The graph of the chain 1-2, 2-3, 3-4. -/
def chainGraph : GraphMap := [(1, [2]), (2, [1, 3]), (3, [2, 4]), (4, [3])]

/-- The merge scenario: two residues of one particle each, 10 in residue 1 and 11 in
residue 2, and no bond. -/
def mergeScenario : List (EdgesVector × EdgesVector) :=
  [([(10, 1), (11, 2)], [])]

/-- The state the merge scenario is initialised to. -/
def mergeScenarioState : TopologyManager :=
  { TopologyManager.new with
    residues_ := [(1, [10]), (2, [11])]
    molecules_ := [(1, [10]), (2, [11])]
    pid_rid := [(10, 1), (11, 2)]
    pid_mid := [(10, 1), (11, 2)]
    max_mol_id_ := 2 }

/-- The state of the split scenario after `deleteEdge(20,21)`. -/
def splitScenarioAfter : TopologyManager :=
  { splitScenarioState with
    graph_ := [(10, [11]), (11, [10, 20]), (20, [11]), (21, [])]
    res_graph_ := [(1, [2]), (2, [1, 2]), (3, [])]
    molecules_ := [(1, [21]), (4, [10, 11, 20])]
    pid_mid := [(10, 4), (11, 4), (20, 4), (21, 1)]
    max_mol_id_ := 4 }

/-- The state of the merge scenario after `newEdge(11,10)`. -/
def mergeScenarioAfter : TopologyManager :=
  { mergeScenarioState with
    graph_ := [(11, [10]), (10, [11])]
    res_graph_ := [(2, [1]), (1, [2])]
    molecules_ := [(2, [10, 11])]
    pid_mid := [(10, 2), (11, 2)] }

/-! ### Queued distance updates -/

/-- The triples `(root, distance, particle)` held by the flat vector
`nb_distance_particles_`, three integers per update. -/
def triplesOf : List Int → List (Int × Int × Int)
  | root :: distance :: particle :: rest => (root, distance, particle) :: triplesOf rest
  | _ => []

/-- The distance updates queued on a list of ranks. -/
def queuedDistances (ranks : List TopologyManager) : List (Int × Int × Int) :=
  ranks.flatMap (fun b => triplesOf b.nb_distance_particles_)

/-- No two queued updates give different distances for the same root and particle. -/
def distancesAgree (ts : List (Int × Int × Int)) : Prop :=
  ∀ t1 ∈ ts, ∀ t2 ∈ ts, t1.1 = t2.1 → t1.2.2 = t2.2.2 → t1.2.1 = t2.2.1

/-- The unordered edge `{x, y}` is queued as a new edge on one of the ranks. -/
def reportsNewEdge (ranks : List TopologyManager) (x y : Int) : Prop :=
  ∃ b ∈ ranks, (x, y) ∈ b.newEdges_ ∨ (y, x) ∈ b.newEdges_

/-- The unordered edge `{x, y}` is queued as a removed edge on one of the ranks. -/
def reportsRemovedEdge (ranks : List TopologyManager) (x y : Int) : Prop :=
  ∃ b ∈ ranks, (x, y) ∈ b.removedEdges_ ∨ (y, x) ∈ b.removedEdges_

/-- Pending edits of a first rank (scenario of the merge of edge sets). -/
def mergeRankA : TopologyManager :=
  { TopologyManager.new with
    newEdges_ := [(5, 3), (3, 5), (1, 2)], removedEdges_ := [(7, 8)],
    nb_distance_particles_ := [1, 1, 2] }

/-- Pending edits of a second rank. -/
def mergeRankB : TopologyManager :=
  { TopologyManager.new with
    newEdges_ := [(2, 1)], removedEdges_ := [(8, 7), (7, 8)],
    nb_distance_particles_ := [1, 1, 2, 2, 1, 1] }

/-- The edits of `mergeRankA`, reported once each and with ordered end points. -/
def mergeRankC : TopologyManager :=
  { TopologyManager.new with newEdges_ := [(1, 2), (3, 5)], removedEdges_ := [] }

/-- The edits of `mergeRankB`, reported differently. -/
def mergeRankD : TopologyManager :=
  { TopologyManager.new with newEdges_ := [(3, 5)], removedEdges_ := [(7, 8)] }

/-! ### Reachable states and their invariant -/

/-- The states of a `TopologyManager` reached from a successful `initializeTopology` by
successful calls of `newEdge` and `deleteEdge`, on any rank (any storage and tuple lists). -/
inductive Reachable : TopologyManager → Prop
  | init (s0 : TopologyManager) (ranks : List (EdgesVector × EdgesVector))
      (s : TopologyManager) :
      s0.initializeTopology ranks = .ok s → Reachable s
  | newEdge (s s' : TopologyManager) (pid1 pid2 : Int) :
      Reachable s → s.newEdge pid1 pid2 = .ok s' → Reachable s'
  | deleteEdge {P T : Type} (ops : ListOps P T) (loc loc' : Local P T)
      (s s' : TopologyManager) (pid1 pid2 : Int) (removed : Bool) :
      Reachable s → s.deleteEdge ops loc pid1 pid2 = .ok (removed, loc', s') → Reachable s'

/-- A particle id is tracked when `pid_rid` holds a residue id for it. -/
def TopologyManager.tracked (s : TopologyManager) (p : Int) : Prop := (s.pid_rid.get p).isSome

/-- Some particle of residue `r1` is bonded in `graph_` to some particle of residue `r2`. -/
def TopologyManager.bonded (s : TopologyManager) (r1 r2 : Int) : Prop :=
  ∃ p1 p2, s.pid_rid.get p1 = some r1 ∧ s.pid_rid.get p2 = some r2 ∧ p2 ∈ s.graph_.adj p1

/-- The invariant of the replicated topology. -/
structure TopoInv (s : TopologyManager) : Prop where
  tracked : ∀ p, (s.pid_mid.get p).isSome ↔ (s.pid_rid.get p).isSome
  res_mem : ∀ r p, p ∈ s.residues_.adj r ↔ s.pid_rid.get p = some r
  mol_mem : ∀ m p, p ∈ s.molecules_.adj m ↔ s.pid_mid.get p = some m
  mol_max : ∀ m, (s.molecules_.get m).isSome → m ≤ s.max_mol_id_
  mol_keys : s.molecules_.keys.Nodup
  graph_sym : ∀ p q, q ∈ s.graph_.adj p → p ∈ s.graph_.adj q
  graph_tracked : ∀ p q, q ∈ s.graph_.adj p → (s.pid_rid.get p).isSome
  rg_bond : ∀ r1 r2, r1 ≠ r2 → (r2 ∈ s.res_graph_.adj r1 ↔ s.bonded r1 r2)
  rg_node : ∀ r1 r2, r2 ∈ s.res_graph_.adj r1 → ∃ p, s.pid_rid.get p = some r1
  rg_sym : ∀ r1 r2, r2 ∈ s.res_graph_.adj r1 → r1 ∈ s.res_graph_.adj r2
  mol_conn : ∀ p q mp mq rp rq, s.pid_mid.get p = some mp → s.pid_mid.get q = some mq →
    s.pid_rid.get p = some rp → s.pid_rid.get q = some rq →
    (mp = mq ↔ Reach s.res_graph_ rp rq)

/-- The invariant of the first loop of `initializeTopology`: no graph yet, and every particle
read so far is in the residue and in the molecule numbered by its residue id. -/
structure ResInv (s : TopologyManager) : Prop where
  graph_nil : s.graph_ = []
  res_graph_nil : s.res_graph_ = []
  mid_eq : ∀ p, s.pid_mid.get p = s.pid_rid.get p
  res_mem : ∀ r p, p ∈ s.residues_.adj r ↔ s.pid_rid.get p = some r
  mol_mem : ∀ m p, p ∈ s.molecules_.adj m ↔ s.pid_mid.get p = some m
  mol_max : ∀ m, (s.molecules_.get m).isSome → m ≤ s.max_mol_id_
  mol_keys : s.molecules_.keys.Nodup

/-- The part of the invariant that concerns the particle graph, the residue graph and the
residues; the molecule ids play no part in it. -/
structure GraphInv (s : TopologyManager) : Prop where
  res_mem : ∀ r p, p ∈ s.residues_.adj r ↔ s.pid_rid.get p = some r
  graph_sym : ∀ p q, q ∈ s.graph_.adj p → p ∈ s.graph_.adj q
  graph_tracked : ∀ p q, q ∈ s.graph_.adj p → (s.pid_rid.get p).isSome
  rg_bond : ∀ r1 r2, r1 ≠ r2 → (r2 ∈ s.res_graph_.adj r1 ↔ s.bonded r1 r2)
  rg_node : ∀ r1 r2, r2 ∈ s.res_graph_.adj r1 → ∃ p, s.pid_rid.get p = some r1
  rg_sym : ∀ r1 r2, r2 ∈ s.res_graph_.adj r1 → r1 ∈ s.res_graph_.adj r2

/-- The increment `max_mol_id_++` of a split would not overflow in this state: the counter
plus one is a value of a 32-bit `int`. -/
def TopologyManager.incrementFits (s : TopologyManager) : Prop :=
  wrapInt32 (s.max_mol_id_ + 1) = s.max_mol_id_ + 1

/-- The reachable states in whose history every call of `deleteEdge` was made in a state in
which the increment of `max_mol_id_` does not overflow. -/
inductive ReachableNoOverflow : TopologyManager → Prop
  | init (s0 : TopologyManager) (ranks : List (EdgesVector × EdgesVector))
      (s : TopologyManager) :
      s0.initializeTopology ranks = .ok s → ReachableNoOverflow s
  | newEdge (s s' : TopologyManager) (pid1 pid2 : Int) :
      ReachableNoOverflow s → s.newEdge pid1 pid2 = .ok s' → ReachableNoOverflow s'
  | deleteEdge {P T : Type} (ops : ListOps P T) (loc loc' : Local P T)
      (s s' : TopologyManager) (pid1 pid2 : Int) (removed : Bool) :
      ReachableNoOverflow s → s.incrementFits →
      s.deleteEdge ops loc pid1 pid2 = .ok (removed, loc', s') → ReachableNoOverflow s'

/-! ### TopologyManager : exchangeData -/

/-- The loop variables of `removeNeighbourEdges`: the map `visitedDistance`, the queue and the
vector `edges_to_remove`. -/
structure NbState where
  visitedDistance : AMap Int
  Q : List Int
  edges_to_remove : List (Int × Int)
deriving DecidableEq, Repr

/-- The body of the loop over the neighbours of `current_node` (lines 1140-1161). -/
def nbVisit (st : Storage) (max_bond_nb_distance : Int) (pair_types : Option (List (Int × Int)))
    (current_node new_distance : Int) (acc : NbState) (node : Int) : NbState :=
  if acc.visitedDistance.count node = 0 then
    let edges :=
      match pair_types with
      | none => acc.edges_to_remove
      | some pair_types_at_distance =>
        match st.lookupLocalParticle node, st.lookupLocalParticle current_node with
        | some p1_node, some p1_current =>
          if (p1_current.type, p1_node.type) ∈ pair_types_at_distance then
            acc.edges_to_remove ++
              [if node > current_node then (current_node, node) else (node, current_node)]
          else acc.edges_to_remove
        | _, _ => acc.edges_to_remove
    { visitedDistance := acc.visitedDistance.insert node new_distance
      Q := if new_distance < max_bond_nb_distance then acc.Q ++ [node] else acc.Q
      edges_to_remove := edges }
  else acc

/-- One round of the loop `while (!Q.empty())` of `removeNeighbourEdges` (lines 1128-1165). -/
def nbRound (st : Storage) (graph : GraphMap) (max_bond_nb_distance : Int)
    (distance_edges : AMap (List (Int × Int))) (acc : NbState) : NbState :=
  match acc.Q with
  | [] => acc
  | current_node :: _ =>
    let new_distance := (acc.visitedDistance.get current_node).getD 0 + 1
    let acc1 :=
      if graph.count current_node = 1 then
        (graph.adj current_node).foldl
          (nbVisit st max_bond_nb_distance (distance_edges.get new_distance)
            current_node new_distance) acc
      else acc
    { acc1 with Q := acc1.Q.tail }

/-- The loop `while (!Q.empty())` of `removeNeighbourEdges` with a bound on the rounds. -/
def nbLoop (st : Storage) (graph : GraphMap) (max_bond_nb_distance : Int)
    (distance_edges : AMap (List (Int × Int))) : Nat → NbState → NbState
  | 0, acc => acc
  | fuel + 1, acc =>
    match acc.Q with
    | [] => acc
    | _ :: _ =>
      nbLoop st graph max_bond_nb_distance distance_edges fuel
        (nbRound st graph max_bond_nb_distance distance_edges acc)

/-- `TopologyManager::removeNeighbourEdges` (lines 1105-1166): the vector `edges_to_remove`
after the call. A node enters the queue at most once, as in `plainBFS`. -/
def removeNeighbourEdges {P T : Type} (loc : Local P T) (graph : GraphMap) (pid : Int)
    (edges_to_remove : List (Int × Int)) : List (Int × Int) :=
  match loc.storage.lookupLocalParticle pid with
  | none => edges_to_remove
  | some root =>
    match loc.edges_type_distance_pair_types_.get root.type with
    | none => edges_to_remove
    | some distance_edges =>
      (nbLoop loc.storage graph loc.max_bond_nb_distance_ distance_edges (bfsFuel graph)
        { visitedDistance := [(root.id, 0)], Q := [root.id],
          edges_to_remove := edges_to_remove }).edges_to_remove

/-- One round of the loop of lines 617-623 over a vector of the first `all_gather`: a size,
then that many particle ids. -/
def readRoots (v : List Int) (s : PidSet) : Except String (PidSet × List Int) :=
  match v with
  | nb_edges_root_to_remove_size :: rest => readPids nb_edges_root_to_remove_size.toNat rest s
  | [] => .error "out of range"

/-- The loop of line 617 over one gathered vector of the first `all_gather`. -/
def mergeRootsVector : Nat → List Int → PidSet → Except String PidSet
  | 0, _, s => .ok s
  | _ + 1, [], s => .ok s
  | fuel + 1, x :: v, s =>
    match readRoots (x :: v) s with
    | .error e => .error e
    | .ok (s1, rest) => mergeRootsVector fuel rest s1

/-- The loop of lines 616-624 over the vectors of the first `all_gather`. -/
def mergeRoots : List (List Int) → PidSet → Except String PidSet
  | [], s => .ok s
  | v :: vs, s =>
    match mergeRootsVector v.length v s with
    | .error e => .error e
    | .ok s1 => mergeRoots vs s1

/-- The application of a fallible method to every list of a vector of lists. -/
def forEachList {L : Type} (f : L → Except String L) : List L → Except String (List L)
  | [] => .ok []
  | l :: ls =>
    match f l with
    | .error e => .error e
    | .ok l1 =>
      match forEachList f ls with
      | .error e => .error e
      | .ok ls1 => .ok (l1 :: ls1)

/-- `TopologyManager::removeAnglesDihedrals` (lines 977-998). -/
def removeAnglesDihedrals {P T : Type} (ops : ListOps P T) (loc : Local P T)
    (removed_edges : SetPairs) : Except String (Local P T) :=
  let loc1 := removed_edges.foldl (fun (l : Local P T) e =>
    { l with
      triples_ := l.triples_.map (fun ftl => (ops.tripleRemoveByBond ftl e.1 e.2).2)
      quadruples_ := l.quadruples_.map (fun fql => (fql.removeByBond e.1 e.2).2) }) loc
  if removed_edges.length > 0 then
    match forEachList (ops.tripleUpdateParticlesStorage loc1.storage) loc1.triples_ with
    | .error e => .error e
    | .ok triples =>
      match forEachList (FixedQuadrupleList.updateParticlesStorage loc1.storage)
          loc1.quadruples_ with
      | .error e => .error e
      | .ok quadruples => .ok { loc1 with triples_ := triples, quadruples_ := quadruples }
  else .ok loc1

/-- The loop of lines 719-721: `deleteEdge` for every merged removed edge. -/
def deleteEdges {P T : Type} (ops : ListOps P T) :
    SetPairs → Local P T × TopologyManager → Except String (Local P T × TopologyManager)
  | [], acc => .ok acc
  | e :: rest, (loc, s) =>
    match s.deleteEdge ops loc e.1 e.2 with
    | .error err => .error err
    | .ok (_, loc1, s1) => deleteEdges ops rest (loc1, s1)

/-- `TopologyManager::updateParticlePropertiesAtDistance` (lines 1207-1235). The type of
`TypeId2PP` is declared in a header that is not among the sources; `equalRange.first` is taken
to be `end()` exactly when no rule is registered for the type. -/
def updateParticlePropertiesAtDistance {P T : Type} (loc : Local P T) (pid distance : Int) :
    Except String (Local P T) :=
  match loc.storage.lookupLocalParticle pid with
  | none => .ok loc
  | some p =>
    match loc.distance_type_pp_.get distance with
    | none => .ok loc
    | some type_pp =>
      let equalRange := type_pp.filter (fun e => e.1 = p.type)
      if equalRange.isEmpty then .ok loc
      else
        let valid := equalRange.filter (fun e => e.2.isValid p)
        if valid.length > 1 then
          .error "updateParticlePropertiesAtDistance, found multiple updates"
        else
          match valid.getLast? with
          | none =>
            .error "updateParticlePropertiesAtDistance, nocorrect TopologyParticleProperties to apply"
          | some tpp =>
            .ok { loc with
              storage := loc.storage.update pid (tpp.2.updateParticleProperties p).2 }

/-- `TopologyManager::updateParticleProperties` (lines 1237-1247). -/
def updateParticleProperties {P T : Type} (loc : Local P T) (pid : Int) : Bool × Local P T :=
  match loc.storage.lookupLocalParticle pid with
  | none => (false, loc)
  | some p =>
    match loc.new_type_pp_.get p.type with
    | none => (false, loc)
    | some pp =>
      (true, { loc with storage := loc.storage.update pid (pp.updateParticleProperties p).2 })

/-- The loop of lines 727-730 over the merged distance updates. -/
def updateAtDistances {P T : Type} :
    MapPairsDist → Local P T → Except String (Local P T)
  | [], loc => .ok loc
  | e :: rest, loc =>
    match updateParticlePropertiesAtDistance loc e.1.2 e.2 with
    | .error err => .error err
    | .ok loc1 => updateAtDistances rest loc1

/-- `TopologyManager::defineAngles` (lines 780-819). -/
def defineAngles {P T : Type} (ops : ListOps P T) :
    List Triplets → Local P T → Except String (Local P T)
  | [], loc => .ok loc
  | it :: rest, loc =>
    match loc.storage.lookupLocalParticle it.1, loc.storage.lookupRealParticle it.2.1,
        loc.storage.lookupLocalParticle it.2.2 with
    | some p1, some p2, some p3 =>
      let ftl := match loc.tripleMap_ p1.type p2.type p3.type with
        | some i => some i
        | none => loc.tripleMap_ p3.type p2.type p1.type
      match ftl with
      | none => defineAngles ops rest loc
      | some i =>
        match loc.triples_.get? i with
        | none => defineAngles ops rest loc
        | some l =>
          match ops.tripleIadd loc.storage l p1.id p2.id p3.id with
          | .error e => .error e
          | .ok r => defineAngles ops rest { loc with triples_ := loc.triples_.set i r.2 }
    | _, _, _ => defineAngles ops rest loc

/-- `TopologyManager::defineDihedrals` (lines 821-882). -/
def defineDihedrals {P T : Type} :
    List Quadruplets → Local P T → Except String (Local P T)
  | [], loc => .ok loc
  | it :: rest, loc =>
    match loc.storage.lookupLocalParticle it.1, loc.storage.lookupLocalParticle it.2.1,
        loc.storage.lookupLocalParticle it.2.2.1, loc.storage.lookupLocalParticle it.2.2.2 with
    | some p1, some p2, some p3, some p4 =>
      let fwd := loc.quadrupleMap_ p1.type p2.type p3.type p4.type
      let reverse_order := fwd.isNone
      let fql := if reverse_order then loc.quadrupleMap_ p4.type p3.type p2.type p1.type else fwd
      if (reverse_order && p4.ghost) || (!reverse_order && p1.ghost) then
        defineDihedrals rest loc
      else
        match fql with
        | none => defineDihedrals rest loc
        | some i =>
          match loc.quadruples_.get? i with
          | none => defineDihedrals rest loc
          | some l =>
            let r := if !reverse_order then l.iadd loc.storage p1.id p2.id p3.id p4.id
              else l.iadd loc.storage p4.id p3.id p2.id p1.id
            match r with
            | .error e => .error e.1
            | .ok r1 => defineDihedrals rest { loc with quadruples_ := loc.quadruples_.set i r1.2 }
    | _, _, _, _ => defineDihedrals rest loc

/-- `TopologyManager::generateNewAnglesDihedrals` (lines 960-975). -/
def generateNewAnglesDihedrals {P T : Type} (ops : ListOps P T) (loc : Local P T)
    (graph : GraphMap) (new_edges : SetPairs) : Except String (Local P T) :=
  match newAnglesDihedrals graph new_edges ([], []) with
  | .error e => .error e
  | .ok (new_quadruplets_, new_triplets_) =>
    match (if loc.update_angles_ then defineAngles ops new_triplets_ loc else .ok loc) with
    | .error e => .error e
    | .ok loc1 =>
      if loc1.update_dihedrals_ then defineDihedrals new_quadruplets_ loc1 else .ok loc1

/-- `TopologyManager::exchangeData` (lines 585-778) on one rank. The results of the three
collective calls are arguments: `global_is_dirty` (the `all_reduce` of the dirty flags),
`gathered_roots` (the first `all_gather`) and `gathered` (the second `all_gather`). The check
compiled in with `LOG4ESPP_DEBUG_ENABLED` (lines 756-775) is not part of the embedding. -/
def TopologyManager.exchangeData {P T : Type} (ops : ListOps P T) (loc : Local P T)
    (s : TopologyManager) (global_is_dirty : Bool) (gathered_roots gathered : List (List Int)) :
    Except String (Local P T × TopologyManager) :=
  if !global_is_dirty then .ok (loc, s)
  else
    match mergeRoots gathered_roots [] with
    | .error e => .error e
    | .ok global_nb_edges_root_to_remove =>
      let edges_to_remove := List.foldl
        (fun edges pid => removeNeighbourEdges loc s.graph_ pid edges) s.removedEdges_
        global_nb_edges_root_to_remove
      let s1 := { s with removedEdges_ := edges_to_remove }
      match mergeAll gathered Merged.empty with
      | .error e => .error e
      | .ok m =>
        match removeAnglesDihedrals ops loc m.global_remove_edge with
        | .error e => .error e
        | .ok loc1 =>
          match deleteEdges ops m.global_remove_edge (loc1, s1) with
          | .error e => .error e
          | .ok (loc2, s2) =>
            match s2.newEdges m.global_new_edge with
            | .error e => .error e
            | .ok s3 =>
              match updateAtDistances m.global_nb_distance_particles loc2 with
              | .error e => .error e
              | .ok loc3 =>
                let loc4 := m.global_new_local_particle_properties.foldl
                  (fun l pid => (updateParticleProperties l pid).2) loc3
                match generateNewAnglesDihedrals ops loc4 s3.graph_ m.global_new_edge with
                | .error e => .error e
                | .ok loc5 =>
                  let tuples :=
                    if m.global_remove_edge.length > 0 then
                      forEachList (ops.pairUpdateParticlesStorage loc5.storage) loc5.tuples_
                    else .ok loc5.tuples_
                  match tuples with
                  | .error e => .error e
                  | .ok tuples1 =>
                    .ok ({ loc5 with tuples_ := tuples1 },
                      { s3 with newEdges_ := [], removedEdges_ := [],
                                nb_distance_particles_ := [], nb_edges_root_to_remove_ := [],
                                new_local_particle_properties_ := [], is_dirty_ := false })

/-- The replication scenario: residues {10} (id 1) and {11} (id 2) joined by the bond
10-11. -/
def pairScenario : List (EdgesVector × EdgesVector) :=
  [([(10, 1), (11, 2)], [(10, 11)])]

/-- The state the replication scenario is initialised to. -/
def pairScenarioState : TopologyManager :=
  { TopologyManager.new with
    graph_ := [(10, [11]), (11, [10])]
    res_graph_ := [(1, [2]), (2, [1])]
    residues_ := [(1, [10]), (2, [11])]
    molecules_ := [(1, [10, 11])]
    pid_rid := [(10, 1), (11, 2)]
    pid_mid := [(10, 1), (11, 1)]
    max_mol_id_ := 2 }

/-- The state of the replication scenario after `deleteEdge(10,11)`. -/
def pairScenarioSplit : TopologyManager :=
  { pairScenarioState with
    graph_ := [(10, []), (11, [])]
    res_graph_ := [(1, []), (2, [])]
    molecules_ := [(1, [11]), (3, [10])]
    pid_mid := [(10, 3), (11, 1)]
    max_mol_id_ := 3 }

/-- The state of the replication scenario after `deleteEdge(10,11)` and `newEdge(11,10)`: the
same maps as `pairScenarioState`, with a larger `max_mol_id_`. -/
def pairScenarioRejoined : TopologyManager :=
  { pairScenarioState with max_mol_id_ := 3 }

/-- A storage that holds no particle. -/
def emptyStorage : Storage where
  lookupLocalParticle := fun _ => none
  lookupRealParticle := fun _ => none

/-- A rank without particles and without registered lists. -/
def bareLocal : Local Unit Unit where
  storage := emptyStorage
  tuples_ := []
  tupleMap_ := fun _ _ => none
  triples_ := []
  tripleMap_ := fun _ _ _ => none
  quadruples_ := []
  quadrupleMap_ := fun _ _ _ _ => none
  update_angles_ := true
  update_dihedrals_ := true
  max_bond_nb_distance_ := 2
  edges_type_distance_pair_types_ := []
  distance_type_pp_ := []
  new_type_pp_ := []

/-- The state of the replication scenario after an `exchangeData` that removes the bond
10-11. -/
def pairScenarioExchanged : TopologyManager :=
  { pairScenarioSplit with newEdges_ := [], removedEdges_ := [], is_dirty_ := false }

/-- A storage in which particle 1 does not resolve at all and every other id resolves to a
real particle of type 0. -/
def missingFirstStorage : Storage where
  lookupLocalParticle := fun i => if i = 1 then none else some ⟨i, 0, 0, 1, false⟩
  lookupRealParticle := fun i => if i = 1 then none else some ⟨i, 0, 0, 1, false⟩

/-! ### FixedPairListAdress -/

/-- `GlobalPairs` (FixedPairList.hpp): a `boost::unordered_multimap<longint, longint>`, the
list of its entries in iteration order. -/
abbrev GlobalPairs := List (Int × Int)

/-- The state of a `FixedPairListAdress`: the multimap `globalPairs` and the inherited
`PairList` of particle pointers. -/
structure FixedPairListAdress where
  globalPairs : GlobalPairs
  pairs : List (ParticlePtr × ParticlePtr)
deriving DecidableEq, Repr

/-- `FixedPairListAdress::add` (FixedPairListAdress.cpp, lines 33-85). The lookup
`storage->lookupAdrATParticle` (Storage.hpp is not among the sources) is an argument;
`elsewhere` is the number of exceptions that the other ranks bring to the collective
`err.checkException()` of line 57. The scan of lines 70-75 over the entries of the key finds
an existing pair and does nothing with it, so both branches insert. -/
def FixedPairListAdress.add (lookupAdrATParticle : Int → ParticlePtr) (l : FixedPairListAdress)
    (pid1 pid2 : Int) (elsewhere : Nat) :
    Except (String × FixedPairListAdress) (Bool × FixedPairListAdress) :=
  let lo := if pid1 > pid2 then pid2 else pid1
  let hi := if pid1 > pid2 then pid1 else pid2
  let p1 := lookupAdrATParticle lo
  let p2 := lookupAdrATParticle hi
  let returnVal := p1.isSome
  let here :=
    if p1.isNone then []
    else if p2.isNone then
      ["atomistic bond particle p2 does not exists here and cannot be added"]
    else []
  match checkException here elsewhere with
  | .error e => .error (e, l)
  | .ok _ =>
    if returnVal then
      let equalRange := l.globalPairs.filter (fun e => e.1 = lo)
      let globalPairs :=
        if equalRange.isEmpty then (lo, hi) :: l.globalPairs
        else
          let _exists := equalRange.any (fun e => e.2 = hi)
          (lo, hi) :: l.globalPairs
      .ok (true, { pairs := l.pairs ++ [(p1, p2)], globalPairs := globalPairs })
    else .ok (false, l)

/-- A lookup of atomistic particles in which every id resolves. -/
def allAdrAT : Int → ParticlePtr := fun i => some ⟨i, 0, 0, 1, false⟩

/-- The read counter `i` of `afterRecvParticles` (lines 382-398) when the loop
`while (i < size)` ends: a round reads `pid2` and `n` and then three integers for each of the
`n` partner triples. A read past the end of `received` has no defined value in the source; it
yields 0 here, and the counter is past `size` whatever the value. Every round advances the
counter by at least two, so `received.length` rounds are enough. -/
def recvCounter (received : List Int) : Nat → Nat → Nat
  | 0, i => i
  | fuel + 1, i =>
    if i < received.length then
      let n := received.getD (i + 1) 0
      recvCounter received fuel (i + 2 + 3 * n.toNat)
    else i

/-- The ids of a list in the order of their first occurrence. -/
def firstOccurrences : List Int → List Int
  | [] => []
  | x :: xs => x :: (firstOccurrences xs).filter (fun y => ¬ y = x)

/-- The block of one particle id in the migration stream, as the specification words it: when
the id owns `n > 0` stored entries, the id, then `n`, then the members `(p1, p3, p4)` of each
of the entries; an id that owns no entry contributes nothing. -/
def specBlock (pid : Int) (owned : List (Int × Triple)) : List Int :=
  if 0 < owned.length then
    pid :: (owned.length : Int) ::
      owned.flatMap (fun e => [e.2.first, e.2.second, e.2.third])
  else []

/-- The migration stream as the specification words it: the blocks of the particle ids of
`pl`, in the order of `pl`, each id once. -/
def specStream (g : GlobalQuadruples) (pl : ParticleList) : List Int :=
  (firstOccurrences (pl.map Particle.id)).flatMap (fun pid => specBlock pid (g.equal_range pid))

/-- The entries that travel in the migration stream, in the order of the stream. -/
def specStreamEntries (g : GlobalQuadruples) (pl : ParticleList) : List (Int × Triple) :=
  (firstOccurrences (pl.map Particle.id)).flatMap (fun pid => g.equal_range pid)

/-- `FixedQuadrupleList::remove` (lines 223-253): the first loop erases the entries of the key
`pid2` with the value `(pid1, pid3, pid4)`, the second loop then erases the entries of the key
`pid3` with the value `(pid4, pid2, pid1)`; each erased entry fires `onTupleRemoved`. -/
def FixedQuadrupleList.remove (l : FixedQuadrupleList) (pid1 pid2 pid3 pid4 : Int) :
    Bool × FixedQuadrupleList :=
  let hit := l.globalQuadruples.filter (fun e => e.1 = pid2 ∧ e.2 = ⟨pid1, pid3, pid4⟩)
  let g1 := l.globalQuadruples.filter (fun e => ¬ (e.1 = pid2 ∧ e.2 = ⟨pid1, pid3, pid4⟩))
  let hit_rev := g1.filter (fun e => e.1 = pid3 ∧ e.2 = ⟨pid4, pid2, pid1⟩)
  let g2 := g1.filter (fun e => ¬ (e.1 = pid3 ∧ e.2 = ⟨pid4, pid2, pid1⟩))
  (!hit.isEmpty || !hit_rev.isEmpty,
   { l with
     globalQuadruples := g2
     onTupleRemoved := l.onTupleRemoved ++ hit.map (fun _ => (pid1, pid2, pid3, pid4))
       ++ hit_rev.map (fun _ => (pid4, pid3, pid2, pid1)) })

/-- The members `a` and `b` stand next to each other, in either order, in the sequence of
members `q`. -/
def consecutiveMembers (q : List Int) (a b : Int) : Prop :=
  ∃ i : Nat, (q.get? i = some a ∧ q.get? (i + 1) = some b) ∨
    (q.get? i = some b ∧ q.get? (i + 1) = some a)

/-- The quadruple `(q1, q2, q3, q4)` that a stored entry records. -/
def quadOf (e : Int × Triple) : Quad := (e.2.first, e.1, e.2.second, e.2.third)

/-- The loop of `onParticlesChanged` (lines 418-457) over the entries of the multimap, with
the variables `lastpid2` and `p2`, the active list and the messages handed to
`err.setException`. Every entry is added to the active list (line 456), with a null pointer
for a member that does not resolve. The pointer `p2` has no value before the first lookup (an
entry whose key equals the initial `lastpid2 = -1` would use it); it is null here. -/
def changedLoop (st : Storage) :
    List (Int × Triple) → Int → ParticlePtr →
    List (ParticlePtr × ParticlePtr × ParticlePtr × ParticlePtr) → List String →
    List (ParticlePtr × ParticlePtr × ParticlePtr × ParticlePtr) × List String
  | [], _, _, acc, err => (acc, err)
  | e :: es, lastpid2, p2, acc, err =>
    let p2new := if e.1 ≠ lastpid2 then st.lookupRealParticle e.1 else p2
    let err1 :=
      if e.1 ≠ lastpid2 ∧ p2new.isNone then
        err ++ ["quadruple particle p2 does not exists here"]
      else err
    let p1 := st.lookupLocalParticle e.2.first
    let err2 := if p1.isNone then err1 ++ ["quadruple particle p1 does not exists here"] else err1
    let p3 := st.lookupLocalParticle e.2.second
    let err3 := if p3.isNone then err2 ++ ["quadruple particle p3 does not exists here"] else err2
    let p4 := st.lookupLocalParticle e.2.third
    let err4 := if p4.isNone then err3 ++ ["quadruple particle p4 does not exists here"] else err3
    changedLoop st es e.1 p2new (acc ++ [(p1, p2new, p3, p4)]) err4

/-- `FixedQuadrupleList::onParticlesChanged` (lines 405-459): the list after the call and the
messages that `err` holds when the function returns. The function has no call of
`err.checkException()`. -/
def FixedQuadrupleList.onParticlesChanged (st : Storage) (l : FixedQuadrupleList) :
    FixedQuadrupleList × List String :=
  let r := changedLoop st l.globalQuadruples (-1) none [] []
  ({ l with quadruples := r.1 }, r.2)

/-! ### TopologyManager : neighbours at registered distances -/

/-- The members `max_nb_distance_` and `nb_distances_` of the topology manager: the largest
registered neighbour level and the set of registered levels. -/
structure NbDistances where
  max_nb_distance_ : Int
  nb_distances_ : PidSet
deriving DecidableEq, Repr

/-- The values that the constructor leaves (line 121): `max_nb_distance_ = 0` and an empty
set. -/
def NbDistances.new : NbDistances := { max_nb_distance_ := 0, nb_distances_ := [] }

/-- `TopologyManager::registerNeighbourPropertyChange` (lines 1168-1175), on the two members
that `getNodesAtDistances` reads; the rule itself goes to `distance_type_pp_`. -/
def registerNeighbourPropertyChange (r : NbDistances) (nb_level : Int) : NbDistances :=
  { max_nb_distance_ := max r.max_nb_distance_ nb_level
    nb_distances_ := PidSet.insert r.nb_distances_ nb_level }

/-- The variables of the loop of `getNodesAtDistances`. -/
structure DistState where
  visitedDistance : AMap Int
  Q : List Int
  nb_at_distance : List Int
deriving DecidableEq, Repr

/-- The body of the loop over the neighbours of the current node (lines 1014-1027). -/
def distVisit (r : NbDistances) (root new_distance : Int) (acc : DistState) (node : Int) :
    DistState :=
  if acc.visitedDistance.count node = 0 then
    { nb_at_distance :=
        if PidSet.count r.nb_distances_ new_distance = 1 then
          acc.nb_at_distance ++ [root, new_distance, node]
        else acc.nb_at_distance
      Q := if new_distance < r.max_nb_distance_ then acc.Q ++ [node] else acc.Q
      visitedDistance := acc.visitedDistance.insert node new_distance }
  else acc

/-- One round of the loop `while (!Q.empty())` of `getNodesAtDistances` (lines 1009-1030). -/
def distRound (graph : GraphMap) (r : NbDistances) (root : Int) (acc : DistState) : DistState :=
  match acc.Q with
  | [] => acc
  | current :: _ =>
    let new_distance := (acc.visitedDistance.get current).getD 0 + 1
    let acc1 :=
      if graph.count current = 1 then
        (graph.adj current).foldl (distVisit r root new_distance) acc
      else acc
    { acc1 with Q := acc1.Q.tail }

/-- The loop `while (!Q.empty())` of `getNodesAtDistances` with a bound on the rounds. -/
def distLoop (graph : GraphMap) (r : NbDistances) (root : Int) : Nat → DistState → DistState
  | 0, acc => acc
  | fuel + 1, acc =>
    match acc.Q with
    | [] => acc
    | _ :: _ => distLoop graph r root fuel (distRound graph r root acc)

/-- The state in which the loop of `getNodesAtDistances` ends. A node enters the queue at most
once, so the fuel of `plainBFS` is enough. -/
def getNodesAtDistancesState (graph : GraphMap) (r : NbDistances) (root : Int) : DistState :=
  distLoop graph r root (bfsFuel graph)
    { visitedDistance := [(root, 0)], Q := [root], nb_at_distance := [] }

/-- `TopologyManager::getNodesAtDistances` (lines 1000-1032). -/
def getNodesAtDistances (graph : GraphMap) (r : NbDistances) (root : Int) : List Int :=
  (getNodesAtDistancesState graph r root).nb_at_distance

/-- `TopologyManager::invokeNeighbourPropertyChange` (lines 1188-1196). -/
def TopologyManager.invokeNeighbourPropertyChange (s : TopologyManager) (r : NbDistances)
    (root : Particle) : TopologyManager :=
  { s with
    nb_distance_particles_ := s.nb_distance_particles_ ++ getNodesAtDistances s.graph_ r root.id
    is_dirty_ := true }

/-- A walk of `n` edges from `a` to `b` in the graph. -/
def Walk (g : GraphMap) : Nat → Int → Int → Prop
  | 0, a, b => a = b
  | n + 1, a, b => ∃ c, Walk g n a c ∧ b ∈ g.adj c

/-- The shortest-path distance from `a` to `b` is `d`: a walk of `d` edges joins them and no
shorter one does. -/
def IsDist (g : GraphMap) (a b : Int) (d : Nat) : Prop :=
  Walk g d a b ∧ ∀ k, k < d → ¬ Walk g k a b

/-- The neighbour levels 1 and 2 registered on a new manager. -/
def twoLevels : NbDistances :=
  registerNeighbourPropertyChange (registerNeighbourPropertyChange NbDistances.new 1) 2

/-- The integers of a list of triples `(root, distance, particle)`, as they are pushed to a
vector. -/
def tripleInts (ts : List (Int × Int × Int)) : List Int :=
  ts.flatMap (fun t => [t.1, t.2.1, t.2.2])

/-- The distance recorded for a node in `visitedDistance` (0 when there is none, as
`operator[]` gives). -/
def level (v : AMap Int) (u : Int) : Int := (v.get u).getD 0

/-- The invariant of the loop of `getNodesAtDistances`, with `ts` the triples written so far:
recorded distances are shortest distances; the queue holds visited nodes that are to be
expanded, in the order of their distances, which differ by at most one; a visited node that is
to be expanded and has left the queue has all its neighbours visited; every node at most as
far as the head of the queue is visited; the output holds one triple for each visited node
other than the root whose distance is registered. -/
structure DistInv (g : GraphMap) (r : NbDistances) (root : Int) (st : DistState)
    (ts : List (Int × Int × Int)) : Prop where
  root_vis : st.visitedDistance.get root = some 0
  dist_ok : ∀ u k, st.visitedDistance.get u = some k →
    ∃ n : Nat, k = (n : Int) ∧ IsDist g root u n
  queue_vis : ∀ u ∈ st.Q, ∃ k, st.visitedDistance.get u = some k ∧
    (u = root ∨ k < r.max_nb_distance_)
  queue_sorted : st.Q.Pairwise
    (fun a b => level st.visitedDistance a ≤ level st.visitedDistance b)
  queue_near : ∀ c rest, st.Q = c :: rest →
    ∀ u ∈ rest, level st.visitedDistance u ≤ level st.visitedDistance c + 1
  processed : ∀ u k, st.visitedDistance.get u = some k → (u = root ∨ k < r.max_nb_distance_) →
    u ∉ st.Q → ∀ w ∈ g.adj u, (st.visitedDistance.get w).isSome
  complete : ∀ c rest, st.Q = c :: rest → ∀ w n, IsDist g root w n →
    (n : Int) ≤ level st.visitedDistance c → (st.visitedDistance.get w).isSome
  out_eq : st.nb_at_distance = tripleInts ts
  out_nodup : (ts.map (fun t => t.2.2)).Nodup
  out_mem : ∀ t, t ∈ ts ↔ t.1 = root ∧ t.2.2 ≠ root ∧
    st.visitedDistance.get t.2.2 = some t.2.1 ∧ t.2.1 ∈ r.nb_distances_

/-- The two members after `registerNeighbourPropertyChange` has been called on a new manager
with each of the levels, in turn. -/
def registerLevels (levels : List Int) : NbDistances :=
  levels.foldl registerNeighbourPropertyChange NbDistances.new

/-- A pending state as the calls of `invokeNeighbourPropertyChange` for the particles `roots`
leave it. -/
def TopologyManager.invokeAll (s : TopologyManager) (r : NbDistances) (roots : List Particle) :
    TopologyManager :=
  roots.foldl (fun t p => t.invokeNeighbourPropertyChange r p) s

/-- The triples that the calls of `getNodesAtDistances` for the particles `roots` return, in
the order of the calls. -/
def queuedTriples (g : GraphMap) (r : NbDistances) (roots : List Particle) :
    List (Int × Int × Int) :=
  roots.flatMap (fun p => triplesOf (getNodesAtDistances g r p.id))

/-- A pending state on the chain 1-2, 2-3, 3-4 with two new edges, one removed edge and one
property-change id queued, before any distance update is queued. -/
def chainPending : TopologyManager :=
  { TopologyManager.new with
    graph_ := chainGraph
    newEdges_ := [(5, 3), (1, 2)], removedEdges_ := [(8, 7)]
    new_local_particle_properties_ := [4] }

/-- A rule that applies to the states 0 and 1 only and sets the state to 9. -/
def lowStateRule : TopologyParticleProperties :=
  { type_id_ := 0, state_ := 9, res_id_ := 0, incr_state_ := 0, change_flag_ := 8,
    condition_ := true, min_state_ := 0, max_state_ := 2 }

/-- A storage in which every id resolves to a real particle of type 0 in the state 5. -/
def stateFiveStorage : Storage where
  lookupLocalParticle := fun i => some ⟨i, 0, 5, 1, false⟩
  lookupRealParticle := fun i => some ⟨i, 0, 5, 1, false⟩

/-- A rank with the storage `stateFiveStorage` on which `lowStateRule` is registered for the
type 0 at the distance 1. -/
def stateFiveLocal : Local Unit Unit :=
  { plainLocal with storage := stateFiveStorage, distance_type_pp_ := [(1, [(0, lowStateRule)])] }

/-! ### TopologyManager : queries on the id maps -/

/-- The read `m[k]` of a `std::map<longint, longint>`: the mapped value; when the key is
absent, `operator[]` inserts it with the value-initialised value 0 and returns that. -/
def AMap.index (m : AMap Int) (k : Int) : Int × AMap Int :=
  match m.get k with
  | some v => (v, m)
  | none => (0, m ++ [(k, 0)])

/-- `TopologyManager::isResiduesConnected` (lines 1267-1272): the answer and the state after
the call. -/
def TopologyManager.isResiduesConnected (s : TopologyManager) (pid1 pid2 : Int) :
    Bool × TopologyManager :=
  let r1 := s.pid_rid.index pid1
  let r2 := r1.2.index pid2
  let rid1 := r1.1
  let rid2 := r2.1
  let ret := decide (s.res_graph_.count rid1 = 1) &&
    decide (PidSet.count (s.res_graph_.adj rid1) rid2 = 1)
  (ret, { s with pid_rid := r2.2 })

/-- `TopologyManager::isSameResidues` (lines 1274-1276): the answer and the state after the
call. -/
def TopologyManager.isSameResidues (s : TopologyManager) (pid1 pid2 : Int) :
    Bool × TopologyManager :=
  let r1 := s.pid_rid.index pid1
  let r2 := r1.2.index pid2
  (decide (r1.1 = r2.1), { s with pid_rid := r2.2 })

/-- `TopologyManager::isSameMolecule` (lines 1278-1280): the answer and the state after the
call. -/
def TopologyManager.isSameMolecule (s : TopologyManager) (pid1 pid2 : Int) :
    Bool × TopologyManager :=
  let r1 := s.pid_mid.index pid1
  let r2 := r1.2.index pid2
  (decide (r1.1 = r2.1), { s with pid_mid := r2.2 })

/-! ### Two ranks of one run -/

/-- The six replicated structures of two states are equal: `graph_`, `res_graph_`,
`residues_`, `molecules_`, `pid_rid` and `pid_mid`. -/
def sameStructures (s t : TopologyManager) : Prop :=
  s.graph_ = t.graph_ ∧ s.res_graph_ = t.res_graph_ ∧ s.residues_ = t.residues_ ∧
  s.molecules_ = t.molecules_ ∧ s.pid_rid = t.pid_rid ∧ s.pid_mid = t.pid_mid

/-- What one rank does on its own between two collective calls: it changes its queued edits
and its dirty flag (the hooks `onTupleAdded` and `onTupleRemoved` and the registrations do
nothing else), or it answers one of the three queries on the id maps. -/
def localStep (s s' : TopologyManager) : Prop :=
  (∃ p : TopologyManager, s' = s.setPending p) ∨
  (∃ pid1 pid2 : Int, s' = (s.isResiduesConnected pid1 pid2).2 ∨
    s' = (s.isSameResidues pid1 pid2).2 ∨ s' = (s.isSameMolecule pid1 pid2).2)

/-- The states of two ranks of one run. `newEdge` and `deleteEdge` are called from
`initializeTopology` (line 321) and from `exchangeData` (lines 720 and 724) only, and both are
collective: the two ranks start from `initializeTopology` on the same gathered vectors, go
through `exchangeData` together, on the same outcome of the `all_reduce` and the same gathered
payload (each with its own storage, tuple lists and first gather), and in between each of
them takes local steps. -/
inductive SameRun : TopologyManager → TopologyManager → Prop
  | init (s0 t0 s t : TopologyManager) (ranks : List (EdgesVector × EdgesVector)) :
      s0.initializeTopology ranks = .ok s → t0.initializeTopology ranks = .ok t → SameRun s t
  | exchange {P T P' T' : Type} (ops : ListOps P T) (ops' : ListOps P' T')
      (loc loc1 : Local P T) (loc' loc1' : Local P' T') (s t s1 t1 : TopologyManager)
      (global_is_dirty : Bool) (roots roots' gathered : List (List Int)) :
      SameRun s t →
      s.exchangeData ops loc global_is_dirty roots gathered = .ok (loc1, s1) →
      t.exchangeData ops' loc' global_is_dirty roots' gathered = .ok (loc1', t1) →
      SameRun s1 t1
  | left (s s' t : TopologyManager) : SameRun s t → localStep s s' → SameRun s' t
  | right (s t t' : TopologyManager) : SameRun s t → localStep t t' → SameRun s t'

/-- Two id maps agree up to the entries that a read with `operator[]` inserts: on every key
they hold the same value, or one holds nothing and the other the value-initialised 0. -/
def idMapsAgree (m m' : AMap Int) : Prop :=
  ∀ k, m.get k = m'.get k ∨ (m.get k = none ∧ m'.get k = some 0) ∨
    (m.get k = some 0 ∧ m'.get k = none)

/-- What two ranks of one run share whatever their local steps were: the four graph maps, the
counter, and the id maps up to the entries inserted by reads. -/
def sameCollective (s t : TopologyManager) : Prop :=
  s.graph_ = t.graph_ ∧ s.res_graph_ = t.res_graph_ ∧ s.residues_ = t.residues_ ∧
  s.molecules_ = t.molecules_ ∧ s.max_mol_id_ = t.max_mol_id_ ∧
  idMapsAgree s.pid_rid t.pid_rid ∧ idMapsAgree s.pid_mid t.pid_mid

/-- A graph map is symmetric: every neighbour set entry has its mirror entry. -/
def GraphMap.isSymmetric (g : GraphMap) : Prop :=
  ∀ x y, y ∈ g.adj x → x ∈ g.adj y

/-- The invariant of the loop of `plainBFS` on the recorded neighbour sets: a recorded
entry is an edge of the graph in one of the two directions, and a visited node that has left
the queue has all its neighbours recorded. -/
structure BFSAdjInv (g : GraphMap) (st : BFSState) : Prop where
  sound : ∀ x y, y ∈ st.ret.adj x → y ∈ g.adj x ∨ x ∈ g.adj y
  complete : ∀ v ∈ st.visited, v ∉ st.Q → ∀ w ∈ g.adj v, w ∈ st.ret.adj v

/-- The reversal `(c, b, a)` of an angle `(a, b, c)`. -/
def revTriplet (t : Triplets) : Triplets := (t.2.2, t.2.1, t.1)

/-- The reversal `(d, c, b, a)` of a dihedral `(a, b, c, d)`. -/
def revQuadruplet (q : Quadruplets) : Quadruplets := (q.2.2.2, q.2.2.1, q.2.1, q.1)

/-- A set of dihedrals holds none together with its reversal. -/
def noReversedQuadruplet (qs : List Quadruplets) : Prop :=
  ∀ q ∈ qs, revQuadruplet q ∈ qs → revQuadruplet q = q

/-- The graph of the chain 1 - 2 - 3. -/
def bentGraph : GraphMap := [(1, [2]), (2, [1, 3]), (3, [2])]

/-! ### ChemicalReaction : React -/

/-- The loop of lines 197-200 of `ChemicalReaction::React` over the reactions that are left,
with the current values of `found` and `reaction_idx_`: the loop runs while reactions are left
and `found` is false; its body assigns `found`, and its increment advances `reaction_idx_`
after every round. `IsValidPair r p1 p2` is the outcome of `IsValidPair` of the reaction `r`
on the pair. -/
def reactionScan {R : Type} (IsValidPair : R → Particle → Particle → Bool) (p1 p2 : Particle) :
    List R → Bool → Nat → Bool × Nat
  | [], found, reaction_idx_ => (found, reaction_idx_)
  | r :: rest, found, reaction_idx_ =>
    if found then (found, reaction_idx_)
    else reactionScan IsValidPair p1 p2 rest (IsValidPair r p1 p2) (reaction_idx_ + 1)

/-- The loop of lines 191-206 of `ChemicalReaction::React` over the pairs of the Verlet list:
the entries `(p1.id, (p2.id, reaction_idx_))` inserted into `potential_pairs_`, in the order
of insertion. -/
def potentialPairs {R : Type} (IsValidPair : R → Particle → Particle → Bool)
    (reaction_list_ : List R) (pairs : List (Particle × Particle)) : List (Int × Int × Nat) :=
  pairs.filterMap (fun pr =>
    let res := reactionScan IsValidPair pr.1 pr.2 reaction_list_ false 0
    if res.1 then some (pr.1.id, pr.2.id, res.2) else none)

/-- The lookup `reaction_list_.at(index)` of `UniqueA` (line 377): `std::vector::at` throws
`std::out_of_range` for an index that is not below the size. -/
def reactionAt {R : Type} (reaction_list_ : List R) (index : Nat) : Except String R :=
  match reaction_list_.get? index with
  | some r => .ok r
  | none => .error "out_of_range"

/-- A reaction that accepts the pairs whose first particle has a given type. -/
def acceptsTypeA (type_a : Int) (p1 _p2 : Particle) : Bool := decide (p1.type = type_a)

/-! ### TopologyManager : hasNeighbourParticleProperty -/

/-- The loop variables of `hasNeighbourParticleProperty`. -/
structure NbPropState where
  visitedDistance : AMap Int
  Q : List Int
  nb_at_distance : PidSet
  new_distance : Int
deriving DecidableEq, Repr

/-- The body of the loop over the neighbours of the current node (lines 1342-1353). -/
def nbPropVisit (depth new_distance : Int) (acc : NbPropState) (node : Int) : NbPropState :=
  if acc.visitedDistance.count node = 0 then
    { acc with
      nb_at_distance :=
        if new_distance = depth then PidSet.insert acc.nb_at_distance node
        else acc.nb_at_distance
      Q := if new_distance < depth then acc.Q ++ [node] else acc.Q
      visitedDistance := acc.visitedDistance.insert node new_distance }
  else acc

/-- One round of the loop `while (!Q.empty() && new_distance < depth)` (lines 1337-1357). -/
def nbPropRound (graph : GraphMap) (depth : Int) (acc : NbPropState) : NbPropState :=
  match acc.Q with
  | [] => acc
  | current :: _ =>
    let idx := acc.visitedDistance.index current
    let new_distance := idx.1 + 1
    let acc0 : NbPropState := { acc with visitedDistance := idx.2, new_distance := new_distance }
    let acc1 :=
      if graph.count current = 1 then
        (graph.adj current).foldl (nbPropVisit depth new_distance) acc0
      else acc0
    { acc1 with Q := acc1.Q.tail }

/-- The loop `while (!Q.empty() && new_distance < depth)` with a bound on the rounds. -/
def nbPropLoop (graph : GraphMap) (depth : Int) : Nat → NbPropState → NbPropState
  | 0, acc => acc
  | fuel + 1, acc =>
    match acc.Q with
    | [] => acc
    | _ :: _ =>
      if acc.new_distance < depth then nbPropLoop graph depth fuel (nbPropRound graph depth acc)
      else acc

/-- The state in which the loop of `hasNeighbourParticleProperty` ends; a node enters the
queue at most once, so the fuel of `plainBFS` is enough. -/
def hasNeighbourParticlePropertyState (graph : GraphMap) (root_id depth : Int) : NbPropState :=
  nbPropLoop graph depth (bfsFuel graph)
    { visitedDistance := [(root_id, 0)], Q := [root_id], nb_at_distance := [], new_distance := 0 }

/-- The loop over `nb_at_distance` (lines 1361-1369): `valid` and `counter`. -/
def nbPropCount (st : Storage) (properties : TopologyParticleProperties) :
    List Int → Bool × Int → Bool × Int
  | [], acc => acc
  | pid :: rest, (valid, counter) =>
    match st.lookupRealParticle pid with
    | some p =>
      if p.type = properties.type_id_ then
        nbPropCount st properties rest (valid && properties.isValid p, counter + 1)
      else nbPropCount st properties rest (valid, counter)
    | none => nbPropCount st properties rest (valid, counter)

/-- `TopologyManager::hasNeighbourParticleProperty` (lines 1324-1376). -/
def hasNeighbourParticleProperty (st : Storage) (graph : GraphMap) (root_id : Int)
    (properties : TopologyParticleProperties) (depth : Int) : Bool :=
  let nb_at_distance := (hasNeighbourParticlePropertyState graph root_id depth).nb_at_distance
  if nb_at_distance.length > 0 then
    let r := nbPropCount st properties nb_at_distance (true, 0)
    if r.2 = 0 then false else r.1
  else false

/-- The graph of the two chains 1 - 2 - 4 and 1 - 3 - 5 that share the particle 1. -/
def forkGraph : GraphMap := [(1, [2, 3]), (2, [1, 4]), (3, [1, 5]), (4, [2]), (5, [3])]

/-- A storage in which every id resolves to a real particle in the state 0; the particle 5
has the type 1 and every other particle the type 0. -/
def forkStorage : Storage where
  lookupLocalParticle := fun i => some ⟨i, if i = 5 then 1 else 0, 0, 1, false⟩
  lookupRealParticle := fun i => some ⟨i, if i = 5 then 1 else 0, 0, 1, false⟩

/-- The property of having the type 1 and a state of 0 or 1. -/
def typeOneLowState : TopologyParticleProperties :=
  { type_id_ := 1, state_ := 0, res_id_ := 0, incr_state_ := 0, change_flag_ := 0,
    condition_ := true, min_state_ := 0, max_state_ := 2 }

/-! ### esutil : ESPPIterator -/

/-- Modelled from the spec: `esutil::ESPPIterator` (esutil/ESPPIterator.hpp is not among the
sources; its unit test TestESPPIterator.cpp is). The iterator holds a position in a container
and the end of its range, as the constructor from two STL iterators of the unit test takes
them; positions are indices into the container. -/
structure ESPPIterator (α : Type) where
  container : List α
  stlIt : Nat
  stlEnd : Nat
deriving DecidableEq, Repr

/-- Modelled from the spec: the default constructor. -/
def ESPPIterator.new {α : Type} : ESPPIterator α := { container := [], stlIt := 0, stlEnd := 0 }

/-- Modelled from the spec: the constructor from a container, the range from `begin()` to
`end()`. -/
def ESPPIterator.ofContainer {α : Type} (v : List α) : ESPPIterator α :=
  { container := v, stlIt := 0, stlEnd := v.length }

/-- Modelled from the spec: the constructor from the two ends of a range of a container. -/
def ESPPIterator.ofRange {α : Type} (v : List α) (first last : Nat) : ESPPIterator α :=
  { container := v, stlIt := first, stlEnd := last }

/-- Modelled from the spec: `isValid()`, the position is not the end of the range. -/
def ESPPIterator.isValid {α : Type} (it : ESPPIterator α) : Bool := decide (it.stlIt ≠ it.stlEnd)

/-- Modelled from the spec: `isDone()`. -/
def ESPPIterator.isDone {α : Type} (it : ESPPIterator α) : Bool := !it.isValid

/-- Modelled from the spec: `operator*`, the element at the position; `none` stands for a
position that holds no element of the container. -/
def ESPPIterator.deref {α : Type} (it : ESPPIterator α) : Option α := it.container.get? it.stlIt

/-- Modelled from the spec: `operator++`. -/
def ESPPIterator.next {α : Type} (it : ESPPIterator α) : ESPPIterator α :=
  { it with stlIt := it.stlIt + 1 }

/-- The iterator after `n` increments. -/
def ESPPIterator.advance {α : Type} (it : ESPPIterator α) : Nat → ESPPIterator α
  | 0 => it
  | n + 1 => (it.advance n).next

/-- The loop `for (...; !esppit.isDone(); ++esppit)` of the unit tests, which collects the
elements it reads, with a bound on the rounds. -/
def ESPPIterator.collect {α : Type} : Nat → ESPPIterator α → List α
  | 0, _ => []
  | fuel + 1, it =>
    if it.isDone then []
    else
      match it.deref with
      | some x => x :: ESPPIterator.collect fuel it.next
      | none => []

/-! ### Particle.hpp : the groups of a particle and copyAsGhost

The numbers of type `real` are elements of a type `R` that is a parameter, with the
addition and the multiplication of the machine; `Real3D` and `Int3D` (Real3D.hpp and Int3D.hpp
are not among the sources) are vectors of three components with the componentwise sum. -/

/-- `Real3D`: three components of type `real`. -/
abbrev Real3D (R : Type) := Fin 3 → R

/-- `Int3D`: three components of type `int`. -/
abbrev Int3D := Fin 3 → Int

/-- `struct ParticleProperties` (Particle.hpp lines 42-147). -/
structure ParticleProperties (R : Type) where
  id : Nat
  type : Nat
  mass : R
  q : R
  lambda : R
  drift : R
  lambdaDeriv : R
  state : Int
  res_id : Int
  incr_state : Int
  change_flag : Int

/-- `struct ParticlePosition` (lines 159-177). -/
structure ParticlePosition (R : Type) where
  p : Real3D R
  radius : R
  extVar : R

/-- `struct ParticleForce` (lines 189-213). -/
structure ParticleForce (R : Type) where
  f : Real3D R
  fradius : R

/-- `struct ParticleMomentum` (lines 223-236). -/
structure ParticleMomentum (R : Type) where
  v : Real3D R
  vradius : R

/-- `struct ParticleLocal` (lines 239-255). -/
structure ParticleLocal where
  i : Int3D
  ghost : Bool
  dummy1 : Bool
  dummy2 : Bool
  dummy3 : Bool

/-- `struct Particle` with its five groups `p`, `r`, `m`, `f`, `l`. -/
structure ParticleData (R : Type) where
  p : ParticleProperties R
  r : ParticlePosition R
  m : ParticleMomentum R
  f : ParticleForce R
  l : ParticleLocal

/-- `ExtraDataElements::DATA_PROPERTIES`. -/
def DATA_PROPERTIES : Nat := 1

/-- `ExtraDataElements::DATA_MOMENTUM`. -/
def DATA_MOMENTUM : Nat := 2

/-- `ExtraDataElements::DATA_LOCAL`. -/
def DATA_LOCAL : Nat := 4

/-- `ParticlePosition::copyShifted` (lines 165-167): the call `src.copyShifted(dst, shift)`
returns the new `dst`. -/
def ParticlePosition.copyShifted {R : Type} [Add R] (src dst : ParticlePosition R)
    (shift : Real3D R) : ParticlePosition R :=
  { dst with p := fun k => src.p k + shift k }

/-- `Particle::copyAsGhost` (lines 403-416): the call `dst.copyAsGhost(src, extradata,
shift)` returns the new `dst`. -/
def ParticleData.copyAsGhost {R : Type} [Add R] (dst src : ParticleData R) (extradata : Nat)
    (shift : Real3D R) : ParticleData R :=
  let d1 := { dst with r := src.r.copyShifted dst.r shift }
  let d2 := if extradata &&& DATA_PROPERTIES ≠ 0 then { d1 with p := src.p } else d1
  let d3 := if extradata &&& DATA_MOMENTUM ≠ 0 then { d2 with m := src.m } else d2
  let d4 := if extradata &&& DATA_LOCAL ≠ 0 then { d3 with l := src.l } else d3
  { d4 with l := { d4.l with ghost := true } }

/-- The shift of `doGhostCommunication` (lines 460-461) for the axis `coord` and the side
`lr`: `shift[coord] = nodeGrid.getBoundary(dir) * curCoordBoxL` on a vector of zeros.
NodeGrid.hpp is not among the sources: `getBoundary` is a parameter, with its values as
numbers of type `real`. -/
def ghostShift {R : Type} [Zero R] [Mul R] (getBoundary : Nat → R) (curCoordBoxL : R)
    (coord : Fin 3) (lr : Nat) : Real3D R :=
  let dir := 2 * coord.val + lr
  Function.update (fun _ => (0 : R)) coord (getBoundary dir * curCoordBoxL)

/-! ### DomainDecomposition : the cells of the ghost communication

CellGrid.hpp is not among the sources: the values that `DomainDecomposition` reads from its
`cellGrid` are the fields of a record. A cell, `Cell *` in the source, is the index of the
cell in `cells`. -/

/-- The values read from the `cellGrid`: `getFrameGridSize(i)`, `getInnerCellsBegin(i)`,
`getInnerCellsEnd(i)`, `getFrameWidth()` and `mapPositionToIndex(x, y, z)`. -/
structure CellGrid where
  frameGridSize : Fin 3 → Int
  innerCellsBegin : Fin 3 → Int
  innerCellsEnd : Fin 3 → Int
  frameWidth : Int
  mapPositionToIndex : Int → Int → Int → Int

/-- The values of a loop `for (int k = a; k < b; ++k)`. -/
def intRange (a b : Int) : List Int := (List.range (b - a).toNat).map (fun k => a + (k : Int))

/-- The grid positions that the three nested loops of `fillCells` (lines 368-376) visit, in
the order of the visits. -/
def boxPositions (l0 r0 l1 r1 l2 r2 : Int) : List (Int × Int × Int) :=
  (intRange l0 r0).flatMap (fun o =>
    (intRange l1 r1).flatMap (fun n =>
      (intRange l2 r2).map (fun m => (o, n, m))))

/-- The test of `fillCells` on the boundaries of one axis (lines 361-363). -/
def wrongBoundary (g : CellGrid) (leftBoundary rightBoundary : Fin 3 → Int) (i : Fin 3) : Bool :=
  decide (leftBoundary i < 0) || decide (leftBoundary i > g.frameGridSize i) ||
  decide (rightBoundary i < 0) || decide (rightBoundary i > g.frameGridSize i) ||
  decide (leftBoundary i ≥ rightBoundary i)

/-- `DomainDecomposition::fillCells` (lines 350-380): the vector `cv` after the call. -/
def fillCells (g : CellGrid) (cv : List Int) (leftBoundary rightBoundary : Fin 3 → Int) :
    Except String (List Int) :=
  if wrongBoundary g leftBoundary rightBoundary 0 || wrongBoundary g leftBoundary rightBoundary 1
      || wrongBoundary g leftBoundary rightBoundary 2 then
    .error "DomainDecomposition::fillCells: wrong cell grid specified internally"
  else
    .ok (cv ++ (boxPositions (leftBoundary 0) (rightBoundary 0) (leftBoundary 1)
      (rightBoundary 1) (leftBoundary 2) (rightBoundary 2)).map
        (fun c => g.mapPositionToIndex c.1 c.2.1 c.2.2))

/-- An entry of `commCells`: the real cells sent and the ghost cells received in one
direction. -/
structure CommCells where
  reals : List Int
  ghosts : List Int
deriving DecidableEq, Repr

/-- The boundaries on the axes other than `coord` (lines 394-403): the whole frame on an axis
that was done before, the inner cells otherwise. The entry of `coord` itself is assigned
before every use. -/
def otherBoundaries (g : CellGrid) (coord : Fin 3) : (Fin 3 → Int) × (Fin 3 → Int) :=
  (fun otherCoord => if otherCoord < coord then 0 else g.innerCellsBegin otherCoord,
   fun otherCoord =>
     if otherCoord < coord then g.frameGridSize otherCoord else g.innerCellsEnd otherCoord)

/-- The boundaries of the real cells of the direction `2 * coord + lr` (lines 412-418). -/
def realsBoundaries (g : CellGrid) (coord : Fin 3) (lr : Nat) :
    (Fin 3 → Int) × (Fin 3 → Int) :=
  let b := otherBoundaries g coord
  (Function.update b.1 coord
    (if lr = 0 then g.innerCellsBegin coord else g.innerCellsEnd coord - g.frameWidth),
   Function.update b.2 coord
    (if lr = 0 then g.innerCellsBegin coord + g.frameWidth else g.innerCellsEnd coord))

/-- The boundaries of the ghost cells of the direction `2 * coord + lr` (lines 424-430). -/
def ghostsBoundaries (g : CellGrid) (coord : Fin 3) (lr : Nat) :
    (Fin 3 → Int) × (Fin 3 → Int) :=
  let b := otherBoundaries g coord
  (Function.update b.1 coord
    (if lr = 0 then g.innerCellsEnd coord else g.innerCellsBegin coord - g.frameWidth),
   Function.update b.2 coord
    (if lr = 0 then g.innerCellsEnd coord + g.frameWidth else g.innerCellsBegin coord))

/-- The body of the loop over `lr` of `prepareGhostCommunication` (lines 406-432) for the
direction `2 * coord + lr`, on the entry of `commCells` for that direction. -/
def prepareDirection (g : CellGrid) (coord : Fin 3) (lr : Nat) (c : CommCells) :
    Except String CommCells :=
  match fillCells g c.reals (realsBoundaries g coord lr).1 (realsBoundaries g coord lr).2 with
  | .error e => .error e
  | .ok reals =>
    match fillCells g c.ghosts (ghostsBoundaries g coord lr).1
        (ghostsBoundaries g coord lr).2 with
    | .error e => .error e
    | .ok ghosts => .ok { reals := reals, ghosts := ghosts }

/-- The grid positions between the boundaries `b`, in the order of the loops of
`fillCells`. -/
def cellsBetween (b : (Fin 3 → Int) × (Fin 3 → Int)) : List (Int × Int × Int) :=
  boxPositions (b.1 0) (b.2 0) (b.1 1) (b.2 1) (b.1 2) (b.2 2)

/-- The two nested loops of `prepareGhostCommunication` over the directions that are left. -/
def prepareLoop (g : CellGrid) : List (Fin 3 × Nat) → List CommCells →
    Except String (List CommCells)
  | [], commCells => .ok commCells
  | (coord, lr) :: rest, commCells =>
    let dir := 2 * coord.val + lr
    match prepareDirection g coord lr (commCells.getD dir { reals := [], ghosts := [] }) with
    | .error e => .error e
    | .ok c => prepareLoop g rest (commCells.set dir c)

/-- `DomainDecomposition::prepareGhostCommunication` (lines 382-434) on the array
`commCells` of six entries. -/
def prepareGhostCommunication (g : CellGrid) (commCells : List CommCells) :
    Except String (List CommCells) :=
  prepareLoop g [(0, 0), (0, 1), (1, 0), (1, 1), (2, 0), (2, 1)] commCells

/-- The array `commCells` of a new `DomainDecomposition`: six entries without cells. -/
def emptyCommCells : List CommCells := List.replicate 6 { reals := [], ghosts := [] }

/-- The test of the local-copy branch of `doGhostCommunication` (lines 468-471). -/
def localCopyCheck (c : CommCells) : Except String Unit :=
  if c.ghosts.length ≠ c.reals.length then
    .error "DomainDecomposition::doGhostCommunication: send/recv cell structure mismatch during local copy"
  else .ok ()

/-- The grid position `c` moved by `s` cells along the axis `coord`. -/
def translateCell (coord : Fin 3) (s : Int) (c : Int × Int × Int) : Int × Int × Int :=
  if coord = 0 then (c.1 + s, c.2.1, c.2.2)
  else if coord = 1 then (c.1, c.2.1 + s, c.2.2)
  else (c.1, c.2.1, c.2.2 + s)

/-- A cell grid with `n` inner cells on every axis inside a frame of the width `w`, with the
cells indexed row by row. -/
def cubeGrid (n w : Int) : CellGrid :=
  { frameGridSize := fun _ => n + 2 * w
    innerCellsBegin := fun _ => w
    innerCellsEnd := fun _ => n + w
    frameWidth := w
    mapPositionToIndex := fun x y z => x + (n + 2 * w) * (y + (n + 2 * w) * z) }

/-! ### DomainDecomposition : resortRealParticles

One pass of the loop over the real cells for an axis with more than one node (lines
219-258). The map `localParticles` from ids to particle pointers is not part of the
embedding. -/

/-- Modelled from the spec: `Storage::moveIndexedParticle(dl, sl, i)` (Storage.cpp is not
among the sources; a cell holds an unordered list of particles). The particle at the index
`i` of `sl` is appended to `dl`; in `sl` the last particle takes its place and the list
gets shorter by one. The result is the pair of the new `dl` and the new `sl`. -/
def moveIndexedParticle {P : Type} (dl sl : List P) (i : Nat) : List P × List P :=
  match sl.get? i, sl.getLast? with
  | some x, some last => (dl ++ [x], (sl.set i last).dropLast)
  | _, _ => (dl, sl)

/-- What the pass reads besides the particles: `cellGrid.getMyLeft(coord)`,
`cellGrid.getMyRight(coord)`, the constant `ROUND_ERROR_PREC`, `mapPositionToCellChecked`
(the index of the cell of a position, `none` for the null pointer), `isnan` and the vector
`realCells` of the indices of the real cells. -/
structure ResortEnv (R : Type) where
  myLeft : Fin 3 → R
  myRight : Fin 3 → R
  ROUND_ERROR_PREC : R
  mapPositionToCellChecked : Real3D R → Option Nat
  isnan : R → Bool
  realCells : List Nat

/-- The variables that the pass changes: the particle lists of the cells, the two send
buffers and `finished`. -/
structure ResortState (R : Type) where
  cells : List (List (ParticleData R))
  sendBufL : List (ParticleData R)
  sendBufR : List (ParticleData R)
  finished : Int

/-- The test of line 226: `part.r.p[coord] - cellGrid.getMyLeft(coord) < -ROUND_ERROR_PREC`. -/
def sendsLeft {R : Type} [Sub R] [Neg R] [LT R] [DecidableRel (fun a b : R => a < b)]
    (env : ResortEnv R) (coord : Fin 3) (part : ParticleData R) : Bool :=
  decide (part.r.p coord - env.myLeft coord < - env.ROUND_ERROR_PREC)

/-- The test of line 232: `part.r.p[coord] - cellGrid.getMyRight(coord) >= ROUND_ERROR_PREC`. -/
def sendsRight {R : Type} [Sub R] [LE R] [DecidableRel (fun a b : R => a ≤ b)]
    (env : ResortEnv R) (coord : Fin 3) (part : ParticleData R) : Bool :=
  decide (env.ROUND_ERROR_PREC ≤ part.r.p coord - env.myRight coord)

/-- The loop over the index `p` of the particles of the real cell `c` (lines 224-257), from
the current `p` on, with a bound on the rounds. A round that takes the particle out of the
cell repeats the index (`--p` before the `++p` of the loop). -/
def resortCell {R : Type} [Sub R] [Neg R] [LT R] [LE R] [DecidableRel (fun a b : R => a < b)]
    [DecidableRel (fun a b : R => a ≤ b)] (env : ResortEnv R) (coord : Fin 3) (c : Nat) :
    Nat → Nat → ResortState R → ResortState R
  | 0, _, st => st
  | fuel + 1, p, st =>
    match (st.cells.getD c []).get? p with
    | none => st
    | some part =>
      if sendsLeft env coord part then
        let mv := moveIndexedParticle st.sendBufL (st.cells.getD c []) p
        resortCell env coord c fuel p { st with sendBufL := mv.1, cells := st.cells.set c mv.2 }
      else if sendsRight env coord part then
        let mv := moveIndexedParticle st.sendBufR (st.cells.getD c []) p
        resortCell env coord c fuel p { st with sendBufR := mv.1, cells := st.cells.set c mv.2 }
      else if coord = 2 then
        match env.mapPositionToCellChecked part.r.p with
        | none =>
          let st1 :=
            if env.isnan (part.r.p 0) || env.isnan (part.r.p 1) || env.isnan (part.r.p 2) then st
            else { st with finished := 0 }
          resortCell env coord c fuel (p + 1) st1
        | some sortCell =>
          if sortCell ≠ c then
            let mv := moveIndexedParticle (st.cells.getD sortCell []) (st.cells.getD c []) p
            resortCell env coord c fuel p
              { st with cells := (st.cells.set c mv.2).set sortCell mv.1 }
          else resortCell env coord c fuel (p + 1) st
      else resortCell env coord c fuel (p + 1) st

/-- The loop over the real cells (lines 219-258) of one axis with more than one node. Every
round of the loop over `p` moves the index forward or makes the cell shorter, so the number of
the particles of the cell is a bound on its rounds. -/
def resortAxisPass {R : Type} [Sub R] [Neg R] [LT R] [LE R]
    [DecidableRel (fun a b : R => a < b)] [DecidableRel (fun a b : R => a ≤ b)]
    (env : ResortEnv R) (coord : Fin 3) (st : ResortState R) : ResortState R :=
  env.realCells.foldl
    (fun st c => resortCell env coord c (st.cells.getD c []).length 0 st) st

/-- The particles of the cells `rest` that satisfy `q`. -/
def pendingParticles {P : Type} (q : P → Bool) (rest : List Nat) (cells : List (List P)) :
    List P :=
  rest.flatMap (fun k => (cells.getD k []).filter q)

/-- The particles of the real cells. -/
def realParticles {R : Type} (env : ResortEnv R) (st : ResortState R) : List (ParticleData R) :=
  env.realCells.flatMap (fun c => st.cells.getD c [])

/-- All the particles of a state: those of the cells and of the two send buffers. -/
def ResortState.allParticles {R : Type} (st : ResortState R) : List (ParticleData R) :=
  st.cells.flatten ++ st.sendBufL ++ st.sendBufR

/-- A particle with the given id and position, at rest, with integer coordinates. -/
def particleAt (id : Nat) (x y z : Int) : ParticleData Int :=
  { p := { id := id, type := 0, mass := 1, q := 0, lambda := 0, drift := 0, lambdaDeriv := 0,
           state := 0, res_id := 0, incr_state := 0, change_flag := 0 }
    r := { p := fun k => if k = 0 then x else if k = 1 then y else z, radius := 1, extVar := 0 }
    m := { v := fun _ => 0, vradius := 0 }
    f := { f := fun _ => 0, fradius := 0 }
    l := { i := fun _ => 0, ghost := false, dummy1 := false, dummy2 := false,
           dummy3 := false } }

/-- A slab from 0 to 10 on every axis with the two real cells 1 and 2, which halve the slab
along the last axis, and the `ROUND_ERROR_PREC` 0. -/
def slabEnv : ResortEnv Int :=
  { myLeft := fun _ => 0
    myRight := fun _ => 10
    ROUND_ERROR_PREC := 0
    mapPositionToCellChecked := fun pos =>
      if 0 ≤ pos 2 ∧ pos 2 < 5 then some 1
      else if 5 ≤ pos 2 ∧ pos 2 < 10 then some 2
      else none
    isnan := fun _ => false
    realCells := [1, 2] }

/-- Three cells, the first of them a ghost cell; the real cell 1 holds four particles: 1 is
left of the slab along the first axis, 2 is right of it, 3 belongs to the cell 2, and 4 is in
its cell. -/
def slabState : ResortState Int :=
  { cells := [[], [particleAt 1 (-1) 3 2, particleAt 2 12 3 2, particleAt 3 3 3 7,
      particleAt 4 3 3 2], []]
    sendBufL := []
    sendBufR := []
    finished := 1 }

/-- The ids of the particles of the cells and of the two send buffers of a state. -/
def ResortState.ids {R : Type} (st : ResortState R) : List (List Nat) × List Nat × List Nat :=
  (st.cells.map (fun cell => cell.map (fun x => x.p.id)),
   st.sendBufL.map (fun x => x.p.id), st.sendBufR.map (fun x => x.p.id))

/-! ## Part II. Theorems -/


/-! ### Migration of quadruples -/

theorem filter_or_perm {α : Type} (p q : α → Bool) (l : List α) :
    List.Perm (l.filter (fun e => p e || q e))
      (l.filter p ++ l.filter (fun e => !p e && q e)) := by
  induction l with
  | nil => simp
  | cons a l ih =>
    by_cases hp : p a = true
    · simp only [List.filter_cons, hp, Bool.true_or, if_true, Bool.not_true, Bool.false_and,
        Bool.false_eq_true, if_false, List.cons_append]
      exact List.Perm.cons a ih
    · have hp' : p a = false := by simpa using hp
      by_cases hq : q a = true
      · simp only [List.filter_cons, hp', hq, Bool.or_true, Bool.not_false, if_true,
          Bool.false_eq_true, if_false, Bool.and_true]
        exact (List.Perm.cons a ih).trans List.perm_middle.symm
      · have hq' : q a = false := by simpa using hq
        simp only [List.filter_cons, hp', hq', Bool.or_false, Bool.false_eq_true, if_false,
          Bool.and_false]
        exact ih

theorem beforeSendLoop_snd_append (pl : ParticleList) (g : GlobalQuadruples) (ts : List Int) :
    (beforeSendLoop pl g ts).2 = ts ++ (beforeSendLoop pl g []).2 := by
  induction pl generalizing g ts with
  | nil => simp [beforeSendLoop]
  | cons p pl ih =>
    simp only [beforeSendLoop]
    split
    · rw [ih, ih _ ([] ++ _)]; simp
    · exact ih _ _

theorem beforeSendLoop_fst (pl : ParticleList) (g : GlobalQuadruples) (ts : List Int) :
    (beforeSendLoop pl g ts).1 = g.filter (fun e => decide (e.1 ∉ pl.map Particle.id)) := by
  induction pl generalizing g ts with
  | nil => simp [beforeSendLoop]
  | cons p pl ih =>
    simp only [beforeSendLoop]
    split
    · rw [ih]
      simp only [GlobalQuadruples.eraseKey, List.filter_filter, List.map_cons, List.mem_cons,
        not_or]
      congr 1; funext e; simp [Bool.and_comm]
    · rename_i h
      rw [ih]
      have h0 : g.filter (fun e => decide (e.1 = p.id)) = [] := by
        simpa [GlobalQuadruples.count, GlobalQuadruples.equal_range] using h
      apply List.filter_congr
      intro e he
      have : ¬ e.1 = p.id := by
        intro hk
        have : e ∈ g.filter (fun e => decide (e.1 = p.id)) := by simp [List.mem_filter, he, hk]
        rw [h0] at this; simp at this
      simp [this]

theorem recvInner_pack (pid : Int) (es : List (Int × Triple)) (rest : List Int)
    (g : GlobalQuadruples) (hk : ∀ e ∈ es, e.1 = pid) :
    recvInner es.length pid (packPartners es ++ rest) g = (es.reverse ++ g, rest) := by
  induction es generalizing g with
  | nil => simp [recvInner, packPartners]
  | cons e es ih =>
    have he : e.1 = pid := hk e (List.mem_cons_self _ _)
    have hk' : ∀ x ∈ es, x.1 = pid := fun x hx => hk x (List.mem_cons_of_mem _ hx)
    simp only [List.length_cons, packPartners, List.cons_append, recvInner]
    rw [show (packPartners es).append rest = packPartners es ++ rest from rfl, ih _ hk']
    obtain ⟨k, t⟩ := e
    simp only at he
    subst he
    simp [GlobalQuadruples.insert]

theorem length_packPartners (es : List (Int × Triple)) :
    (packPartners es).length = 3 * es.length := by
  induction es with
  | nil => rfl
  | cons e es ih => simp [packPartners, ih]; omega

/-- Decoding what `beforeSendLoop` wrote re-creates, up to order, exactly the entries whose key
is the id of a particle of the list. -/
theorem recvLoop_beforeSendLoop (pl : ParticleList) (g h : GlobalQuadruples) (fuel : Nat)
    (hf : (beforeSendLoop pl g []).2.length ≤ fuel) :
    List.Perm (recvLoop fuel (beforeSendLoop pl g []).2 h)
      (h ++ g.filter (fun e => decide (e.1 ∈ pl.map Particle.id))) := by
  induction pl generalizing g h fuel with
  | nil =>
    cases fuel <;> simp [beforeSendLoop, recvLoop]
  | cons p pl ih =>
    simp only [beforeSendLoop] at hf ⊢
    split
    · rename_i hn
      rw [if_pos hn] at hf
      rw [beforeSendLoop_snd_append] at hf ⊢
      simp only [List.nil_append, List.cons_append, List.length_cons, List.length_append] at hf ⊢
      obtain ⟨fuel, rfl⟩ : ∃ k, fuel = k + 1 := ⟨fuel - 1, by omega⟩
      simp only [recvLoop, Int.toNat_ofNat]
      have hkey : ∀ e ∈ g.equal_range p.id, e.1 = p.id := by
        intro e he
        simpa using (List.mem_filter.mp he).2
      rw [show g.count p.id = (g.equal_range p.id).length from rfl, recvInner_pack _ _ _ _ hkey]
      simp only
      refine (ih _ _ _ (by omega)).trans ?_
      have hsplit := filter_or_perm (fun e : Int × Triple => decide (e.1 = p.id))
        (fun e => decide (e.1 ∈ pl.map Particle.id)) g
      have hgoal : g.filter (fun e => decide (e.1 ∈ (p :: pl).map Particle.id)) =
          g.filter (fun e => decide (e.1 = p.id) || decide (e.1 ∈ pl.map Particle.id)) := by
        congr 1; funext e; simp
      rw [hgoal]
      refine List.Perm.trans ?_ (List.Perm.append_left h hsplit.symm)
      have he : g.eraseKey p.id = g.filter (fun e => !decide (e.1 = p.id)) := by
        simp [GlobalQuadruples.eraseKey]
      have hf2 : (g.filter (fun e => !decide (e.1 = p.id))).filter
            (fun e => decide (e.1 ∈ pl.map Particle.id)) =
          g.filter (fun e => !decide (e.1 = p.id) && decide (e.1 ∈ pl.map Particle.id)) := by
        rw [List.filter_filter]; congr 1; funext e; simp [Bool.and_comm]
      rw [he, GlobalQuadruples.equal_range, hf2, List.append_assoc]
      refine (List.perm_append_comm_assoc _ _ _).trans ?_
      refine List.Perm.append_left h ?_
      exact List.Perm.append_right _ (List.reverse_perm _)
    · rename_i hn
      rw [if_neg hn] at hf
      refine (ih _ _ _ hf).trans ?_
      have h0 : g.filter (fun e => decide (e.1 = p.id)) = [] := by
        simpa [GlobalQuadruples.count, GlobalQuadruples.equal_range] using hn
      have : g.filter (fun e => decide (e.1 ∈ (p :: pl).map Particle.id)) =
          g.filter (fun e => decide (e.1 ∈ pl.map Particle.id)) := by
        apply List.filter_congr
        intro e he
        have : ¬ e.1 = p.id := by
          intro hk
          have : e ∈ g.filter (fun e => decide (e.1 = p.id)) := by simp [List.mem_filter, he, hk]
          rw [h0] at this; simp at this
        simp [this]
      rw [this]


theorem length_filter_add_not {α : Type} (p : α → Bool) (l : List α) :
    (l.filter (fun e => !p e)).length + (l.filter p).length = l.length := by
  induction l with
  | nil => rfl
  | cons a l ih =>
    by_cases hp : p a = true
    · simp [List.filter_cons, hp]; omega
    · have hp' : p a = false := by simpa using hp
      simp [List.filter_cons, hp']; omega

theorem found_store_fwd (l : FixedQuadrupleList) (q1 q2 q3 q4 : ParticlePtr) (pid1 pid2 pid3 pid4 : Int) :
    (l.store q1 q2 q3 q4 pid1 pid2 pid3 pid4).found pid1 pid2 pid3 pid4 = true := by
  simp [FixedQuadrupleList.found, FixedQuadrupleList.store, GlobalQuadruples.insert,
    GlobalQuadruples.equal_range, List.filter_cons]

theorem found_store_rev (l : FixedQuadrupleList) (q1 q2 q3 q4 : ParticlePtr) (pid1 pid2 pid3 pid4 : Int) :
    (l.store q1 q2 q3 q4 pid1 pid2 pid3 pid4).found pid4 pid3 pid2 pid1 = true := by
  unfold FixedQuadrupleList.found
  simp only []
  split
  · rfl
  · simp [FixedQuadrupleList.store, GlobalQuadruples.insert,
      GlobalQuadruples.equal_range, List.filter_cons]

theorem found_eq_false_of_entriesOf (l : FixedQuadrupleList) (pid1 pid2 pid3 pid4 : Int)
    (h : l.entriesOf pid1 pid2 pid3 pid4 = []) : l.found pid1 pid2 pid3 pid4 = false := by
  have hno : ∀ e ∈ l.globalQuadruples,
      ¬ (e = (pid2, ⟨pid1, pid3, pid4⟩) ∨ e = (pid3, ⟨pid4, pid2, pid1⟩)) := by
    intro e he hc
    have : e ∈ l.entriesOf pid1 pid2 pid3 pid4 := by
      simp only [FixedQuadrupleList.entriesOf, List.mem_filter]
      exact ⟨he, by simpa using hc⟩
    rw [h] at this
    simp at this
  unfold FixedQuadrupleList.found
  simp only [GlobalQuadruples.equal_range, List.any_filter]
  have h1 : (l.globalQuadruples.any fun e => decide (e.1 = pid2) && decide (e.2 = ⟨pid1, pid3, pid4⟩)) = false := by
    rw [List.any_eq_false]
    intro e he
    have := hno e he
    obtain ⟨k, t⟩ := e
    simp only [Prod.mk.injEq, not_or, not_and] at this
    simp only [Bool.and_eq_true, decide_eq_true_eq, not_and]
    exact this.1
  have h2 : (l.globalQuadruples.any fun e => decide (e.1 = pid3) && decide (e.2 = ⟨pid4, pid2, pid1⟩)) = false := by
    rw [List.any_eq_false]
    intro e he
    have := hno e he
    obtain ⟨k, t⟩ := e
    simp only [Prod.mk.injEq, not_or, not_and] at this
    simp only [Bool.and_eq_true, decide_eq_true_eq, not_and]
    exact this.2
  rw [h1, h2]; rfl

theorem entriesOf_store (l : FixedQuadrupleList) (q1 q2 q3 q4 : ParticlePtr) (pid1 pid2 pid3 pid4 : Int)
    (h : l.entriesOf pid1 pid2 pid3 pid4 = []) :
    (l.store q1 q2 q3 q4 pid1 pid2 pid3 pid4).entriesOf pid1 pid2 pid3 pid4
      = [(pid2, ⟨pid1, pid3, pid4⟩)] := by
  unfold FixedQuadrupleList.entriesOf at h ⊢
  simp only [FixedQuadrupleList.store, GlobalQuadruples.insert, List.filter_cons, h]
  simp


/-- C1: migration of a particle list `pl` from a sender in state `G` to a receiver in state
`H`. After `beforeSendParticles` on the sender and `afterRecvParticles` on the receiver (which
reads the buffer the sender wrote), the sender keeps exactly its entries whose key is not the
id of a particle of `pl`, the receiver holds its former entries plus, as a multiset, exactly
the entries the sender gave up, and the two sizes add up to what they were before. -/
theorem C1_migration_moves_owned_entries (G H : FixedQuadrupleList) (pl pl' : ParticleList) :
    ((G.beforeSendParticles pl []).1.globalQuadruples
        = G.globalQuadruples.filter (fun e => decide (e.1 ∉ pl.map Particle.id))) ∧
    List.Perm (H.afterRecvParticles pl' (G.beforeSendParticles pl []).2).1.globalQuadruples
      (H.globalQuadruples ++
        G.globalQuadruples.filter (fun e => decide (e.1 ∈ pl.map Particle.id))) ∧
    ((G.beforeSendParticles pl []).1.size
        + (H.afterRecvParticles pl' (G.beforeSendParticles pl []).2).1.size
      = G.size + H.size) := by
  have hs : (G.beforeSendParticles pl []).1.globalQuadruples
      = G.globalQuadruples.filter (fun e => decide (e.1 ∉ pl.map Particle.id)) := by
    simp only [FixedQuadrupleList.beforeSendParticles]
    exact beforeSendLoop_fst pl _ _
  have hr : List.Perm (H.afterRecvParticles pl' (G.beforeSendParticles pl []).2).1.globalQuadruples
      (H.globalQuadruples ++
        G.globalQuadruples.filter (fun e => decide (e.1 ∈ pl.map Particle.id))) := by
    simp only [FixedQuadrupleList.beforeSendParticles, FixedQuadrupleList.afterRecvParticles,
      List.nil_append, List.headD_cons]
    exact recvLoop_beforeSendLoop pl _ _ _ (le_refl _)
  refine ⟨hs, hr, ?_⟩
  simp only [FixedQuadrupleList.size]
  rw [hr.length_eq, hs, List.length_append]
  have := length_filter_add_not (fun e : Int × Triple => decide (e.1 ∈ pl.map Particle.id))
    G.globalQuadruples
  have hn : G.globalQuadruples.filter (fun e => decide (e.1 ∉ pl.map Particle.id))
      = G.globalQuadruples.filter (fun e => !decide (e.1 ∈ pl.map Particle.id)) := by
    congr 1; funext e; exact decide_not
  rw [hn]
  omega

/-- C2: when neither orientation of the quadruple is stored, `pid2` and `pid3` resolve to real
particles and all four members resolve locally, the first `add(pid1,pid2,pid3,pid4)` returns
true, stores one entry and fires `onTupleAdded` once; a second `add`, with the same arguments
or with the reversed tuple, returns false and leaves the list (entries and fired signals) as
it is, so one entry and one notification remain. `iadd` behaves in the same way. The canonical
member of each call is real on this rank, so no other rank sets an exception in these calls
and the collective check of `add` sees none (`elsewhere = 0`). -/
theorem C2_add_twice_is_idempotent (st : Storage) (l : FixedQuadrupleList)
    (pid1 pid2 pid3 pid4 : Int) (q1 q2 q3 q4 r2 r3 : Particle)
    (h1 : st.lookupLocalParticle pid1 = some q1) (h2 : st.lookupRealParticle pid2 = some q2)
    (h3 : st.lookupLocalParticle pid3 = some q3) (h4 : st.lookupLocalParticle pid4 = some q4)
    (h2l : st.lookupLocalParticle pid2 = some r2) (h3r : st.lookupRealParticle pid3 = some r3)
    (hnew : l.entriesOf pid1 pid2 pid3 pid4 = []) :
    ∃ l1 : FixedQuadrupleList,
      l.add st pid1 pid2 pid3 pid4 0 = .ok (true, l1) ∧
      l1.add st pid1 pid2 pid3 pid4 0 = .ok (false, l1) ∧
      l1.add st pid4 pid3 pid2 pid1 0 = .ok (false, l1) ∧
      l.iadd st pid1 pid2 pid3 pid4 = .ok (true, l1) ∧
      l1.iadd st pid1 pid2 pid3 pid4 = .ok (false, l1) ∧
      l1.iadd st pid4 pid3 pid2 pid1 = .ok (false, l1) ∧
      (l1.entriesOf pid1 pid2 pid3 pid4).length = 1 ∧
      l1.size = l.size + 1 ∧
      l1.onTupleAdded = l.onTupleAdded ++ [(pid1, pid2, pid3, pid4)] := by
  have hf := found_eq_false_of_entriesOf l pid1 pid2 pid3 pid4 hnew
  refine ⟨l.store (some q1) (some q2) (some q3) (some q4) pid1 pid2 pid3 pid4,
    ?_, ?_, ?_, ?_, ?_, ?_, ?_, ?_, ?_⟩
  · simp [FixedQuadrupleList.add, checkException, addExceptions, h1, h2, h3, h4, hf]
  · simp [FixedQuadrupleList.add, checkException, addExceptions, h1, h2, h3, h4,
      found_store_fwd]
  · simp [FixedQuadrupleList.add, checkException, addExceptions, h1, h2l, h3r, h4,
      found_store_rev]
  · simp [FixedQuadrupleList.iadd, h1, h2, h3, h4, hf]
  · simp [FixedQuadrupleList.iadd, h1, h2, h3, h4, found_store_fwd]
  · simp [FixedQuadrupleList.iadd, h1, h2l, h3r, h4, found_store_rev]
  · rw [entriesOf_store l _ _ _ _ pid1 pid2 pid3 pid4 hnew]; rfl
  · simp [FixedQuadrupleList.size, FixedQuadrupleList.store, GlobalQuadruples.insert]
  · rfl

/-- An instance of C2: the quadruple (1,2,3,4), an empty list, every particle real. -/
theorem C2_add_twice_is_idempotent_witness :
    ∃ l1 : FixedQuadrupleList,
      (FixedQuadrupleList.mk [] [] [] []).add allRealStorage 1 2 3 4 0 = .ok (true, l1) ∧
      l1.add allRealStorage 1 2 3 4 0 = .ok (false, l1) ∧
      l1.add allRealStorage 4 3 2 1 0 = .ok (false, l1) ∧
      (FixedQuadrupleList.mk [] [] [] []).iadd allRealStorage 1 2 3 4 = .ok (true, l1) ∧
      l1.iadd allRealStorage 1 2 3 4 = .ok (false, l1) ∧
      l1.iadd allRealStorage 4 3 2 1 = .ok (false, l1) ∧
      (l1.entriesOf 1 2 3 4).length = 1 ∧
      l1.size = (FixedQuadrupleList.mk [] [] [] []).size + 1 ∧
      l1.onTupleAdded = (FixedQuadrupleList.mk [] [] [] []).onTupleAdded ++ [(1, 2, 3, 4)] :=
  C2_add_twice_is_idempotent allRealStorage (FixedQuadrupleList.mk [] [] [] []) 1 2 3 4
    _ _ _ _ _ _ rfl rfl rfl rfl rfl rfl rfl

/-! ### Sets of ids -/

theorem PidSet.mem_insert (s : PidSet) (x y : Int) :
    y ∈ PidSet.insert s x ↔ y = x ∨ y ∈ s := by
  unfold PidSet.insert
  split
  · constructor
    · intro h; exact Or.inr h
    · rintro (rfl | h)
      · assumption
      · exact h
  · simp [List.mem_orderedInsert]

theorem PidSet.mem_erase (s : PidSet) (x y : Int) :
    y ∈ PidSet.erase s x ↔ y ∈ s ∧ y ≠ x := by
  simp [PidSet.erase, List.mem_filter]

theorem PidSet.mem_insertAll (xs : List Int) (s : PidSet) (y : Int) :
    y ∈ PidSet.insertAll s xs ↔ y ∈ s ∨ y ∈ xs := by
  unfold PidSet.insertAll
  induction xs generalizing s with
  | nil => simp
  | cons x xs ih =>
    simp only [List.foldl_cons, List.mem_cons]
    rw [ih, PidSet.mem_insert]
    tauto

theorem PidSet.pidCount_eq_one (s : PidSet) (x : Int) : PidSet.count s x = 1 ↔ x ∈ s := by
  unfold PidSet.count
  split <;> simp [*]

/-! ### Association lists -/

theorem AMap.get_append {β : Type} (m n : AMap β) (x : Int) :
    AMap.get (m ++ n) x = (AMap.get m x).orElse (fun _ => AMap.get n x) := by
  induction m with
  | nil => simp [AMap.get]
  | cons e m ih =>
    obtain ⟨k, v⟩ := e
    simp only [List.cons_append, AMap.get]
    split
    · simp
    · exact ih

theorem AMap.get_insert {β : Type} (m : AMap β) (k : Int) (v : β) (x : Int) :
    (m.insert k v).get x = if x = k ∧ (m.get k).isNone then some v else m.get x := by
  unfold AMap.insert
  cases hk : m.get k with
  | some w => simp
  | none =>
    simp only [Option.isSome_none, Bool.false_eq_true, if_false, Option.isNone_none, and_true]
    rw [AMap.get_append]
    by_cases hx : x = k
    · subst hx; simp [hk, AMap.get]
    · cases hm : m.get x <;> simp [AMap.get, hx, Ne.symm hx]

theorem AMap.get_cons {β : Type} (k : Int) (v : β) (m : AMap β) (x : Int) :
    AMap.get ((k, v) :: m) x = if k = x then some v else AMap.get m x := rfl

theorem AMap.get_modify {β : Type} (m : AMap β) (k : Int) (f : β → β) (x : Int) :
    (m.modify k f).get x = if x = k then (m.get x).map f else m.get x := by
  unfold AMap.modify
  induction m with
  | nil => simp [AMap.get]
  | cons e m ih =>
    obtain ⟨a, v⟩ := e
    rw [List.map_cons]
    by_cases ha : a = k
    · subst ha
      simp only [if_true]
      rw [AMap.get_cons, AMap.get_cons]
      by_cases hx : a = x
      · subst hx; simp
      · simp only [hx, if_false]
        exact ih
    · simp only [ha, if_false]
      rw [AMap.get_cons, AMap.get_cons]
      by_cases hx : a = x
      · subst hx; simp [ha]
      · simp only [hx, if_false]; exact ih

theorem AMap.get_set {β : Type} (m : AMap β) (k : Int) (v : β) (x : Int) :
    (m.set k v).get x = if x = k then some v else m.get x := by
  unfold AMap.set
  cases hk : m.get k with
  | some w =>
    simp only [Option.isSome_some, if_true]
    rw [AMap.get_modify]
    by_cases hx : x = k
    · subst hx; simp [hk]
    · simp [hx]
  | none =>
    simp only [Option.isSome_none, Bool.false_eq_true, if_false]
    rw [AMap.get_append]
    by_cases hx : x = k
    · subst hx; simp [hk, AMap.get]
    · cases hm : m.get x <;> simp [AMap.get, hx, Ne.symm hx, hm]

theorem AMap.get_erase {β : Type} (m : AMap β) (k : Int) (x : Int) :
    (m.erase k).get x = if x = k then none else m.get x := by
  unfold AMap.erase
  induction m with
  | nil => simp [AMap.get]
  | cons e m ih =>
    obtain ⟨a, v⟩ := e
    by_cases ha : a = k
    · subst ha
      simp only [List.filter_cons, not_true_eq_false, decide_False, Bool.false_eq_true, if_false,
        AMap.get]
      rw [ih]
      by_cases hx : x = a
      · simp [hx]
      · simp [hx, Ne.symm hx]
    · simp only [List.filter_cons, ha, not_false_eq_true, decide_True, if_true, AMap.get]
      by_cases hx : a = x
      · subst hx; simp [ha]
      · simp only [hx, if_false]; exact ih

theorem AMap.count_eq_zero {β : Type} (m : AMap β) (k : Int) :
    m.count k = 0 ↔ m.get k = none := by
  unfold AMap.count
  cases m.get k <;> simp

theorem AMap.count_eq_one {β : Type} (m : AMap β) (k : Int) :
    m.count k = 1 ↔ (m.get k).isSome := by
  unfold AMap.count
  cases m.get k <;> simp

theorem AMap.count_pos {β : Type} (m : AMap β) (k : Int) :
    m.count k > 0 ↔ (m.get k).isSome := by
  unfold AMap.count
  cases m.get k <;> simp

theorem AMap.mem_keys {β : Type} (m : AMap β) (k : Int) :
    k ∈ m.keys ↔ (m.get k).isSome := by
  unfold AMap.keys
  induction m with
  | nil => simp [AMap.get]
  | cons e m ih =>
    obtain ⟨a, v⟩ := e
    simp only [List.map_cons, List.mem_cons, AMap.get]
    by_cases ha : a = k
    · simp [ha]
    · simp only [ha, if_false, ← ih]
      constructor
      · rintro (h | h)
        · exact absurd h.symm ha
        · exact h
      · intro h; exact Or.inr h

theorem AMap.keys_modify {β : Type} (m : AMap β) (k : Int) (f : β → β) :
    (m.modify k f).keys = m.keys := by
  unfold AMap.keys AMap.modify
  rw [List.map_map]
  apply List.map_congr_left
  intro e _
  simp only [Function.comp]
  split <;> rfl

theorem AMap.keys_insert_nodup {β : Type} (m : AMap β) (k : Int) (v : β)
    (h : m.keys.Nodup) : (m.insert k v).keys.Nodup := by
  unfold AMap.insert
  split
  · exact h
  · rename_i hk
    have : k ∉ m.keys := by rw [AMap.mem_keys]; exact hk
    unfold AMap.keys at *
    rw [List.map_append, List.nodup_append]
    refine ⟨h, by simp, ?_⟩
    intro a ha hb
    simp at hb
    subst hb
    exact this ha

theorem AMap.keys_erase_nodup {β : Type} (m : AMap β) (k : Int)
    (h : m.keys.Nodup) : (m.erase k).keys.Nodup := by
  unfold AMap.erase AMap.keys at *
  exact (List.filter_sublist _).map Prod.fst |>.nodup h

/-- The elements of a neighbour set, read through `get`. -/
theorem GraphMap.mem_adj (g : GraphMap) (x y : Int) :
    y ∈ g.adj x ↔ ∃ s, g.get x = some s ∧ y ∈ s := by
  unfold GraphMap.adj
  cases g.get x <;> simp

/-! ### Edges of a graph map -/

theorem GraphMap.adj_insert_empty (g : GraphMap) (k x : Int) :
    GraphMap.adj (AMap.insert g k []) x = g.adj x := by
  unfold GraphMap.adj
  rw [AMap.get_insert]
  split
  · rename_i h
    obtain ⟨rfl, hk⟩ := h
    cases hg : AMap.get g x with
    | none => rfl
    | some w => rw [hg] at hk; simp at hk
  · rfl

theorem AMap.isSome_get_insert {β : Type} (m : AMap β) (k : Int) (v : β) (x : Int) :
    ((m.insert k v).get x).isSome ↔ (m.get x).isSome ∨ x = k := by
  rw [AMap.get_insert]
  split
  · rename_i h; simp [h.1]
  · rename_i h
    constructor
    · intro hx; exact Or.inl hx
    · rintro (hx | rfl)
      · exact hx
      · cases hg : m.get x with
        | some w => simp
        | none => exact absurd ⟨rfl, by simp [hg]⟩ h

theorem AMap.isSome_get_modify {β : Type} (m : AMap β) (k : Int) (f : β → β) (x : Int) :
    ((m.modify k f).get x).isSome = (m.get x).isSome := by
  rw [AMap.get_modify]
  split <;> simp

theorem GraphMap.adj_modify (g : GraphMap) (k : Int) (f : PidSet → PidSet) (x : Int)
    (hk : (g.get k).isSome) :
    GraphMap.adj (AMap.modify g k f) x = if x = k then f (g.adj k) else g.adj x := by
  unfold GraphMap.adj
  rw [AMap.get_modify]
  split
  · rename_i h; subst h
    cases hg : AMap.get g x with
    | none => rw [hg] at hk; simp at hk
    | some w => simp
  · rfl

theorem GraphMap.adj_modify_ne (g : GraphMap) (k : Int) (f : PidSet → PidSet) (x : Int)
    (hx : x ≠ k) : GraphMap.adj (AMap.modify g k f) x = g.adj x := by
  unfold GraphMap.adj
  rw [AMap.get_modify, if_neg hx]

theorem GraphMap.adj_of_get_none (g : GraphMap) (x : Int) (h : g.get x = none) :
    g.adj x = [] := by
  unfold GraphMap.adj; rw [h]; rfl

theorem GraphMap.isSome_get_addEdge (g : GraphMap) (a b x : Int) :
    ((g.addEdge a b).get x).isSome ↔ (g.get x).isSome ∨ x = a ∨ x = b := by
  unfold GraphMap.addEdge
  simp only [AMap.isSome_get_modify]
  have h1 : ∀ (h : GraphMap) (k : Int),
      ((if AMap.count h k = 0 then AMap.insert h k [] else h).get x).isSome
        ↔ (h.get x).isSome ∨ x = k := by
    intro h k
    split
    · exact AMap.isSome_get_insert h k [] x
    · rename_i hc
      rw [AMap.count_eq_zero] at hc
      constructor
      · intro hx; exact Or.inl hx
      · rintro (hx | rfl)
        · exact hx
        · cases hg : AMap.get h x with
          | none => exact absurd hg hc
          | some w => rfl
  rw [h1, h1]
  tauto

theorem GraphMap.mem_adj_addEdge (g : GraphMap) (a b x y : Int) :
    y ∈ (g.addEdge a b).adj x ↔ y ∈ g.adj x ∨ (x = a ∧ y = b) ∨ (x = b ∧ y = a) := by
  unfold GraphMap.addEdge
  set g1 : GraphMap := if AMap.count g a = 0 then AMap.insert g a [] else g with hg1
  set g2 : GraphMap := if AMap.count g1 b = 0 then AMap.insert g1 b [] else g1 with hg2
  have e1 : ∀ z, g1.adj z = g.adj z := by
    intro z; rw [hg1]; split
    · exact GraphMap.adj_insert_empty g a z
    · rfl
  have e2 : ∀ z, g2.adj z = g.adj z := by
    intro z; rw [hg2]; split
    · rw [GraphMap.adj_insert_empty, e1]
    · exact e1 z
  have k1 : (g1.get a).isSome := by
    rw [hg1]; split
    · rw [AMap.isSome_get_insert]; exact Or.inr rfl
    · rename_i hc
      rw [AMap.count_eq_zero] at hc
      cases hg : AMap.get g a with
      | none => exact absurd hg hc
      | some w => rfl
  have k2a : (g2.get a).isSome := by
    rw [hg2]; split
    · rw [AMap.isSome_get_insert]; exact Or.inl k1
    · exact k1
  have k2b : (g2.get b).isSome := by
    rw [hg2]; split
    · rw [AMap.isSome_get_insert]; exact Or.inr rfl
    · rename_i hc
      rw [AMap.count_eq_zero] at hc
      cases hg : AMap.get g1 b with
      | none => exact absurd hg hc
      | some w => rfl
  have k3b : ((AMap.modify g2 a (fun s => PidSet.insert s b)).get b).isSome := by
    rw [AMap.isSome_get_modify]; exact k2b
  rw [GraphMap.adj_modify _ _ _ _ k3b]
  by_cases hxb : x = b
  · subst hxb
    rw [if_pos rfl, PidSet.mem_insert, GraphMap.adj_modify _ _ _ _ k2a]
    by_cases hxa : x = a
    · subst hxa
      rw [if_pos rfl, PidSet.mem_insert, e2]
      tauto
    · rw [if_neg hxa, e2]
      constructor
      · rintro (h | h)
        · exact Or.inr (Or.inr ⟨rfl, h⟩)
        · exact Or.inl h
      · rintro (h | ⟨h, _⟩ | ⟨_, h⟩)
        · exact Or.inr h
        · exact absurd h hxa
        · exact Or.inl h
  · rw [if_neg hxb, GraphMap.adj_modify _ _ _ _ k2a]
    by_cases hxa : x = a
    · subst hxa
      rw [if_pos rfl, PidSet.mem_insert, e2]
      constructor
      · rintro (h | h)
        · exact Or.inr (Or.inl ⟨rfl, h⟩)
        · exact Or.inl h
      · rintro (h | ⟨_, h⟩ | ⟨h, _⟩)
        · exact Or.inr h
        · exact Or.inl h
        · exact absurd h hxb
    · rw [if_neg hxa, e2]
      constructor
      · intro h; exact Or.inl h
      · rintro (h | ⟨h, _⟩ | ⟨h, _⟩)
        · exact h
        · exact absurd h hxa
        · exact absurd h hxb

theorem GraphMap.isSome_get_removeEdge (g : GraphMap) (a b x : Int) :
    ((g.removeEdge a b).get x).isSome = (g.get x).isSome := by
  unfold GraphMap.removeEdge
  simp only []
  split <;> split <;> simp [AMap.isSome_get_modify]

theorem GraphMap.adj_modify_erase (g : GraphMap) (k e x y : Int) :
    y ∈ GraphMap.adj (AMap.modify g k (fun s => PidSet.erase s e)) x
      ↔ y ∈ g.adj x ∧ ¬ (x = k ∧ y = e) := by
  by_cases hx : x = k
  · subst hx
    cases hg : AMap.get g x with
    | none =>
      have h1 : AMap.get (AMap.modify g x (fun s => PidSet.erase s e)) x = none := by
        rw [AMap.get_modify, if_pos rfl, hg]; rfl
      rw [GraphMap.adj_of_get_none _ _ h1, GraphMap.adj_of_get_none _ _ hg]
      simp
    | some w =>
      rw [GraphMap.adj_modify _ _ _ _ (by rw [hg]; rfl), if_pos rfl, PidSet.mem_erase]
      simp
  · rw [GraphMap.adj_modify_ne _ _ _ _ hx]
    simp [hx]

theorem GraphMap.mem_adj_removeEdge (g : GraphMap) (a b x y : Int) :
    y ∈ (g.removeEdge a b).adj x ↔ y ∈ g.adj x ∧ ¬ (x = a ∧ y = b) ∧ ¬ (x = b ∧ y = a) := by
  unfold GraphMap.removeEdge
  set g1 : GraphMap := if AMap.count g a > 0 then AMap.modify g a (fun s => PidSet.erase s b) else g
    with hg1
  have e1 : ∀ z w, w ∈ g1.adj z ↔ w ∈ g.adj z ∧ ¬ (z = a ∧ w = b) := by
    intro z w
    rw [hg1]; split
    · exact GraphMap.adj_modify_erase g a b z w
    · rename_i hc
      have hn : AMap.get g a = none := by
        rw [AMap.count_pos] at hc
        cases hg : AMap.get g a with
        | none => rfl
        | some v => rw [hg] at hc; simp at hc
      constructor
      · intro h
        refine ⟨h, ?_⟩
        rintro ⟨rfl, _⟩
        rw [GraphMap.adj_of_get_none _ _ hn] at h
        simp at h
      · exact fun h => h.1
  have e2 : ∀ z w, w ∈ GraphMap.adj
      (if AMap.count g1 b > 0 then AMap.modify g1 b (fun s => PidSet.erase s a) else g1) z
        ↔ w ∈ g1.adj z ∧ ¬ (z = b ∧ w = a) := by
    intro z w
    split
    · exact GraphMap.adj_modify_erase g1 b a z w
    · rename_i hc
      have hn : AMap.get g1 b = none := by
        rw [AMap.count_pos] at hc
        cases hg : AMap.get g1 b with
        | none => rfl
        | some v => rw [hg] at hc; simp at hc
      constructor
      · intro h
        refine ⟨h, ?_⟩
        rintro ⟨rfl, _⟩
        rw [GraphMap.adj_of_get_none _ _ hn] at h
        simp at h
      · exact fun h => h.1
  rw [e2, e1]
  tauto

/-! ### plainBFS -/

theorem bfsVisit_visited (c : Int) (st : BFSState) (a v : Int) :
    v ∈ (bfsVisit c st a).visited ↔ v ∈ st.visited ∨ v = a := by
  unfold bfsVisit
  simp only []
  by_cases h : a ∈ st.visited
  · simp only [h, not_true_eq_false, decide_False, Bool.false_eq_true, if_false]
    constructor
    · exact Or.inl
    · rintro (h1 | rfl)
      · exact h1
      · exact h
  · simp [h]

theorem bfsVisit_Q (c : Int) (st : BFSState) (a : Int) :
    (bfsVisit c st a).Q = if a ∈ st.visited then st.Q else st.Q ++ [a] := by
  unfold bfsVisit
  by_cases h : a ∈ st.visited <;> simp [h]

theorem bfsVisit_ret (c : Int) (st : BFSState) (a k : Int) :
    ((bfsVisit c st a).ret.get k).isSome ↔ (st.ret.get k).isSome ∨ k = a := by
  unfold bfsVisit
  simp only [AMap.isSome_get_modify]
  split
  · rw [AMap.isSome_get_insert, AMap.isSome_get_modify]
  · rename_i hc
    rw [AMap.count_eq_zero] at hc
    rw [AMap.isSome_get_modify]
    constructor
    · exact Or.inl
    · rintro (h | rfl)
      · exact h
      · cases hg : AMap.get (AMap.modify st.ret c fun s => PidSet.insert s k) k with
        | none => exact absurd hg hc
        | some w =>
          have := AMap.isSome_get_modify st.ret c (fun s => PidSet.insert s k) k
          rw [hg] at this
          exact this.symm

theorem bfsFold_visited (c : Int) (as : List Int) (st : BFSState) (v : Int) :
    v ∈ (as.foldl (bfsVisit c) st).visited ↔ v ∈ st.visited ∨ v ∈ as := by
  induction as generalizing st with
  | nil => simp
  | cons a as ih =>
    rw [List.foldl_cons, ih, bfsVisit_visited, List.mem_cons]
    tauto

theorem bfsFold_ret (c : Int) (as : List Int) (st : BFSState) (k : Int) :
    ((as.foldl (bfsVisit c) st).ret.get k).isSome ↔ (st.ret.get k).isSome ∨ k ∈ as := by
  induction as generalizing st with
  | nil => simp
  | cons a as ih =>
    rw [List.foldl_cons, ih, bfsVisit_ret, List.mem_cons]
    tauto

theorem bfsFold_Q (c : Int) (as : List Int) (st : BFSState) :
    ∃ pushed : List Int, (as.foldl (bfsVisit c) st).Q = st.Q ++ pushed ∧
      (∀ q, q ∈ pushed ↔ q ∈ as ∧ q ∉ st.visited) := by
  induction as generalizing st with
  | nil => exact ⟨[], by simp⟩
  | cons a as ih =>
    rw [List.foldl_cons]
    obtain ⟨pushed, hq, hp⟩ := ih (bfsVisit c st a)
    rw [bfsVisit_Q] at hq
    by_cases h : a ∈ st.visited
    · rw [if_pos h] at hq
      refine ⟨pushed, hq, ?_⟩
      intro q
      rw [hp, bfsVisit_visited, List.mem_cons]
      constructor
      · rintro ⟨h1, h2⟩
        exact ⟨Or.inr h1, fun h3 => h2 (Or.inl h3)⟩
      · rintro ⟨h1 | h1, h2⟩
        · subst h1; exact absurd h h2
        · refine ⟨h1, ?_⟩
          rintro (h3 | h3)
          · exact h2 h3
          · subst h3; exact h2 h
    · rw [if_neg h] at hq
      refine ⟨a :: pushed, by rw [hq]; simp, ?_⟩
      intro q
      rw [List.mem_cons, hp, bfsVisit_visited, List.mem_cons]
      constructor
      · rintro (rfl | ⟨h1, h2⟩)
        · exact ⟨Or.inl rfl, h⟩
        · exact ⟨Or.inr h1, fun h3 => h2 (Or.inl h3)⟩
      · rintro ⟨h1 | h1, h2⟩
        · exact Or.inl h1
        · by_cases hqa : q = a
          · exact Or.inl hqa
          · refine Or.inr ⟨h1, ?_⟩
            rintro (h3 | h3)
            · exact h2 h3
            · exact hqa h3

/-- The quantity that decreases in every round of `plainBFS`: the length of the queue plus the
number of candidate nodes not yet visited. -/
theorem bfsFold_measure (c : Int) (cand : Finset Int) (as : List Int) (st : BFSState)
    (has : ∀ a ∈ as, a ∈ cand) :
    (as.foldl (bfsVisit c) st).Q.length
        + (cand \ (as.foldl (bfsVisit c) st).visited.toFinset).card
      = st.Q.length + (cand \ st.visited.toFinset).card := by
  induction as generalizing st with
  | nil => rfl
  | cons a as ih =>
    rw [List.foldl_cons, ih _ (fun x hx => has x (List.mem_cons_of_mem _ hx))]
    rw [bfsVisit_Q]
    by_cases h : a ∈ st.visited
    · rw [if_pos h]
      have : (bfsVisit c st a).visited.toFinset = st.visited.toFinset := by
        ext v; simp only [List.mem_toFinset, bfsVisit_visited]
        constructor
        · rintro (h1 | rfl)
          · exact h1
          · exact h
        · exact Or.inl
      rw [this]
    · rw [if_neg h]
      have hv : (bfsVisit c st a).visited.toFinset = insert a st.visited.toFinset := by
        ext v; simp only [List.mem_toFinset, bfsVisit_visited, Finset.mem_insert]
        tauto
      rw [hv, Finset.sdiff_insert]
      have hmem : a ∈ cand \ st.visited.toFinset := by
        rw [Finset.mem_sdiff, List.mem_toFinset]
        exact ⟨has a (List.mem_cons_self _ _), h⟩
      have hpos : 0 < (cand \ st.visited.toFinset).card := Finset.card_pos.mpr ⟨a, hmem⟩
      rw [Finset.card_erase_of_mem hmem, List.length_append, List.length_singleton]
      omega

/-- The elements of all neighbour sets of a graph. -/
theorem mem_adj_mem_flatMap (g : GraphMap) (x y : Int) (h : y ∈ g.adj x) :
    y ∈ g.flatMap (fun e => e.2) := by
  rw [GraphMap.mem_adj] at h
  obtain ⟨s, hs, hy⟩ := h
  induction g with
  | nil => simp [AMap.get] at hs
  | cons e g ih =>
    obtain ⟨k, v⟩ := e
    rw [AMap.get_cons] at hs
    rw [List.flatMap_cons, List.mem_append]
    by_cases hk : k = x
    · rw [if_pos hk] at hs
      injection hs with hs
      subst hs
      exact Or.inl hy
    · rw [if_neg hk] at hs
      exact Or.inr (ih hs)

theorem length_flatMap_snd (g : GraphMap) :
    (g.flatMap (fun e => e.2)).length = (g.map (fun e => e.2.length)).sum := by
  induction g with
  | nil => rfl
  | cons e g ih => simp [List.flatMap_cons, ih]

theorem bfsRound_adj (g : GraphMap) (st : BFSState) (c : Int) (rest : List Int)
    (hQ : st.Q = c :: rest) :
    bfsRound g st =
      { ((g.adj c).foldl (bfsVisit c) { st with ret := st.ret.insert c [] }) with
        Q := ((g.adj c).foldl (bfsVisit c) { st with ret := st.ret.insert c [] }).Q.tail } := by
  unfold bfsRound
  rw [hQ]
  simp only []
  split
  · rfl
  · rename_i hc
    have hn : AMap.get g c = none := by
      cases hg : AMap.get g c with
      | none => rfl
      | some w =>
        exfalso; apply hc
        rw [AMap.count_eq_one, hg]; rfl
    rw [GraphMap.adj_of_get_none _ _ hn]
    rfl

theorem bfsRound_inv (g : GraphMap) (root : Int) (st : BFSState) (c : Int) (rest : List Int)
    (hQ : st.Q = c :: rest) (h : BFSInv g root st) : BFSInv g root (bfsRound g st) := by
  rw [bfsRound_adj g st c rest hQ]
  set st1 : BFSState := { st with ret := st.ret.insert c [] } with hst1
  obtain ⟨pushed, hq, hp⟩ := bfsFold_Q c (g.adj c) st1
  have hvis : ∀ v, v ∈ ((g.adj c).foldl (bfsVisit c) st1).visited ↔ v ∈ st.visited ∨ v ∈ g.adj c :=
    fun v => bfsFold_visited c (g.adj c) st1 v
  have hret : ∀ k, (((g.adj c).foldl (bfsVisit c) st1).ret.get k).isSome
      ↔ ((st.ret.get k).isSome ∨ k = c) ∨ k ∈ g.adj c := by
    intro k
    rw [bfsFold_ret, hst1]
    simp only [AMap.isSome_get_insert]
  have hqt : ((g.adj c).foldl (bfsVisit c) st1).Q.tail = rest ++ pushed := by
    rw [hq, hst1]; simp only [hQ, List.cons_append, List.tail_cons]
  have hc : c ∈ st.visited := h.queued c (by rw [hQ]; exact List.mem_cons_self _ _)
  constructor
  · intro v hv
    rcases (hvis v).mp hv with h1 | h1
    · exact h.reach v h1
    · exact Relation.ReflTransGen.tail (h.reach c hc) h1
  · intro q hq'
    simp only [hqt, List.mem_append] at hq'
    apply (hvis q).mpr
    rcases hq' with h1 | h1
    · exact Or.inl (h.queued q (by rw [hQ]; exact List.mem_cons_of_mem _ h1))
    · exact Or.inr ((hp q).mp h1).1
  · intro v hv hnq w hw
    simp only [hqt, List.mem_append, not_or] at hnq
    apply (hvis w).mpr
    rcases (hvis v).mp hv with h1 | h1
    · by_cases hvc : v = c
      · subst hvc; exact Or.inr hw
      · have : v ∉ st.Q := by
          rw [hQ, List.mem_cons, not_or]; exact ⟨hvc, hnq.1⟩
        exact Or.inl (h.closed v h1 this w hw)
    · by_cases hvv : v ∈ st.visited
      · by_cases hvc : v = c
        · subst hvc; exact Or.inr hw
        · have : v ∉ st.Q := by
            rw [hQ, List.mem_cons, not_or]; exact ⟨hvc, hnq.1⟩
          exact Or.inl (h.closed v hvv this w hw)
      · exact absurd ((hp v).mpr ⟨h1, hvv⟩) hnq.2
  · intro k hk
    apply (hvis k).mpr
    rcases (hret k).mp hk with (h1 | h1) | h1
    · exact Or.inl (h.keys_visited k h1)
    · subst h1; exact Or.inl hc
    · exact Or.inr h1
  · intro v hv hnq
    simp only [hqt, List.mem_append, not_or] at hnq
    apply (hret v).mpr
    by_cases hvc : v = c
    · exact Or.inl (Or.inr hvc)
    · by_cases hvv : v ∈ st.visited
      · have : v ∉ st.Q := by
          rw [hQ, List.mem_cons, not_or]; exact ⟨hvc, hnq.1⟩
        exact Or.inl (Or.inl (h.done_keys v hvv this))
      · rcases (hvis v).mp hv with h1 | h1
        · exact absurd h1 hvv
        · exact absurd ((hp v).mpr ⟨h1, hvv⟩) hnq.2
  · exact (hvis root).mpr (Or.inl h.root_visited)

theorem bfsRound_measure (g : GraphMap) (st : BFSState) (c : Int) (rest : List Int)
    (hQ : st.Q = c :: rest) :
    (bfsRound g st).Q.length
        + ((g.flatMap (fun e => e.2)).toFinset \ (bfsRound g st).visited.toFinset).card + 1
      = st.Q.length + ((g.flatMap (fun e => e.2)).toFinset \ st.visited.toFinset).card := by
  rw [bfsRound_adj g st c rest hQ]
  set st1 : BFSState := { st with ret := st.ret.insert c [] } with hst1
  have hm := bfsFold_measure c (g.flatMap (fun e => e.2)).toFinset (g.adj c) st1
    (fun a ha => List.mem_toFinset.mpr (mem_adj_mem_flatMap g c a ha))
  obtain ⟨pushed, hq, _⟩ := bfsFold_Q c (g.adj c) st1
  have hlen : ((g.adj c).foldl (bfsVisit c) st1).Q.tail.length + 1
      = ((g.adj c).foldl (bfsVisit c) st1).Q.length := by
    rw [hq, hst1]; simp [hQ]
  simp only [] at hm ⊢
  have h1 : st1.Q = st.Q := rfl
  have h2 : st1.visited = st.visited := rfl
  rw [h1, h2] at hm
  omega

theorem bfsLoop_inv (g : GraphMap) (root : Int) (fuel : Nat) (st : BFSState)
    (h : BFSInv g root st) : BFSInv g root (bfsLoop g fuel st) := by
  induction fuel generalizing st with
  | zero => exact h
  | succ n ih =>
    unfold bfsLoop
    cases hQ : st.Q with
    | nil => simp only []; exact h
    | cons c rest => simp only []; exact ih _ (bfsRound_inv g root st c rest hQ h)

theorem bfsLoop_Q_nil (g : GraphMap) (fuel : Nat) (st : BFSState)
    (h : st.Q.length + ((g.flatMap (fun e => e.2)).toFinset \ st.visited.toFinset).card ≤ fuel) :
    (bfsLoop g fuel st).Q = [] := by
  induction fuel generalizing st with
  | zero =>
    unfold bfsLoop
    have : st.Q.length = 0 := by omega
    exact List.length_eq_zero.mp this
  | succ n ih =>
    unfold bfsLoop
    cases hQ : st.Q with
    | nil => simp only []; exact hQ
    | cons c rest =>
      simp only []
      apply ih
      have := bfsRound_measure g st c rest hQ
      omega

/-- The fuel given to `plainBFS` is enough: the loop stops because the queue is empty. -/
theorem plainBFS_queue_empty (g : GraphMap) (root : Int) : (plainBFSState g root).Q = [] := by
  unfold plainBFSState
  apply bfsLoop_Q_nil
  simp only [List.length_singleton]
  have h1 : ((g.flatMap (fun e => e.2)).toFinset \ [root].toFinset).card
      ≤ (g.flatMap (fun e => e.2)).toFinset.card := Finset.card_le_card Finset.sdiff_subset
  have h2 : (g.flatMap (fun e => e.2)).toFinset.card ≤ (g.flatMap (fun e => e.2)).length :=
    List.toFinset_card_le _
  rw [length_flatMap_snd] at h2
  unfold bfsFuel
  omega

theorem plainBFSState_inv (g : GraphMap) (root : Int) : BFSInv g root (plainBFSState g root) := by
  unfold plainBFSState
  apply bfsLoop_inv
  constructor
  · intro v hv
    simp only [List.mem_singleton] at hv
    subst hv
    exact Relation.ReflTransGen.refl
  · intro q hq; exact hq
  · intro v hv hnq; exact absurd hv hnq
  · intro k hk; simp [AMap.get] at hk
  · intro v hv hnq; exact absurd hv hnq
  · simp

/-- The keys of the sub-graph returned by `plainBFS` are exactly the nodes that a path joins to
the root. -/
theorem plainBFS_keys (g : GraphMap) (root k : Int) :
    ((plainBFS g root).get k).isSome ↔ Reach g root k := by
  have hinv := plainBFSState_inv g root
  have hQ := plainBFS_queue_empty g root
  unfold plainBFS
  constructor
  · intro h; exact hinv.reach k (hinv.keys_visited k h)
  · intro h
    have hv : k ∈ (plainBFSState g root).visited := by
      induction h with
      | refl => exact hinv.root_visited
      | tail _ hbc ih => exact hinv.closed _ ih (by rw [hQ]; simp) _ hbc
    exact hinv.done_keys k hv (by rw [hQ]; simp)

theorem mem_uniqueResIds (g1 g2 : GraphMap) (r : Int) :
    r ∈ uniqueResIds g1 g2 ↔ (g1.get r).isSome ∧ (g2.get r).isNone := by
  unfold uniqueResIds
  have := PidSet.mem_insertAll (g1.keys.filter (fun k => (g2.get k).isNone)) [] r
  unfold PidSet.insertAll at this
  rw [this]
  simp [List.mem_filter, AMap.mem_keys]

/-! ### The queued edits do not steer the graph operations -/

theorem sameTopology_setPending (s t : TopologyManager) (h : sameTopology s t) :
    t = s.setPending t := by
  obtain ⟨h1, h2, h3, h4, h5, h6, h7⟩ := h
  cases s; cases t
  simp only [TopologyManager.setPending] at *
  simp [*]

theorem setPending_sameTopology (s p : TopologyManager) : sameTopology s (s.setPending p) :=
  ⟨rfl, rfl, rfl, rfl, rfl, rfl, rfl⟩

theorem newEdge_setPending (s p : TopologyManager) (a b : Int) :
    (s.setPending p).newEdge a b = (s.newEdge a b).map (fun r => r.setPending p) := by
  unfold TopologyManager.newEdge
  simp only [TopologyManager.setPending, TopologyManager.newResEdge]
  repeat' split
  all_goals rfl

theorem splitMolecule_setPending (s p : TopologyManager) (r1 r2 m : Int) :
    (s.setPending p).splitMolecule r1 r2 m
      = (s.splitMolecule r1 r2 m).map (fun r => r.setPending p) := by
  unfold TopologyManager.splitMolecule
  simp only [TopologyManager.setPending]
  repeat' split
  all_goals rfl

theorem deleteEdgeGraph_setPending (s p : TopologyManager) (a b : Int) :
    (s.setPending p).deleteEdgeGraph a b
      = (s.deleteEdgeGraph a b).map (fun r => r.setPending p) := by
  unfold TopologyManager.deleteEdgeGraph
  have hsm := splitMolecule_setPending
  simp only [TopologyManager.setPending] at hsm ⊢
  repeat' split
  all_goals first | rfl | exact hsm { s with graph_ := s.graph_.removeEdge a b } p _ _ _


theorem removeBond_sameTopology {P T : Type} (ops : ListOps P T) (loc loc1 : Local P T)
    (s s1 : TopologyManager) (a b : Int) (removed : Bool)
    (h : s.removeBond ops loc a b = .ok (removed, loc1, s1)) : s1 = s.setPending s1 := by
  have hd : ∀ (sig : List (Int × Int)) (t : TopologyManager),
      t.deliverRemoved sig = t.setPending (t.deliverRemoved sig) := by
    intro sig
    induction sig with
    | nil => intro t; cases t; rfl
    | cons e sig ih =>
      intro t
      unfold TopologyManager.deliverRemoved at ih ⊢
      rw [List.foldl_cons]
      have h1 := ih (t.onTupleRemoved e.1 e.2)
      have h2 : t.onTupleRemoved e.1 e.2 = t.setPending (t.onTupleRemoved e.1 e.2) := by
        unfold TopologyManager.onTupleRemoved
        split
        · cases t; rfl
        · cases t; rfl
      rw [h1]
      generalize List.foldl (fun t e => t.onTupleRemoved e.1 e.2) (t.onTupleRemoved e.1 e.2) sig = u
      rw [h2]
      rfl
  unfold TopologyManager.removeBond at h
  split at h
  · split at h
    · injection h with h; injection h with _ h; injection h with _ h
      subst h; cases s; rfl
    · split at h
      · cases h
      · split at h
        · cases h
        · injection h with h; injection h with _ h; injection h with _ h
          subst h
          exact hd _ _
  · injection h with h; injection h with _ h; injection h with _ h
    subst h; cases s; rfl

theorem deleteEdge_ok {P T : Type} (ops : ListOps P T) (loc loc' : Local P T)
    (s s' : TopologyManager) (a b : Int) (removed : Bool)
    (h : s.deleteEdge ops loc a b = .ok (removed, loc', s')) :
    ∃ r p : TopologyManager, s.deleteEdgeGraph a b = .ok r ∧ s' = r.setPending p := by
  unfold TopologyManager.deleteEdge at h
  split at h
  · cases h
  · rename_i removed1 loc1 s1 hrb
    split at h
    · cases h
    · rename_i s2 hdg
      injection h with h; injection h with _ h; injection h with _ h
      subst h
      have hs1 := removeBond_sameTopology ops loc loc1 s s1 a b removed1 hrb
      rw [hs1, deleteEdgeGraph_setPending] at hdg
      cases hg : s.deleteEdgeGraph a b with
      | error e => rw [hg] at hdg; cases hdg
      | ok r =>
        rw [hg] at hdg
        injection hdg with hdg
        exact ⟨r, s1, rfl, hdg.symm⟩

theorem get_reassign (pset : PidSet) (pm : AMap Int) (mid p : Int) :
    (reassign pm pset mid).get p = if p ∈ pset then some mid else pm.get p := by
  unfold reassign
  induction pset generalizing pm with
  | nil => simp
  | cons x xs ih =>
    rw [List.foldl_cons, ih, AMap.get_set]
    by_cases hx : p ∈ xs
    · simp [hx]
    · by_cases hp : p = x
      · simp [hp]
      · simp [hx, hp]

/-- C10: in the chain 1-2, 2-3, 3-4 (the graph that `initializeTopology` builds for it) with
the new-edge set {(2,3)}, the loop of `generateNewAnglesDihedrals` builds the triplet set
{(2,3,4), (3,2,1)}, that is the angle 2-3-4 once and the angle 1-2-3 once (as 3-2-1 only),
and the quadruplet set {(1,2,3,4)}. -/
theorem C10_chain_angles_once :
    (TopologyManager.new.initializeTopology chainScenario).map (fun s => s.graph_)
      = .ok chainGraph ∧
    newAnglesDihedrals chainGraph [(2, 3)] ([], [])
      = .ok ([(1, 2, 3, 4)], [(2, 3, 4), (3, 2, 1)]) :=
  ⟨rfl, rfl⟩

/-- C7 as stated fails: in the scenario, `deleteEdge(20,21)` leaves particle 21 (residue R3)
with the original molecule id 1 and gives the new id 4 to the particles 10, 11 and 20 of R1
and R2. -/
theorem C7_counterexample :
    TopologyManager.new.initializeTopology splitScenario = .ok splitScenarioState ∧
    splitScenarioState.pid_mid = [(10, 1), (11, 1), (20, 1), (21, 1)] ∧
    (splitScenarioState.deleteEdge noListOps plainLocal 20 21).map (fun r => r.2.2.pid_mid)
      = .ok [(10, 4), (11, 4), (20, 4), (21, 1)] :=
  ⟨rfl, rfl, rfl⟩

/-- C7 (amended): in the scenario (residues R1 = {10}, R2 = {11,20}, R3 = {21} in one molecule
with id 1), whenever `deleteEdge(20,21)` returns, there are two molecule ids: the members of
R1 and R2, the side of the first end point 20, are moved to the new id 4 = `max_mol_id_ + 1`,
and the member of R3 keeps the original id 1. -/
theorem C7_split_moves_side_of_first_endpoint {P T : Type} (ops : ListOps P T)
    (loc loc' : Local P T) (removed : Bool) (s' : TopologyManager)
    (h : splitScenarioState.deleteEdge ops loc 20 21 = .ok (removed, loc', s')) :
    TopologyManager.new.initializeTopology splitScenario = .ok splitScenarioState ∧
    splitScenarioState.molecules_ = [(1, [10, 11, 20, 21])] ∧
    s'.molecules_ = [(1, [21]), (4, [10, 11, 20])] ∧
    s'.pid_mid = [(10, 4), (11, 4), (20, 4), (21, 1)] ∧
    s'.max_mol_id_ = splitScenarioState.max_mol_id_ + 1 := by
  obtain ⟨r, p, hr, hs⟩ := deleteEdge_ok ops loc loc' _ s' 20 21 removed h
  have hr' : splitScenarioState.deleteEdgeGraph 20 21 = .ok
      splitScenarioAfter := rfl
  rw [hr'] at hr
  injection hr with hr
  subst hr
  subst hs
  exact ⟨rfl, rfl, rfl, rfl, rfl⟩

/-- An instance of C7 (amended): a rank on which `removeBond` finds nothing to remove. -/
theorem C7_split_moves_side_of_first_endpoint_witness :
    splitScenarioState.deleteEdge noListOps plainLocal 20 21
      = .ok (false, { plainLocal with tuples_ := [()] },
          splitScenarioAfter) ∧
    (TopologyManager.new.initializeTopology splitScenario = .ok splitScenarioState ∧
    splitScenarioState.molecules_ = [(1, [10, 11, 20, 21])] ∧
    splitScenarioAfter.molecules_ = [(1, [21]), (4, [10, 11, 20])] ∧
    splitScenarioAfter.pid_mid = [(10, 4), (11, 4), (20, 4), (21, 1)] ∧
    splitScenarioAfter.max_mol_id_
        = splitScenarioState.max_mol_id_ + 1) :=
  ⟨rfl, C7_split_moves_side_of_first_endpoint noListOps plainLocal _ false _ rfl⟩

/-- C8 as stated fails: `newEdge(11,10)` between the molecules 2 (of particle 11) and 1 (of
particle 10) keeps the larger id 2 and erases the smaller id 1. -/
theorem C8_counterexample :
    TopologyManager.new.initializeTopology mergeScenario
      = .ok { mergeScenarioState with is_dirty_ := true } ∧
    mergeScenarioState.pid_mid.get 11 = some 2 ∧ mergeScenarioState.pid_mid.get 10 = some 1 ∧
    (mergeScenarioState.newEdge 11 10).map (fun r => (r.molecules_, r.pid_mid))
      = .ok ([(2, [10, 11])], [(10, 2), (11, 2)]) :=
  ⟨rfl, rfl, rfl, rfl⟩

/-- C8 (amended): when `newEdge(pid1,pid2)` returns and the end points had the molecule ids
`m1` and `m2`: if `m1 ≠ m2` the surviving id is `m1`, the id of the first end point; its
member set is the union of the two former sets, `m2` is no longer a key of `molecules_`, every
absorbed particle maps to `m1` in `pid_mid`, and the other molecules and mappings are
unchanged; if `m1 = m2`, `molecules_` and `pid_mid` are unchanged. -/
theorem C8_newEdge_merges_into_first_endpoint (s s' : TopologyManager) (pid1 pid2 m1 m2 : Int)
    (h : s.newEdge pid1 pid2 = .ok s')
    (h1 : s.pid_mid.get pid1 = some m1) (h2 : s.pid_mid.get pid2 = some m2) :
    (m1 ≠ m2 →
      (s'.molecules_.get m1).isSome ∧ s'.molecules_.get m2 = none ∧
      (∀ p, p ∈ s'.molecules_.adj m1 ↔ p ∈ s.molecules_.adj m1 ∨ p ∈ s.molecules_.adj m2) ∧
      (∀ p, p ∈ s.molecules_.adj m2 → s'.pid_mid.get p = some m1) ∧
      (∀ p, p ∉ s.molecules_.adj m2 → s'.pid_mid.get p = s.pid_mid.get p) ∧
      (∀ m, m ≠ m1 → m ≠ m2 → s'.molecules_.get m = s.molecules_.get m)) ∧
    (m1 = m2 → s'.molecules_ = s.molecules_ ∧ s'.pid_mid = s.pid_mid) := by
  unfold TopologyManager.newEdge at h
  simp only [TopologyManager.newResEdge] at h
  split at h
  · cases h
  · split at h
    · cases h
    · simp only [h1, h2] at h
      by_cases hm : m1 = m2
      · subst hm
        simp only [ne_eq, not_true_eq_false, if_false] at h
        injection h with h
        subst h
        exact ⟨fun hne => absurd rfl hne, fun _ => ⟨rfl, rfl⟩⟩
      · simp only [ne_eq, hm, not_false_eq_true, if_true] at h
        split at h
        · cases h
        · rename_i pset hp
          split at h
          · cases h
          · rename_i set1 hs1
            injection h with h
            subst h
            refine ⟨fun _ => ?_, fun he => absurd he hm⟩
            have hadj2 : s.molecules_.adj m2 = pset := by
              unfold GraphMap.adj; rw [hp]; rfl
            have hsome1 : (s.molecules_.get m1).isSome := by rw [hs1]; rfl
            refine ⟨?_, ?_, ?_, ?_, ?_, ?_⟩
            · simp only [AMap.get_erase, hm, if_false, AMap.isSome_get_modify]
              exact hsome1
            · simp [AMap.get_erase]
            · intro p
              unfold GraphMap.adj
              simp only [AMap.get_erase, hm, if_false, AMap.get_modify, if_true, hs1, hp,
                Option.map_some', Option.getD_some]
              exact PidSet.mem_insertAll pset set1 p
            · intro p hp2
              rw [hadj2] at hp2
              simp only [get_reassign, hp2, if_true]
            · intro p hp2
              rw [hadj2] at hp2
              simp only [get_reassign, hp2, if_false]
            · intro m hm1 hm2
              simp only [AMap.get_erase, hm2, if_false, AMap.get_modify, hm1]

/-- An instance of C8 (amended): the merge of the molecules 2 and 1 by `newEdge(11,10)`. -/
theorem C8_newEdge_merges_into_first_endpoint_witness :
    ((2 : Int) ≠ 1 →
      (mergeScenarioAfter.molecules_.get 2).isSome ∧
      mergeScenarioAfter.molecules_.get 1 = none ∧
      (∀ p, p ∈ GraphMap.adj mergeScenarioAfter.molecules_ 2
        ↔ p ∈ mergeScenarioState.molecules_.adj 2 ∨ p ∈ mergeScenarioState.molecules_.adj 1) ∧
      (∀ p, p ∈ mergeScenarioState.molecules_.adj 1 →
        mergeScenarioAfter.pid_mid.get p = some 2) ∧
      (∀ p, p ∉ mergeScenarioState.molecules_.adj 1 →
        mergeScenarioAfter.pid_mid.get p
          = mergeScenarioState.pid_mid.get p) ∧
      (∀ m, m ≠ 2 → m ≠ 1 →
        mergeScenarioAfter.molecules_.get m
          = mergeScenarioState.molecules_.get m)) ∧
    ((2 : Int) = 1 →
      mergeScenarioAfter.molecules_
        = mergeScenarioState.molecules_ ∧
      mergeScenarioAfter.pid_mid
        = mergeScenarioState.pid_mid) :=
  C8_newEdge_merges_into_first_endpoint mergeScenarioState mergeScenarioAfter 11 10 2 1 rfl rfl rfl

/-! ### Ordered sets of pairs -/

instance pairLe_isTotal : IsTotal (Int × Int) pairLe := ⟨by
  intro a b
  unfold pairLe
  omega⟩

instance pairLe_isTrans : IsTrans (Int × Int) pairLe := ⟨by
  intro a b c h1 h2
  unfold pairLe at *
  omega⟩

instance pairLe_isAntisymm : IsAntisymm (Int × Int) pairLe := ⟨by
  intro a b h1 h2
  unfold pairLe at *
  apply Prod.ext <;> omega⟩

theorem SetPairs.mem_insert_pair (s : SetPairs) (x y : Int × Int) :
    y ∈ SetPairs.insert s x ↔ y = x ∨ y ∈ s := by
  unfold SetPairs.insert
  split
  · constructor
    · exact Or.inr
    · rintro (rfl | h)
      · assumption
      · exact h
  · simp [List.mem_orderedInsert]

theorem SetPairs.sorted_insert (s : SetPairs) (x : Int × Int) (h : s.Sorted pairLe) :
    (SetPairs.insert s x).Sorted pairLe := by
  unfold SetPairs.insert
  split
  · exact h
  · exact h.orderedInsert x s

theorem SetPairs.nodup_insert (s : SetPairs) (x : Int × Int) (h : s.Nodup) :
    (SetPairs.insert s x).Nodup := by
  unfold SetPairs.insert
  split
  · exact h
  · rename_i hx
    exact (List.perm_orderedInsert pairLe x s).nodup_iff.mpr (List.nodup_cons.mpr ⟨hx, h⟩)

/-- Two ordered sets of pairs with the same elements are the same list. -/
theorem SetPairs.ext (s t : SetPairs) (hs : s.Sorted pairLe) (ht : t.Sorted pairLe)
    (hsn : s.Nodup) (htn : t.Nodup) (h : ∀ e, e ∈ s ↔ e ∈ t) : s = t :=
  List.eq_of_perm_of_sorted ((List.perm_ext_iff_of_nodup hsn htn).mpr h) hs ht

/-! ### Reading one block -/

/-- The pair that lines 699-701 insert for a received edge. -/
theorem canon_le (f1 f2 : Int) : (if f1 > f2 then (f2, f1) else (f1, f2)).1
    ≤ (if f1 > f2 then (f2, f1) else (f1, f2)).2 := by
  split <;> simp <;> omega

theorem readEdges_flat (es : List (Int × Int)) (rest : List Int) (s : SetPairs) :
    readEdges es.length (es.flatMap (fun e => [e.1, e.2]) ++ rest) s
      = .ok (es.foldl (fun s e => SetPairs.insert s (if e.1 > e.2 then (e.2, e.1) else e)) s,
          rest) := by
  induction es generalizing s with
  | nil => simp [readEdges]
  | cons e es ih =>
    obtain ⟨a, b⟩ := e
    simp only [List.length_cons, List.flatMap_cons, List.cons_append, List.nil_append,
      List.append_assoc, readEdges, List.foldl_cons]
    exact ih _

theorem mem_foldl_insert_canon (es : List (Int × Int)) (s : SetPairs) (y : Int × Int) :
    y ∈ es.foldl (fun s e => SetPairs.insert s (if e.1 > e.2 then (e.2, e.1) else e)) s
      ↔ y ∈ s ∨ (y.1 ≤ y.2 ∧ ((y.1, y.2) ∈ es ∨ (y.2, y.1) ∈ es)) := by
  induction es generalizing s with
  | nil => simp
  | cons e es ih =>
    rw [List.foldl_cons, ih, SetPairs.mem_insert_pair]
    obtain ⟨a, b⟩ := e
    obtain ⟨c, d⟩ := y
    simp only [List.mem_cons, Prod.mk.injEq]
    by_cases hab : a > b
    · simp only [hab, if_true, Prod.mk.injEq]
      constructor
      · rintro ((⟨rfl, rfl⟩ | h) | ⟨h1, h2 | h2⟩)
        · exact Or.inr ⟨by omega, Or.inr (Or.inl ⟨rfl, rfl⟩)⟩
        · exact Or.inl h
        · exact Or.inr ⟨h1, Or.inl (Or.inr h2)⟩
        · exact Or.inr ⟨h1, Or.inr (Or.inr h2)⟩
      · rintro (h | ⟨h1, (⟨rfl, rfl⟩ | h2) | (⟨rfl, rfl⟩ | h2)⟩)
        · exact Or.inl (Or.inr h)
        · omega
        · exact Or.inr ⟨h1, Or.inl h2⟩
        · exact Or.inl (Or.inl ⟨rfl, rfl⟩)
        · exact Or.inr ⟨h1, Or.inr h2⟩
    · simp only [hab, if_false, Prod.mk.injEq]
      constructor
      · rintro ((⟨rfl, rfl⟩ | h) | ⟨h1, h2 | h2⟩)
        · exact Or.inr ⟨by omega, Or.inl (Or.inl ⟨rfl, rfl⟩)⟩
        · exact Or.inl h
        · exact Or.inr ⟨h1, Or.inl (Or.inr h2)⟩
        · exact Or.inr ⟨h1, Or.inr (Or.inr h2)⟩
      · rintro (h | ⟨h1, (⟨rfl, rfl⟩ | h2) | (⟨rfl, rfl⟩ | h2)⟩)
        · exact Or.inl (Or.inr h)
        · exact Or.inl (Or.inl ⟨rfl, rfl⟩)
        · exact Or.inr ⟨h1, Or.inl h2⟩
        · have : c = d := by omega
          subst this
          exact Or.inl (Or.inl ⟨rfl, rfl⟩)
        · exact Or.inr ⟨h1, Or.inr h2⟩

theorem sorted_foldl_insert_canon (es : List (Int × Int)) (s : SetPairs)
    (hs : s.Sorted pairLe) (hn : s.Nodup) :
    (es.foldl (fun s e => SetPairs.insert s (if e.1 > e.2 then (e.2, e.1) else e)) s).Sorted pairLe
    ∧ (es.foldl (fun s e => SetPairs.insert s (if e.1 > e.2 then (e.2, e.1) else e)) s).Nodup := by
  induction es generalizing s with
  | nil => exact ⟨hs, hn⟩
  | cons e es ih =>
    rw [List.foldl_cons]
    exact ih _ (SetPairs.sorted_insert _ _ hs) (SetPairs.nodup_insert _ _ hn)

theorem readPids_flat (ps : List Int) (rest : List Int) (s : PidSet) :
    readPids ps.length (ps ++ rest) s = .ok (ps.foldl PidSet.insert s, rest) := by
  induction ps generalizing s with
  | nil => simp [readPids]
  | cons p ps ih =>
    simp only [List.length_cons, List.cons_append, readPids, List.foldl_cons]
    exact ih _

theorem MapPairsDist.get_orderedInsert (m : MapPairsDist) (key : Int × Int) (d : Int)
    (k : Int × Int) (hnone : MapPairsDist.get m key = none) :
    MapPairsDist.get (m.orderedInsert (fun a b => pairLe a.1 b.1) (key, d)) k
      = if key = k then some d else MapPairsDist.get m k := by
  induction m with
  | nil => simp only [List.orderedInsert, MapPairsDist.get]
  | cons e m ih =>
    obtain ⟨a, v⟩ := e
    simp only [MapPairsDist.get] at hnone
    have hak : a ≠ key := by
      intro h; rw [if_pos h] at hnone; cases hnone
    rw [if_neg hak] at hnone
    simp only [List.orderedInsert]
    split
    · simp only [MapPairsDist.get]
    · simp only [MapPairsDist.get]
      by_cases ha : a = k
      · have : key ≠ k := fun h => hak (ha.trans h.symm)
        simp only [ha, if_true, this, if_false]
      · simp only [ha, if_false]
        exact ih hnone

theorem MapPairsDist.dist_get_insert (m : MapPairsDist) (key : Int × Int) (d : Int)
    (k : Int × Int) (hnone : MapPairsDist.get m key = none) :
    MapPairsDist.get (m.insert key d) k = if key = k then some d else MapPairsDist.get m k := by
  unfold MapPairsDist.insert
  rw [hnone]
  exact MapPairsDist.get_orderedInsert m key d k hnone

theorem triplesOf_length (n : Nat) (l : List Int) (h : l.length = 3 * n) :
    (triplesOf l).length = n := by
  induction n generalizing l with
  | zero =>
    have : l = [] := List.length_eq_zero.mp (by omega)
    subst this; rfl
  | succ n ih =>
    match l, h with
    | a :: b :: c :: rest, h =>
      simp only [triplesOf, List.length_cons]
      rw [ih rest (by simp only [List.length_cons] at h; omega)]

/-- The loop over the distance updates of a block completes when the queued distances agree,
and every entry of the map comes from a queued update. -/
theorem readDistances_ok (all : List (Int × Int × Int)) (hall : distancesAgree all)
    (n : Nat) (l rest : List Int) (m : MapPairsDist)
    (hl : l.length = 3 * n) (hsub : ∀ t ∈ triplesOf l, t ∈ all)
    (hm : ∀ key d, m.get key = some d → (key.1, d, key.2) ∈ all) :
    ∃ m', readDistances n (l ++ rest) m = .ok (m', rest) ∧
      (∀ key d, MapPairsDist.get m' key = some d → (key.1, d, key.2) ∈ all) := by
  induction n generalizing l m with
  | zero =>
    have : l = [] := List.length_eq_zero.mp (by omega)
    subst this
    exact ⟨m, rfl, hm⟩
  | succ n ih =>
    match l, hl, hsub with
    | root :: dist :: part :: l', hl, hsub =>
      have hl' : l'.length = 3 * n := by simp only [List.length_cons] at hl; omega
      have ht : (root, dist, part) ∈ all := hsub _ (by simp [triplesOf])
      have hsub' : ∀ t ∈ triplesOf l', t ∈ all := fun t h => hsub t (by simp [triplesOf, h])
      simp only [List.cons_append, readDistances]
      cases hg : MapPairsDist.get m (root, part) with
      | none =>
        simp only []
        apply ih l' _ hl' hsub'
        intro key d hk
        rw [MapPairsDist.dist_get_insert _ _ _ _ hg] at hk
        by_cases hkey : (root, part) = key
        · rw [if_pos hkey] at hk
          injection hk with hk
          subst hk; subst hkey
          exact ht
        · rw [if_neg hkey] at hk
          exact hm key d hk
      | some d' =>
        simp only []
        have hd : d' = dist := by
          have h1 := hm (root, part) d' hg
          exact hall _ h1 _ ht rfl rfl
        subst hd
        simp only [ne_eq, not_true_eq_false, if_false]
        exact ih l' m hl' hsub' hm


theorem mergeVector_one (fuel : Nat) (x : Int) (v : List Int) (m m1 : Merged)
    (h : mergeBlock (x :: v) m = .ok (m1, [])) : mergeVector (fuel + 1) (x :: v) m = .ok m1 := by
  simp only [mergeVector, h]
  cases fuel <;> rfl

/-- Reading the block a rank packed: the three loops over its edges and ids run to the end of
the block, and so does the loop over its distance updates when the queued distances agree. -/
theorem mergeBlock_packBlock (all : List (Int × Int × Int)) (hall : distancesAgree all)
    (b : TopologyManager) (m : Merged)
    (hwf : b.nb_distance_particles_.length % 3 = 0)
    (hsub : ∀ t ∈ triplesOf b.nb_distance_particles_, t ∈ all)
    (hm : ∀ key d, m.global_nb_distance_particles.get key = some d → (key.1, d, key.2) ∈ all) :
    ∃ dist, mergeVector b.packBlock.length b.packBlock m = .ok
        { global_nb_distance_particles := dist
          global_new_edge := b.newEdges_.foldl
            (fun s e => SetPairs.insert s (if e.1 > e.2 then (e.2, e.1) else e)) m.global_new_edge
          global_new_local_particle_properties :=
            b.new_local_particle_properties_.foldl PidSet.insert
              m.global_new_local_particle_properties
          global_remove_edge := b.removedEdges_.foldl
            (fun s e => SetPairs.insert s (if e.1 > e.2 then (e.2, e.1) else e))
            m.global_remove_edge } ∧
      (∀ key d, MapPairsDist.get dist key = some d → (key.1, d, key.2) ∈ all) := by
  have hl : b.nb_distance_particles_.length = 3 * (b.nb_distance_particles_.length / 3) := by
    omega
  obtain ⟨dist, hd, hdm⟩ := readDistances_ok all hall (b.nb_distance_particles_.length / 3)
    b.nb_distance_particles_
    (b.newEdges_.flatMap (fun e => [e.1, e.2]) ++
      (b.removedEdges_.flatMap (fun e => [e.1, e.2]) ++ (b.new_local_particle_properties_ ++ [])))
    m.global_nb_distance_particles hl hsub hm
  refine ⟨dist, ?_, hdm⟩
  have hp : b.packBlock = ((b.nb_distance_particles_.length / 3 : Nat) : Int) ::
      (b.newEdges_.length : Int) :: (b.removedEdges_.length : Int) ::
      (b.new_local_particle_properties_.length : Int) ::
      (b.nb_distance_particles_ ++ (b.newEdges_.flatMap (fun e => [e.1, e.2]) ++
        (b.removedEdges_.flatMap (fun e => [e.1, e.2]) ++
          (b.new_local_particle_properties_ ++ [])))) := by
    simp [TopologyManager.packBlock]
  have hlen : b.packBlock.length = (b.packBlock.length - 1) + 1 := by
    rw [hp]; simp
  rw [hlen]
  rw [hp]
  apply mergeVector_one
  simp only [mergeBlock, Int.toNat_ofNat, hd, readEdges_flat, readPids_flat]

theorem reportsNewEdge_cons (b : TopologyManager) (bs : List TopologyManager) (x y : Int) :
    reportsNewEdge (b :: bs) x y
      ↔ ((x, y) ∈ b.newEdges_ ∨ (y, x) ∈ b.newEdges_) ∨ reportsNewEdge bs x y := by
  simp [reportsNewEdge]

theorem reportsRemovedEdge_cons (b : TopologyManager) (bs : List TopologyManager) (x y : Int) :
    reportsRemovedEdge (b :: bs) x y
      ↔ ((x, y) ∈ b.removedEdges_ ∨ (y, x) ∈ b.removedEdges_) ∨ reportsRemovedEdge bs x y := by
  simp [reportsRemovedEdge]

/-- The properties of the merged containers that the merge keeps. -/
theorem mergeAll_packed (all : List (Int × Int × Int)) (hall : distancesAgree all)
    (bs : List TopologyManager) (m : Merged)
    (hwf : ∀ b ∈ bs, b.nb_distance_particles_.length % 3 = 0)
    (hsub : ∀ b ∈ bs, ∀ t ∈ triplesOf b.nb_distance_particles_, t ∈ all)
    (hm : ∀ key d, m.global_nb_distance_particles.get key = some d → (key.1, d, key.2) ∈ all)
    (hns : m.global_new_edge.Sorted pairLe ∧ m.global_new_edge.Nodup)
    (hrs : m.global_remove_edge.Sorted pairLe ∧ m.global_remove_edge.Nodup) :
    ∃ m', mergeAll (bs.map TopologyManager.packBlock) m = .ok m' ∧
      (m'.global_new_edge.Sorted pairLe ∧ m'.global_new_edge.Nodup) ∧
      (m'.global_remove_edge.Sorted pairLe ∧ m'.global_remove_edge.Nodup) ∧
      (∀ e, e ∈ m'.global_new_edge ↔
        e ∈ m.global_new_edge ∨ (e.1 ≤ e.2 ∧ reportsNewEdge bs e.1 e.2)) ∧
      (∀ e, e ∈ m'.global_remove_edge ↔
        e ∈ m.global_remove_edge ∨ (e.1 ≤ e.2 ∧ reportsRemovedEdge bs e.1 e.2)) := by
  induction bs generalizing m with
  | nil =>
    refine ⟨m, rfl, hns, hrs, ?_, ?_⟩
    · intro e; simp [reportsNewEdge]
    · intro e; simp [reportsRemovedEdge]
  | cons b bs ih =>
    obtain ⟨dist, hb, hdm⟩ := mergeBlock_packBlock all hall b m
      (hwf b (List.mem_cons_self _ _)) (hsub b (List.mem_cons_self _ _)) hm
    simp only [List.map_cons, mergeAll, hb]
    obtain ⟨m', hm', hs1, hs2, hn, hr⟩ := ih
      { global_nb_distance_particles := dist
        global_new_edge := b.newEdges_.foldl
          (fun s e => SetPairs.insert s (if e.1 > e.2 then (e.2, e.1) else e)) m.global_new_edge
        global_new_local_particle_properties :=
          b.new_local_particle_properties_.foldl PidSet.insert
            m.global_new_local_particle_properties
        global_remove_edge := b.removedEdges_.foldl
          (fun s e => SetPairs.insert s (if e.1 > e.2 then (e.2, e.1) else e))
          m.global_remove_edge }
      (fun x hx => hwf x (List.mem_cons_of_mem _ hx))
      (fun x hx => hsub x (List.mem_cons_of_mem _ hx)) hdm
      (sorted_foldl_insert_canon b.newEdges_ _ hns.1 hns.2)
      (sorted_foldl_insert_canon b.removedEdges_ _ hrs.1 hrs.2)
    refine ⟨m', hm', hs1, hs2, ?_, ?_⟩
    · intro e
      rw [hn e, reportsNewEdge_cons]
      simp only [mem_foldl_insert_canon]
      tauto
    · intro e
      rw [hr e, reportsRemovedEdge_cons]
      simp only [mem_foldl_insert_canon]
      tauto

/-- C6: two lists of per-rank blocks that report the same unordered new edges and the same
unordered removed edges (this covers a permutation of the ranks, a reordering or repetition
inside a block, the same edge reported by several ranks, and an edge with its end points
swapped) are merged by `exchangeData` into the same new-edge set and the same removed-edge
set, and every merged edge `(a,b)` has `a ≤ b`. The merge completes when the queued distance
updates are whole triples that agree. -/
theorem C6_merged_edge_sets_canonical (bs1 bs2 : List TopologyManager)
    (hwf1 : ∀ b ∈ bs1, b.nb_distance_particles_.length % 3 = 0)
    (hwf2 : ∀ b ∈ bs2, b.nb_distance_particles_.length % 3 = 0)
    (hd1 : distancesAgree (queuedDistances bs1)) (hd2 : distancesAgree (queuedDistances bs2))
    (hnew : ∀ x y, reportsNewEdge bs1 x y ↔ reportsNewEdge bs2 x y)
    (hrem : ∀ x y, reportsRemovedEdge bs1 x y ↔ reportsRemovedEdge bs2 x y) :
    ∃ m1 m2 : Merged,
      mergeAll (bs1.map TopologyManager.packBlock) Merged.empty = .ok m1 ∧
      mergeAll (bs2.map TopologyManager.packBlock) Merged.empty = .ok m2 ∧
      m1.global_new_edge = m2.global_new_edge ∧
      m1.global_remove_edge = m2.global_remove_edge ∧
      (∀ e ∈ m1.global_new_edge, e.1 ≤ e.2) ∧ (∀ e ∈ m1.global_remove_edge, e.1 ≤ e.2) ∧
      (∀ x y, (x, y) ∈ m1.global_new_edge ↔ x ≤ y ∧ reportsNewEdge bs1 x y) ∧
      (∀ x y, (x, y) ∈ m1.global_remove_edge ↔ x ≤ y ∧ reportsRemovedEdge bs1 x y) := by
  have hsubq : ∀ (bs : List TopologyManager), ∀ b ∈ bs,
      ∀ t ∈ triplesOf b.nb_distance_particles_, t ∈ queuedDistances bs := by
    intro bs b hb t ht
    unfold queuedDistances
    rw [List.mem_flatMap]
    exact ⟨b, hb, ht⟩
  have hempty : ∀ key d, Merged.empty.global_nb_distance_particles.get key = some d →
      (key.1, d, key.2) ∈ ([] : List (Int × Int × Int)) := by
    intro key d h; simp [Merged.empty, MapPairsDist.get] at h
  have hnil : ([] : SetPairs).Sorted pairLe ∧ ([] : SetPairs).Nodup :=
    ⟨List.sorted_nil, List.nodup_nil⟩
  obtain ⟨m1, h1, hs1, hr1, hn1, hx1⟩ := mergeAll_packed _ hd1 bs1 Merged.empty hwf1
    (hsubq bs1) (fun key d h => absurd (hempty key d h) (List.not_mem_nil _)) hnil hnil
  obtain ⟨m2, h2, hs2, hr2, hn2, hx2⟩ := mergeAll_packed _ hd2 bs2 Merged.empty hwf2
    (hsubq bs2) (fun key d h => absurd (hempty key d h) (List.not_mem_nil _)) hnil hnil
  have e0 : ∀ e : Int × Int, e ∉ Merged.empty.global_new_edge := by
    intro e; simp [Merged.empty]
  have e1 : ∀ e : Int × Int, e ∉ Merged.empty.global_remove_edge := by
    intro e; simp [Merged.empty]
  refine ⟨m1, m2, h1, h2, ?_, ?_, ?_, ?_, ?_, ?_⟩
  · apply SetPairs.ext _ _ hs1.1 hs2.1 hs1.2 hs2.2
    intro e
    rw [hn1 e, hn2 e, hnew]
  · apply SetPairs.ext _ _ hr1.1 hr2.1 hr1.2 hr2.2
    intro e
    rw [hx1 e, hx2 e, hrem]
  · intro e he
    rcases (hn1 e).mp he with h | h
    · exact absurd h (e0 e)
    · exact h.1
  · intro e he
    rcases (hx1 e).mp he with h | h
    · exact absurd h (e1 e)
    · exact h.1
  · intro x y
    rw [hn1 (x, y)]
    constructor
    · rintro (h | h)
      · exact absurd h (e0 _)
      · exact h
    · exact Or.inr
  · intro x y
    rw [hx1 (x, y)]
    constructor
    · rintro (h | h)
      · exact absurd h (e1 _)
      · exact h
    · exact Or.inr

/-- An instance of C6: the ranks (A, B) and the ranks (D, C) report the same edges. -/
theorem C6_merged_edge_sets_canonical_witness :
    ∃ m1 m2 : Merged,
      mergeAll ([mergeRankA, mergeRankB].map TopologyManager.packBlock) Merged.empty = .ok m1 ∧
      mergeAll ([mergeRankD, mergeRankC].map TopologyManager.packBlock) Merged.empty = .ok m2 ∧
      m1.global_new_edge = m2.global_new_edge ∧
      m1.global_remove_edge = m2.global_remove_edge ∧
      (∀ e ∈ m1.global_new_edge, e.1 ≤ e.2) ∧ (∀ e ∈ m1.global_remove_edge, e.1 ≤ e.2) ∧
      (∀ x y, (x, y) ∈ m1.global_new_edge ↔ x ≤ y ∧ reportsNewEdge [mergeRankA, mergeRankB] x y) ∧
      (∀ x y, (x, y) ∈ m1.global_remove_edge
        ↔ x ≤ y ∧ reportsRemovedEdge [mergeRankA, mergeRankB] x y) :=
  C6_merged_edge_sets_canonical [mergeRankA, mergeRankB] [mergeRankD, mergeRankC]
    (by decide) (by decide)
    (by
      intro t1 h1 t2 h2
      simp only [queuedDistances, mergeRankA, mergeRankB, TopologyManager.new, triplesOf,
        List.flatMap_cons, List.flatMap_nil, List.append_nil, List.cons_append, List.nil_append,
        List.mem_cons, List.mem_singleton, List.not_mem_nil, or_false] at h1 h2
      rcases h1 with rfl | rfl | rfl <;> rcases h2 with rfl | rfl | rfl <;> simp)
    (by
      intro t1 h1
      simp [queuedDistances, mergeRankC, mergeRankD, TopologyManager.new, triplesOf] at h1)
    (by
      intro x y
      simp only [reportsNewEdge, mergeRankA, mergeRankB, mergeRankC, mergeRankD,
        TopologyManager.new, List.mem_cons, List.mem_singleton, List.not_mem_nil, or_false,
        exists_eq_or_imp, exists_eq_left, Prod.mk.injEq, exists_false]
      tauto)
    (by
      intro x y
      simp only [reportsRemovedEdge, mergeRankA, mergeRankB, mergeRankC, mergeRankD,
        TopologyManager.new, List.mem_cons, List.mem_singleton, List.not_mem_nil, or_false,
        exists_eq_or_imp, exists_eq_left, Prod.mk.injEq, exists_false]
      tauto)

/-! ### Paths when one edge is added or removed -/

theorem rtg_split {R S : Int → Int → Prop} (a b : Int)
    (h : ∀ x y, S x y → R x y ∨ (x = a ∧ y = b) ∨ (x = b ∧ y = a)) (x y : Int)
    (hxy : Relation.ReflTransGen S x y) :
    Relation.ReflTransGen R x y ∨
      (Relation.ReflTransGen R x a ∧ Relation.ReflTransGen R b y) ∨
      (Relation.ReflTransGen R x b ∧ Relation.ReflTransGen R a y) := by
  induction hxy with
  | refl => exact Or.inl Relation.ReflTransGen.refl
  | tail _ hyz ih =>
    rcases h _ _ hyz with hr | ⟨rfl, rfl⟩ | ⟨rfl, rfl⟩
    · rcases ih with h1 | ⟨h1, h2⟩ | ⟨h1, h2⟩
      · exact Or.inl (h1.tail hr)
      · exact Or.inr (Or.inl ⟨h1, h2.tail hr⟩)
      · exact Or.inr (Or.inr ⟨h1, h2.tail hr⟩)
    · rcases ih with h1 | ⟨h1, _⟩ | ⟨h1, _⟩
      · exact Or.inr (Or.inl ⟨h1, Relation.ReflTransGen.refl⟩)
      · exact Or.inr (Or.inl ⟨h1, Relation.ReflTransGen.refl⟩)
      · exact Or.inl h1
    · rcases ih with h1 | ⟨h1, _⟩ | ⟨h1, _⟩
      · exact Or.inr (Or.inr ⟨h1, Relation.ReflTransGen.refl⟩)
      · exact Or.inl h1
      · exact Or.inr (Or.inr ⟨h1, Relation.ReflTransGen.refl⟩)

theorem Reach.symm (g : GraphMap) (hsym : ∀ x y, y ∈ g.adj x → x ∈ g.adj y) (x y : Int)
    (h : Reach g x y) : Reach g y x := by
  unfold Reach at *
  induction h with
  | refl => exact Relation.ReflTransGen.refl
  | tail _ hyz ih => exact Relation.ReflTransGen.head (hsym _ _ hyz) ih

theorem Reach.trans {g : GraphMap} {x y z : Int} (h1 : Reach g x y) (h2 : Reach g y z) :
    Reach g x z := Relation.ReflTransGen.trans h1 h2

theorem Reach.mono (g g' : GraphMap) (h : ∀ x y, y ∈ g.adj x → y ∈ g'.adj x) (x y : Int)
    (hxy : Reach g x y) : Reach g' x y :=
  Relation.ReflTransGen.mono (fun a b hab => h a b hab) hxy

theorem Reach_nil (x y : Int) : Reach [] x y ↔ x = y := by
  constructor
  · intro h
    unfold Reach at h
    induction h with
    | refl => rfl
    | tail _ hyz _ => simp [GraphMap.adj, AMap.get] at hyz
  · rintro rfl; exact Relation.ReflTransGen.refl

/-- Paths after `addEdge`. -/
theorem Reach_addEdge (g : GraphMap) (a b x y : Int) :
    Reach (g.addEdge a b) x y ↔
      Reach g x y ∨ (Reach g x a ∧ Reach g b y) ∨ (Reach g x b ∧ Reach g a y) := by
  constructor
  · intro h
    exact rtg_split a b (fun u v huv => (GraphMap.mem_adj_addEdge g a b u v).mp huv) x y h
  · have hm : ∀ u v, Reach g u v → Reach (g.addEdge a b) u v :=
      Reach.mono g _ (fun u v huv => (GraphMap.mem_adj_addEdge g a b u v).mpr (Or.inl huv))
    have hab : Reach (g.addEdge a b) a b :=
      Relation.ReflTransGen.single
        ((GraphMap.mem_adj_addEdge g a b a b).mpr (Or.inr (Or.inl ⟨rfl, rfl⟩)))
    have hba : Reach (g.addEdge a b) b a :=
      Relation.ReflTransGen.single
        ((GraphMap.mem_adj_addEdge g a b b a).mpr (Or.inr (Or.inr ⟨rfl, rfl⟩)))
    rintro (h | ⟨h1, h2⟩ | ⟨h1, h2⟩)
    · exact hm _ _ h
    · exact ((hm _ _ h1).trans hab).trans (hm _ _ h2)
    · exact ((hm _ _ h1).trans hba).trans (hm _ _ h2)

/-! ### newEdge keeps the invariant -/

theorem newEdge_ok (s s' : TopologyManager) (a b : Int) (h : s.newEdge a b = .ok s') :
    ∃ ra rb m1 m2, s.pid_rid.get a = some ra ∧ s.pid_rid.get b = some rb ∧
      s.pid_mid.get a = some m1 ∧ s.pid_mid.get b = some m2 ∧
      s'.graph_ = s.graph_.addEdge a b ∧ s'.res_graph_ = s.res_graph_.addEdge ra rb ∧
      s'.residues_ = s.residues_ ∧ s'.pid_rid = s.pid_rid ∧ s'.max_mol_id_ = s.max_mol_id_ ∧
      ((m1 = m2 ∧ s'.molecules_ = s.molecules_ ∧ s'.pid_mid = s.pid_mid) ∨
       (m1 ≠ m2 ∧ ∃ pset set1, s.molecules_.get m2 = some pset ∧ s.molecules_.get m1 = some set1 ∧
          s'.molecules_ = (s.molecules_.modify m1 (fun m => PidSet.insertAll m pset)).erase m2 ∧
          s'.pid_mid = reassign s.pid_mid pset m1)) := by
  unfold TopologyManager.newEdge at h
  simp only [TopologyManager.newResEdge] at h
  split at h
  · cases h
  · rename_i ra hra
    split at h
    · cases h
    · rename_i rb hrb
      split at h
      · cases h
      · rename_i m1 hm1
        split at h
        · cases h
        · rename_i m2 hm2
          refine ⟨ra, rb, m1, m2, hra, hrb, hm1, hm2, ?_⟩
          split at h
          · rename_i hne
            split at h
            · cases h
            · rename_i pset hp
              split at h
              · cases h
              · rename_i set1 hs1
                injection h with h
                subst h
                exact ⟨rfl, rfl, rfl, rfl, rfl, Or.inr ⟨hne, pset, set1, hp, hs1, rfl, rfl⟩⟩
          · rename_i hne
            injection h with h
            subst h
            exact ⟨rfl, rfl, rfl, rfl, rfl, Or.inl ⟨not_not.mp hne, rfl, rfl⟩⟩

theorem TopoInv.mid_of_tracked {s : TopologyManager} (hi : TopoInv s) (p r : Int)
    (h : s.pid_rid.get p = some r) : ∃ m, s.pid_mid.get p = some m := by
  have := (hi.tracked p).mpr (by rw [h]; rfl)
  exact Option.isSome_iff_exists.mp this

theorem TopoInv.rid_of_mid {s : TopologyManager} (hi : TopoInv s) (p m : Int)
    (h : s.pid_mid.get p = some m) : ∃ r, s.pid_rid.get p = some r := by
  have := (hi.tracked p).mp (by rw [h]; rfl)
  exact Option.isSome_iff_exists.mp this

theorem TopoInv.rg_node' {s : TopologyManager} (hi : TopoInv s) (r1 r2 : Int)
    (h : Reach s.res_graph_ r1 r2) (hne : r1 ≠ r2) : ∃ p, s.pid_rid.get p = some r2 := by
  unfold Reach at h
  induction h with
  | refl => exact absurd rfl hne
  | tail _ hyz _ => exact hi.rg_node _ _ (hi.rg_sym _ _ hyz)

theorem newEdge_inv (s s' : TopologyManager) (a b : Int) (hi : TopoInv s)
    (h : s.newEdge a b = .ok s') : TopoInv s' := by
  obtain ⟨ra, rb, m1, m2, hra, hrb, hm1, hm2, hg, hrg, hres, hrid, hmax, hmol⟩ :=
    newEdge_ok s s' a b h
  -- the parts that do not involve the molecules
  have h_res_mem : ∀ r p, p ∈ s'.residues_.adj r ↔ s'.pid_rid.get p = some r := by
    intro r p; rw [hres, hrid]; exact hi.res_mem r p
  have h_graph_sym : ∀ p q, q ∈ s'.graph_.adj p → p ∈ s'.graph_.adj q := by
    intro p q
    rw [hg, GraphMap.mem_adj_addEdge, GraphMap.mem_adj_addEdge]
    rintro (h1 | ⟨rfl, rfl⟩ | ⟨rfl, rfl⟩)
    · exact Or.inl (hi.graph_sym p q h1)
    · exact Or.inr (Or.inr ⟨rfl, rfl⟩)
    · exact Or.inr (Or.inl ⟨rfl, rfl⟩)
  have h_graph_tracked : ∀ p q, q ∈ s'.graph_.adj p → (s'.pid_rid.get p).isSome := by
    intro p q
    rw [hg, GraphMap.mem_adj_addEdge, hrid]
    rintro (h1 | ⟨rfl, rfl⟩ | ⟨rfl, rfl⟩)
    · exact hi.graph_tracked p q h1
    · rw [hra]; rfl
    · rw [hrb]; rfl
  have h_rg_bond : ∀ r1 r2, r1 ≠ r2 → (r2 ∈ s'.res_graph_.adj r1 ↔ s'.bonded r1 r2) := by
    intro r1 r2 hne
    rw [hrg, GraphMap.mem_adj_addEdge, hi.rg_bond r1 r2 hne]
    unfold TopologyManager.bonded
    rw [hrid, hg]
    constructor
    · rintro (⟨p1, p2, h1, h2, h3⟩ | ⟨rfl, rfl⟩ | ⟨rfl, rfl⟩)
      · exact ⟨p1, p2, h1, h2, (GraphMap.mem_adj_addEdge _ _ _ _ _).mpr (Or.inl h3)⟩
      · exact ⟨a, b, hra, hrb, (GraphMap.mem_adj_addEdge _ _ _ _ _).mpr (Or.inr (Or.inl ⟨rfl, rfl⟩))⟩
      · exact ⟨b, a, hrb, hra, (GraphMap.mem_adj_addEdge _ _ _ _ _).mpr (Or.inr (Or.inr ⟨rfl, rfl⟩))⟩
    · rintro ⟨p1, p2, h1, h2, h3⟩
      rcases (GraphMap.mem_adj_addEdge _ _ _ _ _).mp h3 with h4 | ⟨rfl, rfl⟩ | ⟨rfl, rfl⟩
      · exact Or.inl ⟨p1, p2, h1, h2, h4⟩
      · rw [hra] at h1; rw [hrb] at h2
        injection h1 with h1; injection h2 with h2
        exact Or.inr (Or.inl ⟨h1.symm, h2.symm⟩)
      · rw [hrb] at h1; rw [hra] at h2
        injection h1 with h1; injection h2 with h2
        exact Or.inr (Or.inr ⟨h1.symm, h2.symm⟩)
  have h_rg_node : ∀ r1 r2, r2 ∈ s'.res_graph_.adj r1 → ∃ p, s'.pid_rid.get p = some r1 := by
    intro r1 r2
    rw [hrg, GraphMap.mem_adj_addEdge, hrid]
    rintro (h1 | ⟨rfl, rfl⟩ | ⟨rfl, rfl⟩)
    · exact hi.rg_node r1 r2 h1
    · exact ⟨a, hra⟩
    · exact ⟨b, hrb⟩
  have h_rg_sym : ∀ r1 r2, r2 ∈ s'.res_graph_.adj r1 → r1 ∈ s'.res_graph_.adj r2 := by
    intro r1 r2
    rw [hrg, GraphMap.mem_adj_addEdge, GraphMap.mem_adj_addEdge]
    rintro (h1 | ⟨rfl, rfl⟩ | ⟨rfl, rfl⟩)
    · exact Or.inl (hi.rg_sym r1 r2 h1)
    · exact Or.inr (Or.inr ⟨rfl, rfl⟩)
    · exact Or.inr (Or.inl ⟨rfl, rfl⟩)
  have hsymR : ∀ x y, Reach s.res_graph_ x y → Reach s.res_graph_ y x :=
    Reach.symm _ hi.rg_sym
  rcases hmol with ⟨hmeq, hmols, hpm⟩ | ⟨hmne, pset, set1, hp, hs1, hmols, hpm⟩
  · -- same molecule: nothing is merged
    subst hmeq
    have hab : Reach s.res_graph_ ra rb := (hi.mol_conn a b m1 m1 ra rb hm1 hm2 hra hrb).mp rfl
    refine ⟨?_, h_res_mem, ?_, ?_, ?_, h_graph_sym, h_graph_tracked, h_rg_bond, h_rg_node,
      h_rg_sym, ?_⟩
    · intro p; rw [hpm, hrid]; exact hi.tracked p
    · intro m p; rw [hmols, hpm]; exact hi.mol_mem m p
    · intro m; rw [hmols, hmax]; exact hi.mol_max m
    · rw [hmols]; exact hi.mol_keys
    · intro p q mp mq rp rq h1 h2 h3 h4
      rw [hpm] at h1 h2; rw [hrid] at h3 h4
      rw [hi.mol_conn p q mp mq rp rq h1 h2 h3 h4, hrg, Reach_addEdge]
      constructor
      · exact Or.inl
      · rintro (h5 | ⟨h5, h6⟩ | ⟨h5, h6⟩)
        · exact h5
        · exact (h5.trans hab).trans h6
        · exact (h5.trans (hsymR _ _ hab)).trans h6
  · -- two molecules are merged
    have hadj2 : s.molecules_.adj m2 = pset := by unfold GraphMap.adj; rw [hp]; rfl
    have hadj1 : s.molecules_.adj m1 = set1 := by unfold GraphMap.adj; rw [hs1]; rfl
    have hpm' : ∀ p, s'.pid_mid.get p = if s.pid_mid.get p = some m2 then some m1
        else s.pid_mid.get p := by
      intro p
      rw [hpm, get_reassign, ← hadj2]
      by_cases hp2 : p ∈ s.molecules_.adj m2
      · rw [if_pos hp2, if_pos ((hi.mol_mem m2 p).mp hp2)]
      · rw [if_neg hp2, if_neg (fun hc => hp2 ((hi.mol_mem m2 p).mpr hc))]
    have hmolget : ∀ m, s'.molecules_.get m = if m = m2 then none
        else if m = m1 then some (PidSet.insertAll set1 pset) else s.molecules_.get m := by
      intro m
      rw [hmols, AMap.get_erase]
      by_cases hm2' : m = m2
      · simp [hm2']
      · rw [if_neg hm2', if_neg hm2', AMap.get_modify]
        by_cases hm1' : m = m1
        · subst hm1'; simp [hs1]
        · simp [hm1']
    refine ⟨?_, h_res_mem, ?_, ?_, ?_, h_graph_sym, h_graph_tracked, h_rg_bond, h_rg_node,
      h_rg_sym, ?_⟩
    · intro p
      rw [hpm' p, hrid, ← hi.tracked p]
      split
      · rename_i hc; rw [hc]; simp
      · rfl
    · intro m p
      rw [hpm' p]
      unfold GraphMap.adj
      rw [hmolget m]
      by_cases hm2' : m = m2
      · subst hm2'
        simp only [if_true, Option.getD_none, List.not_mem_nil, false_iff]
        split
        · intro hc; injection hc with hc; exact hmne hc
        · assumption
      · rw [if_neg hm2']
        by_cases hm1' : m = m1
        · subst hm1'
          simp only [if_true, Option.getD_some]
          rw [PidSet.mem_insertAll, ← hadj1, ← hadj2, hi.mol_mem, hi.mol_mem]
          split
          · rename_i hc; simp [hc]
          · rename_i hc; simp [hc]
        · rw [if_neg hm1']
          have := hi.mol_mem m p
          unfold GraphMap.adj at this
          rw [this]
          split
          · rename_i hc
            rw [hc]
            constructor
            · intro h1; injection h1 with h1; exact absurd h1.symm hm2'
            · intro h1; injection h1 with h1; exact absurd h1.symm hm1'
          · rfl
    · intro m hm
      rw [hmolget m] at hm
      rw [hmax]
      by_cases hm2' : m = m2
      · rw [if_pos hm2'] at hm; cases hm
      · rw [if_neg hm2'] at hm
        by_cases hm1' : m = m1
        · subst hm1'; exact hi.mol_max m (by rw [hs1]; rfl)
        · rw [if_neg hm1'] at hm; exact hi.mol_max m hm
    · rw [hmols]
      apply AMap.keys_erase_nodup
      rw [AMap.keys_modify]
      exact hi.mol_keys
    · intro p q mp mq rp rq h1 h2 h3 h4
      rw [hrid] at h3 h4
      rw [hpm' p] at h1; rw [hpm' q] at h2
      rw [hrg, Reach_addEdge]
      obtain ⟨mp0, hmp0⟩ := hi.mid_of_tracked p rp h3
      obtain ⟨mq0, hmq0⟩ := hi.mid_of_tracked q rq h4
      have cpa : mp0 = m1 ↔ Reach s.res_graph_ rp ra := hi.mol_conn p a mp0 m1 rp ra hmp0 hm1 h3 hra
      have cpb : mp0 = m2 ↔ Reach s.res_graph_ rp rb := hi.mol_conn p b mp0 m2 rp rb hmp0 hm2 h3 hrb
      have cqa : mq0 = m1 ↔ Reach s.res_graph_ rq ra := hi.mol_conn q a mq0 m1 rq ra hmq0 hm1 h4 hra
      have cqb : mq0 = m2 ↔ Reach s.res_graph_ rq rb := hi.mol_conn q b mq0 m2 rq rb hmq0 hm2 h4 hrb
      have cpq : mp0 = mq0 ↔ Reach s.res_graph_ rp rq := hi.mol_conn p q mp0 mq0 rp rq hmp0 hmq0 h3 h4
      rw [hmp0] at h1; rw [hmq0] at h2
      simp only [Option.some.injEq] at h1 h2
      have e1 : mp = if mp0 = m2 then m1 else mp0 := by
        split at h1
        · rename_i hc; rw [if_pos hc]; injection h1 with h1; exact h1.symm
        · rename_i hc; rw [if_neg hc]; injection h1 with h1; exact h1.symm
      have e2 : mq = if mq0 = m2 then m1 else mq0 := by
        split at h2
        · rename_i hc; rw [if_pos hc]; injection h2 with h2; exact h2.symm
        · rename_i hc; rw [if_neg hc]; injection h2 with h2; exact h2.symm
      rw [e1, e2]
      constructor
      · intro heq
        by_cases hp2 : mp0 = m2
        · rw [if_pos hp2] at heq
          by_cases hq2 : mq0 = m2
          · exact Or.inl (cpq.mp (hp2.trans hq2.symm))
          · rw [if_neg hq2] at heq
            exact Or.inr (Or.inr ⟨cpb.mp hp2, hsymR _ _ (cqa.mp heq.symm)⟩)
        · rw [if_neg hp2] at heq
          by_cases hq2 : mq0 = m2
          · rw [if_pos hq2] at heq
            exact Or.inr (Or.inl ⟨cpa.mp heq, hsymR _ _ (cqb.mp hq2)⟩)
          · rw [if_neg hq2] at heq
            exact Or.inl (cpq.mp heq)
      · rintro (h5 | ⟨h5, h6⟩ | ⟨h5, h6⟩)
        · have := cpq.mpr h5
          subst this
          rfl
        · have hp1 := cpa.mpr h5
          have hq2 := cqb.mpr (hsymR _ _ h6)
          rw [if_pos hq2, if_neg (by rw [hp1]; exact hmne), hp1]
        · have hp2 := cpb.mpr h5
          have hq1 := cqa.mpr (hsymR _ _ h6)
          rw [if_pos hp2, if_neg (by rw [hq1]; exact hmne), hq1]

/-! ### deleteEdge keeps the invariant -/

theorem hasBond_iff (g : GraphMap) (P1 P2 : PidSet) :
    hasBond g P1 P2 = true ↔ ∃ p1 ∈ P1, ∃ p2 ∈ P2, p2 ∈ g.adj p1 := by
  unfold hasBond
  simp only [List.any_eq_true, Bool.and_eq_true, decide_eq_true_eq, AMap.count_eq_one,
    PidSet.pidCount_eq_one]
  constructor
  · rintro ⟨p1, h1, p2, h2, _, h3⟩
    exact ⟨p1, h1, p2, h2, h3⟩
  · rintro ⟨p1, h1, p2, h2, h3⟩
    refine ⟨p1, h1, p2, h2, ?_, h3⟩
    obtain ⟨sx, hs, _⟩ := (GraphMap.mem_adj g p1 p2).mp h3
    rw [hs]; rfl

theorem splitResidue_spec (new : Int) (Pset3 : PidSet) (st : SplitState) :
    (∀ p, p ∈ (splitResidue new st Pset3).PsetMid1 ↔ p ∈ st.PsetMid1 ∧ p ∉ Pset3) ∧
    (∀ p, p ∈ Pset3 → (splitResidue new st Pset3).pid_mid.get p = some new) ∧
    (∀ p, p ∉ Pset3 → (splitResidue new st Pset3).pid_mid.get p = st.pid_mid.get p) ∧
    (∀ p, p ∈ (splitResidue new st Pset3).s ↔ p ∈ st.s ∨ p ∈ Pset3) := by
  unfold splitResidue
  induction Pset3 generalizing st with
  | nil => simp
  | cons x xs ih =>
    rw [List.foldl_cons]
    obtain ⟨i1, i2, i3, i4⟩ := ih
      { PsetMid1 := PidSet.erase st.PsetMid1 x, pid_mid := st.pid_mid.set x new,
        s := PidSet.insert st.s x }
    refine ⟨?_, ?_, ?_, ?_⟩
    · intro p
      rw [i1 p, PidSet.mem_erase, List.mem_cons]
      tauto
    · intro p hp
      by_cases hx : p ∈ xs
      · exact i2 p hx
      · rw [i3 p hx, AMap.get_set]
        have : p = x := by
          rcases List.mem_cons.mp hp with h | h
          · exact h
          · exact absurd h hx
        rw [if_pos this]
    · intro p hp
      rw [List.mem_cons, not_or] at hp
      rw [i3 p hp.2, AMap.get_set, if_neg hp.1]
    · intro p
      rw [i4 p, PidSet.mem_insert, List.mem_cons]
      tauto

theorem splitLoop_spec (residues : GraphMap) (new : Int) (rs : List Int) (st0 st : SplitState)
    (h : splitLoop residues new rs st0 = .ok st) :
    (∀ p, p ∈ st.PsetMid1 ↔ p ∈ st0.PsetMid1 ∧ ¬ ∃ r ∈ rs, p ∈ residues.adj r) ∧
    (∀ p, (∃ r ∈ rs, p ∈ residues.adj r) → st.pid_mid.get p = some new) ∧
    (∀ p, (¬ ∃ r ∈ rs, p ∈ residues.adj r) → st.pid_mid.get p = st0.pid_mid.get p) ∧
    (∀ p, p ∈ st.s ↔ p ∈ st0.s ∨ ∃ r ∈ rs, p ∈ residues.adj r) := by
  induction rs generalizing st0 with
  | nil =>
    simp only [splitLoop] at h
    injection h with h
    subst h
    simp
  | cons r rs ih =>
    simp only [splitLoop] at h
    split at h
    · cases h
    · rename_i Pset3 hP
      have hadj : residues.adj r = Pset3 := by unfold GraphMap.adj; rw [hP]; rfl
      obtain ⟨i1, i2, i3, i4⟩ := ih _ h
      obtain ⟨j1, j2, j3, j4⟩ := splitResidue_spec new Pset3 st0
      have hex : ∀ p, (∃ r' ∈ r :: rs, p ∈ residues.adj r')
          ↔ p ∈ Pset3 ∨ ∃ r' ∈ rs, p ∈ residues.adj r' := by
        intro p
        simp only [List.mem_cons, exists_eq_or_imp, hadj]
      refine ⟨?_, ?_, ?_, ?_⟩
      · intro p
        rw [i1 p, j1 p, hex p]
        generalize (∃ r' ∈ rs, p ∈ residues.adj r') = M
        tauto
      · intro p hp
        by_cases hrs : ∃ r ∈ rs, p ∈ residues.adj r
        · exact i2 p hrs
        · rw [i3 p hrs]
          simp only [List.mem_cons, exists_eq_or_imp, hadj] at hp
          rcases hp with hp | hp
          · exact j2 p hp
          · exact absurd hp hrs
      · intro p hp
        simp only [List.mem_cons, exists_eq_or_imp, hadj, not_or] at hp
        rw [i3 p hp.2, j3 p hp.1]
      · intro p
        rw [i4 p, j4 p, hex p]
        generalize (∃ r' ∈ rs, p ∈ residues.adj r') = M
        tauto

theorem bonded_symm {s : TopologyManager} (hsym : ∀ p q, q ∈ s.graph_.adj p → p ∈ s.graph_.adj q)
    (r1 r2 : Int) (h : s.bonded r1 r2) : s.bonded r2 r1 := by
  obtain ⟨p1, p2, h1, h2, h3⟩ := h
  exact ⟨p2, p1, h2, h1, hsym _ _ h3⟩

/-- The residue graph after the two erasures of lines 505 and 509. -/
theorem mem_adj_resErase (g : GraphMap) (r1 r2 z w : Int) :
    w ∈ GraphMap.adj (AMap.modify (AMap.modify g r1 (fun a => PidSet.erase a r2)) r2
        (fun a => PidSet.erase a r1)) z
      ↔ w ∈ g.adj z ∧ ¬ (z = r1 ∧ w = r2) ∧ ¬ (z = r2 ∧ w = r1) := by
  rw [GraphMap.adj_modify_erase, GraphMap.adj_modify_erase]
  tauto

theorem deleteEdgeGraph_ok (s s' : TopologyManager) (a b : Int)
    (h : s.deleteEdgeGraph a b = .ok s') :
    ∃ rid1 rid2 mid, s.pid_rid.get a = some rid1 ∧ s.pid_rid.get b = some rid2 ∧
      s.pid_mid.get a = some mid ∧ s.pid_mid.get b = some mid ∧
      ((s' = { s with graph_ := s.graph_.removeEdge a b } ∧
          (rid1 = rid2 ∨ ∃ P1 P2, s.residues_.get rid1 = some P1 ∧ s.residues_.get rid2 = some P2 ∧
              hasBond (s.graph_.removeEdge a b) P1 P2 = true)) ∨
       (rid1 ≠ rid2 ∧ ∃ P1 P2, s.residues_.get rid1 = some P1 ∧ s.residues_.get rid2 = some P2 ∧
          hasBond (s.graph_.removeEdge a b) P1 P2 = false ∧
          TopologyManager.splitMolecule { s with graph_ := s.graph_.removeEdge a b } rid1 rid2 mid
            = .ok s')) := by
  unfold TopologyManager.deleteEdgeGraph at h
  split at h
  · cases h
  · simp only [] at h
    split at h
    · cases h
    · rename_i rid1 hr1
      split at h
      · cases h
      · rename_i rid2 hr2
        split at h
        · cases h
        · rename_i mid1 hm1
          split at h
          · cases h
          · rename_i mid2 hm2
            split at h
            · cases h
            · rename_i hmm
              have hmm' : mid1 = mid2 := not_not.mp hmm
              subst hmm'
              refine ⟨rid1, rid2, mid1, hr1, hr2, hm1, hm2, ?_⟩
              split at h
              · rename_i hrr
                split at h
                · cases h
                · rename_i P1 hP1
                  split at h
                  · cases h
                  · rename_i P2 hP2
                    split at h
                    · rename_i hb
                      exact Or.inr ⟨hrr, P1, P2, hP1, hP2, by simpa using hb, h⟩
                    · rename_i hb
                      injection h with h
                      exact Or.inl ⟨h.symm, Or.inr ⟨P1, P2, hP1, hP2, by simpa using hb⟩⟩
              · rename_i hrr
                injection h with h
                exact Or.inl ⟨h.symm, Or.inl (not_not.mp hrr)⟩

theorem removeOnly_inv (s : TopologyManager) (a b rid1 rid2 : Int) (hi : TopoInv s)
    (hr1 : s.pid_rid.get a = some rid1) (hr2 : s.pid_rid.get b = some rid2)
    (hb : rid1 = rid2 ∨
      TopologyManager.bonded { s with graph_ := s.graph_.removeEdge a b } rid1 rid2) :
    TopoInv { s with graph_ := s.graph_.removeEdge a b } := by
  have hsym : ∀ p q, q ∈ (s.graph_.removeEdge a b).adj p → p ∈ (s.graph_.removeEdge a b).adj q := by
    intro p q
    rw [GraphMap.mem_adj_removeEdge, GraphMap.mem_adj_removeEdge]
    rintro ⟨h1, h2, h3⟩
    exact ⟨hi.graph_sym p q h1, fun hc => h3 ⟨hc.2, hc.1⟩, fun hc => h2 ⟨hc.2, hc.1⟩⟩
  refine ⟨hi.tracked, hi.res_mem, hi.mol_mem, hi.mol_max, hi.mol_keys, hsym, ?_, ?_, hi.rg_node,
    hi.rg_sym, hi.mol_conn⟩
  · intro p q hq
    exact hi.graph_tracked p q ((GraphMap.mem_adj_removeEdge _ _ _ _ _).mp hq).1
  · intro r1 r2 hne
    rw [hi.rg_bond r1 r2 hne]
    constructor
    · rintro ⟨p1, p2, h1, h2, h3⟩
      by_cases hrem : (p1 = a ∧ p2 = b) ∨ (p1 = b ∧ p2 = a)
      · have hb' : TopologyManager.bonded { s with graph_ := s.graph_.removeEdge a b } rid1 rid2 := by
          rcases hb with hb | hb
          · exfalso
            rcases hrem with ⟨rfl, rfl⟩ | ⟨rfl, rfl⟩
            · rw [hr1] at h1; rw [hr2] at h2
              injection h1 with h1; injection h2 with h2
              exact hne (h1.symm.trans (hb.trans h2))
            · rw [hr2] at h1; rw [hr1] at h2
              injection h1 with h1; injection h2 with h2
              exact hne (h1.symm.trans (hb.symm.trans h2))
          · exact hb
        rcases hrem with ⟨rfl, rfl⟩ | ⟨rfl, rfl⟩
        · rw [hr1] at h1; rw [hr2] at h2
          injection h1 with h1; injection h2 with h2
          subst h1; subst h2
          exact hb'
        · rw [hr2] at h1; rw [hr1] at h2
          injection h1 with h1; injection h2 with h2
          subst h1; subst h2
          exact bonded_symm hsym _ _ hb'
      · rw [not_or] at hrem
        exact ⟨p1, p2, h1, h2, (GraphMap.mem_adj_removeEdge _ _ _ _ _).mpr ⟨h3, hrem.1, hrem.2⟩⟩
    · rintro ⟨p1, p2, h1, h2, h3⟩
      exact ⟨p1, p2, h1, h2, ((GraphMap.mem_adj_removeEdge _ _ _ _ _).mp h3).1⟩

theorem splitMolecule_ok (s s' : TopologyManager) (r1 r2 m : Int)
    (h : s.splitMolecule r1 r2 m = .ok s') :
    (uniqueResIds
        (plainBFS (AMap.modify (AMap.modify s.res_graph_ r1 (fun a => PidSet.erase a r2)) r2
          (fun a => PidSet.erase a r1)) r1)
        (plainBFS (AMap.modify (AMap.modify s.res_graph_ r1 (fun a => PidSet.erase a r2)) r2
          (fun a => PidSet.erase a r1)) r2) = [] ∧
      s' = { s with res_graph_ := AMap.modify (AMap.modify s.res_graph_ r1
          (fun a => PidSet.erase a r2)) r2 (fun a => PidSet.erase a r1) }) ∨
    (uniqueResIds
        (plainBFS (AMap.modify (AMap.modify s.res_graph_ r1 (fun a => PidSet.erase a r2)) r2
          (fun a => PidSet.erase a r1)) r1)
        (plainBFS (AMap.modify (AMap.modify s.res_graph_ r1 (fun a => PidSet.erase a r2)) r2
          (fun a => PidSet.erase a r1)) r2) ≠ [] ∧
      ∃ PsetMid1 st, (s.molecules_.insert (wrapInt32 (s.max_mol_id_ + 1)) []).get m = some PsetMid1 ∧
        splitLoop s.residues_ (wrapInt32 (s.max_mol_id_ + 1))
          (uniqueResIds
            (plainBFS (AMap.modify (AMap.modify s.res_graph_ r1 (fun a => PidSet.erase a r2)) r2
              (fun a => PidSet.erase a r1)) r1)
            (plainBFS (AMap.modify (AMap.modify s.res_graph_ r1 (fun a => PidSet.erase a r2)) r2
              (fun a => PidSet.erase a r1)) r2))
          { PsetMid1 := PsetMid1, pid_mid := s.pid_mid, s := [] } = .ok st ∧
        s' = { s with
          res_graph_ := AMap.modify (AMap.modify s.res_graph_ r1 (fun a => PidSet.erase a r2)) r2
            (fun a => PidSet.erase a r1)
          max_mol_id_ := wrapInt32 (s.max_mol_id_ + 1)
          molecules_ := AMap.modify
            (if decide (s.molecules_.count (wrapInt32 (s.max_mol_id_ + 1)) = 0) = true then
              AMap.modify (s.molecules_.insert (wrapInt32 (s.max_mol_id_ + 1)) []) (wrapInt32 (s.max_mol_id_ + 1))
                (fun _ => st.s)
             else s.molecules_.insert (wrapInt32 (s.max_mol_id_ + 1)) []) m (fun _ => st.PsetMid1)
          pid_mid := st.pid_mid }) := by
  unfold TopologyManager.splitMolecule at h
  split at h
  · cases h
  · simp only [] at h
    split at h
    · cases h
    · split at h
      · rename_i hlen
        split at h
        · cases h
        · rename_i PsetMid1 hP
          split at h
          · cases h
          · rename_i st hst
            injection h with h
            refine Or.inr ⟨?_, PsetMid1, st, hP, hst, h.symm⟩
            intro hc
            rw [hc] at hlen
            simp at hlen
      · rename_i hlen
        injection h with h
        refine Or.inl ⟨?_, h.symm⟩
        cases hu : uniqueResIds
          (plainBFS (AMap.modify (AMap.modify s.res_graph_ r1 (fun a => PidSet.erase a r2)) r2
            (fun a => PidSet.erase a r1)) r1)
          (plainBFS (AMap.modify (AMap.modify s.res_graph_ r1 (fun a => PidSet.erase a r2)) r2
            (fun a => PidSet.erase a r1)) r2) with
        | nil => rfl
        | cons x xs => rw [hu] at hlen; simp at hlen

set_option maxHeartbeats 1000000 in
theorem splitMolecule_inv (s s' : TopologyManager) (a b rid1 rid2 mid : Int) (hi : TopoInv s)
    (hr1 : s.pid_rid.get a = some rid1) (hr2 : s.pid_rid.get b = some rid2)
    (hm1 : s.pid_mid.get a = some mid)
    (hne : rid1 ≠ rid2)
    (hnb : ¬ TopologyManager.bonded { s with graph_ := s.graph_.removeEdge a b } rid1 rid2)
    (hw : wrapInt32 (s.max_mol_id_ + 1) = s.max_mol_id_ + 1)
    (h : TopologyManager.splitMolecule { s with graph_ := s.graph_.removeEdge a b } rid1 rid2 mid
      = .ok s') : TopoInv s' := by
  have hsym : ∀ p q, q ∈ (s.graph_.removeEdge a b).adj p → p ∈ (s.graph_.removeEdge a b).adj q := by
    intro p q
    rw [GraphMap.mem_adj_removeEdge, GraphMap.mem_adj_removeEdge]
    rintro ⟨h1, h2, h3⟩
    exact ⟨hi.graph_sym p q h1, fun hc => h3 ⟨hc.2, hc.1⟩, fun hc => h2 ⟨hc.2, hc.1⟩⟩
  have htr : ∀ p q, q ∈ (s.graph_.removeEdge a b).adj p → (s.pid_rid.get p).isSome := by
    intro p q hq
    exact hi.graph_tracked p q ((GraphMap.mem_adj_removeEdge _ _ _ _ _).mp hq).1
  have hnb' : ¬ TopologyManager.bonded { s with graph_ := s.graph_.removeEdge a b } rid2 rid1 :=
    fun hc => hnb (bonded_symm (s := { s with graph_ := s.graph_.removeEdge a b }) hsym _ _ hc)
  -- the residue graph after the erasures
  have hEadj := mem_adj_resErase s.res_graph_ rid1 rid2
  set E' : GraphMap := AMap.modify (AMap.modify s.res_graph_ rid1 (fun a => PidSet.erase a rid2)) rid2
    (fun a => PidSet.erase a rid1) with hE'
  have hEsym : ∀ x y, y ∈ E'.adj x → x ∈ E'.adj y := by
    intro x y
    rw [hEadj, hEadj]
    rintro ⟨h1, h2, h3⟩
    exact ⟨hi.rg_sym x y h1, fun hc => h3 ⟨hc.2, hc.1⟩, fun hc => h2 ⟨hc.2, hc.1⟩⟩
  have hEnode : ∀ x y, y ∈ E'.adj x → ∃ p, s.pid_rid.get p = some x := by
    intro x y hy
    exact hi.rg_node x y ((hEadj x y).mp hy).1
  have hEbond : ∀ x y, x ≠ y → (y ∈ E'.adj x ↔
      TopologyManager.bonded { s with graph_ := s.graph_.removeEdge a b } x y) := by
    intro x y hxy
    rw [hEadj, hi.rg_bond x y hxy]
    constructor
    · rintro ⟨⟨p1, p2, h1, h2, h3⟩, h4, h5⟩
      refine ⟨p1, p2, h1, h2, (GraphMap.mem_adj_removeEdge _ _ _ _ _).mpr ⟨h3, ?_, ?_⟩⟩
      · rintro ⟨rfl, rfl⟩
        rw [hr1] at h1; rw [hr2] at h2
        injection h1 with h1; injection h2 with h2
        exact h4 ⟨h1.symm, h2.symm⟩
      · rintro ⟨rfl, rfl⟩
        rw [hr2] at h1; rw [hr1] at h2
        injection h1 with h1; injection h2 with h2
        exact h5 ⟨h1.symm, h2.symm⟩
    · intro hb
      refine ⟨?_, ?_, ?_⟩
      · obtain ⟨p1, p2, h1, h2, h3⟩ := hb
        exact ⟨p1, p2, h1, h2, ((GraphMap.mem_adj_removeEdge _ _ _ _ _).mp h3).1⟩
      · rintro ⟨rfl, rfl⟩; exact hnb hb
      · rintro ⟨rfl, rfl⟩; exact hnb' hb
  have hmono : ∀ x y, Reach E' x y → Reach s.res_graph_ x y :=
    Reach.mono E' s.res_graph_ (fun x y hy => ((hEadj x y).mp hy).1)
  have hkey : ∀ x y, Reach s.res_graph_ x y →
      Reach E' x y ∨ (Reach E' x rid1 ∧ Reach E' rid2 y) ∨ (Reach E' x rid2 ∧ Reach E' rid1 y) := by
    intro x y hxy
    refine rtg_split rid1 rid2 ?_ x y hxy
    intro u v huv
    by_cases h1 : u = rid1 ∧ v = rid2
    · exact Or.inr (Or.inl h1)
    · by_cases h2 : u = rid2 ∧ v = rid1
      · exact Or.inr (Or.inr h2)
      · exact Or.inl ((hEadj u v).mpr ⟨huv, h1, h2⟩)
  have hsymR : ∀ x y, Reach E' x y → Reach E' y x := Reach.symm E' hEsym
  have hu : ∀ r, r ∈ uniqueResIds (plainBFS E' rid1) (plainBFS E' rid2)
      ↔ Reach E' rid1 r ∧ ¬ Reach E' rid2 r := by
    intro r
    rw [mem_uniqueResIds, plainBFS_keys, ← plainBFS_keys E' rid2 r]
    cases (plainBFS E' rid2).get r <;> simp
  rcases splitMolecule_ok _ s' rid1 rid2 mid h with ⟨hnil, hs'⟩ | ⟨hnn, PsetMid1, st, hP, hst, hs'⟩
  · -- the residues are still connected: no split
    simp only [] at hnil hs'
    rw [← hE'] at hnil hs'
    have hconn : Reach E' rid2 rid1 := by
      by_contra hc
      have : rid1 ∈ uniqueResIds (plainBFS E' rid1) (plainBFS E' rid2) :=
        (hu rid1).mpr ⟨Relation.ReflTransGen.refl, hc⟩
      rw [hnil] at this
      simp at this
    subst hs'
    refine ⟨hi.tracked, hi.res_mem, hi.mol_mem, hi.mol_max, hi.mol_keys, hsym, htr, hEbond,
      hEnode, hEsym, ?_⟩
    intro p q mp mq rp rq h1 h2 h3 h4
    simp only [] at h1 h2 h3 h4 ⊢
    rw [hi.mol_conn p q mp mq rp rq h1 h2 h3 h4]
    constructor
    · intro hpq
      rcases hkey rp rq hpq with h5 | ⟨h5, h6⟩ | ⟨h5, h6⟩
      · exact h5
      · exact (h5.trans (hsymR _ _ hconn)).trans h6
      · exact (h5.trans hconn).trans h6
    · exact hmono rp rq
  · -- the molecule is split
    simp only [] at hnn hst hs' hP
    rw [hw] at hst hs' hP
    rw [← hE'] at hnn hst hs'
    obtain ⟨r0, hr0⟩ := List.exists_mem_of_ne_nil _ hnn
    have hdis : ¬ Reach E' rid1 rid2 := by
      intro hc
      exact ((hu r0).mp hr0).2 ((hsymR _ _ hc).trans ((hu r0).mp hr0).1)
    have hdis' : ∀ r, Reach E' rid1 r → ¬ Reach E' rid2 r := by
      intro r h1 h2
      exact hdis (h1.trans (hsymR _ _ h2))
    obtain ⟨sp1, sp2, sp3, sp4⟩ := splitLoop_spec _ _ _ _ st hst
    simp only [] at sp1 sp2 sp3 sp4
    have hmoved : ∀ p, (∃ r ∈ uniqueResIds (plainBFS E' rid1) (plainBFS E' rid2),
        p ∈ s.residues_.adj r) ↔ ∃ r, s.pid_rid.get p = some r ∧ Reach E' rid1 r := by
      intro p
      constructor
      · rintro ⟨r, hr, hp⟩
        exact ⟨r, (hi.res_mem r p).mp hp, ((hu r).mp hr).1⟩
      · rintro ⟨r, hr, hreach⟩
        exact ⟨r, (hu r).mpr ⟨hreach, hdis' r hreach⟩, (hi.res_mem r p).mpr hr⟩
    have hmid_some : (s.molecules_.get mid).isSome := by
      have := (hi.mol_mem mid a).mpr hm1
      obtain ⟨sx, hs, _⟩ := (GraphMap.mem_adj _ _ _).mp this
      rw [hs]; rfl
    have hmid_le : mid ≤ s.max_mol_id_ := hi.mol_max mid hmid_some
    have hfresh : s.molecules_.get (s.max_mol_id_ + 1) = none := by
      cases hg : s.molecules_.get (s.max_mol_id_ + 1) with
      | none => rfl
      | some v =>
        have := hi.mol_max (s.max_mol_id_ + 1) (by rw [hg]; rfl)
        omega
    have hPs : s.molecules_.get mid = some PsetMid1 := by
      rw [AMap.get_insert, if_neg (by intro hc; omega)] at hP
      exact hP
    have hmolget : ∀ m, s'.molecules_.get m = if m = mid then some st.PsetMid1
        else if m = s.max_mol_id_ + 1 then some st.s else s.molecules_.get m := by
      intro m
      rw [hs']
      simp only []
      have hc : AMap.count s.molecules_ (s.max_mol_id_ + 1) = 0 :=
        (AMap.count_eq_zero _ _).mpr hfresh
      simp only [hc, decide_True, if_true]
      rw [AMap.get_modify, AMap.get_modify, AMap.get_insert]
      by_cases hm : m = mid
      · subst hm
        have : m ≠ s.max_mol_id_ + 1 := by omega
        simp [this, hPs]
      · by_cases hm' : m = s.max_mol_id_ + 1
        · subst hm'
          simp [hm, hfresh]
        · simp [hm, hm']
    have hpm_moved : ∀ p r, s.pid_rid.get p = some r → Reach E' rid1 r →
        s'.pid_mid.get p = some (s.max_mol_id_ + 1) := by
      intro p r h1 h2
      rw [hs']
      exact sp2 p ((hmoved p).mpr ⟨r, h1, h2⟩)
    have hpm_stay : ∀ p, (¬ ∃ r, s.pid_rid.get p = some r ∧ Reach E' rid1 r) →
        s'.pid_mid.get p = s.pid_mid.get p := by
      intro p h1
      rw [hs']
      exact sp3 p (fun hc => h1 ((hmoved p).mp hc))
    have hold_mid : ∀ p r, s.pid_rid.get p = some r → Reach E' rid1 r →
        s.pid_mid.get p = some mid := by
      intro p r h1 h2
      obtain ⟨mp, hmp⟩ := hi.mid_of_tracked p r h1
      have := (hi.mol_conn a p mid mp rid1 r hm1 hmp hr1 h1).mpr (hmono _ _ h2)
      rw [hmp, this]
    have hold_le : ∀ p m, s.pid_mid.get p = some m → m ≤ s.max_mol_id_ := by
      intro p m hpm
      have := (hi.mol_mem m p).mpr hpm
      obtain ⟨sx, hs, _⟩ := (GraphMap.mem_adj _ _ _).mp this
      exact hi.mol_max m (by rw [hs]; rfl)
    have hres' : s'.residues_ = s.residues_ := by rw [hs']
    have hrid' : s'.pid_rid = s.pid_rid := by rw [hs']
    have hgraph' : s'.graph_ = s.graph_.removeEdge a b := by rw [hs']
    have hrg' : s'.res_graph_ = E' := by rw [hs']
    have hmax' : s'.max_mol_id_ = s.max_mol_id_ + 1 := by rw [hs']
    have hbonded' : ∀ x y, s'.bonded x y ↔
        TopologyManager.bonded { s with graph_ := s.graph_.removeEdge a b } x y := by
      intro x y
      unfold TopologyManager.bonded
      rw [hrid', hgraph']
    refine ⟨?_, ?_, ?_, ?_, ?_, ?_, ?_, ?_, ?_, ?_, ?_⟩
    · -- tracked
      intro p
      rw [hrid']
      by_cases hmv : ∃ r, s.pid_rid.get p = some r ∧ Reach E' rid1 r
      · obtain ⟨r, h1, h2⟩ := hmv
        rw [hpm_moved p r h1 h2, h1]
        simp
      · rw [hpm_stay p hmv]
        exact hi.tracked p
    · intro r p; rw [hres', hrid']; exact hi.res_mem r p
    · -- mol_mem
      intro m p
      unfold GraphMap.adj
      rw [hmolget m]
      by_cases hmv : ∃ r, s.pid_rid.get p = some r ∧ Reach E' rid1 r
      · obtain ⟨r, h1, h2⟩ := hmv
        have hmvd := (hmoved p).mpr ⟨r, h1, h2⟩
        rw [hpm_moved p r h1 h2]
        by_cases hm : m = mid
        · subst hm
          simp only [if_true, Option.getD_some, sp1 p]
          constructor
          · rintro ⟨_, hc⟩; exact absurd hmvd hc
          · intro hc; injection hc with hc; omega
        · rw [if_neg hm]
          by_cases hm' : m = s.max_mol_id_ + 1
          · subst hm'
            simp only [if_true, Option.getD_some, sp4 p]
            simp [hmvd]
          · rw [if_neg hm']
            have := hi.mol_mem m p
            unfold GraphMap.adj at this
            rw [this, hold_mid p r h1 h2]
            constructor
            · intro hc; injection hc with hc; exact absurd hc.symm hm
            · intro hc; injection hc with hc; exact absurd hc.symm hm'
      · have hnmv : ¬ ∃ r ∈ uniqueResIds (plainBFS E' rid1) (plainBFS E' rid2),
            p ∈ s.residues_.adj r := fun hc => hmv ((hmoved p).mp hc)
        rw [hpm_stay p hmv]
        by_cases hm : m = mid
        · subst hm
          simp only [if_true, Option.getD_some, sp1 p]
          have := hi.mol_mem m p
          unfold GraphMap.adj at this
          rw [hPs] at this
          simp only [Option.getD_some] at this
          rw [this]
          simp [hnmv]
        · rw [if_neg hm]
          by_cases hm' : m = s.max_mol_id_ + 1
          · subst hm'
            simp only [if_true, Option.getD_some, sp4 p]
            simp only [List.not_mem_nil, false_or]
            constructor
            · intro hc; exact absurd hc hnmv
            · intro hc
              have := hold_le p _ hc
              omega
          · rw [if_neg hm']
            have := hi.mol_mem m p
            unfold GraphMap.adj at this
            exact this
    · -- mol_max
      intro m hm
      rw [hmolget m] at hm
      rw [hmax']
      by_cases hmm : m = mid
      · omega
      · rw [if_neg hmm] at hm
        by_cases hm' : m = s.max_mol_id_ + 1
        · omega
        · rw [if_neg hm'] at hm
          have := hi.mol_max m hm
          omega
    · -- mol_keys
      rw [hs']
      simp only []
      rw [AMap.keys_modify]
      split
      · rw [AMap.keys_modify]
        exact AMap.keys_insert_nodup _ _ _ hi.mol_keys
      · exact AMap.keys_insert_nodup _ _ _ hi.mol_keys
    · rw [hgraph']; exact hsym
    · intro p q; rw [hgraph', hrid']; exact htr p q
    · intro x y hxy; rw [hrg', hbonded']; exact hEbond x y hxy
    · intro x y; rw [hrg', hrid']; exact hEnode x y
    · rw [hrg']; exact hEsym
    · -- mol_conn
      intro p q mp mq rp rq h1 h2 h3 h4
      rw [hrid'] at h3 h4
      rw [hrg']
      by_cases hp : Reach E' rid1 rp
      · rw [hpm_moved p rp h3 hp] at h1
        injection h1 with h1
        by_cases hq : Reach E' rid1 rq
        · rw [hpm_moved q rq h4 hq] at h2
          injection h2 with h2
          constructor
          · intro _; exact (hsymR _ _ hp).trans hq
          · intro _; rw [← h1, ← h2]
        · have hqs : ¬ ∃ r, s.pid_rid.get q = some r ∧ Reach E' rid1 r := by
            rintro ⟨r, hr, hreach⟩
            rw [h4] at hr; injection hr with hr; subst hr
            exact hq hreach
          rw [hpm_stay q hqs] at h2
          have := hold_le q mq h2
          constructor
          · intro hc; omega
          · intro hc; exact absurd (hp.trans hc) hq
      · have hps : ¬ ∃ r, s.pid_rid.get p = some r ∧ Reach E' rid1 r := by
          rintro ⟨r, hr, hreach⟩
          rw [h3] at hr; injection hr with hr; subst hr
          exact hp hreach
        rw [hpm_stay p hps] at h1
        by_cases hq : Reach E' rid1 rq
        · rw [hpm_moved q rq h4 hq] at h2
          injection h2 with h2
          have := hold_le p mp h1
          constructor
          · intro hc; omega
          · intro hc; exact absurd (hq.trans (hsymR _ _ hc)) hp
        · have hqs : ¬ ∃ r, s.pid_rid.get q = some r ∧ Reach E' rid1 r := by
            rintro ⟨r, hr, hreach⟩
            rw [h4] at hr; injection hr with hr; subst hr
            exact hq hreach
          rw [hpm_stay q hqs] at h2
          rw [hi.mol_conn p q mp mq rp rq h1 h2 h3 h4]
          constructor
          · intro hpq
            rcases hkey rp rq hpq with h5 | ⟨h5, _⟩ | ⟨_, h6⟩
            · exact h5
            · exact absurd (hsymR _ _ h5) hp
            · exact absurd h6 hq
          · exact hmono rp rq

theorem deleteEdgeGraph_inv (s s' : TopologyManager) (a b : Int) (hi : TopoInv s)
    (hw : wrapInt32 (s.max_mol_id_ + 1) = s.max_mol_id_ + 1)
    (h : s.deleteEdgeGraph a b = .ok s') : TopoInv s' := by
  obtain ⟨rid1, rid2, mid, hr1, hr2, hm1, _, hcase⟩ := deleteEdgeGraph_ok s s' a b h
  rcases hcase with ⟨hs', hb⟩ | ⟨hne, P1, P2, hP1, hP2, hb, hsplit⟩
  · rw [hs']
    apply removeOnly_inv s a b rid1 rid2 hi hr1 hr2
    rcases hb with hb | ⟨P1, P2, hP1, hP2, hb⟩
    · exact Or.inl hb
    · right
      obtain ⟨p1, hp1, p2, hp2, hadj⟩ := (hasBond_iff _ _ _).mp hb
      have h1 : p1 ∈ s.residues_.adj rid1 := by unfold GraphMap.adj; rw [hP1]; exact hp1
      have h2 : p2 ∈ s.residues_.adj rid2 := by unfold GraphMap.adj; rw [hP2]; exact hp2
      exact ⟨p1, p2, (hi.res_mem _ _).mp h1, (hi.res_mem _ _).mp h2, hadj⟩
  · apply splitMolecule_inv s s' a b rid1 rid2 mid hi hr1 hr2 hm1 hne ?_ hw hsplit
    rintro ⟨p1, p2, h1, h2, hadj⟩
    have e1 : p1 ∈ P1 := by
      have := (hi.res_mem rid1 p1).mpr h1
      unfold GraphMap.adj at this; rw [hP1] at this; exact this
    have e2 : p2 ∈ P2 := by
      have := (hi.res_mem rid2 p2).mpr h2
      unfold GraphMap.adj at this; rw [hP2] at this; exact this
    have : hasBond (s.graph_.removeEdge a b) P1 P2 = true :=
      (hasBond_iff _ _ _).mpr ⟨p1, e1, p2, e2, hadj⟩
    rw [hb] at this
    cases this

theorem TopoInv_setPending (s p : TopologyManager) (hi : TopoInv s) : TopoInv (s.setPending p) :=
  ⟨hi.tracked, hi.res_mem, hi.mol_mem, hi.mol_max, hi.mol_keys, hi.graph_sym, hi.graph_tracked,
    hi.rg_bond, hi.rg_node, hi.rg_sym, hi.mol_conn⟩

theorem deleteEdge_inv {P T : Type} (ops : ListOps P T) (loc loc' : Local P T)
    (s s' : TopologyManager) (a b : Int) (removed : Bool) (hi : TopoInv s)
    (hw : wrapInt32 (s.max_mol_id_ + 1) = s.max_mol_id_ + 1)
    (h : s.deleteEdge ops loc a b = .ok (removed, loc', s')) : TopoInv s' := by
  obtain ⟨r, p, hr, hs⟩ := deleteEdge_ok ops loc loc' s s' a b removed h
  rw [hs]
  exact TopoInv_setPending r p (deleteEdgeGraph_inv s r a b hi hw hr)

/-! ### initializeTopology establishes the invariant -/

theorem ResInv_reset (s : TopologyManager) : ResInv s.reset := by
  refine ⟨rfl, rfl, fun _ => rfl, ?_, ?_, ?_, ?_⟩
  · intro r p; simp [TopologyManager.reset, GraphMap.adj, AMap.get]
  · intro m p; simp [TopologyManager.reset, GraphMap.adj, AMap.get]
  · intro m hm; simp [TopologyManager.reset, AMap.get] at hm
  · simp [TopologyManager.reset, AMap.keys]

theorem mem_adj_insert_modify (g : GraphMap) (rid pid r p : Int) :
    p ∈ GraphMap.adj
        (AMap.modify (if AMap.count g rid = 0 then AMap.insert g rid [] else g) rid
          (fun x => PidSet.insert x pid)) r
      ↔ p ∈ g.adj r ∨ (r = rid ∧ p = pid) := by
  have hk : ((if AMap.count g rid = 0 then AMap.insert g rid [] else g).get rid).isSome := by
    split
    · rw [AMap.isSome_get_insert]; exact Or.inr rfl
    · rename_i hc
      rw [AMap.count_eq_zero] at hc
      cases hg : AMap.get g rid with
      | none => exact absurd hg hc
      | some w => rfl
  have he : ∀ z, GraphMap.adj (if AMap.count g rid = 0 then AMap.insert g rid [] else g) z
      = g.adj z := by
    intro z; split
    · exact GraphMap.adj_insert_empty g rid z
    · rfl
  rw [GraphMap.adj_modify _ _ _ _ hk]
  by_cases hr : r = rid
  · subst hr
    rw [if_pos rfl, PidSet.mem_insert, he]
    tauto
  · rw [if_neg hr, he]
    simp [hr]

theorem addResidueEntry_inv (s s' : TopologyManager) (pid rid : Int) (hi : ResInv s)
    (h : s.addResidueEntry pid rid = .ok s') : ResInv s' := by
  unfold TopologyManager.addResidueEntry at h
  split at h
  · cases h
  · split at h
    · cases h
    · rename_i hset
      have hnone : s.pid_rid.get pid = none := by
        cases hg : s.pid_rid.get pid with
        | none => rfl
        | some v => rw [hg] at hset; simp at hset
      have hnone' : s.pid_mid.get pid = none := by rw [hi.mid_eq]; exact hnone
      simp only [hnone, hnone', Option.isNone_none, if_true] at h
      injection h with h
      subst h
      refine ⟨hi.graph_nil, hi.res_graph_nil, ?_, ?_, ?_, ?_, ?_⟩
      · intro p
        simp only [AMap.get_set]
        split
        · rfl
        · exact hi.mid_eq p
      · intro r p
        simp only []
        rw [mem_adj_insert_modify, hi.res_mem, AMap.get_set]
        by_cases hp : p = pid
        · subst hp
          rw [if_pos rfl, hnone]
          constructor
          · rintro (hc | ⟨rfl, _⟩)
            · cases hc
            · rfl
          · intro hc; injection hc with hc; exact Or.inr ⟨hc.symm, rfl⟩
        · rw [if_neg hp]
          constructor
          · rintro (hc | ⟨_, hc⟩)
            · exact hc
            · exact absurd hc hp
          · exact Or.inl
      · intro m p
        simp only []
        have hmm := mem_adj_insert_modify s.molecules_ rid pid m p
        by_cases hc : AMap.count s.molecules_ rid = 0
        · simp only [hc, decide_True, if_true] at hmm ⊢
          rw [hmm, hi.mol_mem, AMap.get_set]
          by_cases hp : p = pid
          · subst hp
            rw [if_pos rfl, hnone']
            constructor
            · rintro (hc | ⟨rfl, _⟩)
              · cases hc
              · rfl
            · intro hc; injection hc with hc; exact Or.inr ⟨hc.symm, rfl⟩
          · rw [if_neg hp]
            constructor
            · rintro (hc | ⟨_, hc⟩)
              · exact hc
              · exact absurd hc hp
            · exact Or.inl
        · simp only [hc, decide_False, if_false, Bool.false_eq_true] at hmm ⊢
          rw [hmm, hi.mol_mem, AMap.get_set]
          by_cases hp : p = pid
          · subst hp
            rw [if_pos rfl, hnone']
            constructor
            · rintro (hc | ⟨rfl, _⟩)
              · cases hc
              · rfl
            · intro hc; injection hc with hc; exact Or.inr ⟨hc.symm, rfl⟩
          · rw [if_neg hp]
            constructor
            · rintro (hc | ⟨_, hc⟩)
              · exact hc
              · exact absurd hc hp
            · exact Or.inl
      · intro m hm
        simp only [AMap.isSome_get_modify] at hm
        by_cases hc : AMap.count s.molecules_ rid = 0
        · simp only [hc, decide_True, if_true] at hm ⊢
          rw [AMap.isSome_get_insert] at hm
          rcases hm with hm | hm
          · exact le_trans (hi.mol_max m hm) (le_max_left _ _)
          · rw [hm]; exact le_max_right _ _
        · simp only [hc, decide_False, if_false, Bool.false_eq_true] at hm ⊢
          exact hi.mol_max m hm
      · simp only [AMap.keys_modify]
        split
        · exact AMap.keys_insert_nodup _ _ _ hi.mol_keys
        · exact hi.mol_keys

theorem addResidueEntries_inv (es : List (Int × Int)) (s s' : TopologyManager) (hi : ResInv s)
    (h : TopologyManager.addResidueEntries es s = .ok s') : ResInv s' := by
  induction es generalizing s with
  | nil =>
    simp only [TopologyManager.addResidueEntries] at h
    injection h with h; subst h; exact hi
  | cons e es ih =>
    obtain ⟨pid, rid⟩ := e
    simp only [TopologyManager.addResidueEntries] at h
    split at h
    · cases h
    · rename_i s1 hs1
      exact ih s1 (addResidueEntry_inv s s1 pid rid hi hs1) h

theorem initResidues_inv (vs : List EdgesVector) (s s' : TopologyManager) (t r t' r' : Int)
    (hi : ResInv s) (h : initResidues vs (s, t, r) = .ok (s', t', r')) : ResInv s' := by
  induction vs generalizing s t r with
  | nil =>
    simp only [initResidues] at h
    injection h with h
    injection h with h1 _
    subst h1; exact hi
  | cons v vs ih =>
    simp only [initResidues] at h
    split at h
    · cases h
    · split at h
      · cases h
      · rename_i s1 hs1
        exact ih s1 _ _ (addResidueEntries_inv _ s s1 hi hs1) h

theorem TopoInv_of_ResInv (s : TopologyManager) (hi : ResInv s) : TopoInv s := by
  refine ⟨?_, hi.res_mem, hi.mol_mem, hi.mol_max, hi.mol_keys, ?_, ?_, ?_, ?_, ?_, ?_⟩
  · intro p; rw [hi.mid_eq]
  · intro p q hq; rw [hi.graph_nil] at hq; simp [GraphMap.adj, AMap.get] at hq
  · intro p q hq; rw [hi.graph_nil] at hq; simp [GraphMap.adj, AMap.get] at hq
  · intro r1 r2 _
    rw [hi.res_graph_nil]
    unfold TopologyManager.bonded
    rw [hi.graph_nil]
    simp [GraphMap.adj, AMap.get]
  · intro r1 r2 hq; rw [hi.res_graph_nil] at hq; simp [GraphMap.adj, AMap.get] at hq
  · intro r1 r2 hq; rw [hi.res_graph_nil] at hq; simp [GraphMap.adj, AMap.get] at hq
  · intro p q mp mq rp rq h1 h2 h3 h4
    rw [hi.res_graph_nil, Reach_nil]
    rw [hi.mid_eq, h3] at h1
    rw [hi.mid_eq, h4] at h2
    injection h1 with h1; injection h2 with h2
    rw [h1, h2]

theorem newEdges_inv (es : List (Int × Int)) (s s' : TopologyManager) (hi : TopoInv s)
    (h : TopologyManager.newEdges es s = .ok s') : TopoInv s' := by
  induction es generalizing s with
  | nil =>
    simp only [TopologyManager.newEdges] at h
    injection h with h; subst h; exact hi
  | cons e es ih =>
    obtain ⟨a, b⟩ := e
    simp only [TopologyManager.newEdges] at h
    split at h
    · cases h
    · rename_i s1 hs1
      exact ih s1 (newEdge_inv s s1 a b hi hs1) h

theorem initEdges_inv (vs : List EdgesVector) (s s' : TopologyManager) (hi : TopoInv s)
    (h : initEdges vs s = .ok s') : TopoInv s' := by
  induction vs generalizing s with
  | nil =>
    simp only [initEdges] at h
    injection h with h; subst h; exact hi
  | cons v vs ih =>
    simp only [initEdges] at h
    split at h
    · cases h
    · split at h
      · cases h
      · rename_i s1 hs1
        exact ih s1 (newEdges_inv _ s s1 hi hs1) h

theorem initializeTopology_inv (s0 s : TopologyManager) (ranks : List (EdgesVector × EdgesVector))
    (h : s0.initializeTopology ranks = .ok s) : TopoInv s := by
  unfold TopologyManager.initializeTopology at h
  simp only [] at h
  split at h
  · cases h
  · rename_i s1 t r hres
    split at h
    · cases h
    · split at h
      · cases h
      · rename_i s2 hedges
        injection h with h
        subst h
        have h1 := initResidues_inv _ _ s1 _ _ _ _ (ResInv_reset s0) hres
        have h2 := initEdges_inv _ s1 s2 (TopoInv_of_ResInv s1 h1) hedges
        exact ⟨h2.tracked, h2.res_mem, h2.mol_mem, h2.mol_max, h2.mol_keys, h2.graph_sym,
          h2.graph_tracked, h2.rg_bond, h2.rg_node, h2.rg_sym, h2.mol_conn⟩

/-! ### The graph part of the invariant does not depend on the molecule ids -/

theorem TopoInv.toGraphInv {s : TopologyManager} (hi : TopoInv s) : GraphInv s :=
  ⟨hi.res_mem, hi.graph_sym, hi.graph_tracked, hi.rg_bond, hi.rg_node, hi.rg_sym⟩

theorem newEdge_graphInv (s s' : TopologyManager) (a b : Int) (hi : GraphInv s)
    (h : s.newEdge a b = .ok s') : GraphInv s' := by
  obtain ⟨ra, rb, m1, m2, hra, hrb, _, _, hg, hrg, hres, hrid, _, _⟩ :=
    newEdge_ok s s' a b h
  refine ⟨?_, ?_, ?_, ?_, ?_, ?_⟩
  · intro r p; rw [hres, hrid]; exact hi.res_mem r p
  · intro p q
    rw [hg, GraphMap.mem_adj_addEdge, GraphMap.mem_adj_addEdge]
    rintro (h1 | ⟨rfl, rfl⟩ | ⟨rfl, rfl⟩)
    · exact Or.inl (hi.graph_sym p q h1)
    · exact Or.inr (Or.inr ⟨rfl, rfl⟩)
    · exact Or.inr (Or.inl ⟨rfl, rfl⟩)
  · intro p q
    rw [hg, GraphMap.mem_adj_addEdge, hrid]
    rintro (h1 | ⟨rfl, rfl⟩ | ⟨rfl, rfl⟩)
    · exact hi.graph_tracked p q h1
    · rw [hra]; rfl
    · rw [hrb]; rfl
  · intro r1 r2 hne
    rw [hrg, GraphMap.mem_adj_addEdge, hi.rg_bond r1 r2 hne]
    unfold TopologyManager.bonded
    rw [hrid, hg]
    constructor
    · rintro (⟨p1, p2, h1, h2, h3⟩ | ⟨rfl, rfl⟩ | ⟨rfl, rfl⟩)
      · exact ⟨p1, p2, h1, h2, (GraphMap.mem_adj_addEdge _ _ _ _ _).mpr (Or.inl h3)⟩
      · exact ⟨a, b, hra, hrb,
          (GraphMap.mem_adj_addEdge _ _ _ _ _).mpr (Or.inr (Or.inl ⟨rfl, rfl⟩))⟩
      · exact ⟨b, a, hrb, hra,
          (GraphMap.mem_adj_addEdge _ _ _ _ _).mpr (Or.inr (Or.inr ⟨rfl, rfl⟩))⟩
    · rintro ⟨p1, p2, h1, h2, h3⟩
      rcases (GraphMap.mem_adj_addEdge _ _ _ _ _).mp h3 with h4 | ⟨rfl, rfl⟩ | ⟨rfl, rfl⟩
      · exact Or.inl ⟨p1, p2, h1, h2, h4⟩
      · rw [hra] at h1; rw [hrb] at h2
        injection h1 with h1; injection h2 with h2
        exact Or.inr (Or.inl ⟨h1.symm, h2.symm⟩)
      · rw [hrb] at h1; rw [hra] at h2
        injection h1 with h1; injection h2 with h2
        exact Or.inr (Or.inr ⟨h1.symm, h2.symm⟩)
  · intro r1 r2
    rw [hrg, GraphMap.mem_adj_addEdge, hrid]
    rintro (h1 | ⟨rfl, rfl⟩ | ⟨rfl, rfl⟩)
    · exact hi.rg_node r1 r2 h1
    · exact ⟨a, hra⟩
    · exact ⟨b, hrb⟩
  · intro r1 r2
    rw [hrg, GraphMap.mem_adj_addEdge, GraphMap.mem_adj_addEdge]
    rintro (h1 | ⟨rfl, rfl⟩ | ⟨rfl, rfl⟩)
    · exact Or.inl (hi.rg_sym r1 r2 h1)
    · exact Or.inr (Or.inr ⟨rfl, rfl⟩)
    · exact Or.inr (Or.inl ⟨rfl, rfl⟩)

theorem removeOnly_graphInv (s : TopologyManager) (a b rid1 rid2 : Int) (hi : GraphInv s)
    (hr1 : s.pid_rid.get a = some rid1) (hr2 : s.pid_rid.get b = some rid2)
    (hb : rid1 = rid2 ∨
      TopologyManager.bonded { s with graph_ := s.graph_.removeEdge a b } rid1 rid2) :
    GraphInv { s with graph_ := s.graph_.removeEdge a b } := by
  have hsym : ∀ p q, q ∈ (s.graph_.removeEdge a b).adj p → p ∈ (s.graph_.removeEdge a b).adj q := by
    intro p q
    rw [GraphMap.mem_adj_removeEdge, GraphMap.mem_adj_removeEdge]
    rintro ⟨h1, h2, h3⟩
    exact ⟨hi.graph_sym p q h1, fun hc => h3 ⟨hc.2, hc.1⟩, fun hc => h2 ⟨hc.2, hc.1⟩⟩
  refine ⟨hi.res_mem, hsym, ?_, ?_, hi.rg_node, hi.rg_sym⟩
  · intro p q hq
    exact hi.graph_tracked p q ((GraphMap.mem_adj_removeEdge _ _ _ _ _).mp hq).1
  · intro r1 r2 hne
    rw [hi.rg_bond r1 r2 hne]
    constructor
    · rintro ⟨p1, p2, h1, h2, h3⟩
      by_cases hrem : (p1 = a ∧ p2 = b) ∨ (p1 = b ∧ p2 = a)
      · have hb' : TopologyManager.bonded { s with graph_ := s.graph_.removeEdge a b } rid1 rid2 := by
          rcases hb with hb | hb
          · exfalso
            rcases hrem with ⟨rfl, rfl⟩ | ⟨rfl, rfl⟩
            · rw [hr1] at h1; rw [hr2] at h2
              injection h1 with h1; injection h2 with h2
              exact hne (h1.symm.trans (hb.trans h2))
            · rw [hr2] at h1; rw [hr1] at h2
              injection h1 with h1; injection h2 with h2
              exact hne (h1.symm.trans (hb.symm.trans h2))
          · exact hb
        rcases hrem with ⟨rfl, rfl⟩ | ⟨rfl, rfl⟩
        · rw [hr1] at h1; rw [hr2] at h2
          injection h1 with h1; injection h2 with h2
          subst h1; subst h2
          exact hb'
        · rw [hr2] at h1; rw [hr1] at h2
          injection h1 with h1; injection h2 with h2
          subst h1; subst h2
          exact bonded_symm hsym _ _ hb'
      · rw [not_or] at hrem
        exact ⟨p1, p2, h1, h2, (GraphMap.mem_adj_removeEdge _ _ _ _ _).mpr ⟨h3, hrem.1, hrem.2⟩⟩
    · rintro ⟨p1, p2, h1, h2, h3⟩
      exact ⟨p1, p2, h1, h2, ((GraphMap.mem_adj_removeEdge _ _ _ _ _).mp h3).1⟩

/-- What `splitMolecule` leaves of the graphs, the residues and `pid_rid`, whether or not the
molecule is split. -/
theorem splitMolecule_frame (u s' : TopologyManager) (r1 r2 m : Int)
    (h : u.splitMolecule r1 r2 m = .ok s') :
    s'.graph_ = u.graph_ ∧ s'.residues_ = u.residues_ ∧ s'.pid_rid = u.pid_rid ∧
    s'.res_graph_ = AMap.modify (AMap.modify u.res_graph_ r1 (fun a => PidSet.erase a r2)) r2
      (fun a => PidSet.erase a r1) := by
  rcases splitMolecule_ok u s' r1 r2 m h with ⟨_, hs'⟩ | ⟨_, _, _, _, _, hs'⟩
  · rw [hs']; exact ⟨rfl, rfl, rfl, rfl⟩
  · rw [hs']; exact ⟨rfl, rfl, rfl, rfl⟩

theorem splitMolecule_graphInv (s s' : TopologyManager) (a b rid1 rid2 mid : Int)
    (hi : GraphInv s)
    (hr1 : s.pid_rid.get a = some rid1) (hr2 : s.pid_rid.get b = some rid2)
    (hnb : ¬ TopologyManager.bonded { s with graph_ := s.graph_.removeEdge a b } rid1 rid2)
    (h : TopologyManager.splitMolecule { s with graph_ := s.graph_.removeEdge a b } rid1 rid2 mid
      = .ok s') : GraphInv s' := by
  have hsym : ∀ p q, q ∈ (s.graph_.removeEdge a b).adj p → p ∈ (s.graph_.removeEdge a b).adj q := by
    intro p q
    rw [GraphMap.mem_adj_removeEdge, GraphMap.mem_adj_removeEdge]
    rintro ⟨h1, h2, h3⟩
    exact ⟨hi.graph_sym p q h1, fun hc => h3 ⟨hc.2, hc.1⟩, fun hc => h2 ⟨hc.2, hc.1⟩⟩
  have hnb' : ¬ TopologyManager.bonded { s with graph_ := s.graph_.removeEdge a b } rid2 rid1 :=
    fun hc => hnb (bonded_symm (s := { s with graph_ := s.graph_.removeEdge a b }) hsym _ _ hc)
  have hEadj := mem_adj_resErase s.res_graph_ rid1 rid2
  obtain ⟨hgraph', hres', hrid', hrg'⟩ := splitMolecule_frame _ s' rid1 rid2 mid h
  simp only [] at hgraph' hres' hrid' hrg'
  have hbonded' : ∀ x y, s'.bonded x y ↔
      TopologyManager.bonded { s with graph_ := s.graph_.removeEdge a b } x y := by
    intro x y
    unfold TopologyManager.bonded
    rw [hrid', hgraph']
  refine ⟨?_, ?_, ?_, ?_, ?_, ?_⟩
  · intro r p; rw [hres', hrid']; exact hi.res_mem r p
  · rw [hgraph']; exact hsym
  · intro p q
    rw [hgraph', hrid']
    intro hq
    exact hi.graph_tracked p q ((GraphMap.mem_adj_removeEdge _ _ _ _ _).mp hq).1
  · intro x y hxy
    rw [hrg', hbonded', hEadj, hi.rg_bond x y hxy]
    constructor
    · rintro ⟨⟨p1, p2, h1, h2, h3⟩, h4, h5⟩
      refine ⟨p1, p2, h1, h2, (GraphMap.mem_adj_removeEdge _ _ _ _ _).mpr ⟨h3, ?_, ?_⟩⟩
      · rintro ⟨rfl, rfl⟩
        rw [hr1] at h1; rw [hr2] at h2
        injection h1 with h1; injection h2 with h2
        exact h4 ⟨h1.symm, h2.symm⟩
      · rintro ⟨rfl, rfl⟩
        rw [hr2] at h1; rw [hr1] at h2
        injection h1 with h1; injection h2 with h2
        exact h5 ⟨h1.symm, h2.symm⟩
    · intro hb
      refine ⟨?_, ?_, ?_⟩
      · obtain ⟨p1, p2, h1, h2, h3⟩ := hb
        exact ⟨p1, p2, h1, h2, ((GraphMap.mem_adj_removeEdge _ _ _ _ _).mp h3).1⟩
      · rintro ⟨rfl, rfl⟩; exact hnb hb
      · rintro ⟨rfl, rfl⟩; exact hnb' hb
  · intro x y
    rw [hrg', hrid', hEadj]
    intro hy
    exact hi.rg_node x y hy.1
  · intro x y
    rw [hrg', hEadj, hEadj]
    rintro ⟨h1, h2, h3⟩
    exact ⟨hi.rg_sym x y h1, fun hc => h3 ⟨hc.2, hc.1⟩, fun hc => h2 ⟨hc.2, hc.1⟩⟩

theorem deleteEdgeGraph_graphInv (s s' : TopologyManager) (a b : Int) (hi : GraphInv s)
    (h : s.deleteEdgeGraph a b = .ok s') : GraphInv s' := by
  obtain ⟨rid1, rid2, mid, hr1, hr2, _, _, hcase⟩ := deleteEdgeGraph_ok s s' a b h
  rcases hcase with ⟨hs', hb⟩ | ⟨_, P1, P2, hP1, hP2, hb, hsplit⟩
  · rw [hs']
    apply removeOnly_graphInv s a b rid1 rid2 hi hr1 hr2
    rcases hb with hb | ⟨P1, P2, hP1, hP2, hb⟩
    · exact Or.inl hb
    · right
      obtain ⟨p1, hp1, p2, hp2, hadj⟩ := (hasBond_iff _ _ _).mp hb
      have h1 : p1 ∈ s.residues_.adj rid1 := by unfold GraphMap.adj; rw [hP1]; exact hp1
      have h2 : p2 ∈ s.residues_.adj rid2 := by unfold GraphMap.adj; rw [hP2]; exact hp2
      exact ⟨p1, p2, (hi.res_mem _ _).mp h1, (hi.res_mem _ _).mp h2, hadj⟩
  · apply splitMolecule_graphInv s s' a b rid1 rid2 mid hi hr1 hr2 ?_ hsplit
    rintro ⟨p1, p2, h1, h2, hadj⟩
    have e1 : p1 ∈ P1 := by
      have := (hi.res_mem rid1 p1).mpr h1
      unfold GraphMap.adj at this; rw [hP1] at this; exact this
    have e2 : p2 ∈ P2 := by
      have := (hi.res_mem rid2 p2).mpr h2
      unfold GraphMap.adj at this; rw [hP2] at this; exact this
    have : hasBond (s.graph_.removeEdge a b) P1 P2 = true :=
      (hasBond_iff _ _ _).mpr ⟨p1, e1, p2, e2, hadj⟩
    rw [hb] at this
    cases this

theorem GraphInv_setPending (s p : TopologyManager) (hi : GraphInv s) :
    GraphInv (s.setPending p) :=
  ⟨hi.res_mem, hi.graph_sym, hi.graph_tracked, hi.rg_bond, hi.rg_node, hi.rg_sym⟩

theorem deleteEdge_graphInv {P T : Type} (ops : ListOps P T) (loc loc' : Local P T)
    (s s' : TopologyManager) (a b : Int) (removed : Bool) (hi : GraphInv s)
    (h : s.deleteEdge ops loc a b = .ok (removed, loc', s')) : GraphInv s' := by
  obtain ⟨r, p, hr, hs⟩ := deleteEdge_ok ops loc loc' s s' a b removed h
  rw [hs]
  exact GraphInv_setPending r p (deleteEdgeGraph_graphInv s r a b hi hr)

/-- Every reachable state satisfies the graph part of the invariant, also after an overflow
of the counter of the molecule ids. -/
theorem Reachable.graphInv {s : TopologyManager} (h : Reachable s) : GraphInv s := by
  induction h with
  | init s0 ranks s hs => exact (initializeTopology_inv s0 s ranks hs).toGraphInv
  | newEdge s s' a b _ hs ih => exact newEdge_graphInv s s' a b ih hs
  | deleteEdge ops loc loc' s s' a b removed _ hs ih =>
    exact deleteEdge_graphInv ops loc loc' s s' a b removed ih hs

/-- Every state reached without an overflow of the counter satisfies the invariant of the
replicated topology. -/
theorem ReachableNoOverflow.inv {s : TopologyManager} (h : ReachableNoOverflow s) :
    TopoInv s := by
  induction h with
  | init s0 ranks s hs => exact initializeTopology_inv s0 s ranks hs
  | newEdge s s' a b _ hs ih => exact newEdge_inv s s' a b ih hs
  | deleteEdge ops loc loc' s s' a b removed _ hw hs ih =>
    exact deleteEdge_inv ops loc loc' s s' a b removed ih hw hs

theorem ReachableNoOverflow.reachable {s : TopologyManager} (h : ReachableNoOverflow s) :
    Reachable s := by
  induction h with
  | init s0 ranks s hs => exact Reachable.init s0 ranks s hs
  | newEdge s s' a b _ hs ih => exact Reachable.newEdge s s' a b ih hs
  | deleteEdge ops loc loc' s s' a b removed _ _ hs ih =>
    exact Reachable.deleteEdge ops loc loc' s s' a b removed ih hs

theorem AMap.get_of_mem {β : Type} (m : AMap β) (k : Int) (v : β) (hn : m.keys.Nodup)
    (h : (k, v) ∈ m) : m.get k = some v := by
  induction m with
  | nil => cases h
  | cons e m ih =>
    obtain ⟨a, w⟩ := e
    simp only [AMap.keys, List.map_cons, List.nodup_cons] at hn
    rw [AMap.get_cons]
    rcases List.mem_cons.mp h with h1 | h1
    · injection h1 with h1 h2
      subst h1; subst h2
      rw [if_pos rfl]
    · have hak : a ≠ k := by
        rintro rfl
        exact hn.1 (List.mem_map.mpr ⟨(a, v), h1, rfl⟩)
      rw [if_neg hak]
      exact ih hn.2 h1

theorem reachable_splitScenarioState : Reachable splitScenarioState :=
  Reachable.init TopologyManager.new splitScenario splitScenarioState rfl

theorem reachable_splitScenarioAfter : Reachable splitScenarioAfter :=
  Reachable.deleteEdge noListOps plainLocal { plainLocal with tuples_ := [()] }
    splitScenarioState splitScenarioAfter 20 21 false reachable_splitScenarioState rfl

/-- In every state reached without an overflow of the counter every tracked particle has
exactly one molecule id; every set stored in `molecules_` under an id `m` holds exactly the
particles `p` with `pid_mid[p] = m`, so the sets stored under different ids are disjoint and
their union is the set of tracked particles; no id is stored twice, and `max_mol_id_ + 1` is
neither a key of `molecules_` nor the molecule id of a particle. -/
theorem molecules_partition_without_overflow (s : TopologyManager)
    (h : ReachableNoOverflow s) :
    (∀ p, s.tracked p → ∃! m, s.pid_mid.get p = some m) ∧
    (∀ m set, (m, set) ∈ s.molecules_ → ∀ p, p ∈ set ↔ s.pid_mid.get p = some m) ∧
    (∀ m p, p ∈ s.molecules_.adj m ↔ s.pid_mid.get p = some m) ∧
    (∀ m1 m2 p, m1 ≠ m2 → p ∈ s.molecules_.adj m1 → p ∉ s.molecules_.adj m2) ∧
    (∀ p, s.tracked p ↔ ∃ m, p ∈ s.molecules_.adj m) ∧
    s.molecules_.keys.Nodup ∧
    s.molecules_.get (s.max_mol_id_ + 1) = none ∧
    (∀ p, s.pid_mid.get p ≠ some (s.max_mol_id_ + 1)) := by
  have hi := h.inv
  have hfresh : s.molecules_.get (s.max_mol_id_ + 1) = none := by
    cases hg : s.molecules_.get (s.max_mol_id_ + 1) with
    | none => rfl
    | some v =>
      have := hi.mol_max (s.max_mol_id_ + 1) (by rw [hg]; rfl)
      omega
  refine ⟨?_, ?_, hi.mol_mem, ?_, ?_, hi.mol_keys, hfresh, ?_⟩
  · intro p hp
    obtain ⟨m, hm⟩ := Option.isSome_iff_exists.mp ((hi.tracked p).mpr hp)
    refine ⟨m, hm, ?_⟩
    intro m' hm'
    rw [hm] at hm'
    injection hm' with hm'
    exact hm'.symm
  · intro m set hmem p
    have hg := AMap.get_of_mem s.molecules_ m set hi.mol_keys hmem
    have := hi.mol_mem m p
    unfold GraphMap.adj at this
    rw [hg] at this
    exact this
  · intro m1 m2 p hne h1 h2
    rw [hi.mol_mem] at h1 h2
    rw [h1] at h2
    injection h2 with h2
    exact hne h2
  · intro p
    unfold TopologyManager.tracked
    rw [← hi.tracked p, Option.isSome_iff_exists]
    constructor
    · rintro ⟨m, hm⟩; exact ⟨m, (hi.mol_mem m p).mpr hm⟩
    · rintro ⟨m, hm⟩; exact ⟨m, (hi.mol_mem m p).mp hm⟩
  · intro p hp
    have := (hi.mol_mem _ p).mpr hp
    unfold GraphMap.adj at this
    rw [hfresh] at this
    simp at this

/-- In every state reached without an overflow of the counter two tracked particles have the
same molecule id if and only if their residues are equal or joined by a path in
`res_graph_`. -/
theorem molecule_is_component_without_overflow (s : TopologyManager)
    (h : ReachableNoOverflow s) :
    (∀ p, s.tracked p → ∃ m r, s.pid_mid.get p = some m ∧ s.pid_rid.get p = some r) ∧
    (∀ p q mp mq rp rq, s.pid_mid.get p = some mp → s.pid_mid.get q = some mq →
      s.pid_rid.get p = some rp → s.pid_rid.get q = some rq →
      (mp = mq ↔ rp = rq ∨ Relation.TransGen (fun x y => y ∈ s.res_graph_.adj x) rp rq)) := by
  have hi := h.inv
  refine ⟨?_, ?_⟩
  · intro p hp
    obtain ⟨r, hr⟩ := Option.isSome_iff_exists.mp hp
    obtain ⟨m, hm⟩ := hi.mid_of_tracked p r hr
    exact ⟨m, r, hm, hr⟩
  · intro p q mp mq rp rq h1 h2 h3 h4
    rw [hi.mol_conn p q mp mq rp rq h1 h2 h3 h4]
    unfold Reach
    rw [Relation.reflTransGen_iff_eq_or_transGen]
    constructor
    · rintro (h5 | h5)
      · exact Or.inl h5.symm
      · exact Or.inr h5
    · rintro (h5 | h5)
      · exact Or.inl h5.symm
      · exact Or.inr h5

theorem reachable_overflowAfter : Reachable overflowAfter :=
  Reachable.deleteEdge noListOps plainLocal { plainLocal with tuples_ := [()] }
    overflowState overflowAfter 10 11 false
    (Reachable.init TopologyManager.new overflowScenario overflowState rfl) rfl

/-- C3 fails on the code: in the overflow scenario `initializeTopology` leaves the counter
`max_mol_id_` at `INT_MAX`, the molecule `INT_MAX` with the particles 10 and 11 and the
molecule `INT_MIN` with the particle 12. `deleteEdge(10,11)` splits the molecule; its
increment of the counter wraps to `INT_MIN`, an id in use, so the insertion of the new
set does nothing: afterwards `pid_mid[10] = INT_MIN`, while the set stored under `INT_MIN`
holds 12 only, and the tracked particle 10 is a member of no set of `molecules_`. -/
theorem C3_split_reuses_molecule_id_at_overflow :
    TopologyManager.new.initializeTopology overflowScenario = .ok overflowState ∧
    overflowState.deleteEdge noListOps plainLocal 10 11
      = .ok (false, { plainLocal with tuples_ := [()] }, overflowAfter) ∧
    Reachable overflowAfter ∧
    overflowState.max_mol_id_ = 2147483647 ∧
    overflowState.molecules_ = [(2147483647, [10, 11]), (-2147483648, [12])] ∧
    overflowState.molecules_.get (wrapInt32 (overflowState.max_mol_id_ + 1)) = some [12] ∧
    overflowAfter.max_mol_id_ = -2147483648 ∧
    overflowAfter.molecules_ = [(2147483647, [11]), (-2147483648, [12])] ∧
    overflowAfter.pid_mid = [(10, -2147483648), (11, 2147483647), (12, -2147483648)] ∧
    overflowAfter.tracked 10 ∧
    overflowAfter.pid_mid.get 10 = some (-2147483648) ∧
    10 ∉ overflowAfter.molecules_.adj (-2147483648) ∧
    (∀ m, 10 ∉ overflowAfter.molecules_.adj m) := by
  refine ⟨rfl, rfl, reachable_overflowAfter, rfl, rfl, rfl, rfl, rfl, rfl, rfl, rfl, by decide, ?_⟩
  intro m hm
  rw [GraphMap.mem_adj] at hm
  obtain ⟨set, hs, hmem⟩ := hm
  simp only [overflowAfter, AMap.get] at hs
  split_ifs at hs with h1 h2
  · injection hs with hs; subst hs; revert hmem; decide
  · injection hs with hs; subst hs; revert hmem; decide

/-- C4 fails on the code: after `deleteEdge(10,11)` in the overflow scenario the particles
10 and 12 have the same molecule id, `INT_MIN`, which the wrapped counter gave to 10, while
their residues `INT_MAX` and `INT_MIN` are different and no path of `res_graph_` joins
them. -/
theorem C4_overflow_joins_unconnected_residues :
    TopologyManager.new.initializeTopology overflowScenario = .ok overflowState ∧
    overflowState.deleteEdge noListOps plainLocal 10 11
      = .ok (false, { plainLocal with tuples_ := [()] }, overflowAfter) ∧
    overflowAfter.pid_mid.get 10 = some (-2147483648) ∧
    overflowAfter.pid_mid.get 12 = some (-2147483648) ∧
    overflowAfter.pid_rid.get 10 = some 2147483647 ∧
    overflowAfter.pid_rid.get 12 = some (-2147483648) ∧
    overflowAfter.res_graph_ = [(2147483647, []), (7, [])] ∧
    ¬ ((2147483647 : Int) = -2147483648 ∨
      Relation.TransGen (fun x y => y ∈ overflowAfter.res_graph_.adj x)
        2147483647 (-2147483648)) := by
  refine ⟨rfl, rfl, rfl, rfl, rfl, rfl, rfl, ?_⟩
  rintro (h | h)
  · exact absurd h (by decide)
  · obtain ⟨c, hc, _⟩ := Relation.TransGen.head'_iff.mp h
    have e : overflowAfter.res_graph_.adj 2147483647 = [] := rfl
    rw [e] at hc
    cases hc

/-- C9: in every reachable state, for two distinct residues `r1` and `r2`, `r2` is in
`res_graph_[r1]` if and only if some particle of `r1` is bonded in `graph_` to some particle
of `r2`. In particular, after a successful `deleteEdge(pid1,pid2)` of a bond between two
distinct residues the bond is gone from `graph_`, and the residue edge, which was present
before the call, is still present exactly when another bond joins the two residues. -/
theorem C9_residue_edge_iff_bond (s : TopologyManager) (h : Reachable s) :
    (∀ r1 r2, r1 ≠ r2 → (r2 ∈ s.res_graph_.adj r1 ↔ s.bonded r1 r2)) ∧
    (∀ {P T : Type} (ops : ListOps P T) (loc loc' : Local P T) (s' : TopologyManager)
      (pid1 pid2 r1 r2 : Int) (removed : Bool),
      s.deleteEdge ops loc pid1 pid2 = .ok (removed, loc', s') →
      s.pid_rid.get pid1 = some r1 → s.pid_rid.get pid2 = some r2 → r1 ≠ r2 →
      pid2 ∈ s.graph_.adj pid1 →
      r2 ∈ s.res_graph_.adj r1 ∧ pid2 ∉ s'.graph_.adj pid1 ∧ pid1 ∉ s'.graph_.adj pid2 ∧
      (r2 ∈ s'.res_graph_.adj r1 ↔ s'.bonded r1 r2) ∧
      (r1 ∈ s'.res_graph_.adj r2 ↔ s'.bonded r1 r2)) := by
  have hi := h.graphInv
  refine ⟨hi.rg_bond, ?_⟩
  intro P T ops loc loc' s' pid1 pid2 r1 r2 removed hd h1 h2 hne hbond
  have hi' := deleteEdge_graphInv ops loc loc' s s' pid1 pid2 removed hi hd
  obtain ⟨r, p, hr, hs⟩ := deleteEdge_ok ops loc loc' s s' pid1 pid2 removed hd
  have hg : s'.graph_ = s.graph_.removeEdge pid1 pid2 := by
    rw [hs]
    show r.graph_ = _
    obtain ⟨_, _, _, _, _, _, _, hcase⟩ := deleteEdgeGraph_ok s r pid1 pid2 hr
    rcases hcase with ⟨hs', _⟩ | ⟨_, P1, P2, _, _, _, hsplit⟩
    · rw [hs']
    · rcases splitMolecule_ok _ r _ _ _ hsplit with ⟨_, hs'⟩ | ⟨_, _, _, _, _, hs'⟩
      · rw [hs']
      · rw [hs']
  refine ⟨(hi.rg_bond r1 r2 hne).mpr ⟨pid1, pid2, h1, h2, hbond⟩, ?_, ?_, hi'.rg_bond r1 r2 hne, ?_⟩
  · rw [hg, GraphMap.mem_adj_removeEdge]
    rintro ⟨_, hc, _⟩
    exact hc ⟨rfl, rfl⟩
  · rw [hg, GraphMap.mem_adj_removeEdge]
    rintro ⟨_, _, hc⟩
    exact hc ⟨rfl, rfl⟩
  · rw [hi'.rg_bond r2 r1 (Ne.symm hne)]
    exact ⟨bonded_symm hi'.graph_sym r2 r1, bonded_symm hi'.graph_sym r1 r2⟩

/-- An instance of C9: the initial state of the split scenario. -/
theorem C9_residue_edge_iff_bond_witness :
    (∀ r1 r2, r1 ≠ r2 →
      (r2 ∈ splitScenarioState.res_graph_.adj r1 ↔ splitScenarioState.bonded r1 r2)) ∧
    (∀ {P T : Type} (ops : ListOps P T) (loc loc' : Local P T) (s' : TopologyManager)
      (pid1 pid2 r1 r2 : Int) (removed : Bool),
      splitScenarioState.deleteEdge ops loc pid1 pid2 = .ok (removed, loc', s') →
      splitScenarioState.pid_rid.get pid1 = some r1 →
      splitScenarioState.pid_rid.get pid2 = some r2 → r1 ≠ r2 →
      pid2 ∈ splitScenarioState.graph_.adj pid1 →
      r2 ∈ splitScenarioState.res_graph_.adj r1 ∧ pid2 ∉ s'.graph_.adj pid1 ∧
      pid1 ∉ s'.graph_.adj pid2 ∧
      (r2 ∈ s'.res_graph_.adj r1 ↔ s'.bonded r1 r2) ∧
      (r1 ∈ s'.res_graph_.adj r2 ↔ s'.bonded r1 r2)) :=
  C9_residue_edge_iff_bond splitScenarioState
    (Reachable.init TopologyManager.new splitScenario splitScenarioState rfl)

/-! ### exchangeData and the replicated topology -/

theorem sameTopology.symm_topology {s t : TopologyManager} (h : sameTopology s t) : sameTopology t s := by
  obtain ⟨h1, h2, h3, h4, h5, h6, h7⟩ := h
  exact ⟨h1.symm, h2.symm, h3.symm, h4.symm, h5.symm, h6.symm, h7.symm⟩

theorem sameTopology.trans_topology {s t u : TopologyManager} (h : sameTopology s t)
    (h' : sameTopology t u) : sameTopology s u := by
  obtain ⟨h1, h2, h3, h4, h5, h6, h7⟩ := h
  obtain ⟨g1, g2, g3, g4, g5, g6, g7⟩ := h'
  exact ⟨h1.trans g1, h2.trans g2, h3.trans g3, h4.trans g4, h5.trans g5, h6.trans g6,
    h7.trans g7⟩

theorem newEdge_sameTopology (s t s1 t1 : TopologyManager) (a b : Int) (h : sameTopology s t)
    (hs : s.newEdge a b = .ok s1) (ht : t.newEdge a b = .ok t1) : sameTopology s1 t1 := by
  rw [sameTopology_setPending s t h, newEdge_setPending, hs] at ht
  injection ht with ht
  rw [← ht]
  exact setPending_sameTopology s1 t

theorem deleteEdgeGraph_sameTopology (s t s1 t1 : TopologyManager) (a b : Int)
    (h : sameTopology s t) (hs : s.deleteEdgeGraph a b = .ok s1)
    (ht : t.deleteEdgeGraph a b = .ok t1) : sameTopology s1 t1 := by
  rw [sameTopology_setPending s t h, deleteEdgeGraph_setPending, hs] at ht
  injection ht with ht
  rw [← ht]
  exact setPending_sameTopology s1 t

theorem deleteEdge_sameTopology {P T P' T' : Type} (ops : ListOps P T) (ops' : ListOps P' T')
    (loc loc1 : Local P T) (loc' loc1' : Local P' T') (s t s1 t1 : TopologyManager) (a b : Int)
    (r r' : Bool) (h : sameTopology s t)
    (hs : s.deleteEdge ops loc a b = .ok (r, loc1, s1))
    (ht : t.deleteEdge ops' loc' a b = .ok (r', loc1', t1)) : sameTopology s1 t1 := by
  obtain ⟨u, p, hu, hs1⟩ := deleteEdge_ok ops loc loc1 s s1 a b r hs
  obtain ⟨v, q, hv, ht1⟩ := deleteEdge_ok ops' loc' loc1' t t1 a b r' ht
  have huv := deleteEdgeGraph_sameTopology s t u v a b h hu hv
  rw [hs1, ht1]
  exact ((setPending_sameTopology u p).symm_topology.trans_topology huv).trans_topology
    (setPending_sameTopology v q)

theorem newEdges_sameTopology (es : List (Int × Int)) (s t s1 t1 : TopologyManager)
    (h : sameTopology s t) (hs : TopologyManager.newEdges es s = .ok s1)
    (ht : TopologyManager.newEdges es t = .ok t1) : sameTopology s1 t1 := by
  induction es generalizing s t with
  | nil =>
    simp only [TopologyManager.newEdges] at hs ht
    injection hs with hs; injection ht with ht
    rw [← hs, ← ht]; exact h
  | cons e es ih =>
    obtain ⟨a, b⟩ := e
    simp only [TopologyManager.newEdges] at hs ht
    split at hs
    · cases hs
    · rename_i u hu
      split at ht
      · cases ht
      · rename_i v hv
        exact ih u v (newEdge_sameTopology s t u v a b h hu hv) hs ht

theorem deleteEdges_sameTopology {P T P' T' : Type} (ops : ListOps P T) (ops' : ListOps P' T')
    (es : SetPairs) (loc loc1 : Local P T) (loc' loc1' : Local P' T')
    (s t s1 t1 : TopologyManager) (h : sameTopology s t)
    (hs : deleteEdges ops es (loc, s) = .ok (loc1, s1))
    (ht : deleteEdges ops' es (loc', t) = .ok (loc1', t1)) : sameTopology s1 t1 := by
  induction es generalizing s t loc loc' with
  | nil =>
    simp only [deleteEdges] at hs ht
    injection hs with hs; injection ht with ht
    injection hs with _ hs; injection ht with _ ht
    rw [← hs, ← ht]; exact h
  | cons e es ih =>
    simp only [deleteEdges] at hs ht
    split at hs
    · cases hs
    · rename_i r l u hu
      split at ht
      · cases ht
      · rename_i r' l' v hv
        exact ih l l' u v
          (deleteEdge_sameTopology ops ops' loc l loc' l' s t u v e.1 e.2 r r' h hu hv) hs ht

/-- The topology left by `exchangeData` when it completes: that of
`newEdges` after `deleteEdges`, started from the topology before the call. -/
theorem exchangeData_ok {P T : Type} (ops : ListOps P T) (loc loc1 : Local P T)
    (s s1 : TopologyManager) (dirty : Bool) (roots gathered : List (List Int))
    (h : s.exchangeData ops loc dirty roots gathered = .ok (loc1, s1)) :
    (dirty = false ∧ s1 = s) ∨
    (dirty = true ∧ ∃ (m : Merged) (la lb : Local P T) (sa sb sc : TopologyManager),
      mergeAll gathered Merged.empty = .ok m ∧ sameTopology s sa ∧
      deleteEdges ops m.global_remove_edge (la, sa) = .ok (lb, sb) ∧
      sb.newEdges m.global_new_edge = .ok sc ∧ sameTopology sc s1) := by
  unfold TopologyManager.exchangeData at h
  cases dirty with
  | false =>
    simp only [Bool.not_false, if_true] at h
    injection h with h; injection h with _ h
    exact Or.inl ⟨rfl, h.symm⟩
  | true =>
    simp only [Bool.not_true, Bool.false_eq_true, if_false] at h
    right
    refine ⟨rfl, ?_⟩
    split at h
    · cases h
    · split at h
      · cases h
      · rename_i m hm
        split at h
        · cases h
        · rename_i la _
          split at h
          · cases h
          · rename_i lb sb hdel
            split at h
            · cases h
            · rename_i sc hnew
              split at h
              · cases h
              · split at h
                · cases h
                · split at h
                  · cases h
                  · injection h with h; injection h with _ h
                    refine ⟨m, la, lb, _, sb, sc, hm, ?_, hdel, hnew, ?_⟩
                    · exact ⟨rfl, rfl, rfl, rfl, rfl, rfl, rfl⟩
                    · rw [← h]
                      exact ⟨rfl, rfl, rfl, rfl, rfl, rfl, rfl⟩

theorem addResidueEntry_setPending (s p : TopologyManager) (pid rid : Int) :
    (s.setPending p).addResidueEntry pid rid
      = (s.addResidueEntry pid rid).map (fun r => r.setPending p) := by
  unfold TopologyManager.addResidueEntry
  simp only [TopologyManager.setPending]
  repeat' split
  all_goals rfl

theorem addResidueEntries_sameTopology (es : List (Int × Int)) (s t s1 t1 : TopologyManager)
    (h : sameTopology s t) (hs : TopologyManager.addResidueEntries es s = .ok s1)
    (ht : TopologyManager.addResidueEntries es t = .ok t1) : sameTopology s1 t1 := by
  induction es generalizing s t with
  | nil =>
    simp only [TopologyManager.addResidueEntries] at hs ht
    injection hs with hs; injection ht with ht
    rw [← hs, ← ht]; exact h
  | cons e es ih =>
    obtain ⟨a, b⟩ := e
    simp only [TopologyManager.addResidueEntries] at hs ht
    split at hs
    · cases hs
    · rename_i u hu
      split at ht
      · cases ht
      · rename_i v hv
        refine ih u v ?_ hs ht
        rw [sameTopology_setPending s t h, addResidueEntry_setPending, hu] at hv
        injection hv with hv
        rw [← hv]
        exact setPending_sameTopology u t

theorem initResidues_sameTopology (vs : List EdgesVector) (s t s1 t1 : TopologyManager)
    (n k n' k' n1 k1 n1' k1' : Int) (h : sameTopology s t)
    (hs : initResidues vs (s, n, k) = .ok (s1, n1, k1))
    (ht : initResidues vs (t, n', k') = .ok (t1, n1', k1')) : sameTopology s1 t1 := by
  induction vs generalizing s t n k n' k' with
  | nil =>
    simp only [initResidues] at hs ht
    injection hs with hs; injection ht with ht
    injection hs with hs; injection ht with ht
    rw [← hs, ← ht]; exact h
  | cons v vs ih =>
    simp only [initResidues] at hs ht
    split at hs
    · cases hs
    · rename_i a b c rest hh
      rw [hh] at ht
      simp only [] at ht
      split at hs
      · cases hs
      · rename_i u hu
        split at ht
        · cases ht
        · rename_i w hw
          exact ih u w _ _ _ _ (addResidueEntries_sameTopology _ s t u w h hu hw) hs ht

theorem initEdges_sameTopology (vs : List EdgesVector) (s t s1 t1 : TopologyManager)
    (h : sameTopology s t) (hs : initEdges vs s = .ok s1) (ht : initEdges vs t = .ok t1) :
    sameTopology s1 t1 := by
  induction vs generalizing s t with
  | nil =>
    simp only [initEdges] at hs ht
    injection hs with hs; injection ht with ht
    rw [← hs, ← ht]; exact h
  | cons v vs ih =>
    simp only [initEdges] at hs ht
    split at hs
    · cases hs
    · rename_i a b c rest hh
      rw [hh] at ht
      simp only [] at ht
      split at hs
      · cases hs
      · rename_i u hu
        split at ht
        · cases ht
        · rename_i w hw
          exact ih u w (newEdges_sameTopology _ s t u w h hu hw) hs ht

/-- Two ranks that run `initializeTopology` on the same gathered vectors end with the same
replicated topology, whatever their states before the call. -/
theorem initializeTopology_sameTopology (s0 t0 s t : TopologyManager)
    (ranks : List (EdgesVector × EdgesVector))
    (hs : s0.initializeTopology ranks = .ok s) (ht : t0.initializeTopology ranks = .ok t) :
    sameTopology s t := by
  unfold TopologyManager.initializeTopology at hs ht
  simp only [] at hs ht
  split at hs
  · cases hs
  · rename_i u n k hu
    split at hs
    · cases hs
    · split at hs
      · cases hs
      · rename_i u2 hu2
        split at ht
        · cases ht
        · rename_i v n' k' hv
          split at ht
          · cases ht
          · split at ht
            · cases ht
            · rename_i v2 hv2
              injection hs with hs; injection ht with ht
              have e1 : sameTopology s0.reset t0.reset := ⟨rfl, rfl, rfl, rfl, rfl, rfl, rfl⟩
              have e2 := initResidues_sameTopology _ _ _ u v _ _ _ _ _ _ _ _ e1 hu hv
              have e3 := initEdges_sameTopology _ u v u2 v2 e2 hu2 hv2
              rw [← hs, ← ht]
              obtain ⟨h1, h2, h3, h4, h5, h6, h7⟩ := e3
              exact ⟨h1, h2, h3, h4, h5, h6, h7⟩

/-- Two ranks that hold the same replicated topology, counter included, before `exchangeData`
and decode the same gathered payload hold the same replicated topology afterwards. -/
theorem exchangeData_sameTopology {P T P' T' : Type}
    (ops : ListOps P T) (ops' : ListOps P' T') (loc loc1 : Local P T) (loc' loc1' : Local P' T')
    (s t s1 t1 : TopologyManager) (global_is_dirty : Bool)
    (roots roots' gathered : List (List Int))
    (h : sameTopology s t)
    (hs : s.exchangeData ops loc global_is_dirty roots gathered = .ok (loc1, s1))
    (ht : t.exchangeData ops' loc' global_is_dirty roots' gathered = .ok (loc1', t1)) :
    sameTopology s1 t1 := by
  rcases exchangeData_ok ops loc loc1 s s1 _ roots gathered hs with
    ⟨hd, h1⟩ | ⟨hd, m, la, lb, sa, sb, sc, hm, hsa, hdel, hnew, hsc⟩
  · rcases exchangeData_ok ops' loc' loc1' t t1 _ roots' gathered ht with
      ⟨_, h2⟩ | ⟨hd', _⟩
    · rw [h1, h2]; exact h
    · rw [hd] at hd'; cases hd'
  · rcases exchangeData_ok ops' loc' loc1' t t1 _ roots' gathered ht with
      ⟨hd', _⟩ | ⟨_, m', la', lb', ta, tb, tc, hm', hta, hdel', hnew', htc⟩
    · rw [hd] at hd'; cases hd'
    · rw [hm] at hm'
      injection hm' with hm'
      subst hm'
      have e1 : sameTopology sa ta := (hsa.symm_topology.trans_topology h).trans_topology hta
      have e2 := deleteEdges_sameTopology ops ops' _ la lb la' lb' sa ta sb tb e1 hdel hdel'
      have e3 := newEdges_sameTopology _ sb tb sc tc e2 hnew hnew'
      exact (hsc.symm_topology.trans_topology e3).trans_topology htc

/-! ### Two ranks of one run hold the same counter -/

theorem idMapsAgree.refl_agree (m : AMap Int) : idMapsAgree m m := fun _ => Or.inl rfl

theorem idMapsAgree.eq_of_some {m m' : AMap Int} (h : idMapsAgree m m') {k v v' : Int}
    (hv : m.get k = some v) (hv' : m'.get k = some v') : v = v' := by
  rcases h k with h1 | ⟨h1, _⟩ | ⟨_, h1⟩
  · rw [hv, hv'] at h1; injection h1
  · rw [hv] at h1; cases h1
  · rw [hv'] at h1; cases h1

theorem idMapsAgree.set_both {m m' : AMap Int} (h : idMapsAgree m m') (k v : Int) :
    idMapsAgree (m.set k v) (m'.set k v) := by
  intro x
  rw [AMap.get_set, AMap.get_set]
  by_cases hx : x = k
  · rw [if_pos hx, if_pos hx]; exact Or.inl rfl
  · rw [if_neg hx, if_neg hx]; exact h x

theorem AMap.get_index (m : AMap Int) (k x : Int) :
    (m.index k).2.get x = if x = k ∧ m.get k = none then some 0 else m.get x := by
  unfold AMap.index
  cases hk : m.get k with
  | some w => simp
  | none =>
    simp only [and_true]
    have := AMap.get_insert m k (0 : Int) x
    unfold AMap.insert at this
    rw [hk] at this
    simpa using this

theorem idMapsAgree.index_left {m m' : AMap Int} (h : idMapsAgree m m') (k : Int) :
    idMapsAgree (m.index k).2 m' := by
  intro x
  rw [AMap.get_index]
  by_cases hx : x = k ∧ m.get k = none
  · rw [if_pos hx]
    obtain ⟨rfl, hk⟩ := hx
    rcases h x with h1 | ⟨_, h1⟩ | ⟨h1, _⟩
    · rw [hk] at h1; exact Or.inr (Or.inr ⟨rfl, h1.symm⟩)
    · exact Or.inl h1.symm
    · rw [hk] at h1; cases h1
  · rw [if_neg hx]; exact h x

theorem idMapsAgree.symm_agree {m m' : AMap Int} (h : idMapsAgree m m') : idMapsAgree m' m := by
  intro k
  rcases h k with h1 | ⟨h1, h2⟩ | ⟨h1, h2⟩
  · exact Or.inl h1.symm
  · exact Or.inr (Or.inr ⟨h2, h1⟩)
  · exact Or.inr (Or.inl ⟨h2, h1⟩)

theorem sameCollective.symm_collective {s t : TopologyManager} (h : sameCollective s t) :
    sameCollective t s := by
  obtain ⟨h1, h2, h3, h4, h5, h6, h7⟩ := h
  exact ⟨h1.symm, h2.symm, h3.symm, h4.symm, h5.symm, h6.symm_agree, h7.symm_agree⟩

theorem sameTopology.toCollective {s t : TopologyManager} (h : sameTopology s t) :
    sameCollective s t := by
  obtain ⟨h1, h2, h3, h4, h5, h6, h7⟩ := h
  refine ⟨h1, h2, h3, h4, h7, ?_, ?_⟩
  · rw [h5]; exact idMapsAgree.refl_agree _
  · rw [h6]; exact idMapsAgree.refl_agree _

theorem sameCollective.of_sameTopology {s t sa ta : TopologyManager} (h : sameCollective s t)
    (hs : sameTopology s sa) (ht : sameTopology t ta) : sameCollective sa ta := by
  obtain ⟨h1, h2, h3, h4, h5, h6, h7⟩ := h
  obtain ⟨a1, a2, a3, a4, a5, a6, a7⟩ := hs
  obtain ⟨b1, b2, b3, b4, b5, b6, b7⟩ := ht
  refine ⟨?_, ?_, ?_, ?_, ?_, ?_, ?_⟩
  · rw [← a1, ← b1]; exact h1
  · rw [← a2, ← b2]; exact h2
  · rw [← a3, ← b3]; exact h3
  · rw [← a4, ← b4]; exact h4
  · rw [← a7, ← b7]; exact h5
  · rw [← a5, ← b5]; exact h6
  · rw [← a6, ← b6]; exact h7

theorem localStep_sameCollective {s s' : TopologyManager} (h : localStep s s') :
    sameCollective s' s := by
  rcases h with ⟨p, rfl⟩ | ⟨a, b, rfl | rfl | rfl⟩
  · exact ⟨rfl, rfl, rfl, rfl, rfl, idMapsAgree.refl_agree _, idMapsAgree.refl_agree _⟩
  · exact ⟨rfl, rfl, rfl, rfl, rfl,
      ((idMapsAgree.refl_agree _).index_left a).index_left b, idMapsAgree.refl_agree _⟩
  · exact ⟨rfl, rfl, rfl, rfl, rfl,
      ((idMapsAgree.refl_agree _).index_left a).index_left b, idMapsAgree.refl_agree _⟩
  · exact ⟨rfl, rfl, rfl, rfl, rfl, idMapsAgree.refl_agree _,
      ((idMapsAgree.refl_agree _).index_left a).index_left b⟩

theorem idMapsAgree.trans_agree {m m' m'' : AMap Int} (h : idMapsAgree m m')
    (h' : idMapsAgree m' m'') : idMapsAgree m m'' := by
  intro k
  rcases h k with h1 | ⟨h1, h2⟩ | ⟨h1, h2⟩ <;> rcases h' k with g1 | ⟨g1, g2⟩ | ⟨g1, g2⟩
  · exact Or.inl (h1.trans g1)
  · exact Or.inr (Or.inl ⟨h1.trans g1, g2⟩)
  · exact Or.inr (Or.inr ⟨h1.trans g1, g2⟩)
  · exact Or.inr (Or.inl ⟨h1, g1 ▸ h2⟩)
  · rw [h2] at g1; cases g1
  · exact Or.inl (h1.trans g2.symm)
  · exact Or.inr (Or.inr ⟨h1, g1 ▸ h2⟩)
  · exact Or.inl (h1.trans g2.symm)
  · rw [h2] at g1; cases g1

theorem sameCollective.trans_collective {s t u : TopologyManager} (h : sameCollective s t)
    (h' : sameCollective t u) : sameCollective s u := by
  obtain ⟨h1, h2, h3, h4, h5, h6, h7⟩ := h
  obtain ⟨g1, g2, g3, g4, g5, g6, g7⟩ := h'
  exact ⟨h1.trans g1, h2.trans g2, h3.trans g3, h4.trans g4, h5.trans g5,
    h6.trans_agree g6, h7.trans_agree g7⟩

theorem reassign_agree (pset : PidSet) (m m' : AMap Int) (mid : Int) (h : idMapsAgree m m') :
    idMapsAgree (reassign m pset mid) (reassign m' pset mid) := by
  intro k
  rw [get_reassign, get_reassign]
  by_cases hk : k ∈ pset
  · rw [if_pos hk, if_pos hk]; exact Or.inl rfl
  · rw [if_neg hk, if_neg hk]; exact h k

theorem newEdge_sameCollective (s t s1 t1 : TopologyManager) (a b : Int)
    (h : sameCollective s t) (hs : s.newEdge a b = .ok s1) (ht : t.newEdge a b = .ok t1) :
    sameCollective s1 t1 := by
  obtain ⟨hg, hrg, hres, hmol, hmax, hrid, hmid⟩ := h
  obtain ⟨ra, rb, m1, m2, hra, hrb, hm1, hm2, e1, e2, e3, e4, e5, hc⟩ := newEdge_ok s s1 a b hs
  obtain ⟨ra', rb', m1', m2', hra', hrb', hm1', hm2', f1, f2, f3, f4, f5, hc'⟩ :=
    newEdge_ok t t1 a b ht
  have q1 := hrid.eq_of_some hra hra'
  have q2 := hrid.eq_of_some hrb hrb'
  have q3 := hmid.eq_of_some hm1 hm1'
  have q4 := hmid.eq_of_some hm2 hm2'
  subst q1 q2 q3 q4
  have hrid1 : idMapsAgree s1.pid_rid t1.pid_rid := by rw [e4, f4]; exact hrid
  rcases hc with ⟨hm, c1, c2⟩ | ⟨hm, pset, set1, p1, p2, c1, c2⟩ <;>
    rcases hc' with ⟨hm', d1, d2⟩ | ⟨hm', pset', set1', p1', p2', d1, d2⟩
  · exact ⟨by rw [e1, f1, hg], by rw [e2, f2, hrg], by rw [e3, f3, hres], by rw [c1, d1, hmol],
      by rw [e5, f5, hmax], hrid1, by rw [c2, d2]; exact hmid⟩
  · exact absurd hm hm'
  · exact absurd hm' hm
  · rw [hmol, p1'] at p1
    injection p1 with p1
    subst p1
    exact ⟨by rw [e1, f1, hg], by rw [e2, f2, hrg], by rw [e3, f3, hres], by rw [c1, d1, hmol],
      by rw [e5, f5, hmax], hrid1, by rw [c2, d2]; exact reassign_agree _ _ _ _ hmid⟩

theorem splitResidue_agree (new : Int) (Pset3 : PidSet) (st st' : SplitState)
    (h1 : st.PsetMid1 = st'.PsetMid1) (h2 : st.s = st'.s)
    (h3 : idMapsAgree st.pid_mid st'.pid_mid) :
    (splitResidue new st Pset3).PsetMid1 = (splitResidue new st' Pset3).PsetMid1 ∧
    (splitResidue new st Pset3).s = (splitResidue new st' Pset3).s ∧
    idMapsAgree (splitResidue new st Pset3).pid_mid (splitResidue new st' Pset3).pid_mid := by
  unfold splitResidue
  induction Pset3 generalizing st st' with
  | nil => exact ⟨h1, h2, h3⟩
  | cons p ps ih =>
    rw [List.foldl_cons, List.foldl_cons]
    apply ih
    · show PidSet.erase st.PsetMid1 p = PidSet.erase st'.PsetMid1 p
      rw [h1]
    · show PidSet.insert st.s p = PidSet.insert st'.s p
      rw [h2]
    · exact h3.set_both p new

theorem splitLoop_agree (residues : GraphMap) (new : Int) (rs : List Int)
    (st st' r r' : SplitState)
    (h1 : st.PsetMid1 = st'.PsetMid1) (h2 : st.s = st'.s)
    (h3 : idMapsAgree st.pid_mid st'.pid_mid)
    (hs : splitLoop residues new rs st = .ok r) (ht : splitLoop residues new rs st' = .ok r') :
    r.PsetMid1 = r'.PsetMid1 ∧ r.s = r'.s ∧ idMapsAgree r.pid_mid r'.pid_mid := by
  induction rs generalizing st st' with
  | nil =>
    simp only [splitLoop] at hs ht
    injection hs with hs; injection ht with ht
    subst hs; subst ht
    exact ⟨h1, h2, h3⟩
  | cons x rs ih =>
    simp only [splitLoop] at hs ht
    split at hs
    · cases hs
    · rename_i P hP
      rw [hP] at ht
      simp only [] at ht
      obtain ⟨g1, g2, g3⟩ := splitResidue_agree new P st st' h1 h2 h3
      exact ih _ _ g1 g2 g3 hs ht

theorem splitMolecule_sameCollective (s t s1 t1 : TopologyManager) (r1 r2 m : Int)
    (h : sameCollective s t) (hs : s.splitMolecule r1 r2 m = .ok s1)
    (ht : t.splitMolecule r1 r2 m = .ok t1) : sameCollective s1 t1 := by
  obtain ⟨hg, hrg, hres, hmol, hmax, hrid, hmid⟩ := h
  have A := splitMolecule_ok s s1 r1 r2 m hs
  have B := splitMolecule_ok t t1 r1 r2 m ht
  rw [← hrg, ← hres, ← hmol, ← hmax] at B
  rcases A with ⟨hu, e⟩ | ⟨hu, P, st, hP, hst, e⟩ <;>
    rcases B with ⟨hu', e'⟩ | ⟨hu', P', st', hP', hst', e'⟩
  · rw [e, e']
    exact ⟨hg, rfl, rfl, rfl, rfl, hrid, hmid⟩
  · exact absurd hu hu'
  · exact absurd hu' hu
  · rw [hP] at hP'
    injection hP' with hP'
    subst hP'
    obtain ⟨g1, g2, g3⟩ := splitLoop_agree _ _ _ ⟨P, s.pid_mid, []⟩ ⟨P, t.pid_mid, []⟩ st st'
      rfl rfl hmid hst hst'
    rw [e, e']
    refine ⟨hg, rfl, rfl, ?_, rfl, hrid, g3⟩
    show AMap.modify _ m (fun _ => st.PsetMid1) = AMap.modify _ m (fun _ => st'.PsetMid1)
    rw [g1, g2]

theorem deleteEdgeGraph_sameCollective (s t s1 t1 : TopologyManager) (a b : Int)
    (h : sameCollective s t) (hs : s.deleteEdgeGraph a b = .ok s1)
    (ht : t.deleteEdgeGraph a b = .ok t1) : sameCollective s1 t1 := by
  have h0 := h
  obtain ⟨hg, hrg, hres, hmol, hmax, hrid, hmid⟩ := h
  obtain ⟨rid1, rid2, mid, hr1, hr2, hm1, hm2, hc⟩ := deleteEdgeGraph_ok s s1 a b hs
  obtain ⟨rid1', rid2', mid', hr1', hr2', hm1', hm2', hc'⟩ := deleteEdgeGraph_ok t t1 a b ht
  have q1 := hrid.eq_of_some hr1 hr1'
  have q2 := hrid.eq_of_some hr2 hr2'
  have q3 := hmid.eq_of_some hm1 hm1'
  subst q1 q2 q3
  have hsame : sameCollective { s with graph_ := s.graph_.removeEdge a b }
      { t with graph_ := t.graph_.removeEdge a b } := by
    refine ⟨?_, hrg, hres, hmol, hmax, hrid, hmid⟩
    show s.graph_.removeEdge a b = t.graph_.removeEdge a b
    rw [hg]
  rcases hc with ⟨e, hb⟩ | ⟨hne, P1, P2, hP1, hP2, hb, hsp⟩ <;>
    rcases hc' with ⟨e', hb'⟩ | ⟨hne', P1', P2', hP1', hP2', hb', hsp'⟩
  · rw [e, e']
    exact hsame
  · exfalso
    rw [← hres] at hP1' hP2'
    rw [← hg] at hb'
    rcases hb with hb | ⟨P1, P2, hP1, hP2, hb⟩
    · exact hne' hb
    · rw [hP1] at hP1'; rw [hP2] at hP2'
      injection hP1' with hP1'; injection hP2' with hP2'
      subst hP1'; subst hP2'
      rw [hb] at hb'; cases hb'
  · exfalso
    rcases hb' with hb' | ⟨P1', P2', hP1', hP2', hb'⟩
    · exact hne hb'
    · rw [← hres] at hP1' hP2'
      rw [← hg] at hb'
      rw [hP1] at hP1'; rw [hP2] at hP2'
      injection hP1' with hP1'; injection hP2' with hP2'
      subst hP1'; subst hP2'
      rw [hb] at hb'; cases hb'
  · exact splitMolecule_sameCollective _ _ s1 t1 rid1 rid2 mid hsame hsp hsp'

theorem deleteEdge_sameCollective {P T P' T' : Type} (ops : ListOps P T) (ops' : ListOps P' T')
    (loc loc1 : Local P T) (loc' loc1' : Local P' T') (s t s1 t1 : TopologyManager) (a b : Int)
    (r r' : Bool) (h : sameCollective s t)
    (hs : s.deleteEdge ops loc a b = .ok (r, loc1, s1))
    (ht : t.deleteEdge ops' loc' a b = .ok (r', loc1', t1)) : sameCollective s1 t1 := by
  obtain ⟨u, p, hu, hs1⟩ := deleteEdge_ok ops loc loc1 s s1 a b r hs
  obtain ⟨v, q, hv, ht1⟩ := deleteEdge_ok ops' loc' loc1' t t1 a b r' ht
  have huv := deleteEdgeGraph_sameCollective s t u v a b h hu hv
  rw [hs1, ht1]
  exact huv.of_sameTopology (setPending_sameTopology u p) (setPending_sameTopology v q)

theorem newEdges_sameCollective (es : List (Int × Int)) (s t s1 t1 : TopologyManager)
    (h : sameCollective s t) (hs : TopologyManager.newEdges es s = .ok s1)
    (ht : TopologyManager.newEdges es t = .ok t1) : sameCollective s1 t1 := by
  induction es generalizing s t with
  | nil =>
    simp only [TopologyManager.newEdges] at hs ht
    injection hs with hs; injection ht with ht
    rw [← hs, ← ht]; exact h
  | cons e es ih =>
    obtain ⟨a, b⟩ := e
    simp only [TopologyManager.newEdges] at hs ht
    split at hs
    · cases hs
    · rename_i u hu
      split at ht
      · cases ht
      · rename_i v hv
        exact ih u v (newEdge_sameCollective s t u v a b h hu hv) hs ht

theorem deleteEdges_sameCollective {P T P' T' : Type} (ops : ListOps P T) (ops' : ListOps P' T')
    (es : SetPairs) (loc loc1 : Local P T) (loc' loc1' : Local P' T')
    (s t s1 t1 : TopologyManager) (h : sameCollective s t)
    (hs : deleteEdges ops es (loc, s) = .ok (loc1, s1))
    (ht : deleteEdges ops' es (loc', t) = .ok (loc1', t1)) : sameCollective s1 t1 := by
  induction es generalizing s t loc loc' with
  | nil =>
    simp only [deleteEdges] at hs ht
    injection hs with hs; injection ht with ht
    injection hs with _ hs; injection ht with _ ht
    rw [← hs, ← ht]; exact h
  | cons e es ih =>
    simp only [deleteEdges] at hs ht
    split at hs
    · cases hs
    · rename_i r l u hu
      split at ht
      · cases ht
      · rename_i r' l' v hv
        exact ih l l' u v
          (deleteEdge_sameCollective ops ops' loc l loc' l' s t u v e.1 e.2 r r' h hu hv) hs ht

/-- Two ranks that agree on the graph maps and the counter, and on the id maps up to the
entries inserted by reads, agree in the same way after an `exchangeData` that both complete on
the same gathered payload. -/
theorem exchangeData_sameCollective {P T P' T' : Type}
    (ops : ListOps P T) (ops' : ListOps P' T') (loc loc1 : Local P T) (loc' loc1' : Local P' T')
    (s t s1 t1 : TopologyManager) (global_is_dirty : Bool)
    (roots roots' gathered : List (List Int))
    (h : sameCollective s t)
    (hs : s.exchangeData ops loc global_is_dirty roots gathered = .ok (loc1, s1))
    (ht : t.exchangeData ops' loc' global_is_dirty roots' gathered = .ok (loc1', t1)) :
    sameCollective s1 t1 := by
  rcases exchangeData_ok ops loc loc1 s s1 _ roots gathered hs with
    ⟨hd, h1⟩ | ⟨hd, m, la, lb, sa, sb, sc, hm, hsa, hdel, hnew, hsc⟩
  · rcases exchangeData_ok ops' loc' loc1' t t1 _ roots' gathered ht with
      ⟨_, h2⟩ | ⟨hd', _⟩
    · rw [h1, h2]; exact h
    · rw [hd] at hd'; cases hd'
  · rcases exchangeData_ok ops' loc' loc1' t t1 _ roots' gathered ht with
      ⟨hd', _⟩ | ⟨_, m', la', lb', ta, tb, tc, hm', hta, hdel', hnew', htc⟩
    · rw [hd] at hd'; cases hd'
    · rw [hm] at hm'
      injection hm' with hm'
      subst hm'
      have e1 : sameCollective sa ta := h.of_sameTopology hsa hta
      have e2 := deleteEdges_sameCollective ops ops' _ la lb la' lb' sa ta sb tb e1 hdel hdel'
      have e3 := newEdges_sameCollective _ sb tb sc tc e2 hnew hnew'
      exact e3.of_sameTopology hsc htc

/-- Two ranks of one run agree on the graph maps and the counter, and on the id maps up to
the entries inserted by reads. -/
theorem SameRun.sameCollective {s t : TopologyManager} (h : SameRun s t) :
    sameCollective s t := by
  induction h with
  | init s0 t0 s t ranks hs ht =>
    exact (initializeTopology_sameTopology s0 t0 s t ranks hs ht).toCollective
  | exchange ops ops' loc loc1 loc' loc1' s t s1 t1 d roots roots' gathered _ hs ht ih =>
    exact exchangeData_sameCollective ops ops' loc loc1 loc' loc1' s t s1 t1 d roots roots'
      gathered ih hs ht
  | left s s' t _ hl ih => exact (localStep_sameCollective hl).trans_collective ih
  | right s t t' _ hl ih =>
    exact ih.trans_collective (localStep_sameCollective hl).symm_collective

/-- The counter `max_mol_id_` has the same value on two ranks of one run: it is written by
`initializeTopology` and by the split of `deleteEdge` only, which the ranks run together on
the same data. -/
theorem SameRun.max_mol_id_eq {s t : TopologyManager} (h : SameRun s t) :
    s.max_mol_id_ = t.max_mol_id_ :=
  h.sameCollective.2.2.2.2.1

/-- The id that a split gives to the new molecule follows the counter `max_mol_id_`, which is
not one of the six structures: `pairScenarioState` and `pairScenarioRejoined` hold the same
six structures and the counters 2 and 3, and `exchangeData` with the same gathered payload
(one removed edge, 10-11) leaves them with different `molecules_`. The second state comes from
the first by a `deleteEdge(10,11)` and a `newEdge(11,10)` outside `exchangeData`, which no
rank of a run does: the two are not the states of two ranks of one run. -/
theorem exchangeData_split_id_follows_counter :
    TopologyManager.new.initializeTopology pairScenario = .ok pairScenarioState ∧
    (pairScenarioState.deleteEdge noListOps plainLocal 10 11).map (fun r => r.2.2)
      = .ok pairScenarioSplit ∧
    pairScenarioSplit.newEdge 11 10 = .ok pairScenarioRejoined ∧
    sameStructures pairScenarioState pairScenarioRejoined ∧
    ¬ SameRun pairScenarioState pairScenarioRejoined ∧
    (pairScenarioState.exchangeData noListOps plainLocal true [[0]] [[0, 0, 1, 0, 10, 11]]).map
        (fun r => r.2.molecules_) = .ok [(1, [11]), (3, [10])] ∧
    (pairScenarioRejoined.exchangeData noListOps plainLocal true [[0]] [[0, 0, 1, 0, 10, 11]]).map
        (fun r => r.2.molecules_) = .ok [(1, [11]), (4, [10])] := by
  refine ⟨rfl, rfl, rfl, ⟨rfl, rfl, rfl, rfl, rfl, rfl⟩, ?_, rfl, rfl⟩
  intro h
  have := h.max_mol_id_eq
  revert this
  decide

/-- C5: two ranks of one run whose `graph_`, `res_graph_`, `residues_`, `molecules_`,
`pid_rid` and `pid_mid` are equal before `exchangeData`, and which decode the same gathered
payload, hold equal six structures after `exchangeData` has completed on both, whatever their
particle storage, their tuple lists and registrations, their queued edits and what the first
gather handed them. The two states are the states of two ranks of one run (`SameRun`): both
come from `initializeTopology` on the same gathered vectors by rounds of `exchangeData` on
the same payloads and by local steps of either rank. After the call the counters
`max_mol_id_` are equal as well, and the states are again those of two ranks of one run. -/
theorem C5_exchangeData_keeps_replicas_equal {P T P' T' : Type}
    (ops : ListOps P T) (ops' : ListOps P' T') (loc loc1 : Local P T) (loc' loc1' : Local P' T')
    (s t s1 t1 : TopologyManager) (global_is_dirty : Bool)
    (roots roots' gathered : List (List Int))
    (hrun : SameRun s t)
    (h : s.graph_ = t.graph_ ∧ s.res_graph_ = t.res_graph_ ∧ s.residues_ = t.residues_ ∧
      s.molecules_ = t.molecules_ ∧ s.pid_rid = t.pid_rid ∧ s.pid_mid = t.pid_mid)
    (hs : s.exchangeData ops loc global_is_dirty roots gathered = .ok (loc1, s1))
    (ht : t.exchangeData ops' loc' global_is_dirty roots' gathered = .ok (loc1', t1)) :
    (s1.graph_ = t1.graph_ ∧ s1.res_graph_ = t1.res_graph_ ∧ s1.residues_ = t1.residues_ ∧
      s1.molecules_ = t1.molecules_ ∧ s1.pid_rid = t1.pid_rid ∧ s1.pid_mid = t1.pid_mid) ∧
    s1.max_mol_id_ = t1.max_mol_id_ ∧ SameRun s1 t1 := by
  obtain ⟨h1, h2, h3, h4, h5, h6⟩ := h
  obtain ⟨g1, g2, g3, g4, g5, g6, g7⟩ :=
    exchangeData_sameTopology ops ops' loc loc1 loc' loc1' s t s1 t1 global_is_dirty roots
      roots' gathered ⟨h1, h2, h3, h4, h5, h6, hrun.max_mol_id_eq⟩ hs ht
  exact ⟨⟨g1, g2, g3, g4, g5, g6⟩, g7,
    SameRun.exchange ops ops' loc loc1 loc' loc1' s t s1 t1 global_is_dirty roots roots'
      gathered hrun hs ht⟩

/-- An instance of C5: after `initializeTopology` of the replication scenario one rank holds
every particle, the other holds none and has an edit queued; the payload removes the bond
10-11. -/
theorem C5_exchangeData_keeps_replicas_equal_witness :
    (pairScenarioExchanged.graph_ = pairScenarioExchanged.graph_ ∧
      pairScenarioExchanged.res_graph_ = pairScenarioExchanged.res_graph_ ∧
      pairScenarioExchanged.residues_ = pairScenarioExchanged.residues_ ∧
      pairScenarioExchanged.molecules_ = pairScenarioExchanged.molecules_ ∧
      pairScenarioExchanged.pid_rid = pairScenarioExchanged.pid_rid ∧
      pairScenarioExchanged.pid_mid = pairScenarioExchanged.pid_mid) ∧
    pairScenarioExchanged.max_mol_id_ = pairScenarioExchanged.max_mol_id_ ∧
    SameRun pairScenarioExchanged pairScenarioExchanged :=
  C5_exchangeData_keeps_replicas_equal noListOps noListOps plainLocal
    { plainLocal with tuples_ := [()] } bareLocal { bareLocal with tuples_ := [] }
    pairScenarioState { pairScenarioState with newEdges_ := [(3, 4)] }
    pairScenarioExchanged pairScenarioExchanged true [[0]] [[1, 10]]
    [[0, 0, 1, 0, 10, 11]]
    (SameRun.right pairScenarioState pairScenarioState
      { pairScenarioState with newEdges_ := [(3, 4)] }
      (SameRun.init TopologyManager.new TopologyManager.new pairScenarioState pairScenarioState
        pairScenario rfl rfl)
      (Or.inl ⟨{ pairScenarioState with newEdges_ := [(3, 4)] }, rfl⟩))
    ⟨rfl, rfl, rfl, rfl, rfl, rfl⟩ rfl rfl

/-! ### The loop of removeNeighbourEdges ends with an empty queue -/

theorem AMap.keys_insert {β : Type} (m : AMap β) (k : Int) (v : β) :
    (m.insert k v).keys = if (m.get k).isSome then m.keys else m.keys ++ [k] := by
  unfold AMap.insert AMap.keys
  split <;> simp

theorem nbVisit_measure (st : Storage) (mx : Int) (pt : Option (List (Int × Int)))
    (c d : Int) (cand : Finset Int) (acc : NbState) (node : Int) (hn : node ∈ cand) :
    acc.Q.length ≤ (nbVisit st mx pt c d acc node).Q.length ∧
    (nbVisit st mx pt c d acc node).Q.length
        + (cand \ (nbVisit st mx pt c d acc node).visitedDistance.keys.toFinset).card
      ≤ acc.Q.length + (cand \ acc.visitedDistance.keys.toFinset).card := by
  unfold nbVisit
  split
  · rename_i hc
    rw [AMap.count_eq_zero] at hc
    simp only []
    have hk : (AMap.insert acc.visitedDistance node d).keys.toFinset
        = insert node acc.visitedDistance.keys.toFinset := by
      rw [AMap.keys_insert, hc]
      ext v
      simp only [Option.isSome_none, Bool.false_eq_true, if_false, List.toFinset_append,
        List.toFinset_cons, List.toFinset_nil, Finset.mem_union, List.mem_toFinset,
        Finset.mem_insert, Finset.mem_singleton, insert_emptyc_eq]
      tauto
    have hnot : node ∉ acc.visitedDistance.keys.toFinset := by
      rw [List.mem_toFinset, AMap.mem_keys, hc]
      simp
    have hmem : node ∈ cand \ acc.visitedDistance.keys.toFinset :=
      Finset.mem_sdiff.mpr ⟨hn, hnot⟩
    have hpos : 0 < (cand \ acc.visitedDistance.keys.toFinset).card :=
      Finset.card_pos.mpr ⟨node, hmem⟩
    rw [hk, Finset.sdiff_insert, Finset.card_erase_of_mem hmem]
    split
    · simp only [List.length_append, List.length_singleton]
      omega
    · omega
  · exact ⟨le_refl _, le_refl _⟩

theorem nbFold_measure (st : Storage) (mx : Int) (pt : Option (List (Int × Int)))
    (c d : Int) (cand : Finset Int) (as : List Int) (acc : NbState) (has : ∀ a ∈ as, a ∈ cand) :
    acc.Q.length ≤ (as.foldl (nbVisit st mx pt c d) acc).Q.length ∧
    (as.foldl (nbVisit st mx pt c d) acc).Q.length
        + (cand \ (as.foldl (nbVisit st mx pt c d) acc).visitedDistance.keys.toFinset).card
      ≤ acc.Q.length + (cand \ acc.visitedDistance.keys.toFinset).card := by
  induction as generalizing acc with
  | nil => exact ⟨le_refl _, le_refl _⟩
  | cons a as ih =>
    rw [List.foldl_cons]
    obtain ⟨h1, h2⟩ := nbVisit_measure st mx pt c d cand acc a (has a (List.mem_cons_self _ _))
    obtain ⟨h3, h4⟩ := ih (nbVisit st mx pt c d acc a)
      (fun x hx => has x (List.mem_cons_of_mem _ hx))
    exact ⟨le_trans h1 h3, le_trans h4 h2⟩

theorem nbRound_measure (st : Storage) (graph : GraphMap) (mx : Int)
    (de : AMap (List (Int × Int))) (acc : NbState) (c : Int) (rest : List Int)
    (hQ : acc.Q = c :: rest) :
    (nbRound st graph mx de acc).Q.length
        + ((graph.flatMap (fun e => e.2)).toFinset
            \ (nbRound st graph mx de acc).visitedDistance.keys.toFinset).card + 1
      ≤ acc.Q.length
        + ((graph.flatMap (fun e => e.2)).toFinset \ acc.visitedDistance.keys.toFinset).card := by
  unfold nbRound
  rw [hQ]
  simp only []
  split
  · obtain ⟨h1, h2⟩ := nbFold_measure st mx
      (de.get ((acc.visitedDistance.get c).getD 0 + 1)) c
      ((acc.visitedDistance.get c).getD 0 + 1) (graph.flatMap (fun e => e.2)).toFinset
      (graph.adj c) acc
      (fun a ha => List.mem_toFinset.mpr (mem_adj_mem_flatMap graph c a ha))
    rw [hQ] at h1 h2
    simp only [List.length_cons, List.length_tail] at h1 h2 ⊢
    omega
  · rw [hQ]
    simp only [List.tail_cons, List.length_cons]
    omega

theorem nbLoop_Q_nil (st : Storage) (graph : GraphMap) (mx : Int)
    (de : AMap (List (Int × Int))) (fuel : Nat) (acc : NbState)
    (h : acc.Q.length
        + ((graph.flatMap (fun e => e.2)).toFinset \ acc.visitedDistance.keys.toFinset).card
      ≤ fuel) :
    (nbLoop st graph mx de fuel acc).Q = [] := by
  induction fuel generalizing acc with
  | zero =>
    unfold nbLoop
    exact List.length_eq_zero.mp (by omega)
  | succ n ih =>
    unfold nbLoop
    cases hQ : acc.Q with
    | nil => simp only []; exact hQ
    | cons c rest =>
      simp only []
      apply ih
      have := nbRound_measure st graph mx de acc c rest hQ
      omega

/-- The fuel given to the loop of `removeNeighbourEdges` is enough: the loop stops because the
queue is empty. -/
theorem removeNeighbourEdges_queue_empty (st : Storage) (graph : GraphMap) (mx : Int)
    (de : AMap (List (Int × Int))) (root : Int) (edges : List (Int × Int)) :
    (nbLoop st graph mx de (bfsFuel graph)
      { visitedDistance := [(root, 0)], Q := [root], edges_to_remove := edges }).Q = [] := by
  apply nbLoop_Q_nil
  simp only [List.length_singleton]
  have h1 : ((graph.flatMap (fun e => e.2)).toFinset
      \ (AMap.keys [(root, (0 : Int))]).toFinset).card
      ≤ (graph.flatMap (fun e => e.2)).toFinset.card := Finset.card_le_card Finset.sdiff_subset
  have h2 : (graph.flatMap (fun e => e.2)).toFinset.card
      ≤ (graph.flatMap (fun e => e.2)).length := List.toFinset_card_le _
  rw [length_flatMap_snd] at h2
  unfold bfsFuel
  omega

/-! ### defineDihedrals -/

/-- C12 as stated fails: on a rank where no particle resolves, so that `pid2 = 2` is not a real
particle here, `add(1,2,3,4)` ends in an error when one other rank of the communicator has set
an exception: the check of line 182 is collective. -/
theorem C12_counterexample :
    emptyStorage.lookupRealParticle 2 = none ∧
    (FixedQuadrupleList.mk [] [] [] []).add emptyStorage 1 2 3 4 1
      = .error ("", FixedQuadrupleList.mk [] [] [] []) :=
  ⟨rfl, rfl⟩

/-- C12 (amended): when `pid2` does not resolve to a real local particle, `add` sets no
exception on this rank, whether or not `pid1`, `pid3`, `pid4` resolve locally; it returns false
when no other rank has set an exception, and ends in the collective error otherwise; in both
cases the list (stored entries, active list, fired signals) is left as it was. -/
theorem C12_add_without_real_pid2 (st : Storage) (l : FixedQuadrupleList)
    (pid1 pid2 pid3 pid4 : Int) (elsewhere : Nat)
    (h2 : st.lookupRealParticle pid2 = none) :
    addExceptions (st.lookupLocalParticle pid1) (st.lookupRealParticle pid2)
        (st.lookupLocalParticle pid3) (st.lookupLocalParticle pid4) = [] ∧
    (elsewhere = 0 → l.add st pid1 pid2 pid3 pid4 elsewhere = .ok (false, l)) ∧
    (0 < elsewhere → l.add st pid1 pid2 pid3 pid4 elsewhere = .error ("", l)) := by
  refine ⟨by simp [addExceptions, h2], ?_, ?_⟩
  · intro he
    subst he
    simp [FixedQuadrupleList.add, checkException, addExceptions, h2]
  · intro he
    simp [FixedQuadrupleList.add, checkException, addExceptions, h2, he, String.join]

/-- An instance of C12 (amended): the empty storage, the quadruple (1,2,3,4), no exception on
the other ranks. -/
theorem C12_add_without_real_pid2_witness :
    addExceptions (emptyStorage.lookupLocalParticle 1) (emptyStorage.lookupRealParticle 2)
        (emptyStorage.lookupLocalParticle 3) (emptyStorage.lookupLocalParticle 4) = [] ∧
    ((0 : Nat) = 0 → (FixedQuadrupleList.mk [] [] [] []).add emptyStorage 1 2 3 4 0
      = .ok (false, FixedQuadrupleList.mk [] [] [] [])) ∧
    (0 < 0 → (FixedQuadrupleList.mk [] [] [] []).add emptyStorage 1 2 3 4 0
      = .error ("", FixedQuadrupleList.mk [] [] [] [])) :=
  C12_add_without_real_pid2 emptyStorage (FixedQuadrupleList.mk [] [] [] []) 1 2 3 4 0 rfl

/-- C13: when `pid2` resolves to a real local particle and one of `pid1`, `pid3`, `pid4` does
not resolve to a local particle, `add` ends in an error at the collective check, whatever the
other ranks bring to it, and `iadd` ends in an error at once; the error leaves the list
(stored entries, active list, fired signals) as it was. -/
theorem C13_missing_member_is_an_error (st : Storage) (l : FixedQuadrupleList)
    (pid1 pid2 pid3 pid4 : Int) (elsewhere : Nat)
    (h2 : (st.lookupRealParticle pid2).isSome)
    (hm : st.lookupLocalParticle pid1 = none ∨ st.lookupLocalParticle pid3 = none ∨
      st.lookupLocalParticle pid4 = none) :
    (∃ msg, l.add st pid1 pid2 pid3 pid4 elsewhere = .error (msg, l)) ∧
    (∃ msg, l.iadd st pid1 pid2 pid3 pid4 = .error (msg, l)) := by
  obtain ⟨q2, hq2⟩ := Option.isSome_iff_exists.mp h2
  have hne : addExceptions (st.lookupLocalParticle pid1) (st.lookupRealParticle pid2)
      (st.lookupLocalParticle pid3) (st.lookupLocalParticle pid4) ≠ [] := by
    rw [hq2]
    rcases hm with h | h | h <;> simp [addExceptions, h]
  constructor
  · have hpos : 0 < (addExceptions (st.lookupLocalParticle pid1) (st.lookupRealParticle pid2)
        (st.lookupLocalParticle pid3) (st.lookupLocalParticle pid4)).length + elsewhere := by
      have := List.length_pos.mpr hne
      omega
    refine ⟨String.join (addExceptions (st.lookupLocalParticle pid1)
      (st.lookupRealParticle pid2) (st.lookupLocalParticle pid3)
      (st.lookupLocalParticle pid4)), ?_⟩
    simp only [FixedQuadrupleList.add, checkException, if_pos hpos]
  · cases h1 : st.lookupLocalParticle pid1 with
    | none =>
      exact ⟨"quadruple particle p1 does not exists here and cannot be added",
        by simp [FixedQuadrupleList.iadd, hq2, h1]⟩
    | some q1 =>
      cases h3 : st.lookupLocalParticle pid3 with
      | none =>
        exact ⟨"quadruple particle p3 does not exists here and cannot be added",
          by simp [FixedQuadrupleList.iadd, hq2, h1, h3]⟩
      | some q3 =>
        cases h4 : st.lookupLocalParticle pid4 with
        | none =>
          exact ⟨"quadruple particle p4 does not exists here and cannot be added",
            by simp [FixedQuadrupleList.iadd, hq2, h1, h3, h4]⟩
        | some q4 => simp [h1, h3, h4] at hm

/-- An instance of C13: particle 1 does not resolve, particle 2 is real. -/
theorem C13_missing_member_is_an_error_witness :
    (∃ msg, (FixedQuadrupleList.mk [] [] [] []).add missingFirstStorage 1 2 3 4 0
      = .error (msg, FixedQuadrupleList.mk [] [] [] [])) ∧
    (∃ msg, (FixedQuadrupleList.mk [] [] [] []).iadd missingFirstStorage 1 2 3 4
      = .error (msg, FixedQuadrupleList.mk [] [] [] [])) :=
  C13_missing_member_is_an_error missingFirstStorage (FixedQuadrupleList.mk [] [] [] [])
    1 2 3 4 0 rfl (Or.inl rfl)

/-! ### FixedPairListAdress : adding a pair twice -/

/-- C14 fails on the code: with both particles resolving and an empty list, `add(1,2)` returns
true and stores the pair (1,2); a second `add`, as `add(2,1)` or as `add(1,2)`, returns true
again and stores a second entry (1,2): two stored pairs, both keyed by the lower id. -/
theorem C14_add_twice_stores_two_pairs :
    (FixedPairListAdress.mk [] []).add allAdrAT 1 2 0
      = .ok (true, ⟨[(1, 2)], [(allAdrAT 1, allAdrAT 2)]⟩) ∧
    (FixedPairListAdress.mk [(1, 2)] [(allAdrAT 1, allAdrAT 2)]).add allAdrAT 2 1 0
      = .ok (true, ⟨[(1, 2), (1, 2)], [(allAdrAT 1, allAdrAT 2), (allAdrAT 1, allAdrAT 2)]⟩) ∧
    (FixedPairListAdress.mk [(1, 2)] [(allAdrAT 1, allAdrAT 2)]).add allAdrAT 1 2 0
      = .ok (true, ⟨[(1, 2), (1, 2)], [(allAdrAT 1, allAdrAT 2), (allAdrAT 1, allAdrAT 2)]⟩) :=
  ⟨rfl, rfl, rfl⟩

/-! ### The format of the migration stream -/

theorem packPartners_eq_flatMap (es : List (Int × Triple)) :
    packPartners es = es.flatMap (fun e => [e.2.first, e.2.second, e.2.third]) := by
  induction es with
  | nil => rfl
  | cons e es ih => simp [packPartners, ih]

theorem equal_range_eraseKey_ne (g : GlobalQuadruples) (x y : Int) (h : ¬ y = x) :
    (g.eraseKey x).equal_range y = g.equal_range y := by
  unfold GlobalQuadruples.eraseKey GlobalQuadruples.equal_range
  rw [List.filter_filter]
  apply List.filter_congr
  intro e _
  by_cases he : e.1 = y
  · have : ¬ e.1 = x := fun hx => h (he ▸ hx)
    simp [he, this, h]
  · simp [he]

theorem equal_range_eraseKey_self (g : GlobalQuadruples) (x : Int) :
    (g.eraseKey x).equal_range x = [] := by
  unfold GlobalQuadruples.eraseKey GlobalQuadruples.equal_range
  rw [List.filter_filter, List.filter_eq_nil_iff]
  intro e _
  by_cases he : e.1 = x <;> simp [he]

theorem flatMap_block_eraseKey (g : GlobalQuadruples) (x : Int) (ys : List Int) :
    ys.flatMap (fun y => specBlock y ((g.eraseKey x).equal_range y))
      = (ys.filter (fun y => ¬ y = x)).flatMap (fun y => specBlock y (g.equal_range y)) := by
  have hf : ∀ y, specBlock y [] = [] := fun y => rfl
  induction ys with
  | nil => rfl
  | cons y ys ih =>
    by_cases hy : y = x
    · subst hy
      simp only [List.flatMap_cons, equal_range_eraseKey_self, hf, List.nil_append, ih,
        List.filter_cons, not_true_eq_false, decide_False, Bool.false_eq_true, if_false]
    · simp only [List.flatMap_cons, equal_range_eraseKey_ne g x y hy, ih, List.filter_cons, hy,
        not_false_eq_true, decide_True, if_true]

theorem flatMap_filter_of_nil {β : Type} (f : Int → List β) (x : Int) (hx : f x = [])
    (ys : List Int) :
    (ys.filter (fun y => ¬ y = x)).flatMap f = ys.flatMap f := by
  induction ys with
  | nil => rfl
  | cons y ys ih =>
    by_cases hy : y = x
    · subst hy
      simp only [List.filter_cons, not_true_eq_false, decide_False, Bool.false_eq_true, if_false,
        List.flatMap_cons, hx, List.nil_append, ih]
    · simp only [List.filter_cons, hy, not_false_eq_true, decide_True, if_true,
        List.flatMap_cons, ih]

/-- The vector written by the loop of `beforeSendParticles` is the stream of the
specification. -/
theorem beforeSendLoop_snd_eq_specStream (pl : ParticleList) (g : GlobalQuadruples) :
    (beforeSendLoop pl g []).2 = specStream g pl := by
  induction pl generalizing g with
  | nil => rfl
  | cons p pl ih =>
    simp only [beforeSendLoop]
    split
    · rename_i hn
      rw [beforeSendLoop_snd_append, ih]
      simp only [specStream, List.map_cons, firstOccurrences, List.flatMap_cons, List.nil_append]
      rw [flatMap_block_eraseKey]
      have hn' : 0 < (g.equal_range p.id).length := hn
      simp only [specBlock, if_pos hn', packPartners_eq_flatMap, List.cons_append]
      rfl
    · rename_i hn
      rw [ih]
      simp only [specStream, List.map_cons, firstOccurrences, List.flatMap_cons]
      have hn' : ¬ 0 < (g.equal_range p.id).length := hn
      have hb : specBlock p.id (g.equal_range p.id) = [] := by simp only [specBlock, if_neg hn']
      rw [hb, List.nil_append, flatMap_filter_of_nil _ _ hb]

theorem length_specBlock (pid : Int) (es : List (Int × Triple)) (h : 0 < es.length) :
    (specBlock pid es).length = 2 + 3 * es.length := by
  rw [specBlock, if_pos h, ← packPartners_eq_flatMap]
  simp only [List.length_cons, length_packPartners]
  omega

/-- The loop of `afterRecvParticles` stores the entries of the blocks, each under the id that
precedes it in the stream. -/
theorem recvLoop_blocks (g : GlobalQuadruples) (ids : List Int) (h : GlobalQuadruples)
    (fuel : Nat)
    (hf : (ids.flatMap (fun pid => specBlock pid (g.equal_range pid))).length ≤ fuel) :
    recvLoop fuel (ids.flatMap (fun pid => specBlock pid (g.equal_range pid))) h
      = (ids.flatMap (fun pid => g.equal_range pid)).reverse ++ h := by
  induction ids generalizing h fuel with
  | nil => cases fuel <;> simp [recvLoop]
  | cons y ids ih =>
    simp only [List.flatMap_cons] at hf ⊢
    by_cases hn : 0 < (g.equal_range y).length
    · have hlen := length_specBlock y _ hn
      rw [List.length_append, hlen] at hf
      obtain ⟨fuel, rfl⟩ : ∃ k, fuel = k + 1 := ⟨fuel - 1, by omega⟩
      have hkey : ∀ e ∈ g.equal_range y, e.1 = y := by
        intro e he
        simpa using (List.mem_filter.mp he).2
      have hb : specBlock y (g.equal_range y)
          = y :: ((g.equal_range y).length : Int) :: packPartners (g.equal_range y) := by
        rw [specBlock, if_pos hn, packPartners_eq_flatMap]
      rw [hb]
      simp only [List.cons_append, recvLoop, Int.toNat_ofNat]
      rw [show (packPartners (g.equal_range y)).append
            (ids.flatMap (fun pid => specBlock pid (g.equal_range pid)))
          = packPartners (g.equal_range y)
            ++ ids.flatMap (fun pid => specBlock pid (g.equal_range pid)) from rfl,
        recvInner_pack _ _ _ _ hkey]
      simp only
      rw [ih _ _ (by omega)]
      simp [List.reverse_append]
    · have hnil : g.equal_range y = [] := List.length_eq_zero.mp (by omega)
      have hb : specBlock y (g.equal_range y) = [] := by simp only [specBlock, if_neg hn]
      rw [hb, List.nil_append] at hf ⊢
      rw [ih _ _ hf, hnil, List.nil_append]

theorem recvCounter_shift (pre s : List Int) (fuel i : Nat) :
    recvCounter (pre ++ s) fuel (pre.length + i) = pre.length + recvCounter s fuel i := by
  induction fuel generalizing i with
  | zero => rfl
  | succ n ih =>
    simp only [recvCounter, List.length_append]
    have hget : (pre ++ s).getD (pre.length + i + 1) 0 = s.getD (i + 1) 0 := by
      rw [List.getD_eq_getElem?_getD, List.getD_eq_getElem?_getD,
        List.getElem?_append_right (by omega)]
      congr 2
      omega
    rw [hget]
    by_cases hi : i < s.length
    · rw [if_pos (by omega), if_pos hi]
      have := ih (i + 2 + 3 * (s.getD (i + 1) 0).toNat)
      rw [← this]
      congr 1
      omega
    · rw [if_neg (by omega), if_neg hi]

/-- The read counter ends at the size of the stream: nothing is read past the end and nothing is
left over. -/
theorem recvCounter_blocks (g : GlobalQuadruples) (ids : List Int) (fuel : Nat)
    (hf : (ids.flatMap (fun pid => specBlock pid (g.equal_range pid))).length ≤ fuel) :
    recvCounter (ids.flatMap (fun pid => specBlock pid (g.equal_range pid))) fuel 0
      = (ids.flatMap (fun pid => specBlock pid (g.equal_range pid))).length := by
  induction ids generalizing fuel with
  | nil => cases fuel <;> simp [recvCounter]
  | cons y ids ih =>
    simp only [List.flatMap_cons] at hf ⊢
    by_cases hn : 0 < (g.equal_range y).length
    · have hlen := length_specBlock y _ hn
      rw [List.length_append, hlen] at hf
      obtain ⟨fuel, rfl⟩ : ∃ k, fuel = k + 1 := ⟨fuel - 1, by omega⟩
      have hget : (specBlock y (g.equal_range y) ++
          ids.flatMap (fun pid => specBlock pid (g.equal_range pid))).getD (0 + 1) 0
          = ((g.equal_range y).length : Int) := by
        rw [specBlock, if_pos hn]
        rfl
      simp only [recvCounter, List.length_append, hlen, hget, Int.toNat_ofNat]
      rw [if_pos (by omega)]
      have hs := recvCounter_shift (specBlock y (g.equal_range y))
        (ids.flatMap (fun pid => specBlock pid (g.equal_range pid))) fuel 0
      rw [hlen, Nat.add_zero] at hs
      rw [show 0 + 2 + 3 * (g.equal_range y).length = 2 + 3 * (g.equal_range y).length by omega,
        hs, ih _ (by omega)]
    · have hb : specBlock y (g.equal_range y) = [] := by simp only [specBlock, if_neg hn]
      rw [hb, List.nil_append] at hf ⊢
      exact ih _ hf

theorem mem_firstOccurrences (xs : List Int) (y : Int) :
    y ∈ firstOccurrences xs ↔ y ∈ xs := by
  induction xs with
  | nil => simp [firstOccurrences]
  | cons x xs ih =>
    simp only [firstOccurrences, List.mem_cons, List.mem_filter, ih, decide_eq_true_eq]
    by_cases h : y = x <;> simp [h]

/-- C15: the vector that `beforeSendParticles` writes is the stream of the specification (for
each id of `pl` that owns `n > 0` entries, in the order of `pl`: the id, `n`, and the members
`(p1, p3, p4)` of each entry; nothing for an id without entries); `afterRecvParticles` reads
such a stream with its counter ending exactly at the size of the stream, and stores every
triple under the id that precedes it. -/
theorem C15_migration_stream_format (l h : FixedQuadrupleList) (pl pl2 : ParticleList)
    (buf : Buffer) :
    (l.beforeSendParticles pl buf).2 = buf ++ [specStream l.globalQuadruples pl] ∧
    (∀ p ∈ pl, l.globalQuadruples.count p.id = 0 →
      specBlock p.id (l.globalQuadruples.equal_range p.id) = []) ∧
    recvCounter (specStream l.globalQuadruples pl) (specStream l.globalQuadruples pl).length 0
      = (specStream l.globalQuadruples pl).length ∧
    (h.afterRecvParticles pl2 [specStream l.globalQuadruples pl]).1.globalQuadruples
      = (specStreamEntries l.globalQuadruples pl).reverse ++ h.globalQuadruples ∧
    (∀ e ∈ specStreamEntries l.globalQuadruples pl,
      e ∈ l.globalQuadruples ∧ e.1 ∈ pl.map Particle.id) := by
  refine ⟨?_, ?_, ?_, ?_, ?_⟩
  · simp only [FixedQuadrupleList.beforeSendParticles, beforeSendLoop_snd_eq_specStream]
  · intro p _ hc
    have : ¬ 0 < (l.globalQuadruples.equal_range p.id).length := by
      rw [show (l.globalQuadruples.equal_range p.id).length = l.globalQuadruples.count p.id
        from rfl, hc]
      omega
    simp only [specBlock, if_neg this]
  · exact recvCounter_blocks _ _ _ (le_refl _)
  · simp only [FixedQuadrupleList.afterRecvParticles, List.headD_cons]
    exact recvLoop_blocks _ _ _ _ (le_refl _)
  · intro e he
    simp only [specStreamEntries, List.mem_flatMap, mem_firstOccurrences] at he
    obtain ⟨pid, hpid, hmem⟩ := he
    have hm := List.mem_filter.mp hmem
    have hk : e.1 = pid := by simpa using hm.2
    exact ⟨hm.1, hk ▸ hpid⟩

/-! ### remove and removeByBond -/

theorem length_filter_or {α : Type} (p q : α → Bool) (l : List α) :
    (l.filter (fun e => p e || q e)).length
      = (l.filter p).length + ((l.filter (fun e => !p e)).filter q).length := by
  rw [(filter_or_perm p q l).length_eq, List.length_append, List.filter_filter]
  congr 2
  apply List.filter_congr
  intro e _
  exact Bool.and_comm _ _

/-- C17: `remove(p1,p2,p3,p4)` erases exactly the stored entries that record the quadruple in
forward order (key `p2`, members `(p1,p3,p4)`) or in reverse order (key `p3`, members
`(p4,p2,p1)`) and keeps every other entry, in place; it fires `onTupleRemoved` once for each
erased entry and nothing else; it returns true exactly when an entry was erased. -/
theorem C17_remove_erases_both_orders (l : FixedQuadrupleList) (p1 p2 p3 p4 : Int) :
    (l.remove p1 p2 p3 p4).2.globalQuadruples
      = l.globalQuadruples.filter
          (fun e => ¬ (e = (p2, ⟨p1, p3, p4⟩) ∨ e = (p3, ⟨p4, p2, p1⟩))) ∧
    (∃ fired, (l.remove p1 p2 p3 p4).2.onTupleRemoved = l.onTupleRemoved ++ fired ∧
      fired.length = (l.entriesOf p1 p2 p3 p4).length ∧
      ∀ s ∈ fired, s = (p1, p2, p3, p4) ∨ s = (p4, p3, p2, p1)) ∧
    ((l.remove p1 p2 p3 p4).1 = true ↔ l.entriesOf p1 p2 p3 p4 ≠ []) ∧
    (l.remove p1 p2 p3 p4).2.quadruples = l.quadruples ∧
    (l.remove p1 p2 p3 p4).2.onTupleAdded = l.onTupleAdded := by
  have hlen := length_filter_or
    (fun e : Int × Triple => decide (e.1 = p2 ∧ e.2 = ⟨p1, p3, p4⟩))
    (fun e : Int × Triple => decide (e.1 = p3 ∧ e.2 = ⟨p4, p2, p1⟩)) l.globalQuadruples
  have hent : l.entriesOf p1 p2 p3 p4 = l.globalQuadruples.filter
      (fun e => decide (e.1 = p2 ∧ e.2 = ⟨p1, p3, p4⟩)
        || decide (e.1 = p3 ∧ e.2 = ⟨p4, p2, p1⟩)) := by
    unfold FixedQuadrupleList.entriesOf
    apply List.filter_congr
    intro e _
    obtain ⟨k, t⟩ := e
    simp [Prod.ext_iff]
  have hnot : (l.globalQuadruples.filter
        (fun e => decide ¬ (e.1 = p2 ∧ e.2 = ⟨p1, p3, p4⟩)))
      = l.globalQuadruples.filter
        (fun e => !decide (e.1 = p2 ∧ e.2 = ⟨p1, p3, p4⟩)) := by
    apply List.filter_congr
    intro e _
    simp
  refine ⟨?_, ⟨(l.globalQuadruples.filter
        (fun e => e.1 = p2 ∧ e.2 = ⟨p1, p3, p4⟩)).map (fun _ => (p1, p2, p3, p4))
      ++ ((l.globalQuadruples.filter (fun e => ¬ (e.1 = p2 ∧ e.2 = ⟨p1, p3, p4⟩))).filter
        (fun e => e.1 = p3 ∧ e.2 = ⟨p4, p2, p1⟩)).map (fun _ => (p4, p3, p2, p1)),
      ?_, ?_, ?_⟩, ?_, rfl, rfl⟩
  · simp only [FixedQuadrupleList.remove, List.filter_filter]
    apply List.filter_congr
    intro e _
    obtain ⟨k, t⟩ := e
    rw [Bool.eq_iff_iff]
    simp only [Bool.and_eq_true, decide_eq_true_eq, Prod.mk.injEq]
    tauto
  · simp only [FixedQuadrupleList.remove, List.append_assoc]
  · rw [hent, hlen, List.length_append, List.length_map, List.length_map, hnot]
  · intro s hs
    simp only [List.mem_append, List.mem_map] at hs
    rcases hs with ⟨_, _, rfl⟩ | ⟨_, _, rfl⟩
    · exact Or.inl rfl
    · exact Or.inr rfl
  · have hl := hlen
    rw [← hent, ← hnot] at hl
    simp only [FixedQuadrupleList.remove, Bool.or_eq_true, Bool.not_eq_true',
      List.isEmpty_eq_false, ne_eq]
    rw [← List.length_eq_zero, ← List.length_eq_zero, ← List.length_eq_zero, hl]
    omega

/-- The test of `removeByBond` holds exactly when the two ids of the bond are consecutive
members of the stored quadruple, in either order. -/
theorem bondInQuadruple_iff (e : Int × Triple) (a b : Int) :
    bondInQuadruple e a b = true ↔
      consecutiveMembers [e.2.first, e.1, e.2.second, e.2.third] a b := by
  unfold bondInQuadruple consecutiveMembers
  simp only [decide_eq_true_eq]
  constructor
  · rintro (⟨h1, h2⟩ | ⟨h1, h2⟩ | ⟨h1, h2⟩ | ⟨h1, h2⟩ | ⟨h1, h2⟩ | ⟨h1, h2⟩)
    · exact ⟨0, Or.inl ⟨by simp [h1], by simp [h2]⟩⟩
    · exact ⟨0, Or.inr ⟨by simp [h1], by simp [h2]⟩⟩
    · exact ⟨1, Or.inl ⟨by simp [h1], by simp [h2]⟩⟩
    · exact ⟨1, Or.inr ⟨by simp [h1], by simp [h2]⟩⟩
    · exact ⟨2, Or.inl ⟨by simp [h1], by simp [h2]⟩⟩
    · exact ⟨2, Or.inr ⟨by simp [h1], by simp [h2]⟩⟩
  · rintro ⟨i, h⟩
    match i, h with
    | 0, h => simp at h; tauto
    | 1, h => simp at h; tauto
    | 2, h => simp at h; tauto
    | n + 3, h => simp at h

/-- C18: `removeByBond(a,b)` erases exactly the stored quadruples in which `a` and `b` are
consecutive members in either order, and keeps every other entry, in place; it fires
`onTupleRemoved` once for each erased quadruple, with its four members; the result is true
exactly when a quadruple was erased. -/
theorem C18_removeByBond_erases_referencing (l : FixedQuadrupleList) (a b : Int) :
    (l.removeByBond a b).2.globalQuadruples
      = l.globalQuadruples.filter (fun e => !bondInQuadruple e a b) ∧
    (∀ e : Int × Triple, bondInQuadruple e a b = true ↔
      consecutiveMembers [e.2.first, e.1, e.2.second, e.2.third] a b) ∧
    (∀ e : Int × Triple, e ∈ (l.removeByBond a b).2.globalQuadruples ↔
      e ∈ l.globalQuadruples ∧
        ¬ consecutiveMembers [e.2.first, e.1, e.2.second, e.2.third] a b) ∧
    (l.removeByBond a b).2.onTupleRemoved = l.onTupleRemoved ++
      (l.globalQuadruples.filter (fun e => bondInQuadruple e a b)).map quadOf ∧
    ((l.removeByBond a b).1 = true ↔
      ∃ e ∈ l.globalQuadruples,
        consecutiveMembers [e.2.first, e.1, e.2.second, e.2.third] a b) ∧
    (l.removeByBond a b).2.quadruples = l.quadruples ∧
    (l.removeByBond a b).2.onTupleAdded = l.onTupleAdded := by
  refine ⟨rfl, fun e => bondInQuadruple_iff e a b, ?_, rfl, ?_, rfl, rfl⟩
  · intro e
    simp only [FixedQuadrupleList.removeByBond, List.mem_filter, Bool.not_eq_true',
      ← bondInQuadruple_iff]
    simp
  · simp only [FixedQuadrupleList.removeByBond, Bool.not_eq_true', List.isEmpty_eq_false,
      ← bondInQuadruple_iff]
    rw [Ne, List.filter_eq_nil_iff]
    push_neg
    rfl

/-! ### onParticlesChanged -/

/-- C19 fails on the code: with the stored quadruple (1,2,3,4) on a rank where particle 1 does
not resolve, `onParticlesChanged` returns; the active list then holds the tuple with a null
first pointer, and the message set for particle 1 has not been raised. -/
theorem C19_onParticlesChanged_keeps_null_member :
    missingFirstStorage.lookupLocalParticle 1 = none ∧
    (FixedQuadrupleList.mk [(2, ⟨1, 3, 4⟩)] [] [] []).onParticlesChanged missingFirstStorage
      = (⟨[(2, ⟨1, 3, 4⟩)],
          [(none, some ⟨2, 0, 0, 1, false⟩, some ⟨3, 0, 0, 1, false⟩,
            some ⟨4, 0, 0, 1, false⟩)], [], []⟩,
         ["quadruple particle p1 does not exists here"]) :=
  ⟨rfl, rfl⟩

theorem changedLoop_resolved (st : Storage) (es : List (Int × Triple)) (lastpid2 : Int)
    (p2 : ParticlePtr)
    (acc : List (ParticlePtr × ParticlePtr × ParticlePtr × ParticlePtr)) (err : List String)
    (hinv : lastpid2 = -1 ∨ p2 = st.lookupRealParticle lastpid2)
    (hkey : ∀ e ∈ es, e.1 ≠ -1)
    (hres : ∀ e ∈ es, (st.lookupRealParticle e.1).isSome ∧
      (st.lookupLocalParticle e.2.first).isSome ∧ (st.lookupLocalParticle e.2.second).isSome ∧
      (st.lookupLocalParticle e.2.third).isSome) :
    changedLoop st es lastpid2 p2 acc err =
      (acc ++ es.map (fun e => (st.lookupLocalParticle e.2.first, st.lookupRealParticle e.1,
        st.lookupLocalParticle e.2.second, st.lookupLocalParticle e.2.third)), err) := by
  induction es generalizing lastpid2 p2 acc err with
  | nil => simp [changedLoop]
  | cons e es ih =>
    obtain ⟨h2, h1, h3, h4⟩ := hres e (List.mem_cons_self _ _)
    have hk : e.1 ≠ -1 := hkey e (List.mem_cons_self _ _)
    have hp2 : (if e.1 ≠ lastpid2 then st.lookupRealParticle e.1 else p2)
        = st.lookupRealParticle e.1 := by
      by_cases hl : e.1 = lastpid2
      · rw [if_neg (not_not.mpr hl)]
        rcases hinv with h | h
        · exact absurd (hl.trans h) hk
        · rw [h, hl]
      · rw [if_pos hl]
    have hn1 : ¬ (st.lookupLocalParticle e.2.first).isNone = true := by
      rw [Option.isNone_iff_eq_none]; intro h; rw [h] at h1; exact absurd h1 (by simp)
    have hn3 : ¬ (st.lookupLocalParticle e.2.second).isNone = true := by
      rw [Option.isNone_iff_eq_none]; intro h; rw [h] at h3; exact absurd h3 (by simp)
    have hn4 : ¬ (st.lookupLocalParticle e.2.third).isNone = true := by
      rw [Option.isNone_iff_eq_none]; intro h; rw [h] at h4; exact absurd h4 (by simp)
    have hn2 : ¬ (e.1 ≠ lastpid2 ∧ (st.lookupRealParticle e.1).isNone = true) := by
      rintro ⟨_, h⟩
      rw [Option.isNone_iff_eq_none] at h; rw [h] at h2; exact absurd h2 (by simp)
    simp only [changedLoop, hp2, if_neg hn1, if_neg hn3, if_neg hn4, if_neg hn2]
    rw [ih _ _ _ _ (Or.inr rfl) (fun x hx => hkey x (List.mem_cons_of_mem _ hx))
      (fun x hx => hres x (List.mem_cons_of_mem _ hx))]
    simp

/-- When every member of every stored entry resolves (the key as a real particle, the other
three as local particles), `onParticlesChanged` sets no exception and the active list holds
one tuple of resolved particles for each stored entry, in the order of the entries. -/
theorem onParticlesChanged_resolved (st : Storage) (l : FixedQuadrupleList)
    (hkey : ∀ e ∈ l.globalQuadruples, e.1 ≠ -1)
    (hres : ∀ e ∈ l.globalQuadruples, (st.lookupRealParticle e.1).isSome ∧
      (st.lookupLocalParticle e.2.first).isSome ∧ (st.lookupLocalParticle e.2.second).isSome ∧
      (st.lookupLocalParticle e.2.third).isSome) :
    (l.onParticlesChanged st).2 = [] ∧
    (l.onParticlesChanged st).1.quadruples = l.globalQuadruples.map
      (fun e => (st.lookupLocalParticle e.2.first, st.lookupRealParticle e.1,
        st.lookupLocalParticle e.2.second, st.lookupLocalParticle e.2.third)) ∧
    (l.onParticlesChanged st).1.globalQuadruples = l.globalQuadruples := by
  simp only [FixedQuadrupleList.onParticlesChanged,
    changedLoop_resolved st _ (-1) none [] [] (Or.inl rfl) hkey hres]
  simp

/-! ### getNodesAtDistances : the loop ends with an empty queue -/

theorem distVisit_measure (r : NbDistances) (root d : Int) (cand : Finset Int)
    (acc : DistState) (node : Int) (hn : node ∈ cand) :
    acc.Q.length ≤ (distVisit r root d acc node).Q.length ∧
    (distVisit r root d acc node).Q.length
        + (cand \ (distVisit r root d acc node).visitedDistance.keys.toFinset).card
      ≤ acc.Q.length + (cand \ acc.visitedDistance.keys.toFinset).card := by
  unfold distVisit
  split
  · rename_i hc
    rw [AMap.count_eq_zero] at hc
    simp only []
    have hk : (AMap.insert acc.visitedDistance node d).keys.toFinset
        = insert node acc.visitedDistance.keys.toFinset := by
      rw [AMap.keys_insert, hc]
      ext v
      simp only [Option.isSome_none, Bool.false_eq_true, if_false, List.toFinset_append,
        List.toFinset_cons, List.toFinset_nil, Finset.mem_union, List.mem_toFinset,
        Finset.mem_insert, Finset.mem_singleton, insert_emptyc_eq]
      tauto
    have hnot : node ∉ acc.visitedDistance.keys.toFinset := by
      rw [List.mem_toFinset, AMap.mem_keys, hc]
      simp
    have hmem : node ∈ cand \ acc.visitedDistance.keys.toFinset :=
      Finset.mem_sdiff.mpr ⟨hn, hnot⟩
    have hpos : 0 < (cand \ acc.visitedDistance.keys.toFinset).card :=
      Finset.card_pos.mpr ⟨node, hmem⟩
    rw [hk, Finset.sdiff_insert, Finset.card_erase_of_mem hmem]
    split
    · simp only [List.length_append, List.length_singleton]
      omega
    · omega
  · exact ⟨le_refl _, le_refl _⟩

theorem distFold_measure (r : NbDistances) (root d : Int) (cand : Finset Int)
    (as : List Int) (acc : DistState) (has : ∀ a ∈ as, a ∈ cand) :
    acc.Q.length ≤ (as.foldl (distVisit r root d) acc).Q.length ∧
    (as.foldl (distVisit r root d) acc).Q.length
        + (cand \ (as.foldl (distVisit r root d) acc).visitedDistance.keys.toFinset).card
      ≤ acc.Q.length + (cand \ acc.visitedDistance.keys.toFinset).card := by
  induction as generalizing acc with
  | nil => exact ⟨le_refl _, le_refl _⟩
  | cons a as ih =>
    rw [List.foldl_cons]
    obtain ⟨h1, h2⟩ := distVisit_measure r root d cand acc a (has a (List.mem_cons_self _ _))
    obtain ⟨h3, h4⟩ := ih (distVisit r root d acc a)
      (fun x hx => has x (List.mem_cons_of_mem _ hx))
    exact ⟨le_trans h1 h3, le_trans h4 h2⟩

theorem distRound_measure (g : GraphMap) (r : NbDistances) (root : Int) (acc : DistState)
    (c : Int) (rest : List Int) (hQ : acc.Q = c :: rest) :
    (distRound g r root acc).Q.length
        + ((g.flatMap (fun e => e.2)).toFinset
            \ (distRound g r root acc).visitedDistance.keys.toFinset).card + 1
      ≤ acc.Q.length
        + ((g.flatMap (fun e => e.2)).toFinset \ acc.visitedDistance.keys.toFinset).card := by
  unfold distRound
  rw [hQ]
  simp only []
  split
  · obtain ⟨h1, h2⟩ := distFold_measure r root ((acc.visitedDistance.get c).getD 0 + 1)
      (g.flatMap (fun e => e.2)).toFinset (g.adj c) acc
      (fun a ha => List.mem_toFinset.mpr (mem_adj_mem_flatMap g c a ha))
    rw [hQ] at h1 h2
    simp only [List.length_cons, List.length_tail] at h1 h2 ⊢
    omega
  · rw [hQ]
    simp only [List.tail_cons, List.length_cons]
    omega

theorem distLoop_Q_nil (g : GraphMap) (r : NbDistances) (root : Int) (fuel : Nat)
    (acc : DistState)
    (h : acc.Q.length
        + ((g.flatMap (fun e => e.2)).toFinset \ acc.visitedDistance.keys.toFinset).card
      ≤ fuel) :
    (distLoop g r root fuel acc).Q = [] := by
  induction fuel generalizing acc with
  | zero =>
    unfold distLoop
    exact List.length_eq_zero.mp (by omega)
  | succ n ih =>
    unfold distLoop
    cases hQ : acc.Q with
    | nil => simp only []; exact hQ
    | cons c rest =>
      simp only []
      apply ih
      have := distRound_measure g r root acc c rest hQ
      omega

/-- The fuel given to the loop of `getNodesAtDistances` is enough: the loop stops because the
queue is empty. -/
theorem getNodesAtDistances_queue_empty (g : GraphMap) (r : NbDistances) (root : Int) :
    (getNodesAtDistancesState g r root).Q = [] := by
  apply distLoop_Q_nil
  simp only [List.length_singleton]
  have h1 : ((g.flatMap (fun e => e.2)).toFinset
      \ (AMap.keys [(root, (0 : Int))]).toFinset).card
      ≤ (g.flatMap (fun e => e.2)).toFinset.card := Finset.card_le_card Finset.sdiff_subset
  have h2 : (g.flatMap (fun e => e.2)).toFinset.card
      ≤ (g.flatMap (fun e => e.2)).length := List.toFinset_card_le _
  rw [length_flatMap_snd] at h2
  unfold bfsFuel
  omega

/-! ### Walks and shortest distances -/

theorem isDist_zero (g : GraphMap) (a b : Int) : IsDist g a b 0 ↔ a = b := by
  unfold IsDist
  simp [Walk]

theorem isDist_unique (g : GraphMap) (a b : Int) (m n : Nat) (hm : IsDist g a b m)
    (hn : IsDist g a b n) : m = n := by
  rcases Nat.lt_trichotomy m n with h | h | h
  · exact absurd hm.1 (hn.2 m h)
  · exact h
  · exact absurd hn.1 (hm.2 n h)

theorem walk_isDist (g : GraphMap) (a b : Int) (j : Nat) (h : Walk g j a b) :
    ∃ n, n ≤ j ∧ IsDist g a b n := by
  classical
  have hex : ∃ n, Walk g n a b := ⟨j, h⟩
  refine ⟨Nat.find hex, Nat.find_min' hex h, Nat.find_spec hex, ?_⟩
  intro k hk
  exact Nat.find_min hex hk

theorem isDist_succ (g : GraphMap) (a b : Int) (n : Nat) (h : IsDist g a b (n + 1)) :
    ∃ u, IsDist g a u n ∧ b ∈ g.adj u := by
  obtain ⟨c, hc, hb⟩ := h.1
  refine ⟨c, ⟨hc, ?_⟩, hb⟩
  intro k hk hw
  exact h.2 (k + 1) (by omega) ⟨c, hw, hb⟩

/-! ### getNodesAtDistances : one round -/

theorem distFold_spec (r : NbDistances) (root d : Int) (as : List Int) (acc : DistState) :
    ∃ news : List Int, news.Nodup ∧
      (∀ w, w ∈ news ↔ w ∈ as ∧ acc.visitedDistance.get w = none) ∧
      (∀ x, (as.foldl (distVisit r root d) acc).visitedDistance.get x
        = if x ∈ news then some d else acc.visitedDistance.get x) ∧
      (as.foldl (distVisit r root d) acc).Q
        = acc.Q ++ (if d < r.max_nb_distance_ then news else []) ∧
      (as.foldl (distVisit r root d) acc).nb_at_distance
        = acc.nb_at_distance ++
          (if d ∈ r.nb_distances_ then tripleInts (news.map (fun w => (root, d, w))) else []) := by
  induction as generalizing acc with
  | nil =>
    refine ⟨[], List.nodup_nil, ?_, ?_, ?_, ?_⟩
    · intro w; simp
    · intro x; simp
    · simp
    · simp [tripleInts]
  | cons a as ih =>
    rw [List.foldl_cons]
    by_cases ha : acc.visitedDistance.get a = none
    · obtain ⟨news, hnd, hmem, hget, hq, hout⟩ := ih (distVisit r root d acc a)
      have hc : acc.visitedDistance.count a = 0 := (AMap.count_eq_zero _ _).mpr ha
      have hv : (distVisit r root d acc a).visitedDistance
          = acc.visitedDistance.insert a d := by
        simp only [distVisit, if_pos hc]
      have hvq : (distVisit r root d acc a).Q
          = if d < r.max_nb_distance_ then acc.Q ++ [a] else acc.Q := by
        simp only [distVisit, if_pos hc]
      have hvo : (distVisit r root d acc a).nb_at_distance
          = if d ∈ r.nb_distances_ then acc.nb_at_distance ++ [root, d, a]
            else acc.nb_at_distance := by
        simp only [distVisit, if_pos hc, PidSet.pidCount_eq_one]
      have hget1 : ∀ x, (acc.visitedDistance.insert a d).get x
          = if x = a then some d else acc.visitedDistance.get x := by
        intro x
        rw [AMap.get_insert]
        by_cases hx : x = a
        · simp [hx, ha]
        · simp [hx]
      have hanot : a ∉ news := by
        intro h
        have := ((hmem a).mp h).2
        rw [hv, hget1, if_pos rfl] at this
        cases this
      refine ⟨a :: news, List.nodup_cons.mpr ⟨hanot, hnd⟩, ?_, ?_, ?_, ?_⟩
      · intro w
        rw [List.mem_cons, hmem, hv, hget1, List.mem_cons]
        by_cases hw : w = a
        · subst hw; simp [ha]
        · simp [hw]
      · intro x
        rw [hget, hv, hget1]
        by_cases hx : x = a
        · simp [hx]
        · simp [hx]
      · rw [hq, hvq]
        by_cases hd : d < r.max_nb_distance_ <;> simp [hd]
      · rw [hout, hvo]
        by_cases hd : d ∈ r.nb_distances_ <;> simp [hd, tripleInts]
    · have hc : ¬ acc.visitedDistance.count a = 0 := by
        rw [AMap.count_eq_zero]; exact ha
      have hv : distVisit r root d acc a = acc := by
        simp only [distVisit, if_neg hc]
      rw [hv]
      obtain ⟨news, hnd, hmem, hget, hq, hout⟩ := ih acc
      refine ⟨news, hnd, ?_, hget, hq, hout⟩
      intro w
      rw [hmem, List.mem_cons]
      constructor
      · rintro ⟨h1, h2⟩; exact ⟨Or.inr h1, h2⟩
      · rintro ⟨h1 | h1, h2⟩
        · subst h1; exact absurd h2 ha
        · exact ⟨h1, h2⟩

theorem distRound_eq (g : GraphMap) (r : NbDistances) (root : Int) (st : DistState)
    (c : Int) (rest : List Int) (hQ : st.Q = c :: rest) :
    distRound g r root st =
      { (g.adj c).foldl (distVisit r root (level st.visitedDistance c + 1)) st with
        Q := ((g.adj c).foldl (distVisit r root (level st.visitedDistance c + 1)) st).Q.tail } := by
  unfold distRound
  rw [hQ]
  simp only []
  split
  · rfl
  · rename_i hc
    have hnone : g.get c = none := by
      rw [AMap.count_eq_one] at hc
      cases hg : g.get c with
      | none => rfl
      | some s => rw [hg] at hc; exact absurd rfl hc
    rw [GraphMap.adj_of_get_none g c hnone]
    rfl

theorem tripleInts_append (xs ys : List (Int × Int × Int)) :
    tripleInts (xs ++ ys) = tripleInts xs ++ tripleInts ys := by
  simp [tripleInts, List.flatMap_append]

theorem level_of_get (v : AMap Int) (u k : Int) (h : v.get u = some k) : level v u = k := by
  simp [level, h]

theorem distRound_inv (g : GraphMap) (r : NbDistances) (root : Int) (st : DistState)
    (ts : List (Int × Int × Int)) (c : Int) (rest : List Int) (hQ : st.Q = c :: rest)
    (h : DistInv g r root st ts) :
    ∃ ts', DistInv g r root (distRound g r root st) ts' := by
  -- the current node
  obtain ⟨m, hcm, hcexp⟩ := h.queue_vis c (by rw [hQ]; exact List.mem_cons_self _ _)
  obtain ⟨nc, hmn, hcdist⟩ := h.dist_ok c m hcm
  have hlc : level st.visitedDistance c = m := level_of_get _ _ _ hcm
  rw [distRound_eq g r root st c rest hQ, hlc]
  obtain ⟨news, hnd, hnews, hget, hq, hout⟩ := distFold_spec r root (m + 1) (g.adj c) st
  set fold := (g.adj c).foldl (distVisit r root (m + 1)) st with hfold
  -- facts on the new map
  have F1 : ∀ x k, st.visitedDistance.get x = some k → fold.visitedDistance.get x = some k := by
    intro x k hx
    rw [hget, if_neg]
    · exact hx
    · intro hn
      rw [((hnews x).mp hn).2] at hx
      cases hx
  have F1' : ∀ x, (st.visitedDistance.get x).isSome → (fold.visitedDistance.get x).isSome := by
    intro x hx
    obtain ⟨k, hk⟩ := Option.isSome_iff_exists.mp hx
    rw [F1 x k hk]; rfl
  have F2 : ∀ w, w ∈ news → fold.visitedDistance.get w = some (m + 1) := by
    intro w hw
    rw [hget, if_pos hw]
  have F3 : ∀ x, x ∉ news → fold.visitedDistance.get x = st.visitedDistance.get x := by
    intro x hx
    rw [hget, if_neg hx]
  have hrootnot : root ∉ news := by
    intro hn
    have := ((hnews root).mp hn).2
    rw [h.root_vis] at this
    cases this
  have hqt : fold.Q.tail = rest ++ (if m + 1 < r.max_nb_distance_ then news else []) := by
    rw [hq, hQ]; rfl
  have hm0 : (0 : Int) ≤ m := by rw [hmn]; exact Int.natCast_nonneg _
  -- levels of the queue
  have hrestvis : ∀ u ∈ rest, ∃ k, st.visitedDistance.get u = some k ∧
      (u = root ∨ k < r.max_nb_distance_) ∧ m ≤ k ∧ k ≤ m + 1 := by
    intro u hu
    obtain ⟨k, hk, hexp⟩ := h.queue_vis u (by rw [hQ]; exact List.mem_cons_of_mem _ hu)
    have hs := h.queue_sorted
    rw [hQ, List.pairwise_cons] at hs
    have h1 := hs.1 u hu
    have h2 := h.queue_near c rest hQ u hu
    rw [hlc, level_of_get _ _ _ hk] at h1 h2
    exact ⟨k, hk, hexp, h1, h2⟩
  have hlev' : ∀ u ∈ rest ++ (if m + 1 < r.max_nb_distance_ then news else []),
      ∃ k, fold.visitedDistance.get u = some k ∧ (u = root ∨ k < r.max_nb_distance_) ∧
        m ≤ k ∧ k ≤ m + 1 := by
    intro u hu
    rcases List.mem_append.mp hu with hu | hu
    · obtain ⟨k, hk, hexp, h1, h2⟩ := hrestvis u hu
      exact ⟨k, F1 u k hk, hexp, h1, h2⟩
    · by_cases hd : m + 1 < r.max_nb_distance_
      · rw [if_pos hd] at hu
        exact ⟨m + 1, F2 u hu, Or.inr hd, by omega, le_refl _⟩
      · rw [if_neg hd] at hu
        cases hu
  -- the processed nodes
  have hproc : ∀ u k, fold.visitedDistance.get u = some k →
      (u = root ∨ k < r.max_nb_distance_) →
      u ∉ rest ++ (if m + 1 < r.max_nb_distance_ then news else []) →
      ∀ w ∈ g.adj u, (fold.visitedDistance.get w).isSome := by
    intro u k hk hexp hnq w hw
    by_cases hun : u ∈ news
    · exfalso
      rw [F2 u hun] at hk
      injection hk with hk
      rcases hexp with he | he
      · exact hrootnot (he ▸ hun)
      · rw [← hk] at he
        rw [if_pos he] at hnq
        exact hnq (List.mem_append_right _ hun)
    · rw [F3 u hun] at hk
      by_cases huc : u = c
      · subst huc
        cases hw' : st.visitedDistance.get w with
        | none =>
          have : w ∈ news := (hnews w).mpr ⟨hw, hw'⟩
          rw [F2 w this]; rfl
        | some kw => rw [F1 w kw hw']; rfl
      · have hnq' : u ∉ st.Q := by
          rw [hQ, List.mem_cons]
          rintro (h1 | h1)
          · exact huc h1
          · exact hnq (List.mem_append_left _ h1)
        exact F1' w (h.processed u k hk hexp hnq' w hw)
  have hps : (rest ++ (if m + 1 < r.max_nb_distance_ then news else [])).Pairwise
      (fun a b => level fold.visitedDistance a ≤ level fold.visitedDistance b) := by
    rw [List.pairwise_append]
    refine ⟨?_, ?_, ?_⟩
    · have hs := h.queue_sorted
      rw [hQ, List.pairwise_cons] at hs
      refine hs.2.imp_of_mem ?_
      intro a b ha hb hab
      obtain ⟨ka, hka, _⟩ := hrestvis a ha
      obtain ⟨kb, hkb, _⟩ := hrestvis b hb
      rw [level_of_get _ _ _ hka, level_of_get _ _ _ hkb] at hab
      rw [level_of_get _ _ _ (F1 a ka hka), level_of_get _ _ _ (F1 b kb hkb)]
      exact hab
    · by_cases hd : m + 1 < r.max_nb_distance_
      · rw [if_pos hd]
        apply List.pairwise_of_forall_mem_list
        intro a ha b hb
        rw [level_of_get _ _ _ (F2 a ha), level_of_get _ _ _ (F2 b hb)]
      · rw [if_neg hd]; exact List.Pairwise.nil
    · intro a ha b hb
      obtain ⟨ka, hka, _, _, hka2⟩ := hrestvis a ha
      by_cases hd : m + 1 < r.max_nb_distance_
      · rw [if_pos hd] at hb
        rw [level_of_get _ _ _ (F1 a ka hka), level_of_get _ _ _ (F2 b hb)]
        exact hka2
      · rw [if_neg hd] at hb; cases hb
  refine ⟨ts ++ (if m + 1 ∈ r.nb_distances_ then news.map (fun w => (root, m + 1, w)) else []),
    ?_⟩
  constructor
  · -- root_vis
    exact F1 root 0 h.root_vis
  · -- dist_ok
    intro u k hk
    by_cases hun : u ∈ news
    · rw [F2 u hun] at hk
      injection hk with hk
      refine ⟨nc + 1, by rw [← hk, hmn]; push_cast; rfl, ⟨c, hcdist.1, ((hnews u).mp hun).1⟩, ?_⟩
      intro j hj hw
      obtain ⟨n, hnj, hdn⟩ := walk_isDist g root u j hw
      have hvis := h.complete c rest hQ u n hdn (by rw [hlc, hmn]; exact_mod_cast (by omega))
      rw [((hnews u).mp hun).2] at hvis
      cases hvis
    · rw [F3 u hun] at hk
      exact h.dist_ok u k hk
  · -- queue_vis
    intro u hu
    simp only [] at hu
    rw [hqt] at hu
    obtain ⟨k, hk, hexp, _, _⟩ := hlev' u hu
    exact ⟨k, hk, hexp⟩
  · -- queue_sorted
    simp only []
    rw [hqt]
    exact hps
  · -- queue_near
    intro c' rest' hQ' u hu
    simp only [] at hQ'
    rw [hqt] at hQ'
    obtain ⟨kc, hkc, _, hkc1, _⟩ := hlev' c' (by rw [hQ']; exact List.mem_cons_self _ _)
    obtain ⟨ku, hku, _, _, hku2⟩ := hlev' u (by rw [hQ']; exact List.mem_cons_of_mem _ hu)
    rw [level_of_get _ _ _ hkc, level_of_get _ _ _ hku]
    omega
  · -- processed
    intro u k hk hexp hnq
    simp only [] at hnq
    rw [hqt] at hnq
    exact hproc u k hk hexp hnq
  · -- complete
    intro c' rest' hQ' w n hdn hle
    simp only [] at hQ'
    rw [hqt] at hQ'
    obtain ⟨kc, hkc, hcexp', hkc1, hkc2⟩ := hlev' c' (by rw [hQ']; exact List.mem_cons_self _ _)
    rw [level_of_get _ _ _ hkc] at hle
    by_cases hnm : (n : Int) ≤ m
    · exact F1' w (h.complete c rest hQ w n hdn (by rw [hlc]; exact hnm))
    · have hkc' : kc = m + 1 := by omega
      have hn : n = nc + 1 := by
        have : (n : Int) = m + 1 := by omega
        rw [hmn] at this
        exact_mod_cast this
      subst hn
      obtain ⟨u, hdu, hwu⟩ := isDist_succ g root w nc hdn
      have huv := h.complete c rest hQ u nc hdu (by rw [hlc, hmn])
      obtain ⟨ku, hku⟩ := Option.isSome_iff_exists.mp huv
      obtain ⟨nu, hkun, hdu'⟩ := h.dist_ok u ku hku
      have hnu : nu = nc := isDist_unique g root u nu nc hdu' hdu
      have hkum : ku = m := by rw [hkun, hnu, hmn]
      subst hkum
      have hmax : ku < r.max_nb_distance_ := by
        rcases hcexp' with he | he
        · exfalso
          rw [he, F1 root 0 h.root_vis] at hkc
          injection hkc with hkc
          omega
        · omega
      have hunq : u ∉ rest ++ (if ku + 1 < r.max_nb_distance_ then news else []) := by
        intro hu
        rw [hQ'] at hu
        have hsorted : ∀ q ∈ c' :: rest', kc ≤ level fold.visitedDistance q := by
          intro q hq
          rcases List.mem_cons.mp hq with hq | hq
          · rw [hq, level_of_get _ _ _ hkc]
          · have hp := hps
            rw [hQ', List.pairwise_cons] at hp
            have := hp.1 q hq
            rw [level_of_get _ _ _ hkc] at this
            exact this
        have := hsorted u hu
        rw [level_of_get _ _ _ (F1 u ku hku)] at this
        omega
      exact hproc u ku (F1 u ku hku) (Or.inr hmax) hunq w hwu
  · -- out_eq
    simp only []
    rw [hout, h.out_eq, tripleInts_append]
    by_cases hd : m + 1 ∈ r.nb_distances_ <;> simp [hd, tripleInts]
  · -- out_nodup
    rw [List.map_append, List.nodup_append]
    refine ⟨h.out_nodup, ?_, ?_⟩
    · by_cases hd : m + 1 ∈ r.nb_distances_
      · rw [if_pos hd, List.map_map]
        have : ((fun t : Int × Int × Int => t.2.2) ∘ fun w => (root, m + 1, w)) = id := rfl
        rw [this, List.map_id]
        exact hnd
      · rw [if_neg hd]; exact List.nodup_nil
    · intro x hx1 hx2
      obtain ⟨t, ht, rfl⟩ := List.mem_map.mp hx1
      have hv := ((h.out_mem t).mp ht).2.2.1
      by_cases hd : m + 1 ∈ r.nb_distances_
      · rw [if_pos hd, List.map_map] at hx2
        obtain ⟨w, hw, hwe⟩ := List.mem_map.mp hx2
        simp only [Function.comp] at hwe
        rw [← hwe, ((hnews w).mp hw).2] at hv
        cases hv
      · rw [if_neg hd] at hx2; cases hx2
  · -- out_mem
    intro t
    rw [List.mem_append]
    constructor
    · rintro (ht | ht)
      · obtain ⟨h1, h2, h3, h4⟩ := (h.out_mem t).mp ht
        exact ⟨h1, h2, F1 _ _ h3, h4⟩
      · by_cases hd : m + 1 ∈ r.nb_distances_
        · rw [if_pos hd] at ht
          obtain ⟨w, hw, rfl⟩ := List.mem_map.mp ht
          exact ⟨rfl, fun he => hrootnot (he ▸ hw), F2 w hw, hd⟩
        · rw [if_neg hd] at ht; cases ht
    · rintro ⟨h1, h2, h3, h4⟩
      by_cases hn : t.2.2 ∈ news
      · right
        rw [F2 _ hn] at h3
        injection h3 with h3
        rw [← h3] at h4
        rw [if_pos h4]
        refine List.mem_map.mpr ⟨t.2.2, hn, ?_⟩
        obtain ⟨a, d, v⟩ := t
        simp only at h1 h3 ⊢
        rw [h1, h3]
      · left
        rw [F3 _ hn] at h3
        exact (h.out_mem t).mpr ⟨h1, h2, h3, h4⟩

theorem distLoop_inv (g : GraphMap) (r : NbDistances) (root : Int) (fuel : Nat)
    (st : DistState) (ts : List (Int × Int × Int)) (h : DistInv g r root st ts) :
    ∃ ts', DistInv g r root (distLoop g r root fuel st) ts' := by
  induction fuel generalizing st ts with
  | zero => exact ⟨ts, h⟩
  | succ n ih =>
    unfold distLoop
    cases hQ : st.Q with
    | nil => exact ⟨ts, h⟩
    | cons c rest =>
      simp only []
      obtain ⟨ts1, h1⟩ := distRound_inv g r root st ts c rest hQ h
      exact ih _ ts1 h1

theorem distInv_init (g : GraphMap) (r : NbDistances) (root : Int) :
    DistInv g r root { visitedDistance := [(root, 0)], Q := [root], nb_at_distance := [] } [] := by
  have hget : ∀ u k, AMap.get [(root, (0 : Int))] u = some k → u = root ∧ k = 0 := by
    intro u k hk
    rw [AMap.get_cons] at hk
    by_cases hu : root = u
    · rw [if_pos hu] at hk
      injection hk with hk
      exact ⟨hu.symm, hk.symm⟩
    · rw [if_neg hu] at hk
      cases hk
  have hroot : AMap.get [(root, (0 : Int))] root = some 0 := by
    rw [AMap.get_cons, if_pos rfl]
  constructor
  · exact hroot
  · intro u k hk
    obtain ⟨rfl, rfl⟩ := hget u k hk
    exact ⟨0, rfl, (isDist_zero g u u).mpr rfl⟩
  · intro u hu
    simp only [List.mem_singleton] at hu
    subst hu
    exact ⟨0, hroot, Or.inl rfl⟩
  · exact List.pairwise_singleton _ _
  · intro c rest hQ u hu
    simp only [List.cons.injEq] at hQ
    rw [← hQ.2] at hu
    cases hu
  · intro u k hk _ hnq
    obtain ⟨rfl, _⟩ := hget u k hk
    exact absurd (List.mem_singleton.mpr rfl) hnq
  · intro c rest hQ w n hd hle
    simp only [List.cons.injEq] at hQ
    rw [← hQ.1, level_of_get _ _ _ hroot] at hle
    have hn : n = 0 := by omega
    subst hn
    rw [← (isDist_zero g root w).mp hd, hroot]
    rfl
  · rfl
  · exact List.nodup_nil
  · intro t
    constructor
    · intro h; cases h
    · rintro ⟨_, h2, h3, _⟩
      exact absurd (hget _ _ h3).1 h2

/-- When the queue is empty, every node within the largest registered distance is visited. -/
theorem distInv_complete (g : GraphMap) (r : NbDistances) (root : Int) (st : DistState)
    (ts : List (Int × Int × Int)) (h : DistInv g r root st ts) (hQ : st.Q = [])
    (n : Nat) (w : Int) (hd : IsDist g root w n) (hn : (n : Int) ≤ r.max_nb_distance_) :
    st.visitedDistance.get w = some (n : Int) := by
  induction n generalizing w with
  | zero =>
    rw [← (isDist_zero g root w).mp hd]
    exact h.root_vis
  | succ n ih =>
    obtain ⟨u, hdu, hwu⟩ := isDist_succ g root w n hd
    have hu := ih u hdu (by push_cast at hn; omega)
    have hvis := h.processed u n hu (Or.inr (by push_cast at hn; omega))
      (by rw [hQ]; exact List.not_mem_nil _) w hwu
    obtain ⟨k, hk⟩ := Option.isSome_iff_exists.mp hvis
    obtain ⟨nk, hkn, hdk⟩ := h.dist_ok w k hk
    rw [hk, hkn, isDist_unique g root w nk (n + 1) hdk hd]

theorem triplesOf_tripleInts (ts : List (Int × Int × Int)) : triplesOf (tripleInts ts) = ts := by
  induction ts with
  | nil => rfl
  | cons t ts ih =>
    obtain ⟨a, d, v⟩ := t
    have : tripleInts ((a, d, v) :: ts) = a :: d :: v :: tripleInts ts := rfl
    rw [this, triplesOf, ih]

theorem length_tripleInts (ts : List (Int × Int × Int)) :
    (tripleInts ts).length = 3 * ts.length := by
  induction ts with
  | nil => rfl
  | cons t ts ih =>
    simp only [tripleInts, List.flatMap_cons, List.length_append, List.length_cons,
      List.length_nil] at ih ⊢
    omega

theorem registerLevels_spec (levels : List Int) (r : NbDistances)
    (hr : ∀ d ∈ r.nb_distances_, d ≤ r.max_nb_distance_) :
    (∀ d ∈ (levels.foldl registerNeighbourPropertyChange r).nb_distances_,
      d ≤ (levels.foldl registerNeighbourPropertyChange r).max_nb_distance_) ∧
    (∀ d, d ∈ (levels.foldl registerNeighbourPropertyChange r).nb_distances_ ↔
      d ∈ r.nb_distances_ ∨ d ∈ levels) := by
  induction levels generalizing r with
  | nil => exact ⟨hr, fun d => by simp⟩
  | cons x xs ih =>
    rw [List.foldl_cons]
    have hr1 : ∀ d ∈ (registerNeighbourPropertyChange r x).nb_distances_,
        d ≤ (registerNeighbourPropertyChange r x).max_nb_distance_ := by
      intro d hd
      simp only [registerNeighbourPropertyChange, PidSet.mem_insert] at hd ⊢
      rcases hd with rfl | hd
      · exact le_max_right _ _
      · exact le_trans (hr d hd) (le_max_left _ _)
    obtain ⟨h1, h2⟩ := ih _ hr1
    refine ⟨h1, ?_⟩
    intro d
    rw [h2]
    simp only [registerNeighbourPropertyChange, PidSet.mem_insert, List.mem_cons]
    tauto

/-- C20: on a manager on which the levels `levels` have been registered,
`getNodesAtDistances(root)` returns a vector of triples; the triples are exactly the
`(root, d, v)` with `v` other than the root, `d` a registered level and `d` the shortest-path
distance from the root to `v` in `graph_`; every such `v` is in one triple only; and the
distance of a returned triple lies between 1 and `max_nb_distance_`. -/
theorem C20_getNodesAtDistances_shortest_paths (g : GraphMap) (levels : List Int) (root : Int) :
    (getNodesAtDistances g (registerLevels levels) root).length % 3 = 0 ∧
    tripleInts (triplesOf (getNodesAtDistances g (registerLevels levels) root))
      = getNodesAtDistances g (registerLevels levels) root ∧
    ((triplesOf (getNodesAtDistances g (registerLevels levels) root)).map
      (fun t => t.2.2)).Nodup ∧
    (∀ a d v, (a, d, v) ∈ triplesOf (getNodesAtDistances g (registerLevels levels) root) ↔
      a = root ∧ v ≠ root ∧ d ∈ (registerLevels levels).nb_distances_ ∧
        ∃ n : Nat, d = (n : Int) ∧ IsDist g root v n) ∧
    (∀ d, d ∈ (registerLevels levels).nb_distances_ ↔ d ∈ levels) ∧
    (∀ a d v, (a, d, v) ∈ triplesOf (getNodesAtDistances g (registerLevels levels) root) →
      1 ≤ d ∧ d ≤ (registerLevels levels).max_nb_distance_) := by
  obtain ⟨hmax, hlev⟩ := registerLevels_spec levels NbDistances.new
    (by intro d hd; cases hd)
  obtain ⟨ts, hinv⟩ := distLoop_inv g (registerLevels levels) root (bfsFuel g) _ []
    (distInv_init g (registerLevels levels) root)
  have hQ := getNodesAtDistances_queue_empty g (registerLevels levels) root
  have hout : getNodesAtDistances g (registerLevels levels) root = tripleInts ts := hinv.out_eq
  have hmem : ∀ a d v, (a, d, v) ∈ ts ↔
      a = root ∧ v ≠ root ∧ d ∈ (registerLevels levels).nb_distances_ ∧
        ∃ n : Nat, d = (n : Int) ∧ IsDist g root v n := by
    intro a d v
    rw [hinv.out_mem]
    constructor
    · rintro ⟨h1, h2, h3, h4⟩
      exact ⟨h1, h2, h4, hinv.dist_ok v d h3⟩
    · rintro ⟨h1, h2, h3, n, hn, hd⟩
      refine ⟨h1, h2, ?_, h3⟩
      simp only []
      rw [hn]
      exact distInv_complete g _ root _ ts hinv hQ n v hd (by rw [← hn]; exact hmax d h3)
  rw [hout, triplesOf_tripleInts]
  refine ⟨?_, rfl, hinv.out_nodup, hmem, ?_, ?_⟩
  · rw [length_tripleInts]; omega
  · intro d
    rw [show registerLevels levels = levels.foldl registerNeighbourPropertyChange NbDistances.new
      from rfl, hlev]
    simp [NbDistances.new]
  · intro a d v ht
    obtain ⟨_, h2, h3, n, hn, hd⟩ := (hmem a d v).mp ht
    refine ⟨?_, hmax d h3⟩
    have : n ≠ 0 := by
      intro h0
      subst h0
      exact h2 ((isDist_zero g root v).mp hd).symm
    omega

/-! ### The block packed by exchangeData -/

/-- What `getNodesAtDistances` returns is a vector of triples `(root, d, v)` with `d` the
distance from the root to `v`, whatever is registered. -/
theorem getNodesAtDistances_triples (g : GraphMap) (r : NbDistances) (root : Int) :
    ∃ ts, getNodesAtDistances g r root = tripleInts ts ∧
      ∀ t ∈ ts, t.1 = root ∧ ∃ n : Nat, t.2.1 = (n : Int) ∧ IsDist g root t.2.2 n := by
  obtain ⟨ts, hinv⟩ := distLoop_inv g r root (bfsFuel g) _ [] (distInv_init g r root)
  refine ⟨ts, hinv.out_eq, ?_⟩
  intro t ht
  obtain ⟨h1, _, h3, _⟩ := (hinv.out_mem t).mp ht
  exact ⟨h1, hinv.dist_ok _ _ h3⟩

theorem invokeAll_spec (r : NbDistances) (roots : List Particle) (s : TopologyManager) :
    (s.invokeAll r roots).nb_distance_particles_
      = s.nb_distance_particles_ ++ tripleInts (queuedTriples s.graph_ r roots) ∧
    (s.invokeAll r roots).newEdges_ = s.newEdges_ ∧
    (s.invokeAll r roots).removedEdges_ = s.removedEdges_ ∧
    (s.invokeAll r roots).new_local_particle_properties_ = s.new_local_particle_properties_ := by
  induction roots generalizing s with
  | nil => simp [TopologyManager.invokeAll, queuedTriples, tripleInts]
  | cons p ps ih =>
    obtain ⟨h1, h2, h3, h4⟩ := ih (s.invokeNeighbourPropertyChange r p)
    obtain ⟨ts, hts, _⟩ := getNodesAtDistances_triples s.graph_ r p.id
    have hq : queuedTriples s.graph_ r (p :: ps)
        = ts ++ queuedTriples s.graph_ r ps := by
      simp only [queuedTriples, List.flatMap_cons, hts, triplesOf_tripleInts]
    refine ⟨?_, h2, h3, h4⟩
    show ((s.invokeNeighbourPropertyChange r p).invokeAll r ps).nb_distance_particles_ = _
    rw [h1, hq, tripleInts_append]
    simp only [TopologyManager.invokeNeighbourPropertyChange, hts, List.append_assoc]

theorem queuedTriples_dist (g : GraphMap) (r : NbDistances) (roots : List Particle)
    (t : Int × Int × Int) (ht : t ∈ queuedTriples g r roots) :
    ∃ n : Nat, t.2.1 = (n : Int) ∧ IsDist g t.1 t.2.2 n := by
  simp only [queuedTriples, List.mem_flatMap] at ht
  obtain ⟨p, _, hp⟩ := ht
  obtain ⟨ts, hts, hall⟩ := getNodesAtDistances_triples g r p.id
  rw [hts, triplesOf_tripleInts] at hp
  obtain ⟨h1, n, hn, hd⟩ := hall t hp
  exact ⟨n, hn, h1 ▸ hd⟩

/-- The loop over the distance updates of a block reads the triples to their end and records
each of them, when no two of them (and no entry already merged) disagree on a distance. -/
theorem readDistances_tripleInts (ts : List (Int × Int × Int)) (rest : List Int)
    (m : MapPairsDist)
    (hag : ∀ a v d1 d2, ((a, d1, v) ∈ ts ∨ m.get (a, v) = some d1) →
      ((a, d2, v) ∈ ts ∨ m.get (a, v) = some d2) → d1 = d2) :
    ∃ m', readDistances ts.length (tripleInts ts ++ rest) m = .ok (m', rest) ∧
      ∀ a v d, MapPairsDist.get m' (a, v) = some d ↔
        (m.get (a, v) = some d ∨ (a, d, v) ∈ ts) := by
  induction ts generalizing m with
  | nil => exact ⟨m, rfl, fun a v d => by simp⟩
  | cons t ts ih =>
    obtain ⟨a0, d0, v0⟩ := t
    have hcons : tripleInts ((a0, d0, v0) :: ts) ++ rest
        = a0 :: d0 :: v0 :: (tripleInts ts ++ rest) := rfl
    rw [hcons, List.length_cons, readDistances]
    cases hg : MapPairsDist.get m (a0, v0) with
    | none =>
      simp only []
      obtain ⟨m', hm', hiff⟩ := ih (m.insert (a0, v0) d0) (by
        intro a v d1 d2 h1 h2
        apply hag a v d1 d2
        · rcases h1 with h1 | h1
          · exact Or.inl (List.mem_cons_of_mem _ h1)
          · rw [MapPairsDist.dist_get_insert _ _ _ _ hg] at h1
            by_cases hk : (a0, v0) = (a, v)
            · rw [if_pos hk] at h1
              injection h1 with h1
              injection hk with hk1 hk2
              subst hk1; subst hk2; subst h1
              exact Or.inl (List.mem_cons_self _ _)
            · rw [if_neg hk] at h1
              exact Or.inr h1
        · rcases h2 with h2 | h2
          · exact Or.inl (List.mem_cons_of_mem _ h2)
          · rw [MapPairsDist.dist_get_insert _ _ _ _ hg] at h2
            by_cases hk : (a0, v0) = (a, v)
            · rw [if_pos hk] at h2
              injection h2 with h2
              injection hk with hk1 hk2
              subst hk1; subst hk2; subst h2
              exact Or.inl (List.mem_cons_self _ _)
            · rw [if_neg hk] at h2
              exact Or.inr h2)
      refine ⟨m', hm', ?_⟩
      intro a v d
      rw [hiff, MapPairsDist.dist_get_insert _ _ _ _ hg, List.mem_cons]
      by_cases hk : (a0, v0) = (a, v)
      · rw [if_pos hk]
        injection hk with hk1 hk2
        subst hk1; subst hk2
        rw [hg]
        constructor
        · rintro (h | h)
          · injection h with h
            subst h
            exact Or.inr (Or.inl rfl)
          · exact Or.inr (Or.inr h)
        · rintro (h | h | h)
          · cases h
          · injection h with _ h
            injection h with h _
            subst h
            exact Or.inl rfl
          · exact Or.inr h
      · rw [if_neg hk]
        constructor
        · rintro (h | h)
          · exact Or.inl h
          · exact Or.inr (Or.inr h)
        · rintro (h | h | h)
          · exact Or.inl h
          · exfalso
            injection h with h1 h2
            injection h2 with _ h3
            exact hk (by rw [h1, h3])
          · exact Or.inr h
    | some dm =>
      have hd : dm = d0 := hag a0 v0 dm d0 (Or.inr hg) (Or.inl (List.mem_cons_self _ _))
      subst hd
      simp only [ne_eq, not_true_eq_false, if_false]
      obtain ⟨m', hm', hiff⟩ := ih m (by
        intro a v d1 d2 h1 h2
        apply hag a v d1 d2
        · rcases h1 with h1 | h1
          · exact Or.inl (List.mem_cons_of_mem _ h1)
          · exact Or.inr h1
        · rcases h2 with h2 | h2
          · exact Or.inl (List.mem_cons_of_mem _ h2)
          · exact Or.inr h2)
      refine ⟨m', hm', ?_⟩
      intro a v d
      rw [hiff, List.mem_cons]
      constructor
      · rintro (h | h)
        · exact Or.inl h
        · exact Or.inr (Or.inr h)
      · rintro (h | h | h)
        · exact Or.inl h
        · injection h with h1 h2
          injection h2 with h2 h3
          subst h1; subst h2; subst h3
          exact Or.inl hg
        · exact Or.inr h

theorem mem_foldl_pid_insert (ps : List Int) (s : PidSet) (x : Int) :
    x ∈ ps.foldl PidSet.insert s ↔ x ∈ s ∨ x ∈ ps := PidSet.mem_insertAll ps s x

/-- C16: in a pending state with the distance updates of `invokeNeighbourPropertyChange` for
the particles `roots` queued (`nd` triples), `ne` new edges, `nr` removed edges and `np`
property-change ids, the block packed by `exchangeData` is `[nd, ne, nr, np]`, the `nd` triples
`(root, distance, particle)`, the `ne` pairs, the `nr` pairs and the `np` ids, of length
`4 + 3 nd + 2 ne + 2 nr + np`; the decoding loop reads such a block to its end, leaves what
follows it unread, and recovers the same triples, the same edges (each with the smaller id
first) and the same ids. -/
theorem C16_packed_block_roundtrip (s0 : TopologyManager) (r : NbDistances)
    (roots : List Particle) (rest : List Int) (h0 : s0.nb_distance_particles_ = []) :
    (s0.invokeAll r roots).packBlock =
      [((queuedTriples s0.graph_ r roots).length : Int),
        ((s0.invokeAll r roots).newEdges_.length : Int),
        ((s0.invokeAll r roots).removedEdges_.length : Int),
        ((s0.invokeAll r roots).new_local_particle_properties_.length : Int)]
      ++ tripleInts (queuedTriples s0.graph_ r roots)
      ++ (s0.invokeAll r roots).newEdges_.flatMap (fun e => [e.1, e.2])
      ++ (s0.invokeAll r roots).removedEdges_.flatMap (fun e => [e.1, e.2])
      ++ (s0.invokeAll r roots).new_local_particle_properties_ ∧
    (s0.invokeAll r roots).packBlock.length =
      4 + 3 * (queuedTriples s0.graph_ r roots).length
        + 2 * (s0.invokeAll r roots).newEdges_.length
        + 2 * (s0.invokeAll r roots).removedEdges_.length
        + (s0.invokeAll r roots).new_local_particle_properties_.length ∧
    ∃ m, mergeBlock ((s0.invokeAll r roots).packBlock ++ rest) Merged.empty = .ok (m, rest) ∧
      (∀ a d v, m.global_nb_distance_particles.get (a, v) = some d ↔
        (a, d, v) ∈ queuedTriples s0.graph_ r roots) ∧
      (∀ x y, (x, y) ∈ m.global_new_edge ↔
        x ≤ y ∧ ((x, y) ∈ (s0.invokeAll r roots).newEdges_
          ∨ (y, x) ∈ (s0.invokeAll r roots).newEdges_)) ∧
      (∀ x y, (x, y) ∈ m.global_remove_edge ↔
        x ≤ y ∧ ((x, y) ∈ (s0.invokeAll r roots).removedEdges_
          ∨ (y, x) ∈ (s0.invokeAll r roots).removedEdges_)) ∧
      (∀ x, x ∈ m.global_new_local_particle_properties ↔
        x ∈ (s0.invokeAll r roots).new_local_particle_properties_) := by
  obtain ⟨h1, _, _, _⟩ := invokeAll_spec r roots s0
  rw [h0, List.nil_append] at h1
  have hlen3 : (s0.invokeAll r roots).nb_distance_particles_.length / 3
      = (queuedTriples s0.graph_ r roots).length := by
    rw [h1, length_tripleInts]
    omega
  have hpack : (s0.invokeAll r roots).packBlock =
      [((queuedTriples s0.graph_ r roots).length : Int),
        ((s0.invokeAll r roots).newEdges_.length : Int),
        ((s0.invokeAll r roots).removedEdges_.length : Int),
        ((s0.invokeAll r roots).new_local_particle_properties_.length : Int)]
      ++ tripleInts (queuedTriples s0.graph_ r roots)
      ++ (s0.invokeAll r roots).newEdges_.flatMap (fun e => [e.1, e.2])
      ++ (s0.invokeAll r roots).removedEdges_.flatMap (fun e => [e.1, e.2])
      ++ (s0.invokeAll r roots).new_local_particle_properties_ := by
    rw [h1] at hlen3
    simp only [TopologyManager.packBlock, h1, hlen3]
  have hflat : ∀ es : List (Int × Int), (es.flatMap (fun e => [e.1, e.2])).length
      = 2 * es.length := by
    intro es
    induction es with
    | nil => rfl
    | cons e es ih => simp only [List.flatMap_cons, List.length_append, List.length_cons,
        List.length_nil, ih]; omega
  have hag : ∀ a v d1 d2,
      ((a, d1, v) ∈ queuedTriples s0.graph_ r roots
        ∨ MapPairsDist.get Merged.empty.global_nb_distance_particles (a, v) = some d1) →
      ((a, d2, v) ∈ queuedTriples s0.graph_ r roots
        ∨ MapPairsDist.get Merged.empty.global_nb_distance_particles (a, v) = some d2) →
      d1 = d2 := by
    intro a v d1 d2 h1 h2
    have e1 : (a, d1, v) ∈ queuedTriples s0.graph_ r roots := by
      rcases h1 with h | h
      · exact h
      · simp [Merged.empty, MapPairsDist.get] at h
    have e2 : (a, d2, v) ∈ queuedTriples s0.graph_ r roots := by
      rcases h2 with h | h
      · exact h
      · simp [Merged.empty, MapPairsDist.get] at h
    obtain ⟨n1, hn1, hd1⟩ := queuedTriples_dist _ _ _ _ e1
    obtain ⟨n2, hn2, hd2⟩ := queuedTriples_dist _ _ _ _ e2
    simp only at hn1 hn2 hd1 hd2
    rw [hn1, hn2, isDist_unique _ _ _ _ _ hd1 hd2]
  obtain ⟨dist, hdist, hiff⟩ := readDistances_tripleInts (queuedTriples s0.graph_ r roots)
    ((s0.invokeAll r roots).newEdges_.flatMap (fun e => [e.1, e.2]) ++
      ((s0.invokeAll r roots).removedEdges_.flatMap (fun e => [e.1, e.2]) ++
        ((s0.invokeAll r roots).new_local_particle_properties_ ++ rest)))
    Merged.empty.global_nb_distance_particles hag
  refine ⟨hpack, ?_, ?_⟩
  · rw [hpack]
    simp only [List.length_append, List.length_cons, List.length_nil, length_tripleInts, hflat]
  · refine ⟨{ global_nb_distance_particles := dist
              global_new_edge := (s0.invokeAll r roots).newEdges_.foldl
                (fun s e => SetPairs.insert s (if e.1 > e.2 then (e.2, e.1) else e))
                Merged.empty.global_new_edge
              global_new_local_particle_properties :=
                (s0.invokeAll r roots).new_local_particle_properties_.foldl PidSet.insert
                  Merged.empty.global_new_local_particle_properties
              global_remove_edge := (s0.invokeAll r roots).removedEdges_.foldl
                (fun s e => SetPairs.insert s (if e.1 > e.2 then (e.2, e.1) else e))
                Merged.empty.global_remove_edge }, ?_, ?_, ?_, ?_, ?_⟩
    · rw [hpack]
      simp only [List.cons_append, List.nil_append, List.append_assoc, mergeBlock,
        Int.toNat_ofNat, hdist, readEdges_flat, readPids_flat]
    · intro a d v
      rw [hiff]
      simp [Merged.empty, MapPairsDist.get]
    · intro x y
      rw [mem_foldl_insert_canon]
      simp [Merged.empty]
    · intro x y
      rw [mem_foldl_insert_canon]
      simp [Merged.empty]
    · intro x
      rw [mem_foldl_pid_insert]
      simp [Merged.empty]

/-- An instance of C16: the chain 1-2, 2-3, 3-4 with the levels 1 and 2 registered and the
distance updates of the roots 1 and 2 queued. -/
theorem C16_packed_block_roundtrip_witness :
    (chainPending.invokeAll twoLevels [⟨1, 0, 0, 1, false⟩, ⟨2, 0, 0, 1, false⟩]).packBlock
      = [5, 2, 1, 1, 1, 1, 2, 1, 2, 3, 2, 1, 1, 2, 1, 3, 2, 2, 4, 5, 3, 1, 2, 8, 7, 4] ∧
    ∃ m, mergeBlock
        ((chainPending.invokeAll twoLevels
          [⟨1, 0, 0, 1, false⟩, ⟨2, 0, 0, 1, false⟩]).packBlock ++ [9, 9])
        Merged.empty = .ok (m, [9, 9]) ∧
      (∀ x y, (x, y) ∈ m.global_new_edge ↔
        x ≤ y ∧ ((x, y) ∈ (chainPending.invokeAll twoLevels
            [⟨1, 0, 0, 1, false⟩, ⟨2, 0, 0, 1, false⟩]).newEdges_
          ∨ (y, x) ∈ (chainPending.invokeAll twoLevels
            [⟨1, 0, 0, 1, false⟩, ⟨2, 0, 0, 1, false⟩]).newEdges_)) :=
  ⟨rfl,
    let h := C16_packed_block_roundtrip chainPending twoLevels
      [⟨1, 0, 0, 1, false⟩, ⟨2, 0, 0, 1, false⟩] [9, 9] rfl
    h.2.2.elim (fun m hm => ⟨m, hm.1, hm.2.2.1⟩)⟩

/-- On the chain 1-2, 2-3, 3-4 with the levels 1 and 2 registered, the root 2 has the
neighbours 1 and 3 at distance 1 and the neighbour 4 at distance 2. -/
theorem getNodesAtDistances_chain :
    getNodesAtDistances chainGraph twoLevels 2 = [2, 1, 1, 2, 1, 3, 2, 2, 4] ∧
    getNodesAtDistances chainGraph (registerLevels [2]) 1 = [1, 2, 3] ∧
    getNodesAtDistances chainGraph NbDistances.new 1 = [] :=
  ⟨rfl, rfl, rfl⟩

/-! ### updateParticlePropertiesAtDistance when nothing matches -/

/-- C21 as stated fails: particle 1 is present with type 0 and state 5, the only rule
registered for the type 0 at the distance 1 applies to the states 0 and 1, so none of the rules
of its type is applicable; `updateParticlePropertiesAtDistance(1, 1)` ends in an error. -/
theorem C21_counterexample :
    stateFiveLocal.storage.lookupLocalParticle 1 = some ⟨1, 0, 5, 1, false⟩ ∧
    stateFiveLocal.distance_type_pp_.get 1 = some [(0, lowStateRule)] ∧
    lowStateRule.isValid ⟨1, 0, 5, 1, false⟩ = false ∧
    (updateParticlePropertiesAtDistance stateFiveLocal 1 1).map (fun _ => ())
      = .error
        "updateParticlePropertiesAtDistance, nocorrect TopologyParticleProperties to apply" :=
  ⟨rfl, rfl, rfl, rfl⟩

/-- C21 (amended): `updateParticlePropertiesAtDistance(pid, distance)` raises no error and
leaves everything as it is when the particle is not present locally, when no rule is
registered at the distance, and when no rule is registered for the type of the particle at the
distance; when rules are registered for its type and none of them is applicable to its state,
the call ends in the error "nocorrect TopologyParticleProperties to apply". -/
theorem C21_no_match_at_distance {P T : Type} (loc : Local P T) (pid distance : Int) :
    (loc.storage.lookupLocalParticle pid = none →
      updateParticlePropertiesAtDistance loc pid distance = .ok loc) ∧
    (loc.distance_type_pp_.get distance = none →
      updateParticlePropertiesAtDistance loc pid distance = .ok loc) ∧
    (∀ p type_pp, loc.storage.lookupLocalParticle pid = some p →
      loc.distance_type_pp_.get distance = some type_pp →
      (∀ e ∈ type_pp, e.1 ≠ p.type) →
      updateParticlePropertiesAtDistance loc pid distance = .ok loc) ∧
    (∀ p type_pp, loc.storage.lookupLocalParticle pid = some p →
      loc.distance_type_pp_.get distance = some type_pp →
      (∃ e ∈ type_pp, e.1 = p.type) →
      (∀ e ∈ type_pp, e.1 = p.type → e.2.isValid p = false) →
      updateParticlePropertiesAtDistance loc pid distance = .error
        "updateParticlePropertiesAtDistance, nocorrect TopologyParticleProperties to apply") := by
  refine ⟨?_, ?_, ?_, ?_⟩
  · intro h
    simp only [updateParticlePropertiesAtDistance, h]
  · intro h
    unfold updateParticlePropertiesAtDistance
    cases hp : loc.storage.lookupLocalParticle pid with
    | none => rfl
    | some p => simp only [h]
  · intro p type_pp hp hd hno
    have hnil : type_pp.filter (fun e => decide (e.1 = p.type)) = [] := by
      rw [List.filter_eq_nil_iff]
      intro e he
      simpa using hno e he
    simp only [updateParticlePropertiesAtDistance, hp, hd, hnil, List.isEmpty_nil, if_true]
  · intro p type_pp hp hd hex hinv
    obtain ⟨e, he, het⟩ := hex
    have hne : (type_pp.filter (fun e => decide (e.1 = p.type))).isEmpty = false := by
      rw [List.isEmpty_eq_false]
      intro h
      have : e ∈ type_pp.filter (fun e => decide (e.1 = p.type)) := by
        simp [List.mem_filter, he, het]
      rw [h] at this
      cases this
    have hval : (type_pp.filter (fun e => decide (e.1 = p.type))).filter
        (fun e => e.2.isValid p) = [] := by
      rw [List.filter_eq_nil_iff]
      intro x hx
      have hx' := List.mem_filter.mp hx
      have := hinv x hx'.1 (by simpa using hx'.2)
      simp [this]
    simp only [updateParticlePropertiesAtDistance, hp, hd, hne, hval]
    rfl

/-! ### Queries and hooks between synchronisation rounds -/

theorem AMap.index_of_tracked (m : AMap Int) (k : Int) (h : (m.get k).isSome) :
    (m.index k).2 = m := by
  unfold AMap.index
  cases hk : m.get k with
  | none => rw [hk] at h; cases h
  | some v => rfl

/-- The hooks `onTupleAdded` and `onTupleRemoved` leave the replicated structures as they
are, for every pair of ids. -/
theorem hooks_keep_topology (s : TopologyManager) (pid1 pid2 : Int) :
    sameTopology (s.onTupleAdded pid1 pid2) s ∧ sameTopology (s.onTupleRemoved pid1 pid2) s := by
  constructor
  · unfold TopologyManager.onTupleAdded
    split <;> simp [sameTopology]
  · unfold TopologyManager.onTupleRemoved
    split <;> simp [sameTopology]

/-- The three queries on the id maps leave the state as it is when both ids are tracked. -/
theorem queries_keep_state_of_tracked (s : TopologyManager) (pid1 pid2 : Int)
    (hr1 : (s.pid_rid.get pid1).isSome) (hr2 : (s.pid_rid.get pid2).isSome)
    (hm1 : (s.pid_mid.get pid1).isSome) (hm2 : (s.pid_mid.get pid2).isSome) :
    (s.isResiduesConnected pid1 pid2).2 = s ∧ (s.isSameResidues pid1 pid2).2 = s ∧
    (s.isSameMolecule pid1 pid2).2 = s := by
  have e1 := AMap.index_of_tracked s.pid_rid pid1 hr1
  have e2 := AMap.index_of_tracked s.pid_rid pid2 hr2
  have e3 := AMap.index_of_tracked s.pid_mid pid1 hm1
  have e4 := AMap.index_of_tracked s.pid_mid pid2 hm2
  simp only [TopologyManager.isResiduesConnected, TopologyManager.isSameResidues,
    TopologyManager.isSameMolecule, e1, e2, e3, e4, and_self]

/-- C22, the code at the failing input: in the state of the merge scenario, where the
particles 10 and 11 are tracked and 99 is not, each of the queries `isResiduesConnected(10,
99)`, `isSameResidues(10, 99)` and `isSameMolecule(10, 99)` answers false and leaves a new
entry `99 -> 0` in `pid_rid` (in `pid_mid` for `isSameMolecule`), which was not there
before. -/
theorem C22_queries_insert_untracked_id :
    mergeScenarioState.pid_rid.get 99 = none ∧ mergeScenarioState.pid_mid.get 99 = none ∧
    mergeScenarioState.isResiduesConnected 10 99
      = (false, { mergeScenarioState with pid_rid := [(10, 1), (11, 2), (99, 0)] }) ∧
    mergeScenarioState.isSameResidues 10 99
      = (false, { mergeScenarioState with pid_rid := [(10, 1), (11, 2), (99, 0)] }) ∧
    mergeScenarioState.isSameMolecule 10 99
      = (false, { mergeScenarioState with pid_mid := [(10, 1), (11, 2), (99, 0)] }) ∧
    ¬ sameTopology (mergeScenarioState.isSameResidues 10 99).2 mergeScenarioState := by
  refine ⟨rfl, rfl, rfl, rfl, rfl, ?_⟩
  intro h
  have h5 := h.2.2.2.2.1
  revert h5
  decide

/-! ### plainBFS : the recorded neighbour sets -/

theorem bfsVisit_mem_adj (c : Int) (st : BFSState) (a x y : Int)
    (hc : (st.ret.get c).isSome) :
    y ∈ (bfsVisit c st a).ret.adj x ↔ y ∈ st.ret.adj x ∨ (x = c ∧ y = a) ∨ (x = a ∧ y = c) := by
  unfold bfsVisit
  simp only []
  set r1 : GraphMap := st.ret.modify c (fun s => PidSet.insert s a) with hr1
  set r2 : GraphMap := if AMap.count r1 a = 0 then AMap.insert r1 a [] else r1 with hr2
  have e1 : ∀ z, r1.adj z = if z = c then PidSet.insert (st.ret.adj c) a else st.ret.adj z :=
    fun z => GraphMap.adj_modify st.ret c _ z hc
  have e2 : ∀ z, r2.adj z = r1.adj z := by
    intro z; rw [hr2]; split
    · exact GraphMap.adj_insert_empty r1 a z
    · rfl
  have k2 : (r2.get a).isSome := by
    rw [hr2]; split
    · rw [AMap.isSome_get_insert]; exact Or.inr rfl
    · rename_i h0
      rw [AMap.count_eq_zero] at h0
      cases hg : AMap.get r1 a with
      | none => exact absurd hg h0
      | some w => rfl
  rw [GraphMap.adj_modify r2 a _ x k2]
  by_cases hxa : x = a
  · rw [if_pos hxa, PidSet.mem_insert, e2, e1]
    subst hxa
    by_cases hxc : x = c
    · rw [if_pos hxc, PidSet.mem_insert]
      subst hxc
      tauto
    · rw [if_neg hxc]
      tauto
  · rw [if_neg hxa, e2, e1]
    by_cases hxc : x = c
    · rw [if_pos hxc, PidSet.mem_insert]
      subst hxc
      tauto
    · rw [if_neg hxc]
      tauto

theorem bfsFold_mem_adj (c : Int) (as : List Int) (st : BFSState) (x y : Int)
    (hc : (st.ret.get c).isSome) :
    y ∈ ((as.foldl (bfsVisit c) st).ret.adj x)
      ↔ y ∈ st.ret.adj x ∨ (x = c ∧ y ∈ as) ∨ (x ∈ as ∧ y = c) := by
  induction as generalizing st with
  | nil => simp
  | cons a as ih =>
    rw [List.foldl_cons, ih _ ((bfsVisit_ret c st a c).mpr (Or.inl hc)),
      bfsVisit_mem_adj c st a x y hc]
    simp only [List.mem_cons]
    constructor
    · rintro ((h | ⟨h1, h2⟩ | ⟨h1, h2⟩) | ⟨h1, h2⟩ | ⟨h1, h2⟩)
      · exact Or.inl h
      · exact Or.inr (Or.inl ⟨h1, Or.inl h2⟩)
      · exact Or.inr (Or.inr ⟨Or.inl h1, h2⟩)
      · exact Or.inr (Or.inl ⟨h1, Or.inr h2⟩)
      · exact Or.inr (Or.inr ⟨Or.inr h1, h2⟩)
    · rintro (h | ⟨h1, h2 | h2⟩ | ⟨h1 | h1, h2⟩)
      · exact Or.inl (Or.inl h)
      · exact Or.inl (Or.inr (Or.inl ⟨h1, h2⟩))
      · exact Or.inr (Or.inl ⟨h1, h2⟩)
      · exact Or.inl (Or.inr (Or.inr ⟨h1, h2⟩))
      · exact Or.inr (Or.inr ⟨h1, h2⟩)

theorem bfsRound_adjInv (g : GraphMap) (st : BFSState) (c : Int) (rest : List Int)
    (hQ : st.Q = c :: rest) (h : BFSAdjInv g st) : BFSAdjInv g (bfsRound g st) := by
  rw [bfsRound_adj g st c rest hQ]
  set st1 : BFSState := { st with ret := st.ret.insert c [] } with hst1
  obtain ⟨pushed, hq, hp⟩ := bfsFold_Q c (g.adj c) st1
  have hvis : ∀ v, v ∈ ((g.adj c).foldl (bfsVisit c) st1).visited ↔ v ∈ st.visited ∨ v ∈ g.adj c :=
    fun v => bfsFold_visited c (g.adj c) st1 v
  have hkey : (st1.ret.get c).isSome := by
    rw [hst1]; exact (AMap.isSome_get_insert st.ret c [] c).mpr (Or.inr rfl)
  have hadj : ∀ x y, y ∈ ((g.adj c).foldl (bfsVisit c) st1).ret.adj x
      ↔ y ∈ st.ret.adj x ∨ (x = c ∧ y ∈ g.adj c) ∨ (x ∈ g.adj c ∧ y = c) := by
    intro x y
    rw [bfsFold_mem_adj c (g.adj c) st1 x y hkey, hst1]
    simp only [GraphMap.adj_insert_empty]
  have hqt : ((g.adj c).foldl (bfsVisit c) st1).Q.tail = rest ++ pushed := by
    rw [hq, hst1]; simp only [hQ, List.cons_append, List.tail_cons]
  constructor
  · intro x y hxy
    rcases (hadj x y).mp hxy with h1 | ⟨h1, h2⟩ | ⟨h1, h2⟩
    · exact h.sound x y h1
    · subst h1; exact Or.inl h2
    · subst h2; exact Or.inr h1
  · intro v hv hnq w hw
    simp only [hqt, List.mem_append, not_or] at hnq
    apply (hadj v w).mpr
    by_cases hvc : v = c
    · subst hvc; exact Or.inr (Or.inl ⟨rfl, hw⟩)
    · have hvq : v ∉ st.Q := by
        rw [hQ, List.mem_cons, not_or]; exact ⟨hvc, hnq.1⟩
      by_cases hvv : v ∈ st.visited
      · exact Or.inl (h.complete v hvv hvq w hw)
      · rcases (hvis v).mp hv with h1 | h1
        · exact absurd h1 hvv
        · exact absurd ((hp v).mpr ⟨h1, hvv⟩) hnq.2

theorem bfsLoop_adjInv (g : GraphMap) (fuel : Nat) (st : BFSState)
    (h : BFSAdjInv g st) : BFSAdjInv g (bfsLoop g fuel st) := by
  induction fuel generalizing st with
  | zero => exact h
  | succ n ih =>
    unfold bfsLoop
    cases hQ : st.Q with
    | nil => simp only []; exact h
    | cons c rest => simp only []; exact ih _ (bfsRound_adjInv g st c rest hQ h)

theorem plainBFSState_adjInv (g : GraphMap) (root : Int) :
    BFSAdjInv g (plainBFSState g root) := by
  unfold plainBFSState
  apply bfsLoop_adjInv
  constructor
  · intro x y hxy
    simp [GraphMap.adj, AMap.get] at hxy
  · intro v hv hnq; exact absurd hv hnq

theorem plainBFS_root_not_key (g : GraphMap) (root : Int) (h : g.get root = none) :
    plainBFS g root = [(root, [])] := by
  have hc : ¬ AMap.count g root = 1 := by
    rw [AMap.count_eq_one, h]; simp
  unfold plainBFS plainBFSState bfsFuel
  rw [Nat.add_comm]
  simp only [bfsLoop, bfsRound, hc, if_false, List.tail_cons]
  cases (List.map (fun e => e.2.length) g).sum <;> rfl

/-- C25: for every graph and every root, the loop of `plainBFS` ends with an empty queue
within the rounds it is given; the keys of the returned sub-graph are exactly the nodes that
a path of the graph joins to the root; when the root is not a key of the graph the result is
the root alone with an empty neighbour set; and when the graph is symmetric the neighbour set
recorded for every returned node has the same members as that node's neighbour set in the
graph. -/
theorem C25_plainBFS_reachable_subgraph (g : GraphMap) (root : Int) :
    (plainBFSState g root).Q = [] ∧
    (∀ k, ((plainBFS g root).get k).isSome ↔ Reach g root k) ∧
    (g.get root = none → plainBFS g root = [(root, [])]) ∧
    (g.isSymmetric → ∀ v, ((plainBFS g root).get v).isSome →
      ∀ w, w ∈ (plainBFS g root).adj v ↔ w ∈ g.adj v) := by
  refine ⟨plainBFS_queue_empty g root, plainBFS_keys g root, plainBFS_root_not_key g root, ?_⟩
  intro hsym v hv w
  have hinv := plainBFSState_inv g root
  have hadj := plainBFSState_adjInv g root
  have hQ := plainBFS_queue_empty g root
  unfold plainBFS at hv ⊢
  constructor
  · intro hw
    rcases hadj.sound v w hw with h1 | h1
    · exact h1
    · exact hsym w v h1
  · intro hw
    exact hadj.complete v (hinv.keys_visited v hv) (by rw [hQ]; simp) w hw

/-! ### generateAnglesDihedrals : reversed angles and dihedrals -/

theorem mem_insertQuadruplet (s : List Quadruplets) (x y : Quadruplets) :
    y ∈ insertQuadruplet s x ↔ y = x ∨ y ∈ s := by
  unfold insertQuadruplet
  split
  · constructor
    · exact Or.inr
    · rintro (rfl | h)
      · assumption
      · exact h
  · simp [List.mem_orderedInsert]

theorem revQuadruplet_revQuadruplet (q : Quadruplets) : revQuadruplet (revQuadruplet q) = q :=
  rfl

/-- An insertion guarded by the test for the reversal keeps the set free of reversed pairs. -/
theorem noReversed_guarded_insert (qs : List Quadruplets) (x : Quadruplets)
    (h : noReversedQuadruplet qs) :
    noReversedQuadruplet (if revQuadruplet x ∉ qs then insertQuadruplet qs x else qs) := by
  split
  · rename_i hx
    intro y hy hr
    rw [mem_insertQuadruplet] at hy hr
    rcases hy with rfl | hy
    · rcases hr with hr | hr
      · exact hr
      · exact absurd hr hx
    · rcases hr with hr | hr
      · have : y = revQuadruplet x := by rw [← hr]; rfl
        rw [this] at hy
        exact absurd hy hx
      · exact h y hy hr
  · exact h

theorem dihedralsBehind_noReversed (first second it : Int) (nbb : PidSet)
    (qs : List Quadruplets) (h : noReversedQuadruplet qs) :
    noReversedQuadruplet (dihedralsBehind first second it nbb qs) := by
  unfold dihedralsBehind
  induction nbb generalizing qs with
  | nil => exact h
  | cons itt rest ih =>
    rw [List.foldl_cons]
    apply ih
    split
    · exact h
    · exact noReversed_guarded_insert qs (second, first, it, itt) h

theorem anglesCase1_noReversed (graph : GraphMap) (pid1 pid2 : Int) (nb : List Int)
    (acc res : List Quadruplets × List Triplets) (h : noReversedQuadruplet acc.1)
    (hr : anglesCase1 graph pid1 pid2 nb acc = .ok res) : noReversedQuadruplet res.1 := by
  induction nb generalizing acc with
  | nil =>
    simp only [anglesCase1, Except.ok.injEq] at hr
    rw [← hr]; exact h
  | cons it rest ih =>
    obtain ⟨quadruplets, triplets⟩ := acc
    unfold anglesCase1 at hr
    split at hr
    · exact ih _ h hr
    · simp only [] at hr
      split at hr
      · cases hr
      · exact ih _ (dihedralsBehind_noReversed pid1 pid2 it _ quadruplets h) hr

theorem anglesCase2_noReversed (graph : GraphMap) (pid1 pid2 : Int) (nb : List Int)
    (acc res : List Quadruplets × List Triplets) (h : noReversedQuadruplet acc.1)
    (hr : anglesCase2 graph pid1 pid2 nb acc = .ok res) : noReversedQuadruplet res.1 := by
  induction nb generalizing acc with
  | nil =>
    simp only [anglesCase2, Except.ok.injEq] at hr
    rw [← hr]; exact h
  | cons it rest ih =>
    obtain ⟨quadruplets, triplets⟩ := acc
    unfold anglesCase2 at hr
    split at hr
    · exact ih _ h hr
    · simp only [] at hr
      split at hr
      · cases hr
      · exact ih _ (dihedralsBehind_noReversed pid2 pid1 it _ quadruplets h) hr

theorem dihedralsCase3_noReversed (pid1 pid2 : Int) (nb1 nb2 : PidSet)
    (qs : List Quadruplets) (h : noReversedQuadruplet qs) :
    noReversedQuadruplet (dihedralsCase3 pid1 pid2 nb1 nb2 qs) := by
  unfold dihedralsCase3
  induction nb1 generalizing qs with
  | nil => exact h
  | cons it1 rest ih =>
    rw [List.foldl_cons]
    apply ih
    split
    · exact h
    · clear ih
      induction nb2 generalizing qs with
      | nil => exact h
      | cons it2 rest2 ih2 =>
        rw [List.foldl_cons]
        apply ih2
        split
        · exact h
        · exact noReversed_guarded_insert qs (it1, pid1, pid2, it2) h

theorem generateAnglesDihedrals_noReversed (graph : GraphMap) (pid1 pid2 : Int)
    (acc res : List Quadruplets × List Triplets) (h : noReversedQuadruplet acc.1)
    (hr : generateAnglesDihedrals graph pid1 pid2 acc = .ok res) :
    noReversedQuadruplet res.1 := by
  unfold generateAnglesDihedrals at hr
  split at hr
  · cases hr
  · split at hr
    · cases hr
    · split at hr
      · cases hr
      · rename_i acc1 h1
        split at hr
        · cases hr
        · rename_i acc2 h2
          simp only [Except.ok.injEq] at hr
          rw [← hr]
          apply dihedralsCase3_noReversed
          exact anglesCase2_noReversed graph pid1 pid2 _ acc1 acc2
            (anglesCase1_noReversed graph pid1 pid2 _ acc acc1 h h1) h2

/-- The dihedral half of C27 holds: the quadruplet set built from any graph and any list of
new edges holds no dihedral together with its reversal. -/
theorem newAnglesDihedrals_noReversed (graph : GraphMap) (edges : SetPairs)
    (acc res : List Quadruplets × List Triplets) (h : noReversedQuadruplet acc.1)
    (hr : newAnglesDihedrals graph edges acc = .ok res) : noReversedQuadruplet res.1 := by
  induction edges generalizing acc with
  | nil =>
    simp only [newAnglesDihedrals, Except.ok.injEq] at hr
    rw [← hr]; exact h
  | cons e rest ih =>
    unfold newAnglesDihedrals at hr
    split at hr
    · cases hr
    · rename_i acc1 h1
      exact ih acc1 (generateAnglesDihedrals_noReversed graph e.1 e.2 acc acc1 h h1) hr

theorem bentGraph_isSymmetric : bentGraph.isSymmetric := by
  intro x y h
  unfold bentGraph GraphMap.adj at *
  simp only [AMap.get] at *
  by_cases h1 : (1 : Int) = x
  · subst h1
    simp at h
    subst h
    decide
  · by_cases h2 : (2 : Int) = x
    · subst h2
      simp at h
      rcases h with rfl | rfl <;> decide
    · by_cases h3 : (3 : Int) = x
      · subst h3
        simp at h
        subst h
        decide
      · simp [h1, h2, h3] at h

/-- C27, the code at the failing input: on the symmetric graph of the chain 1 - 2 - 3 with the
new edges (1,2) and (2,3), the triplet set built by `generateNewAnglesDihedrals` holds the
angle (1,2,3) and its reversal (3,2,1); the quadruplet set is empty. -/
theorem C27_triplets_hold_angle_and_reversal :
    bentGraph.isSymmetric ∧
    newAnglesDihedrals bentGraph [(1, 2), (2, 3)] ([], [])
      = .ok ([], [(1, 2, 3), (3, 2, 1)]) ∧
    revTriplet (1, 2, 3) = (3, 2, 1) :=
  ⟨bentGraph_isSymmetric, rfl, rfl⟩

/-! ### ChemicalReaction : the reaction index stored with a pair -/

theorem reactionScan_found {R : Type} (f : R → Particle → Particle → Bool) (p1 p2 : Particle)
    (l : List R) (i : Nat) : reactionScan f p1 p2 l true i = (true, i) := by
  cases l <;> simp [reactionScan]

theorem reactionScan_from {R : Type} (f : R → Particle → Particle → Bool) (p1 p2 : Particle)
    (l : List R) (k : Nat) (r : R) (i : Nat) (hk : l.get? k = some r) (hr : f r p1 p2 = true)
    (hb : ∀ j r', j < k → l.get? j = some r' → f r' p1 p2 = false) :
    reactionScan f p1 p2 l false i = (true, i + k + 1) := by
  induction l generalizing k i with
  | nil => simp at hk
  | cons a rest ih =>
    cases k with
    | zero =>
      simp only [List.get?_cons_zero, Option.some.injEq] at hk
      subst hk
      simp only [reactionScan, Bool.false_eq_true, if_false, hr]
      rw [reactionScan_found]
    | succ k =>
      have ha : f a p1 p2 = false := hb 0 a (Nat.succ_pos k) rfl
      simp only [reactionScan, Bool.false_eq_true, if_false, ha]
      rw [ih k (i + 1) (by simpa using hk)
        (fun j r' hj hg => hb (j + 1) r' (Nat.succ_lt_succ hj) (by simpa using hg))]
      congr 1
      omega

/-- The index that the scan of `React` leaves for an accepted pair is one more than the
position of the first accepting reaction. -/
theorem reactionScan_first_accepting {R : Type} (f : R → Particle → Particle → Bool)
    (p1 p2 : Particle) (l : List R) (k : Nat) (r : R) (hk : l.get? k = some r)
    (hr : f r p1 p2 = true)
    (hb : ∀ j r', j < k → l.get? j = some r' → f r' p1 p2 = false) :
    reactionScan f p1 p2 l false 0 = (true, k + 1) := by
  rw [reactionScan_from f p1 p2 l k r 0 hk hr hb, Nat.zero_add]

/-- C28, the code at the failing input: with the single reaction that accepts the type 0 and
the Verlet pair of the particles 1 and 2 of type 0, `React` stores the index 1 with the pair,
though the accepting reaction is at the position 0, and the lookup `reaction_list_.at(1)` of
`UniqueA` is out of range; with a second reaction (for the type 7) behind it, the stored index
1 names that second reaction, which does not accept the pair. -/
theorem C28_stored_index_is_one_past :
    acceptsTypeA 0 ⟨1, 0, 0, 1, false⟩ ⟨2, 0, 0, 1, false⟩ = true ∧
    potentialPairs acceptsTypeA [0] [(⟨1, 0, 0, 1, false⟩, ⟨2, 0, 0, 1, false⟩)]
      = [(1, 2, 1)] ∧
    reactionAt [(0 : Int)] 1 = .error "out_of_range" ∧
    potentialPairs acceptsTypeA [0, 7] [(⟨1, 0, 0, 1, false⟩, ⟨2, 0, 0, 1, false⟩)]
      = [(1, 2, 1)] ∧
    reactionAt [(0 : Int), 7] 1 = .ok 7 ∧
    acceptsTypeA 7 ⟨1, 0, 0, 1, false⟩ ⟨2, 0, 0, 1, false⟩ = false :=
  ⟨rfl, rfl, rfl, rfl, rfl, rfl⟩

/-! ### hasNeighbourParticleProperty : the particles at the given depth -/

theorem forkGraph_isSymmetric : forkGraph.isSymmetric := by
  intro x y h
  unfold forkGraph GraphMap.adj at *
  simp only [AMap.get] at *
  split_ifs at h with h1 h2 h3 h4 h5 <;> subst_vars <;> simp at h
  all_goals (rcases h with rfl | rfl) <;> decide

theorem forkGraph_dist_five : IsDist forkGraph 1 5 2 := by
  constructor
  · exact ⟨3, ⟨1, rfl, by decide⟩, by decide⟩
  · intro k hk
    interval_cases k
    · intro h
      have h' : (1 : Int) = 5 := h
      exact absurd h' (by decide)
    · rintro ⟨c, hc, h5⟩
      have hc' : (1 : Int) = c := hc
      subst hc'
      exact absurd h5 (by decide)

/-- C29, the code at the failing input: on the symmetric graph of the chains 1 - 2 - 4 and
1 - 3 - 5, with root 1 and depth 2, the particle 5 is at the shortest-path distance 2 from
the root, is a real particle of the type of the property and satisfies it, and every real
particle of that type satisfies it; yet `hasNeighbourParticleProperty` returns false. Its
loop ends after the first node at distance 1 has been expanded, with the node 3 still
queued, and has collected the particle 4 only. -/
theorem C29_misses_particle_at_depth :
    forkGraph.isSymmetric ∧ IsDist forkGraph 1 5 2 ∧
    (forkStorage.lookupRealParticle 5).map (fun p => (p.type, typeOneLowState.isValid p))
      = some (typeOneLowState.type_id_, true) ∧
    (∀ v p, forkStorage.lookupRealParticle v = some p → typeOneLowState.isValid p = true) ∧
    hasNeighbourParticleProperty forkStorage forkGraph 1 typeOneLowState 2 = false ∧
    hasNeighbourParticlePropertyState forkGraph 1 2
      = { visitedDistance := [(1, 0), (2, 1), (3, 1), (4, 2)], Q := [3],
          nb_at_distance := [4], new_distance := 2 } := by
  refine ⟨forkGraph_isSymmetric, forkGraph_dist_five, rfl, ?_, rfl, rfl⟩
  intro v p h
  simp only [forkStorage, Option.some.injEq] at h
  subst h
  rfl

/-! ### ESPPIterator -/

theorem ESPPIterator.advance_eq {α : Type} (it : ESPPIterator α) (n : Nat) :
    it.advance n = { it with stlIt := it.stlIt + n } := by
  induction n with
  | zero => rfl
  | succ n ih =>
    simp only [ESPPIterator.advance, ih, ESPPIterator.next]
    rfl

theorem ESPPIterator.collect_range {α : Type} (v : List α) (n first : Nat)
    (h : first + n ≤ v.length) (fuel : Nat) (hf : n < fuel) :
    ESPPIterator.collect fuel (ESPPIterator.ofRange v first (first + n))
      = (v.drop first).take n := by
  induction n generalizing first fuel with
  | zero =>
    cases fuel with
    | zero => omega
    | succ f => simp [ESPPIterator.collect, ESPPIterator.isDone, ESPPIterator.isValid,
        ESPPIterator.ofRange]
  | succ n ih =>
    cases fuel with
    | zero => omega
    | succ f =>
      have hlt : first < v.length := by omega
      have hne : ¬ first = first + (n + 1) := by omega
      have hnext : (ESPPIterator.ofRange v first (first + (n + 1))).next
          = ESPPIterator.ofRange v (first + 1) (first + 1 + n) := by
        simp only [ESPPIterator.next, ESPPIterator.ofRange]
        congr 1
        omega
      have hd : List.drop first v = v.get ⟨first, hlt⟩ :: List.drop (first + 1) v :=
        List.drop_eq_getElem_cons hlt
      have hg : (ESPPIterator.ofRange v first (first + (n + 1))).deref
          = some (v.get ⟨first, hlt⟩) := by
        simp only [ESPPIterator.deref, ESPPIterator.ofRange]
        rw [List.get?_eq_get hlt]
      have hdone : (ESPPIterator.ofRange v first (first + (n + 1))).isDone = false := by
        simp [ESPPIterator.isDone, ESPPIterator.isValid, ESPPIterator.ofRange]
      rw [ESPPIterator.collect, hdone, hg]
      simp only [Bool.false_eq_true, if_false]
      rw [hnext, ih (first + 1) (by omega) f (by omega), hd, List.take_succ_cons]

/-- C26: for every container and every range from `first` to `last` inside it, the
iterator constructed on the range reads, after `i` increments with `i` below the length of the
range, the element at the position `first + i` of the container and is valid and not done
there; after as many increments as the range has elements it is done and not valid, and it is
done after `i` increments of at most that number only then; the loop that reads until the
iterator is done collects the elements of the range in order. The iterator constructed on a
container is the one on its whole range, and the iterator on an empty container and the
default-constructed iterator are done and not valid at once. -/
theorem C26_iterator_yields_range {α : Type} (v : List α) (first last : Nat)
    (h1 : first ≤ last) (h2 : last ≤ v.length) :
    (∀ i, i < last - first →
      ∃ x, v.get? (first + i) = some x ∧
        ((ESPPIterator.ofRange v first last).advance i).deref = some x ∧
        ((ESPPIterator.ofRange v first last).advance i).isValid = true ∧
        ((ESPPIterator.ofRange v first last).advance i).isDone = false) ∧
    ((ESPPIterator.ofRange v first last).advance (last - first)).isDone = true ∧
    ((ESPPIterator.ofRange v first last).advance (last - first)).isValid = false ∧
    (∀ i, i ≤ last - first →
      (((ESPPIterator.ofRange v first last).advance i).isDone = true ↔ i = last - first)) ∧
    ESPPIterator.collect (last - first + 1) (ESPPIterator.ofRange v first last)
      = (v.drop first).take (last - first) ∧
    ESPPIterator.ofContainer v = ESPPIterator.ofRange v 0 v.length ∧
    (first = last → (ESPPIterator.ofRange v first last).isDone = true ∧
      (ESPPIterator.ofRange v first last).isValid = false) ∧
    (v = [] → (ESPPIterator.ofContainer v).isDone = true ∧
      (ESPPIterator.ofContainer v).isValid = false) ∧
    (ESPPIterator.new : ESPPIterator α).isDone = true ∧
    (ESPPIterator.new : ESPPIterator α).isValid = false := by
  refine ⟨?_, ?_, ?_, ?_, ?_, rfl, ?_, ?_, ?_, ?_⟩
  · intro i hi
    have hlt : first + i < v.length := by omega
    refine ⟨v.get ⟨first + i, hlt⟩, List.get?_eq_get hlt, ?_, ?_, ?_⟩
    · rw [ESPPIterator.advance_eq]
      simp only [ESPPIterator.deref, ESPPIterator.ofRange]
      exact List.get?_eq_get hlt
    · rw [ESPPIterator.advance_eq]
      simp only [ESPPIterator.isValid, ESPPIterator.ofRange, decide_eq_true_eq]
      omega
    · rw [ESPPIterator.advance_eq]
      simp only [ESPPIterator.isDone, ESPPIterator.isValid, ESPPIterator.ofRange,
        Bool.not_eq_false', decide_eq_true_eq]
      omega
  · rw [ESPPIterator.advance_eq]
    simp only [ESPPIterator.isDone, ESPPIterator.isValid, ESPPIterator.ofRange,
      Bool.not_eq_true', decide_eq_false_iff_not, not_not]
    omega
  · rw [ESPPIterator.advance_eq]
    simp only [ESPPIterator.isValid, ESPPIterator.ofRange, decide_eq_false_iff_not, not_not]
    omega
  · intro i hi
    rw [ESPPIterator.advance_eq]
    simp only [ESPPIterator.isDone, ESPPIterator.isValid, ESPPIterator.ofRange,
      Bool.not_eq_true', decide_eq_false_iff_not, not_not]
    omega
  · have := ESPPIterator.collect_range v (last - first) first (by omega) (last - first + 1)
      (by omega)
    rw [show first + (last - first) = last by omega] at this
    exact this
  · intro h
    subst h
    simp [ESPPIterator.isDone, ESPPIterator.isValid, ESPPIterator.ofRange]
  · intro h
    subst h
    exact ⟨rfl, rfl⟩
  · rfl
  · rfl

/-- The range of the unit test `SubRange`: the positions 3 to 6 of the vector 0, 1, ..., 9. -/
theorem C26_iterator_yields_range_witness :
    (∀ i, i < 6 - 3 →
      ∃ x, (List.range 10).get? (3 + i) = some x ∧
        ((ESPPIterator.ofRange (List.range 10) 3 6).advance i).deref = some x ∧
        ((ESPPIterator.ofRange (List.range 10) 3 6).advance i).isValid = true ∧
        ((ESPPIterator.ofRange (List.range 10) 3 6).advance i).isDone = false) ∧
    ((ESPPIterator.ofRange (List.range 10) 3 6).advance (6 - 3)).isDone = true ∧
    ((ESPPIterator.ofRange (List.range 10) 3 6).advance (6 - 3)).isValid = false ∧
    (∀ i, i ≤ 6 - 3 →
      (((ESPPIterator.ofRange (List.range 10) 3 6).advance i).isDone = true ↔ i = 6 - 3)) ∧
    ESPPIterator.collect (6 - 3 + 1) (ESPPIterator.ofRange (List.range 10) 3 6)
      = ((List.range 10).drop 3).take (6 - 3) ∧
    ESPPIterator.ofContainer (List.range 10)
      = ESPPIterator.ofRange (List.range 10) 0 (List.range 10).length ∧
    (3 = 6 → (ESPPIterator.ofRange (List.range 10) 3 6).isDone = true ∧
      (ESPPIterator.ofRange (List.range 10) 3 6).isValid = false) ∧
    (List.range 10 = [] → (ESPPIterator.ofContainer (List.range 10)).isDone = true ∧
      (ESPPIterator.ofContainer (List.range 10)).isValid = false) ∧
    (ESPPIterator.new : ESPPIterator Nat).isDone = true ∧
    (ESPPIterator.new : ESPPIterator Nat).isValid = false :=
  C26_iterator_yields_range (List.range 10) 3 6 (by decide) (by decide)

/-- The unit tests `DefaultConstructor`, `emptyContainer`, `SubRange` and the first steps of
`CopyConstructor`, evaluated on the model. -/
theorem esppIterator_unit_tests :
    (ESPPIterator.new : ESPPIterator Int).isValid = false ∧
    (ESPPIterator.new : ESPPIterator Int).isDone = true ∧
    (ESPPIterator.ofContainer ([] : List Int)).isValid = false ∧
    (ESPPIterator.ofContainer ([] : List Int)).isDone = true ∧
    ESPPIterator.collect 11 (ESPPIterator.ofRange [0, 1, 2, 3, 4, 5, 6, 7, 8, 9] 3 6)
      = [3, 4, 5] ∧
    ESPPIterator.collect 11 (ESPPIterator.ofRange [0, 1, 2, 3, 4, 5, 6, 7, 8, 9] 0 10)
      = [0, 1, 2, 3, 4, 5, 6, 7, 8, 9] ∧
    (ESPPIterator.ofContainer [0, 1, 2, 3, 4, 5, 6, 7, 8, 9]).deref = some 0 ∧
    (ESPPIterator.ofContainer [0, 1, 2, 3, 4, 5, 6, 7, 8, 9]).next.deref = some 1 ∧
    ((ESPPIterator.ofContainer [0, 1, 2, 3, 4, 5, 6, 7, 8, 9]).advance 10).isDone = true := by
  decide

/-! ### copyAsGhost -/

/-- C24: for every destination, source, mask and shift, `copyAsGhost` makes every
component of the destination's position the source's plus the shift's, leaves the radius and
`extVar` of the destination, and sets the ghost flag, also when `DATA_LOCAL` copies the local
data of the source; the properties, the momentum and the local data (image and the other
flags) are the source's when the bit `DATA_PROPERTIES`, `DATA_MOMENTUM`, `DATA_LOCAL` of the
mask is set and the destination's own otherwise; the force of the destination stays. The
shift of the single-node branch of `doGhostCommunication` is `getBoundary(dir)` times the box
length on the communicated axis and zero on the two others. -/
theorem C24_copyAsGhost_groups {R : Type} [Add R] [Zero R] [Mul R] (dst src : ParticleData R)
    (extradata : Nat) (shift : Real3D R) (getBoundary : Nat → R) (curCoordBoxL : R)
    (coord : Fin 3) (lr : Nat) :
    (∀ k, (dst.copyAsGhost src extradata shift).r.p k = src.r.p k + shift k) ∧
    (dst.copyAsGhost src extradata shift).r.radius = dst.r.radius ∧
    (dst.copyAsGhost src extradata shift).r.extVar = dst.r.extVar ∧
    (dst.copyAsGhost src extradata shift).l.ghost = true ∧
    (dst.copyAsGhost src extradata shift).p
      = (if extradata &&& DATA_PROPERTIES ≠ 0 then src.p else dst.p) ∧
    (dst.copyAsGhost src extradata shift).m
      = (if extradata &&& DATA_MOMENTUM ≠ 0 then src.m else dst.m) ∧
    (dst.copyAsGhost src extradata shift).l
      = (if extradata &&& DATA_LOCAL ≠ 0 then { src.l with ghost := true }
         else { dst.l with ghost := true }) ∧
    (dst.copyAsGhost src extradata shift).f = dst.f ∧
    (∀ k, ghostShift getBoundary curCoordBoxL coord lr k
      = if k = coord then getBoundary (2 * coord.val + lr) * curCoordBoxL else 0) := by
  refine ⟨?_, ?_, ?_, ?_, ?_, ?_, ?_, ?_, ?_⟩
  · intro k
    unfold ParticleData.copyAsGhost ParticlePosition.copyShifted
    simp only []
    split_ifs <;> rfl
  · unfold ParticleData.copyAsGhost ParticlePosition.copyShifted
    simp only []
    split_ifs <;> rfl
  · unfold ParticleData.copyAsGhost ParticlePosition.copyShifted
    simp only []
    split_ifs <;> rfl
  · rfl
  · unfold ParticleData.copyAsGhost
    simp only []
    split_ifs <;> rfl
  · unfold ParticleData.copyAsGhost
    simp only []
    split_ifs <;> rfl
  · unfold ParticleData.copyAsGhost
    simp only []
    split_ifs <;> rfl
  · unfold ParticleData.copyAsGhost
    simp only []
    split_ifs <;> rfl
  · intro k
    unfold ghostShift
    simp only [Function.update_apply]

/-! ### prepareGhostCommunication -/

theorem intRange_shift (a b s : Int) :
    intRange (a + s) (b + s) = (intRange a b).map (fun k => k + s) := by
  unfold intRange
  have h : b + s - (a + s) = b - a := by ring
  rw [h, List.map_map]
  apply List.map_congr_left
  intro k _
  simp only [Function.comp]
  ring

theorem boxPositions_shift_x (l0 r0 l1 r1 l2 r2 s : Int) :
    boxPositions (l0 + s) (r0 + s) l1 r1 l2 r2
      = (boxPositions l0 r0 l1 r1 l2 r2).map (translateCell 0 s) := by
  unfold boxPositions
  rw [intRange_shift, List.flatMap_map, List.map_flatMap]
  apply List.flatMap_congr
  intro o _
  rw [List.map_flatMap]
  apply List.flatMap_congr
  intro n _
  rw [List.map_map]
  rfl

theorem boxPositions_shift_y (l0 r0 l1 r1 l2 r2 s : Int) :
    boxPositions l0 r0 (l1 + s) (r1 + s) l2 r2
      = (boxPositions l0 r0 l1 r1 l2 r2).map (translateCell 1 s) := by
  unfold boxPositions
  rw [List.map_flatMap]
  apply List.flatMap_congr
  intro o _
  rw [intRange_shift, List.flatMap_map, List.map_flatMap]
  apply List.flatMap_congr
  intro n _
  rw [List.map_map]
  rfl

theorem boxPositions_shift_z (l0 r0 l1 r1 l2 r2 s : Int) :
    boxPositions l0 r0 l1 r1 (l2 + s) (r2 + s)
      = (boxPositions l0 r0 l1 r1 l2 r2).map (translateCell 2 s) := by
  unfold boxPositions
  rw [List.map_flatMap]
  apply List.flatMap_congr
  intro o _
  rw [List.map_flatMap]
  apply List.flatMap_congr
  intro n _
  rw [intRange_shift, List.map_map, List.map_map]
  rfl

theorem fillCells_ok (g : CellGrid) (cv : List Int) (l r : Fin 3 → Int)
    (h : ∀ i, 0 ≤ l i ∧ l i ≤ g.frameGridSize i ∧ 0 ≤ r i ∧ r i ≤ g.frameGridSize i ∧
      l i < r i) :
    fillCells g cv l r = .ok (cv ++ (boxPositions (l 0) (r 0) (l 1) (r 1) (l 2) (r 2)).map
      (fun c => g.mapPositionToIndex c.1 c.2.1 c.2.2)) := by
  have hw : ∀ i, wrongBoundary g l r i = false := by
    intro i
    obtain ⟨h1, h2, h3, h4, h5⟩ := h i
    simp only [wrongBoundary, Bool.or_eq_false_iff, decide_eq_false_iff_not]
    omega
  simp only [fillCells, hw, Bool.or_self, Bool.false_eq_true, if_false]

theorem boundaries_ok (g : CellGrid) (hfw : 0 < g.frameWidth)
    (hb : ∀ i, g.innerCellsBegin i = g.frameWidth)
    (he : ∀ i, g.innerCellsEnd i = g.frameGridSize i - g.frameWidth)
    (hsz : ∀ i, g.frameWidth ≤ g.innerCellsEnd i - g.innerCellsBegin i)
    (coord : Fin 3) (lr : Nat) (hlr : lr < 2) (i : Fin 3) :
    (0 ≤ (realsBoundaries g coord lr).1 i ∧
      (realsBoundaries g coord lr).1 i ≤ g.frameGridSize i ∧
      0 ≤ (realsBoundaries g coord lr).2 i ∧
      (realsBoundaries g coord lr).2 i ≤ g.frameGridSize i ∧
      (realsBoundaries g coord lr).1 i < (realsBoundaries g coord lr).2 i) ∧
    (0 ≤ (ghostsBoundaries g coord lr).1 i ∧
      (ghostsBoundaries g coord lr).1 i ≤ g.frameGridSize i ∧
      0 ≤ (ghostsBoundaries g coord lr).2 i ∧
      (ghostsBoundaries g coord lr).2 i ≤ g.frameGridSize i ∧
      (ghostsBoundaries g coord lr).1 i < (ghostsBoundaries g coord lr).2 i) := by
  have hbi := hb i
  have hei := he i
  have hsi := hsz i
  have hbc := hb coord
  have hec := he coord
  have hsc := hsz coord
  simp only [realsBoundaries, ghostsBoundaries, otherBoundaries, Function.update_apply]
  by_cases hic : i = coord
  · subst hic
    simp only [if_true]
    interval_cases lr
    · simp only [if_true]
      omega
    · simp only [one_ne_zero, if_false]
      omega
  · simp only [hic, if_false]
    by_cases hlt : i < coord
    · simp only [hlt, if_true]
      omega
    · simp only [hlt, if_false]
      omega

theorem prepareDirection_ok (g : CellGrid) (hfw : 0 < g.frameWidth)
    (hb : ∀ i, g.innerCellsBegin i = g.frameWidth)
    (he : ∀ i, g.innerCellsEnd i = g.frameGridSize i - g.frameWidth)
    (hsz : ∀ i, g.frameWidth ≤ g.innerCellsEnd i - g.innerCellsBegin i)
    (coord : Fin 3) (lr : Nat) (hlr : lr < 2) :
    prepareDirection g coord lr { reals := [], ghosts := [] }
      = .ok { reals := (cellsBetween (realsBoundaries g coord lr)).map
                (fun c => g.mapPositionToIndex c.1 c.2.1 c.2.2)
              ghosts := (cellsBetween (ghostsBoundaries g coord lr)).map
                (fun c => g.mapPositionToIndex c.1 c.2.1 c.2.2) } := by
  unfold prepareDirection
  rw [fillCells_ok g [] _ _ (fun i => (boundaries_ok g hfw hb he hsz coord lr hlr i).1)]
  simp only []
  rw [fillCells_ok g [] _ _ (fun i => (boundaries_ok g hfw hb he hsz coord lr hlr i).2)]
  rfl

theorem ghosts_translate_reals (g : CellGrid) (coord : Fin 3) (lr : Nat) (hlr : lr < 2) :
    cellsBetween (ghostsBoundaries g coord lr)
      = (cellsBetween (realsBoundaries g coord lr)).map
          (translateCell coord
            (if lr = 0 then g.innerCellsEnd coord - g.innerCellsBegin coord
             else - (g.innerCellsEnd coord - g.innerCellsBegin coord))) := by
  fin_cases coord <;> interval_cases lr <;>
    simp only [cellsBetween, realsBoundaries, ghostsBoundaries, otherBoundaries,
      Function.update_apply, Fin.zero_eta, Fin.mk_one, Fin.reduceFinMk, Fin.reduceEq,
      Fin.reduceLT, if_true, if_false, one_ne_zero, Fin.isValue, lt_self_iff_false]
  · rw [← boxPositions_shift_x]
    congr 1 <;> ring
  · rw [← boxPositions_shift_x]
    congr 1 <;> ring
  · rw [← boxPositions_shift_y]
    congr 1 <;> ring
  · rw [← boxPositions_shift_y]
    congr 1 <;> ring
  · rw [← boxPositions_shift_z]
    congr 1 <;> ring
  · rw [← boxPositions_shift_z]
    congr 1 <;> ring

theorem prepareLoop_step (g : CellGrid) (coord : Fin 3) (lr : Nat) (rest : List (Fin 3 × Nat))
    (commCells : List CommCells) (c : CommCells)
    (h : prepareDirection g coord lr
      (commCells.getD (2 * coord.val + lr) { reals := [], ghosts := [] }) = .ok c) :
    prepareLoop g ((coord, lr) :: rest) commCells
      = prepareLoop g rest (commCells.set (2 * coord.val + lr) c) := by
  have e : prepareLoop g ((coord, lr) :: rest) commCells
      = (match prepareDirection g coord lr
          (commCells.getD (2 * coord.val + lr) { reals := [], ghosts := [] }) with
        | Except.error e => Except.error e
        | Except.ok c => prepareLoop g rest (commCells.set (2 * coord.val + lr) c)) := rfl
  rw [e, h]

theorem prepareGhostCommunication_ok (g : CellGrid) (c0 c1 c2 c3 c4 c5 : CommCells)
    (h0 : prepareDirection g 0 0 { reals := [], ghosts := [] } = .ok c0)
    (h1 : prepareDirection g 0 1 { reals := [], ghosts := [] } = .ok c1)
    (h2 : prepareDirection g 1 0 { reals := [], ghosts := [] } = .ok c2)
    (h3 : prepareDirection g 1 1 { reals := [], ghosts := [] } = .ok c3)
    (h4 : prepareDirection g 2 0 { reals := [], ghosts := [] } = .ok c4)
    (h5 : prepareDirection g 2 1 { reals := [], ghosts := [] } = .ok c5) :
    prepareGhostCommunication g emptyCommCells = .ok [c0, c1, c2, c3, c4, c5] := by
  unfold prepareGhostCommunication
  rw [prepareLoop_step g 0 0 _ emptyCommCells c0 h0]
  rw [prepareLoop_step g 0 1 _ (emptyCommCells.set (2 * (0 : Fin 3).val + 0) c0) c1 h1]
  rw [prepareLoop_step g 1 0 _ ((emptyCommCells.set (2 * (0 : Fin 3).val + 0) c0).set
    (2 * (0 : Fin 3).val + 1) c1) c2 h2]
  rw [prepareLoop_step g 1 1 _ (((emptyCommCells.set (2 * (0 : Fin 3).val + 0) c0).set
    (2 * (0 : Fin 3).val + 1) c1).set (2 * (1 : Fin 3).val + 0) c2) c3 h3]
  rw [prepareLoop_step g 2 0 _ ((((emptyCommCells.set (2 * (0 : Fin 3).val + 0) c0).set
    (2 * (0 : Fin 3).val + 1) c1).set (2 * (1 : Fin 3).val + 0) c2).set
    (2 * (1 : Fin 3).val + 1) c3) c4 h4]
  rw [prepareLoop_step g 2 1 _ (((((emptyCommCells.set (2 * (0 : Fin 3).val + 0) c0).set
    (2 * (0 : Fin 3).val + 1) c1).set (2 * (1 : Fin 3).val + 0) c2).set
    (2 * (1 : Fin 3).val + 1) c3).set (2 * (2 : Fin 3).val + 0) c4) c5 h5]
  rfl

/-- A grid without a frame is not a grid of the program: `createCellGrid` builds the only
cell grid with the frame width 1 (line 71). On the grid with one inner cell per axis and the
frame width 0 the range of the real cells of the first direction is empty, and
`prepareGhostCommunication` ends in the error of `fillCells`. -/
theorem prepareGhostCommunication_without_frame :
    (∀ i, (cubeGrid 1 0).innerCellsBegin i = (cubeGrid 1 0).frameWidth) ∧
    (∀ i, (cubeGrid 1 0).innerCellsEnd i
      = (cubeGrid 1 0).frameGridSize i - (cubeGrid 1 0).frameWidth) ∧
    (∀ i, (cubeGrid 1 0).frameWidth
      ≤ (cubeGrid 1 0).innerCellsEnd i - (cubeGrid 1 0).innerCellsBegin i) ∧
    prepareGhostCommunication (cubeGrid 1 0) emptyCommCells
      = .error "DomainDecomposition::fillCells: wrong cell grid specified internally" := by
  refine ⟨fun i => rfl, fun i => rfl, ?_, rfl⟩
  intro i
  show (0 : Int) ≤ 1 + 0 - 0
  decide

/-- C30: for every cell grid of the program whose inner cells occupy, on every axis, the range
from `frameWidth` to `frameGridSize - frameWidth` with at least `frameWidth` inner cells,
`prepareGhostCommunication` on the empty `commCells` raises no error and builds six entries;
in the entry of every direction the real cells are the cells at the positions between the
boundaries of the reals, the ghost cells are, in the same order, the cells at these positions
moved along the communicated axis by the number of inner cells (forwards for the left
direction, backwards for the right one), the two lists have the same length, and the test of
the local-copy branch of `doGhostCommunication` raises no error. The cell grid of the program
is built in one place, `createCellGrid`, with the frame width 1 (line 71); the theorem holds
for every frame width from 1 on. -/
theorem C30_ghost_cells_translate_reals (g : CellGrid) (hfw : 0 < g.frameWidth)
    (hb : ∀ i, g.innerCellsBegin i = g.frameWidth)
    (he : ∀ i, g.innerCellsEnd i = g.frameGridSize i - g.frameWidth)
    (hsz : ∀ i, g.frameWidth ≤ g.innerCellsEnd i - g.innerCellsBegin i) :
    ∃ commCells, prepareGhostCommunication g emptyCommCells = .ok commCells ∧
      commCells.length = 6 ∧
      ∀ (coord : Fin 3) (lr : Nat), lr < 2 →
        ∃ c, commCells.get? (2 * coord.val + lr) = some c ∧
          c.reals = (cellsBetween (realsBoundaries g coord lr)).map
            (fun p => g.mapPositionToIndex p.1 p.2.1 p.2.2) ∧
          c.ghosts = ((cellsBetween (realsBoundaries g coord lr)).map
            (translateCell coord
              (if lr = 0 then g.innerCellsEnd coord - g.innerCellsBegin coord
               else - (g.innerCellsEnd coord - g.innerCellsBegin coord)))).map
            (fun p => g.mapPositionToIndex p.1 p.2.1 p.2.2) ∧
          c.ghosts.length = c.reals.length ∧
          localCopyCheck c = .ok () := by
  have hd := fun coord lr hlr => prepareDirection_ok g hfw hb he hsz coord lr hlr
  have ht := fun coord lr hlr => ghosts_translate_reals g coord lr hlr
  have h00 := hd 0 0 (by decide)
  have h01 := hd 0 1 (by decide)
  have h10 := hd 1 0 (by decide)
  have h11 := hd 1 1 (by decide)
  have h20 := hd 2 0 (by decide)
  have h21 := hd 2 1 (by decide)
  refine ⟨_, prepareGhostCommunication_ok g _ _ _ _ _ _ h00 h01 h10 h11 h20 h21, ?_, ?_⟩
  · rfl
  · intro coord lr hlr
    have key : ∀ c : CommCells,
        c = { reals := (cellsBetween (realsBoundaries g coord lr)).map
                (fun c => g.mapPositionToIndex c.1 c.2.1 c.2.2)
              ghosts := (cellsBetween (ghostsBoundaries g coord lr)).map
                (fun c => g.mapPositionToIndex c.1 c.2.1 c.2.2) } →
        c.reals = (cellsBetween (realsBoundaries g coord lr)).map
            (fun p => g.mapPositionToIndex p.1 p.2.1 p.2.2) ∧
          c.ghosts = ((cellsBetween (realsBoundaries g coord lr)).map
            (translateCell coord
              (if lr = 0 then g.innerCellsEnd coord - g.innerCellsBegin coord
               else - (g.innerCellsEnd coord - g.innerCellsBegin coord)))).map
            (fun p => g.mapPositionToIndex p.1 p.2.1 p.2.2) ∧
          c.ghosts.length = c.reals.length ∧
          localCopyCheck c = .ok () := by
      intro c hc
      subst hc
      have hlen : ((cellsBetween (ghostsBoundaries g coord lr)).map
          (fun c => g.mapPositionToIndex c.1 c.2.1 c.2.2)).length
          = ((cellsBetween (realsBoundaries g coord lr)).map
          (fun c => g.mapPositionToIndex c.1 c.2.1 c.2.2)).length := by
        rw [ht coord lr hlr]
        simp only [List.length_map]
      refine ⟨rfl, ?_, hlen, ?_⟩
      · simp only []
        rw [ht coord lr hlr]
      · simp only [localCopyCheck, hlen, ne_eq, not_true_eq_false, if_false]
    fin_cases coord <;> interval_cases lr
    · exact ⟨_, rfl, key _ rfl⟩
    · exact ⟨_, rfl, key _ rfl⟩
    · exact ⟨_, rfl, key _ rfl⟩
    · exact ⟨_, rfl, key _ rfl⟩
    · exact ⟨_, rfl, key _ rfl⟩
    · exact ⟨_, rfl, key _ rfl⟩

/-- The grid with two inner cells per axis inside a frame of the width 1, the frame width
that `createCellGrid` asks for. -/
theorem C30_ghost_cells_translate_reals_witness :
    ∃ commCells, prepareGhostCommunication (cubeGrid 2 1) emptyCommCells = .ok commCells ∧
      commCells.length = 6 ∧
      ∀ (coord : Fin 3) (lr : Nat), lr < 2 →
        ∃ c, commCells.get? (2 * coord.val + lr) = some c ∧
          c.reals = (cellsBetween (realsBoundaries (cubeGrid 2 1) coord lr)).map
            (fun p => (cubeGrid 2 1).mapPositionToIndex p.1 p.2.1 p.2.2) ∧
          c.ghosts = ((cellsBetween (realsBoundaries (cubeGrid 2 1) coord lr)).map
            (translateCell coord
              (if lr = 0 then (cubeGrid 2 1).innerCellsEnd coord
                  - (cubeGrid 2 1).innerCellsBegin coord
               else - ((cubeGrid 2 1).innerCellsEnd coord
                  - (cubeGrid 2 1).innerCellsBegin coord)))).map
            (fun p => (cubeGrid 2 1).mapPositionToIndex p.1 p.2.1 p.2.2) ∧
          c.ghosts.length = c.reals.length ∧
          localCopyCheck c = .ok () :=
  C30_ghost_cells_translate_reals (cubeGrid 2 1) (by decide) (fun _ => rfl) (fun _ => rfl)
    (fun _ => by show (1 : Int) ≤ 2 + 1 - 1; decide)

/-- The first direction on the grid with two inner cells per axis and the frame width 1: the
real cells are the four inner cells with x = 1, the ghost cells the four frame cells with
x = 3. -/
theorem prepareGhostCommunication_cube_first_direction :
    (prepareGhostCommunication (cubeGrid 2 1) emptyCommCells).map (fun cc => cc.get? 0)
      = .ok (some { reals := [21, 37, 25, 41], ghosts := [23, 39, 27, 43] }) := by
  rfl

/-! ### resortRealParticles : one pass over the real cells -/

theorem moveIndexedParticle_spec {P : Type} (dl pre post : List P) (x : P) :
    ∃ r, r.Perm post ∧
      moveIndexedParticle dl (pre ++ x :: post) pre.length = (dl ++ [x], pre ++ r) := by
  have hget : (pre ++ x :: post).get? pre.length = some x := by
    rw [List.get?_eq_getElem?, List.getElem?_append_right (le_refl _)]
    simp
  induction post using List.reverseRecOn with
  | nil =>
    refine ⟨[], List.Perm.refl _, ?_⟩
    have hlast : (pre ++ [x]).getLast? = some x := by simp
    simp only [moveIndexedParticle, hget, hlast]
    congr 1
    have hset : (pre ++ [x]).set pre.length x = pre ++ [x] := by
      rw [List.set_append_right _ _ (le_refl _)]
      simp
    rw [hset, List.dropLast_concat, List.append_nil]
  | append_singleton post' z _ =>
    refine ⟨z :: post', (List.perm_append_singleton z post').symm, ?_⟩
    have hlast : (pre ++ x :: (post' ++ [z])).getLast? = some z := by
      have : pre ++ x :: (post' ++ [z]) = (pre ++ x :: post') ++ [z] := by simp
      rw [this, List.getLast?_append]
      simp
    simp only [moveIndexedParticle, hget, hlast]
    congr 1
    have hset : (pre ++ x :: (post' ++ [z])).set pre.length z = pre ++ z :: (post' ++ [z]) := by
      rw [List.set_append_right _ _ (le_refl _)]
      simp
    rw [hset]
    have : pre ++ z :: (post' ++ [z]) = (pre ++ z :: post') ++ [z] := by simp
    rw [this, List.dropLast_concat]

theorem cells_split {P : Type} (l : List P) (p : Nat) (x : P) (h : l.get? p = some x) :
    ∃ pre post, l = pre ++ x :: post ∧ pre.length = p := by
  have hlt : p < l.length := by
    rw [List.get?_eq_some] at h
    exact h.1
  refine ⟨l.take p, l.drop (p + 1), ?_, ?_⟩
  · have hx : l.get ⟨p, hlt⟩ = x := by
      rw [List.get?_eq_get hlt] at h
      exact Option.some.inj h
    conv_lhs => rw [← List.take_append_drop p l]
    rw [List.drop_eq_getElem_cons hlt]
    congr 2
  · simp [List.length_take]; omega

theorem flatten_set_coe {P : Type} (cells : List (List P)) (c : Nat) (l' : List P)
    (hc : c < cells.length) :
    ((cells.set c l').flatten : Multiset P) + ((cells.getD c [] : List P) : Multiset P)
      = (cells.flatten : Multiset P) + (l' : Multiset P) := by
  induction cells generalizing c with
  | nil => simp at hc
  | cons a rest ih =>
    cases c with
    | zero =>
      simp only [List.set_cons_zero, List.flatten_cons, List.getD_cons_zero,
        ← Multiset.coe_add]
      abel
    | succ c =>
      have := ih c (by simpa using hc)
      simp only [List.set_cons_succ, List.flatten_cons, List.getD_cons_succ,
        ← Multiset.coe_add] at this ⊢
      rw [add_assoc, this]
      abel

theorem getD_set_self {P : Type} (cells : List (List P)) (c : Nat) (l' : List P)
    (hc : c < cells.length) : (cells.set c l').getD c [] = l' := by
  simp [List.getD_eq_getElem?_getD, hc]

theorem getD_set_other {P : Type} (cells : List (List P)) (c k : Nat) (l' : List P)
    (hk : k ≠ c) : (cells.set c l').getD k [] = cells.getD k [] := by
  simp [List.getD_eq_getElem?_getD, List.getElem?_set_ne (Ne.symm hk)]

theorem filter_flatMap_eq {P : Type} (q : P → Bool) (idx : List Nat) (f : Nat → List P) :
    (idx.flatMap f).filter q = idx.flatMap (fun k => (f k).filter q) := by
  induction idx with
  | nil => rfl
  | cons a rest ih => simp [List.flatMap_cons, List.filter_append, ih]

theorem pending_set_current {P : Type} (q : P → Bool) (rest : List Nat) (cells : List (List P))
    (c : Nat) (l' : List P) (hc : c ∉ rest) :
    pendingParticles q rest (cells.set c l') = pendingParticles q rest cells := by
  unfold pendingParticles
  apply List.flatMap_congr
  intro k hk
  rw [getD_set_other cells c k l' (fun h => hc (h ▸ hk))]

theorem pending_set_append {P : Type} (q : P → Bool) (rest : List Nat) (cells : List (List P))
    (s : Nat) (x : P) (hq : q x = false) :
    pendingParticles q rest (cells.set s (cells.getD s [] ++ [x]))
      = pendingParticles q rest cells := by
  unfold pendingParticles
  apply List.flatMap_congr
  intro k _
  by_cases hks : k = s
  · subst hks
    by_cases hlt : k < cells.length
    · rw [getD_set_self cells k _ hlt, List.filter_append]
      simp [hq]
    · rw [List.set_eq_of_length_le (by omega)]
  · rw [getD_set_other cells s k _ hks]


theorem flatten_remove {P : Type} (cells : List (List P)) (c : Nat) (pre post r : List P)
    (x : P) (hc : c < cells.length) (hsplit : cells.getD c [] = pre ++ x :: post)
    (hr : r.Perm post) :
    ((cells.set c (pre ++ r)).flatten : Multiset P) + {x} = (cells.flatten : Multiset P) := by
  have hfl := flatten_set_coe cells c (pre ++ r) hc
  rw [hsplit] at hfl
  have hrm : Multiset.ofList r = Multiset.ofList post := Multiset.coe_eq_coe.mpr hr
  simp only [← Multiset.coe_add, ← Multiset.cons_coe, ← Multiset.singleton_add, hrm] at hfl
  have h2 : ((cells.set c (pre ++ r)).flatten : Multiset P)
      + {x} + (Multiset.ofList pre + Multiset.ofList post)
      = (cells.flatten : Multiset P) + (Multiset.ofList pre + Multiset.ofList post) := by
    rw [← hfl]; abel
  exact add_right_cancel h2

theorem flatten_append_one {P : Type} (cells : List (List P)) (s : Nat) (x : P)
    (hs : s < cells.length) :
    ((cells.set s (cells.getD s [] ++ [x])).flatten : Multiset P)
      = (cells.flatten : Multiset P) + {x} := by
  have hfl := flatten_set_coe cells s (cells.getD s [] ++ [x]) hs
  simp only [← Multiset.coe_add, ← Multiset.coe_singleton] at hfl ⊢
  have h2 : ((cells.set s (cells.getD s [] ++ [x])).flatten : Multiset P)
      + Multiset.ofList (cells.getD s [])
      = (cells.flatten : Multiset P) + Multiset.ofList [x]
        + Multiset.ofList (cells.getD s []) := by
    rw [hfl]; abel
  exact add_right_cancel h2


theorem resortCell_inv {R : Type} [Sub R] [Neg R] [LT R] [LE R]
    [DecidableRel (fun a b : R => a < b)] [DecidableRel (fun a b : R => a ≤ b)]
    (env : ResortEnv R) (coord : Fin 3) (c : Nat) (rest : List Nat) (n : Nat)
    (TL TR T : Multiset (ParticleData R))
    (hmap : ∀ pos s, env.mapPositionToCellChecked pos = some s → s < n)
    (hc : c < n) (hcr : c ∉ rest) (fuel : Nat) :
    ∀ (p : Nat) (st : ResortState R), st.cells.length = n →
      (st.cells.getD c []).length ≤ fuel + p →
      ((st.sendBufL : Multiset (ParticleData R))
        + ((((st.cells.getD c []).drop p).filter (sendsLeft env coord) : List _) : Multiset _)
        + ((pendingParticles (sendsLeft env coord) rest st.cells : List _) : Multiset _) = TL) →
      ((st.sendBufR : Multiset (ParticleData R))
        + ((((st.cells.getD c []).drop p).filter
            (fun x => !sendsLeft env coord x && sendsRight env coord x) : List _) : Multiset _)
        + ((pendingParticles (fun x => !sendsLeft env coord x && sendsRight env coord x)
            rest st.cells : List _) : Multiset _) = TR) →
      ((st.allParticles : Multiset (ParticleData R)) = T) →
      (resortCell env coord c fuel p st).cells.length = n ∧
      (((resortCell env coord c fuel p st).sendBufL : Multiset (ParticleData R))
        + ((pendingParticles (sendsLeft env coord) rest
            (resortCell env coord c fuel p st).cells : List _) : Multiset _) = TL) ∧
      (((resortCell env coord c fuel p st).sendBufR : Multiset (ParticleData R))
        + ((pendingParticles (fun x => !sendsLeft env coord x && sendsRight env coord x) rest
            (resortCell env coord c fuel p st).cells : List _) : Multiset _) = TR) ∧
      (((resortCell env coord c fuel p st).allParticles : Multiset (ParticleData R)) = T) := by
  induction fuel with
  | zero =>
    intro p st hn hlen hL hR hT
    have hd : (st.cells.getD c []).drop p = [] := List.drop_eq_nil_of_le (by omega)
    rw [hd] at hL hR
    simp only [List.filter_nil, Multiset.coe_nil, add_zero] at hL hR
    exact ⟨hn, hL, hR, hT⟩
  | succ fuel ih =>
    intro p st hn hlen hL hR hT
    rw [resortCell]
    cases hg : (st.cells.getD c []).get? p with
    | none =>
      simp only []
      have hd : (st.cells.getD c []).drop p = [] := by
        apply List.drop_eq_nil_of_le
        rw [List.get?_eq_none] at hg
        exact hg
      rw [hd] at hL hR
      simp only [List.filter_nil, Multiset.coe_nil, add_zero] at hL hR
      exact ⟨hn, hL, hR, hT⟩
    | some part =>
      simp only []
      obtain ⟨pre, post, hsplit, hpre⟩ := cells_split _ p part hg
      have hcl : c < st.cells.length := by rw [hn]; exact hc
      have hdrop : (st.cells.getD c []).drop p = part :: post := by
        rw [hsplit, ← hpre, List.drop_left]
      rw [hdrop] at hL hR
      have hlen' : pre.length + post.length + 1 ≤ fuel + 1 + p := by
        have := hlen
        rw [hsplit] at this
        simp only [List.length_append, List.length_cons] at this
        omega
      by_cases hleft : sendsLeft env coord part = true
      · -- the particle goes to the left buffer
        rw [if_pos hleft]
        obtain ⟨r, hr, hmv⟩ := moveIndexedParticle_spec st.sendBufL pre post part
        rw [hpre, ← hsplit] at hmv
        simp only [hmv]
        apply ih
        · simp only [List.length_set]; exact hn
        · rw [getD_set_self _ _ _ hcl]
          simp only [List.length_append]
          have := hr.length_eq
          omega
        · rw [getD_set_self _ _ _ hcl, pending_set_current _ _ _ _ _ hcr, ← hpre,
            List.drop_left, ← hL]
          have hf : ((r.filter (sendsLeft env coord) : List _) : Multiset (ParticleData R))
              = (post.filter (sendsLeft env coord) : List _) :=
            Multiset.coe_eq_coe.mpr (hr.filter _)
          rw [hf, List.filter_cons_of_pos hleft]
          simp only [← Multiset.coe_add, ← Multiset.cons_coe, ← Multiset.singleton_add,
            Multiset.coe_singleton]
          abel
        · rw [getD_set_self _ _ _ hcl, pending_set_current _ _ _ _ _ hcr, ← hpre,
            List.drop_left, ← hR]
          have hf : ((r.filter (fun x => !sendsLeft env coord x && sendsRight env coord x) :
              List _) : Multiset (ParticleData R))
              = (post.filter (fun x => !sendsLeft env coord x && sendsRight env coord x) :
                List _) :=
            Multiset.coe_eq_coe.mpr (hr.filter _)
          rw [hf, List.filter_cons_of_neg (by simp [hleft])]
        · rw [← hT]
          have key := flatten_remove st.cells c pre post r part hcl hsplit hr
          simp only [ResortState.allParticles, ← Multiset.coe_add, ← Multiset.coe_singleton]
            at key ⊢
          rw [← key]
          abel
      · rw [if_neg hleft]
        have hleft' : sendsLeft env coord part = false := by simpa using hleft
        by_cases hright : sendsRight env coord part = true
        · -- the particle goes to the right buffer
          rw [if_pos hright]
          obtain ⟨r, hr, hmv⟩ := moveIndexedParticle_spec st.sendBufR pre post part
          rw [hpre, ← hsplit] at hmv
          simp only [hmv]
          apply ih
          · simp only [List.length_set]; exact hn
          · rw [getD_set_self _ _ _ hcl]
            simp only [List.length_append]
            have := hr.length_eq
            omega
          · rw [getD_set_self _ _ _ hcl, pending_set_current _ _ _ _ _ hcr, ← hpre,
              List.drop_left, ← hL]
            have hf : ((r.filter (sendsLeft env coord) : List _) : Multiset (ParticleData R))
                = (post.filter (sendsLeft env coord) : List _) :=
              Multiset.coe_eq_coe.mpr (hr.filter _)
            rw [hf, List.filter_cons_of_neg hleft]
          · rw [getD_set_self _ _ _ hcl, pending_set_current _ _ _ _ _ hcr, ← hpre,
              List.drop_left, ← hR]
            have hf : ((r.filter (fun x => !sendsLeft env coord x && sendsRight env coord x) :
                List _) : Multiset (ParticleData R))
                = (post.filter (fun x => !sendsLeft env coord x && sendsRight env coord x) :
                  List _) :=
              Multiset.coe_eq_coe.mpr (hr.filter _)
            rw [hf, List.filter_cons_of_pos (by simp [hleft', hright])]
            simp only [← Multiset.coe_add, ← Multiset.cons_coe, ← Multiset.singleton_add,
              Multiset.coe_singleton]
            abel
          · rw [← hT]
            have key := flatten_remove st.cells c pre post r part hcl hsplit hr
            simp only [ResortState.allParticles, ← Multiset.coe_add, ← Multiset.coe_singleton]
              at key ⊢
            rw [← key]
            abel
        · rw [if_neg hright]
          have hright' : sendsRight env coord part = false := by simpa using hright
          have hqL : ((part :: post).filter (sendsLeft env coord))
              = post.filter (sendsLeft env coord) := List.filter_cons_of_neg hleft
          have hqR : ((part :: post).filter
              (fun x => !sendsLeft env coord x && sendsRight env coord x))
              = post.filter (fun x => !sendsLeft env coord x && sendsRight env coord x) :=
            List.filter_cons_of_neg (by simp [hright'])
          rw [hqL] at hL
          rw [hqR] at hR
          have hnext : (st.cells.getD c []).drop (p + 1) = post := by
            rw [hsplit, ← hpre]
            simp
          -- the particle stays in the cell: the index moves on
          have hstay : ∀ st1 : ResortState R, st1.cells = st.cells →
              st1.sendBufL = st.sendBufL → st1.sendBufR = st.sendBufR →
              (resortCell env coord c fuel (p + 1) st1).cells.length = n ∧
              (((resortCell env coord c fuel (p + 1) st1).sendBufL :
                  Multiset (ParticleData R))
                + ((pendingParticles (sendsLeft env coord) rest
                    (resortCell env coord c fuel (p + 1) st1).cells : List _) :
                    Multiset _) = TL) ∧
              (((resortCell env coord c fuel (p + 1) st1).sendBufR :
                  Multiset (ParticleData R))
                + ((pendingParticles
                    (fun x => !sendsLeft env coord x && sendsRight env coord x) rest
                    (resortCell env coord c fuel (p + 1) st1).cells : List _) :
                    Multiset _) = TR) ∧
              (((resortCell env coord c fuel (p + 1) st1).allParticles :
                  Multiset (ParticleData R)) = T) := by
            intro st1 h1 h2 h3
            apply ih
            · rw [h1]; exact hn
            · rw [h1]; omega
            · rw [h1, h2, hnext]; exact hL
            · rw [h1, h3, hnext]; exact hR
            · rw [← hT]
              simp only [ResortState.allParticles, h1, h2, h3]
          by_cases hco : coord = 2
          · rw [if_pos hco]
            cases hm : env.mapPositionToCellChecked part.r.p with
            | none =>
              simp only []
              apply hstay
              · split <;> rfl
              · split <;> rfl
              · split <;> rfl
            | some sortCell =>
              simp only []
              by_cases hsc : sortCell = c
              · rw [if_neg (by simpa using hsc)]
                exact hstay st rfl rfl rfl
              · rw [if_pos hsc]
                obtain ⟨r, hr, hmv⟩ :=
                  moveIndexedParticle_spec (st.cells.getD sortCell []) pre post part
                rw [hpre, ← hsplit] at hmv
                simp only [hmv]
                have hsl : sortCell < st.cells.length := by
                  rw [hn]; exact hmap _ _ hm
                have hsl' : sortCell < (st.cells.set c (pre ++ r)).length := by
                  simp only [List.length_set]; exact hsl
                have hgs : (st.cells.set c (pre ++ r)).getD sortCell []
                    = st.cells.getD sortCell [] := getD_set_other _ _ _ _ hsc
                have hcell : ((st.cells.set c (pre ++ r)).set sortCell
                    (st.cells.getD sortCell [] ++ [part])).getD c [] = pre ++ r := by
                  rw [getD_set_other _ _ _ _ (Ne.symm hsc), getD_set_self _ _ _ hcl]
                apply ih
                · simp only [List.length_set]; exact hn
                · rw [hcell]
                  simp only [List.length_append]
                  have := hr.length_eq
                  omega
                · rw [hcell, ← hgs, pending_set_append _ _ _ _ _ hleft',
                    pending_set_current _ _ _ _ _ hcr, ← hpre, List.drop_left, ← hL]
                  have hf : ((r.filter (sendsLeft env coord) : List _) :
                      Multiset (ParticleData R))
                      = (post.filter (sendsLeft env coord) : List _) :=
                    Multiset.coe_eq_coe.mpr (hr.filter _)
                  rw [hf]
                · rw [hcell, ← hgs, pending_set_append _ _ _ _ _ (by simp [hright']),
                    pending_set_current _ _ _ _ _ hcr, ← hpre, List.drop_left, ← hR]
                  have hf : ((r.filter
                      (fun x => !sendsLeft env coord x && sendsRight env coord x) : List _) :
                      Multiset (ParticleData R))
                      = (post.filter
                        (fun x => !sendsLeft env coord x && sendsRight env coord x) :
                        List _) :=
                    Multiset.coe_eq_coe.mpr (hr.filter _)
                  rw [hf]
                · rw [← hT]
                  have key := flatten_remove st.cells c pre post r part hcl hsplit hr
                  have key2 := flatten_append_one (st.cells.set c (pre ++ r)) sortCell part hsl'
                  rw [hgs] at key2
                  simp only [ResortState.allParticles, ← Multiset.coe_add,
                    ← Multiset.coe_singleton] at key key2 ⊢
                  rw [key2, key]
          · rw [if_neg hco]
            exact hstay st rfl rfl rfl


theorem resortFold_inv {R : Type} [Sub R] [Neg R] [LT R] [LE R]
    [DecidableRel (fun a b : R => a < b)] [DecidableRel (fun a b : R => a ≤ b)]
    (env : ResortEnv R) (coord : Fin 3) (n : Nat) (TL TR T : Multiset (ParticleData R))
    (hmap : ∀ pos s, env.mapPositionToCellChecked pos = some s → s < n)
    (todo : List Nat) :
    ∀ st : ResortState R, (∀ c ∈ todo, c < n) → todo.Nodup → st.cells.length = n →
      ((st.sendBufL : Multiset (ParticleData R))
        + ((pendingParticles (sendsLeft env coord) todo st.cells : List _) : Multiset _) = TL) →
      ((st.sendBufR : Multiset (ParticleData R))
        + ((pendingParticles (fun x => !sendsLeft env coord x && sendsRight env coord x)
            todo st.cells : List _) : Multiset _) = TR) →
      ((st.allParticles : Multiset (ParticleData R)) = T) →
      ((todo.foldl (fun st c => resortCell env coord c (st.cells.getD c []).length 0 st)
          st).sendBufL : Multiset (ParticleData R)) = TL ∧
      ((todo.foldl (fun st c => resortCell env coord c (st.cells.getD c []).length 0 st)
          st).sendBufR : Multiset (ParticleData R)) = TR ∧
      ((todo.foldl (fun st c => resortCell env coord c (st.cells.getD c []).length 0 st)
          st).allParticles : Multiset (ParticleData R)) = T := by
  induction todo with
  | nil =>
    intro st _ _ _ hL hR hT
    simp only [pendingParticles, List.flatMap_nil, Multiset.coe_nil, add_zero] at hL hR
    exact ⟨hL, hR, hT⟩
  | cons c rest ih =>
    intro st hlt hnd hn hL hR hT
    rw [List.foldl_cons]
    have hc : c < n := hlt c (List.mem_cons_self _ _)
    have hcr : c ∉ rest := (List.nodup_cons.mp hnd).1
    have hL' : (st.sendBufL : Multiset (ParticleData R))
        + ((((st.cells.getD c []).drop 0).filter (sendsLeft env coord) : List _) : Multiset _)
        + ((pendingParticles (sendsLeft env coord) rest st.cells : List _) : Multiset _)
        = TL := by
      rw [← hL]
      simp only [pendingParticles, List.flatMap_cons, List.drop_zero, ← Multiset.coe_add]
      abel
    have hR' : (st.sendBufR : Multiset (ParticleData R))
        + ((((st.cells.getD c []).drop 0).filter
            (fun x => !sendsLeft env coord x && sendsRight env coord x) : List _) : Multiset _)
        + ((pendingParticles (fun x => !sendsLeft env coord x && sendsRight env coord x)
            rest st.cells : List _) : Multiset _) = TR := by
      rw [← hR]
      simp only [pendingParticles, List.flatMap_cons, List.drop_zero, ← Multiset.coe_add]
      abel
    obtain ⟨h1, h2, h3, h4⟩ := resortCell_inv env coord c rest n TL TR T hmap hc hcr
      (st.cells.getD c []).length 0 st hn (by omega) hL' hR' hT
    exact ih _ (fun k hk => hlt k (List.mem_cons_of_mem _ hk)) (List.nodup_cons.mp hnd).2
      h1 h2 h3 h4

theorem slabEnv_cells_in_range (pos : Real3D Int) (s : Nat)
    (h : slabEnv.mapPositionToCellChecked pos = some s) : s < slabState.cells.length := by
  simp only [slabEnv] at h
  have hl : slabState.cells.length = 3 := rfl
  rw [hl]
  split_ifs at h <;> simp at h <;> omega

/-- The pass along the first axis and the pass along the last axis on the state of the
scenario: along the first axis the particle 1 goes to the left buffer and 2 to the right one,
3 and 4 stay in the cell 1; along the last axis no particle is sent and 3 is sorted into the
cell 2. -/
theorem resortAxisPass_slab :
    (resortAxisPass slabEnv 0 slabState).ids = ([[], [4, 3], []], [1], [2]) ∧
    (resortAxisPass slabEnv 2 slabState).ids = ([[], [1, 2, 4], [3]], [], []) := by
  constructor <;> rfl

/-- C23: in one pass of `resortRealParticles` over the real cells for an axis with more
than one node, when the real cells are distinct cells of the array and
`mapPositionToCellChecked` returns cells of the array: the left send buffer gains exactly the
particles of the real cells whose coordinate minus the left bound is below
`-ROUND_ERROR_PREC`; the right send buffer gains exactly those of the others whose coordinate
minus the right bound is at least `ROUND_ERROR_PREC`; all the other particles are in the
cells after the pass; and the multiset of the particle ids over the cells and the two send
buffers is the same after the pass as before it. -/
theorem C23_resort_pass_places_every_particle {R : Type} [Sub R] [Neg R] [LT R] [LE R]
    [DecidableRel (fun a b : R => a < b)] [DecidableRel (fun a b : R => a ≤ b)]
    (env : ResortEnv R) (coord : Fin 3) (st : ResortState R)
    (hreal : ∀ c ∈ env.realCells, c < st.cells.length) (hnodup : env.realCells.Nodup)
    (hmap : ∀ pos s, env.mapPositionToCellChecked pos = some s → s < st.cells.length) :
    (resortAxisPass env coord st).sendBufL.Perm
      (st.sendBufL ++ (realParticles env st).filter (sendsLeft env coord)) ∧
    (resortAxisPass env coord st).sendBufR.Perm
      (st.sendBufR ++ (realParticles env st).filter
        (fun x => !sendsLeft env coord x && sendsRight env coord x)) ∧
    ((resortAxisPass env coord st).cells.flatten
        ++ (realParticles env st).filter (sendsLeft env coord)
        ++ (realParticles env st).filter
          (fun x => !sendsLeft env coord x && sendsRight env coord x)).Perm
      st.cells.flatten ∧
    ((resortAxisPass env coord st).allParticles.map (fun x => x.p.id)).Perm
      (st.allParticles.map (fun x => x.p.id)) := by
  obtain ⟨hL, hR, hT⟩ := resortFold_inv env coord st.cells.length _ _ _ hmap env.realCells st
    hreal hnodup rfl rfl rfl rfl
  have eL : pendingParticles (sendsLeft env coord) env.realCells st.cells
      = (realParticles env st).filter (sendsLeft env coord) :=
    (filter_flatMap_eq _ _ _).symm
  have eR : pendingParticles (fun x => !sendsLeft env coord x && sendsRight env coord x)
      env.realCells st.cells
      = (realParticles env st).filter
        (fun x => !sendsLeft env coord x && sendsRight env coord x) :=
    (filter_flatMap_eq _ _ _).symm
  rw [eL] at hL
  rw [eR] at hR
  have hL' := hL
  have hR' := hR
  have hT' := hT
  rw [Multiset.coe_add, Multiset.coe_eq_coe] at hL' hR'
  rw [Multiset.coe_eq_coe] at hT'
  refine ⟨hL', hR', ?_, hT'.map _⟩
  rw [← Multiset.coe_eq_coe]
  unfold resortAxisPass at *
  simp only [ResortState.allParticles, ← Multiset.coe_add] at hT ⊢
  rw [hL, hR] at hT
  have h2 : (Multiset.ofList ((List.foldl
      (fun st c => resortCell env coord c (st.cells.getD c []).length 0 st) st
      env.realCells).cells.flatten)
      + Multiset.ofList ((realParticles env st).filter (sendsLeft env coord))
      + Multiset.ofList ((realParticles env st).filter
        (fun x => !sendsLeft env coord x && sendsRight env coord x)))
      + (Multiset.ofList st.sendBufL + Multiset.ofList st.sendBufR)
      = Multiset.ofList st.cells.flatten
        + (Multiset.ofList st.sendBufL + Multiset.ofList st.sendBufR) := by
    refine Eq.trans ?_ (hT.trans (add_assoc _ _ _))
    abel
  exact add_right_cancel h2

/-- The pass along the first axis on the state of the scenario. -/
theorem C23_resort_pass_places_every_particle_witness :
    (resortAxisPass slabEnv 0 slabState).sendBufL.Perm
      (slabState.sendBufL ++ (realParticles slabEnv slabState).filter (sendsLeft slabEnv 0)) ∧
    (resortAxisPass slabEnv 0 slabState).sendBufR.Perm
      (slabState.sendBufR ++ (realParticles slabEnv slabState).filter
        (fun x => !sendsLeft slabEnv 0 x && sendsRight slabEnv 0 x)) ∧
    ((resortAxisPass slabEnv 0 slabState).cells.flatten
        ++ (realParticles slabEnv slabState).filter (sendsLeft slabEnv 0)
        ++ (realParticles slabEnv slabState).filter
          (fun x => !sendsLeft slabEnv 0 x && sendsRight slabEnv 0 x)).Perm
      slabState.cells.flatten ∧
    ((resortAxisPass slabEnv 0 slabState).allParticles.map (fun x => x.p.id)).Perm
      (slabState.allParticles.map (fun x => x.p.id)) :=
  C23_resort_pass_places_every_particle slabEnv 0 slabState (by decide) (by decide)
    slabEnv_cells_in_range

/-! ### hasNeighbourParticleProperty : the loop ends -/

theorem nbPropVisit_measure (depth d : Int) (cand : Finset Int)
    (acc : NbPropState) (node : Int) (hn : node ∈ cand) :
    acc.Q.length ≤ (nbPropVisit depth d acc node).Q.length ∧
    (nbPropVisit depth d acc node).Q.length
        + (cand \ (nbPropVisit depth d acc node).visitedDistance.keys.toFinset).card
      ≤ acc.Q.length + (cand \ acc.visitedDistance.keys.toFinset).card := by
  unfold nbPropVisit
  split
  · rename_i hc
    rw [AMap.count_eq_zero] at hc
    simp only []
    have hk : (AMap.insert acc.visitedDistance node d).keys.toFinset
        = insert node acc.visitedDistance.keys.toFinset := by
      rw [AMap.keys_insert, hc]
      ext v
      simp only [Option.isSome_none, Bool.false_eq_true, if_false, List.toFinset_append,
        List.toFinset_cons, List.toFinset_nil, Finset.mem_union, List.mem_toFinset,
        Finset.mem_insert, Finset.mem_singleton, insert_emptyc_eq]
      tauto
    have hnot : node ∉ acc.visitedDistance.keys.toFinset := by
      rw [List.mem_toFinset, AMap.mem_keys, hc]
      simp
    have hmem : node ∈ cand \ acc.visitedDistance.keys.toFinset :=
      Finset.mem_sdiff.mpr ⟨hn, hnot⟩
    have hpos : 0 < (cand \ acc.visitedDistance.keys.toFinset).card :=
      Finset.card_pos.mpr ⟨node, hmem⟩
    rw [hk, Finset.sdiff_insert, Finset.card_erase_of_mem hmem]
    split
    · simp only [List.length_append, List.length_singleton]
      omega
    · omega
  · exact ⟨le_refl _, le_refl _⟩

theorem nbPropFold_measure (depth d : Int) (cand : Finset Int)
    (as : List Int) (acc : NbPropState) (has : ∀ a ∈ as, a ∈ cand) :
    acc.Q.length ≤ (as.foldl (nbPropVisit depth d) acc).Q.length ∧
    (as.foldl (nbPropVisit depth d) acc).Q.length
        + (cand \ (as.foldl (nbPropVisit depth d) acc).visitedDistance.keys.toFinset).card
      ≤ acc.Q.length + (cand \ acc.visitedDistance.keys.toFinset).card := by
  induction as generalizing acc with
  | nil => exact ⟨le_refl _, le_refl _⟩
  | cons a as ih =>
    rw [List.foldl_cons]
    obtain ⟨h1, h2⟩ := nbPropVisit_measure depth d cand acc a (has a (List.mem_cons_self _ _))
    obtain ⟨h3, h4⟩ := ih (nbPropVisit depth d acc a)
      (fun x hx => has x (List.mem_cons_of_mem _ hx))
    exact ⟨le_trans h1 h3, le_trans h4 h2⟩

theorem AMap.keys_index_subset (m : AMap Int) (k : Int) :
    m.keys.toFinset ⊆ (m.index k).2.keys.toFinset := by
  unfold AMap.index
  cases m.get k with
  | some v => exact Finset.Subset.refl _
  | none =>
    intro x hx
    simp only [AMap.keys, List.map_append, List.toFinset_append, Finset.mem_union]
    exact Or.inl hx

theorem nbPropRound_measure (g : GraphMap) (depth : Int) (acc : NbPropState)
    (c : Int) (rest : List Int) (hQ : acc.Q = c :: rest) :
    (nbPropRound g depth acc).Q.length
        + ((g.flatMap (fun e => e.2)).toFinset
            \ (nbPropRound g depth acc).visitedDistance.keys.toFinset).card + 1
      ≤ acc.Q.length
        + ((g.flatMap (fun e => e.2)).toFinset \ acc.visitedDistance.keys.toFinset).card := by
  have hsub := AMap.keys_index_subset acc.visitedDistance c
  have hcard : ((g.flatMap (fun e => e.2)).toFinset
      \ (acc.visitedDistance.index c).2.keys.toFinset).card
      ≤ ((g.flatMap (fun e => e.2)).toFinset \ acc.visitedDistance.keys.toFinset).card :=
    Finset.card_le_card (Finset.sdiff_subset_sdiff (Finset.Subset.refl _) hsub)
  unfold nbPropRound
  rw [hQ]
  simp only []
  split
  · obtain ⟨h1, h2⟩ := nbPropFold_measure depth ((acc.visitedDistance.index c).1 + 1)
      (g.flatMap (fun e => e.2)).toFinset (g.adj c)
      { acc with visitedDistance := (acc.visitedDistance.index c).2,
                 new_distance := (acc.visitedDistance.index c).1 + 1 }
      (fun a ha => List.mem_toFinset.mpr (mem_adj_mem_flatMap g c a ha))
    simp only [hQ, List.length_cons, List.length_tail] at h1 h2 ⊢
    omega
  · simp only [hQ, List.tail_cons, List.length_cons]
    omega

theorem nbPropLoop_ends (g : GraphMap) (depth : Int) (fuel : Nat) (acc : NbPropState)
    (h : acc.Q.length
        + ((g.flatMap (fun e => e.2)).toFinset \ acc.visitedDistance.keys.toFinset).card
      ≤ fuel) :
    (nbPropLoop g depth fuel acc).Q = [] ∨ ¬ (nbPropLoop g depth fuel acc).new_distance < depth := by
  induction fuel generalizing acc with
  | zero =>
    unfold nbPropLoop
    have : acc.Q.length = 0 := by omega
    exact Or.inl (List.length_eq_zero.mp this)
  | succ n ih =>
    unfold nbPropLoop
    cases hQ : acc.Q with
    | nil => simp only []; exact Or.inl hQ
    | cons c rest =>
      simp only []
      split
      · apply ih
        have := nbPropRound_measure g depth acc c rest hQ
        omega
      · rename_i hd
        exact Or.inr hd

/-- The fuel given to the loop of `hasNeighbourParticleProperty` is enough: the loop ends
because the queue is empty or because `new_distance` has reached `depth`. -/
theorem hasNeighbourParticleProperty_loop_ends (g : GraphMap) (root depth : Int) :
    (hasNeighbourParticlePropertyState g root depth).Q = [] ∨
    ¬ (hasNeighbourParticlePropertyState g root depth).new_distance < depth := by
  unfold hasNeighbourParticlePropertyState
  apply nbPropLoop_ends
  simp only [List.length_singleton]
  have h1 : ((g.flatMap (fun e => e.2)).toFinset
      \ (AMap.keys [(root, (0 : Int))]).toFinset).card
      ≤ (g.flatMap (fun e => e.2)).toFinset.card := Finset.card_le_card Finset.sdiff_subset
  have h2 : (g.flatMap (fun e => e.2)).toFinset.card ≤ (g.flatMap (fun e => e.2)).length :=
    List.toFinset_card_le _
  rw [length_flatMap_snd] at h2
  unfold bfsFuel
  omega

end Espressopp
